import Mathlib

/-!
# V-A-C voice calculator: normalizer and evaluator core

A shallow embedding of the text-normalisation and expression-evaluation core of
`frontend/script.js` (class `VoiceCalculator`): `parseVoiceToMath`, `calculate`,
`balanceParentheses`, `evaluateExpression`, `formatResult` and `addToHistory`, together
with `toggleSign`, `isCompleteExpression`, `processVoiceInput` and the handlers
`recognition.onend` and `recognition.onerror`.

JavaScript strings are lists of characters.  The regular expressions of the source are
terms of the type `Re`, run by a backtracking matcher that follows the matching order of
the host's regular-expression engine (ordered alternation, greedy repetition, leftmost
match); `test` and the global `replace` are built on it.  Host primitives that are not
code of the repository (`toLowerCase`, the dynamic evaluator `Function`, number
formatting) are parameters of the model.
-/

namespace VAC

/-! ## Regular expressions -/

/-- Members of a bracket class `[...]`. -/
inductive ClsItem where
  | one (c : Char)
  | range (lo hi : Char)
  | digits
  deriving DecidableEq, Repr

/-- Regular expressions, as far as the source uses them. `group i` is the `i`-th capturing
group; non-capturing groups are plain nesting. -/
inductive Re where
  | eps
  | chr (c : Char)
  | cls (neg : Bool) (items : List ClsItem)
  | digit
  | space
  | bol
  | eol
  | wordB
  | seq (a b : Re)
  | alt (a b : Re)
  | star (a : Re)
  | opt (a : Re)
  | group (i : Nat) (a : Re)
  deriving DecidableEq, Repr

/-- The class `\d`. -/
def isDigit (c : Char) : Bool := decide ('0' ≤ c) && decide (c ≤ '9')

/-- The class `\w`, which decides where `\b` holds. -/
def isWordChar (c : Char) : Bool :=
  (decide ('a' ≤ c) && decide (c ≤ 'z')) || (decide ('A' ≤ c) && decide (c ≤ 'Z'))
    || isDigit c || c == '_'

/-- The class `\s`: the host's white space and line terminators, which is also what
`trim` removes. -/
def isSpace (c : Char) : Bool :=
  c.toNat == 9 || c.toNat == 10 || c.toNat == 11 || c.toNat == 12 || c.toNat == 13
    || c.toNat == 32 || c.toNat == 160 || c.toNat == 5760
    || (decide (8192 ≤ c.toNat) && decide (c.toNat ≤ 8202))
    || c.toNat == 8232 || c.toNat == 8233 || c.toNat == 8239 || c.toNat == 8287
    || c.toNat == 12288 || c.toNat == 65279

/-- Membership of a character in one item of a bracket class. -/
def ClsItem.has : ClsItem → Char → Bool
  | .one c, d => d == c
  | .range lo hi, d => decide (lo ≤ d) && decide (d ≤ hi)
  | .digits, d => isDigit d

/-- Membership of a character in a bracket class (`neg` for `[^...]`). -/
def clsHas (neg : Bool) (items : List ClsItem) (d : Char) : Bool :=
  (items.any fun i => i.has d) != neg

/-- A matcher state: the characters before the current position (nearest first), the
characters from the current position on, and the captures made so far (latest first). -/
structure St where
  left : List Char
  right : List Char
  caps : List (Nat × List Char)

/-- Consume the character `c`, leaving `r`. -/
def St.step (s : St) (c : Char) (r : List Char) : St :=
  { s with left := c :: s.left, right := r }

/-- Whether a string starts with a word character. -/
def headIsWord : List Char → Bool
  | [] => false
  | c :: _ => isWordChar c

/-- Whether `\b` holds at the current position: exactly one of the characters before and
after it is a word character. -/
def atWordB (left right : List Char) : Bool := headIsWord left != headIsWord right

/-- Consume one character that satisfies `p`. -/
def readIf (p : Char → Bool) (k : St → Option St) (s : St) : Option St :=
  match s.right with
  | d :: r => if p d then k (s.step d r) else none
  | [] => none

/-- The first of two attempts that succeeds. -/
@[macro_inline]
def orElse (x y : Option St) : Option St :=
  match x with
  | some r => some r
  | none => y

/-- Greedy repetition of `body`: another iteration is tried first, and an iteration that
consumes nothing is rejected, as the host does. The first argument bounds the number of
iterations; the length of the remaining input is always enough. -/
def starLoop (body : (St → Option St) → St → Option St) :
    Nat → (St → Option St) → St → Option St
  | 0, k, s => k s
  | n + 1, k, s =>
    orElse (body (fun t => if t.right.length < s.right.length then starLoop body n k t
      else none) s) (k s)

/-- The backtracking matcher, in continuation-passing style: `r.m k s` matches `r` at the
state `s` and hands every end state to `k`, in the host's order of preference, until `k`
accepts one. -/
def Re.m : Re → (St → Option St) → St → Option St
  | .eps => fun k s => k s
  | .chr c => readIf (fun d => d == c)
  | .cls neg items => readIf (clsHas neg items)
  | .digit => readIf isDigit
  | .space => readIf isSpace
  | .bol => fun k s => match s.left with
      | [] => k s
      | _ :: _ => none
  | .eol => fun k s => match s.right with
      | [] => k s
      | _ :: _ => none
  | .wordB => fun k s => if atWordB s.left s.right then k s else none
  | .seq a b => fun k s => a.m (b.m k) s
  | .alt a b => fun k s => orElse (a.m k s) (b.m k s)
  | .star a => fun k s => starLoop a.m s.right.length k s
  | .opt a => fun k s =>
      orElse (a.m (fun t => if t.right.length < s.right.length then k t else none) s) (k s)
  | .group i a => fun k s =>
      a.m (fun t => k { t with
        caps := (i, s.right.take (s.right.length - t.right.length)) :: t.caps }) s

/-- The literal string `cs`. -/
def Re.str : List Char → Re
  | [] => .eps
  | [c] => .chr c
  | c :: d :: cs => .seq (.chr c) (Re.str (d :: cs))

/-- The literal string `s`. -/
def Re.lit (s : String) : Re := Re.str s.toList

/-- One or more: `a+`. -/
def Re.plus (a : Re) : Re := .seq a (.star a)

/-- Alternation `a₁|a₂|...`. -/
def Re.alts : List Re → Re
  | [] => .eps
  | [a] => a
  | a :: b :: as => .alt a (Re.alts (b :: as))

/-- Concatenation. -/
def Re.seqs : List Re → Re
  | [] => .eps
  | [a] => a
  | a :: b :: as => .seq a (Re.seqs (b :: as))

/-- The number of capturing groups of a regular expression. -/
def Re.groups : Re → Nat
  | .seq a b => a.groups + b.groups
  | .alt a b => a.groups + b.groups
  | .star a => a.groups
  | .opt a => a.groups
  | .group _ a => a.groups + 1
  | _ => 0

/-- A match attempt at one position: the end state of the preferred match. -/
def matchAt (r : Re) (left right : List Char) : Option St :=
  r.m some ⟨left, right, []⟩

/-- The text of capture `i`; a group that did not take part gives the empty string. -/
def capOf (caps : List (Nat × List Char)) (i : Nat) : List Char :=
  match caps.find? (fun p => p.1 == i) with
  | some p => p.2
  | none => []

/-- The leftmost match at or after the current position. -/
def search (r : Re) : List Char → List Char → Option St
  | left, [] => matchAt r left []
  | left, c :: rest => orElse (matchAt r left (c :: rest)) (search r (c :: left) rest)

/-- The method `RegExp.prototype.test` of a regular expression used once. -/
def test (r : Re) (s : List Char) : Bool := (search r [] s).isSome

/-- The value of a decimal digit. -/
def digitVal (c : Char) : Nat := c.toNat - 48

/-- What the scan of a replacement template has read and not yet resolved: nothing, a
`$`, or a `$` and one digit. -/
inductive Pending where
  | none
  | dollar
  | dollarDigit (d : Char)

/-- What `$d` stands for with `m` groups: capture `d`, or the two characters themselves
when there is no such group. -/
def oneDigitRef (m : Nat) (caps : List (Nat × List Char)) (d : Char) : List Char :=
  if 1 ≤ digitVal d ∧ digitVal d ≤ m then capOf caps (digitVal d) else ['$', d]

/-- Expansion of a replacement template for a regular expression with `m` groups:
`$$`, `$&`, `$n` and `$nn`. A two-digit reference beyond `m` is read as a one-digit
reference followed by a digit; a reference to no group stays as text. -/
def expandTemplate (m : Nat) (matched : List Char) (caps : List (Nat × List Char)) :
    Pending → List Char → List Char
  | .none, [] => []
  | .none, c :: rest =>
    if c = '$' then expandTemplate m matched caps .dollar rest
    else c :: expandTemplate m matched caps .none rest
  | .dollar, [] => ['$']
  | .dollar, d :: rest =>
    if d = '$' then '$' :: expandTemplate m matched caps .none rest
    else if d = '&' then matched ++ expandTemplate m matched caps .none rest
    else if isDigit d then expandTemplate m matched caps (.dollarDigit d) rest
    else '$' :: d :: expandTemplate m matched caps .none rest
  | .dollarDigit d, [] => oneDigitRef m caps d
  | .dollarDigit d, e :: rest =>
    if isDigit e then
      if 1 ≤ 10 * digitVal d + digitVal e ∧ 10 * digitVal d + digitVal e ≤ m then
        capOf caps (10 * digitVal d + digitVal e) ++ expandTemplate m matched caps .none rest
      else oneDigitRef m caps d ++ e :: expandTemplate m matched caps .none rest
    else if e = '$' then oneDigitRef m caps d ++ expandTemplate m matched caps .dollar rest
    else oneDigitRef m caps d ++ e :: expandTemplate m matched caps .none rest

/-- A piece of a string scanned with a global regular expression: a character outside
every match, or a match with its captures. -/
inductive Piece where
  | keep (c : Char)
  | hit (matched : List Char) (caps : List (Nat × List Char))
  deriving DecidableEq, Repr

/-- The scan of a global regular expression: at each position the preferred match is
recorded and the scan goes on behind it (one character further after an empty match);
where nothing matches the character is kept. The first argument bounds the number of
steps. -/
def scan (r : Re) : Nat → List Char → List Char → List Piece
  | 0, _, right => right.map Piece.keep
  | n + 1, left, right =>
    match matchAt r left right with
    | some t =>
      if t.right.length < right.length then
        .hit (right.take (right.length - t.right.length)) t.caps :: scan r n t.left t.right
      else
        match right with
        | [] => [.hit [] t.caps]
        | c :: rest => .hit [] t.caps :: .keep c :: scan r n (c :: left) rest
    | none =>
      match right with
      | [] => []
      | c :: rest => .keep c :: scan r n (c :: left) rest

/-- All matches of a global regular expression in `s`, with the text between them. -/
def pieces (r : Re) (s : List Char) : List Piece := scan r (s.length + 1) [] s

/-- The text of scanned pieces, every match replaced by `repl matched captures`. -/
def render (repl : List Char → List (Nat × List Char) → List Char) :
    List Piece → List Char
  | [] => []
  | .keep c :: ps => c :: render repl ps
  | .hit matched caps :: ps => repl matched caps ++ render repl ps

/-- The number of matches among scanned pieces. -/
def hits : List Piece → Nat
  | [] => 0
  | .keep _ :: ps => hits ps
  | .hit _ _ :: ps => hits ps + 1

/-- The method `String.prototype.replace` with a global regular expression and a
replacement function. -/
def replaceWith (r : Re) (repl : List Char → List (Nat × List Char) → List Char)
    (s : List Char) : List Char :=
  render repl (pieces r s)

/-- The method `String.prototype.replace` with a global regular expression and a
replacement template. -/
def replaceAll (r : Re) (template : String) (s : List Char) : List Char :=
  replaceWith r (fun matched caps => expandTemplate r.groups matched caps .none template.toList) s

/-- The length of `(s.match(r) || [])` for a global `r`. -/
def matchCount (r : Re) (s : List Char) : Nat := hits (pieces r s)

/-- The method `String.prototype.trim`. -/
def trim (s : List Char) : List Char :=
  ((s.dropWhile isSpace).reverse.dropWhile isSpace).reverse

/-- The method `toLowerCase` on strings of ASCII characters (other characters are kept). -/
def asciiToLowerCase (s : List Char) : List Char := s.map Char.toLower

/-! ## `parseVoiceToMath` -/

/-- One substitution pass: `processed.replace(re, template)` with a global `re`. -/
structure Pass where
  re : Re
  template : String

/-- Run substitution passes one after the other. -/
def runPasses (ps : List Pass) (s : List Char) : List Char :=
  ps.foldl (fun p q => replaceAll q.re q.template p) s

/-- The synonyms of `/(^|\s)(clear|clear all|reset|erase)(|\sdisplay|\sscreen)?($|\s)/`. -/
def clearSynonyms : List String := ["clear", "clear all", "reset", "erase"]

/-- The source's `/(^|\s)(clear|clear all|reset|erase)(|\sdisplay|\sscreen)?($|\s)/`. -/
def cmdClearRe : Re :=
  Re.seqs [.group 1 (.alt .bol .space),
    .group 2 (Re.alts (clearSynonyms.map Re.lit)),
    .opt (.group 3 (Re.alts [.eps, .seq .space (Re.lit "display"),
      .seq .space (Re.lit "screen")])),
    .group 4 (.alt .eol .space)]

/-- The shape `/(^|\s)(w₁|w₂|...)(\s|\b|$)/` of the other three command patterns. -/
def cmdRe (synonyms : List String) : Re :=
  Re.seqs [.group 1 (.alt .bol .space), .group 2 (Re.alts (synonyms.map Re.lit)),
    .group 3 (Re.alts [.space, .wordB, .eol])]

/-- The synonyms of `/(^|\s)(equals|equal|is|what is|calculate|solve|answer)(\s|\b|$)/`. -/
def calculateSynonyms : List String :=
  ["equals", "equal", "is", "what is", "calculate", "solve", "answer"]

/-- The synonyms of
`/(^|\s)(repeat|say again|last result|what was the last result)(\s|\b|$)/`. -/
def repeatSynonyms : List String :=
  ["repeat", "say again", "last result", "what was the last result"]

/-- The synonyms of
`/(^|\s)(history|show history|open history|past calculations)(\s|\b|$)/`. -/
def historySynonyms : List String :=
  ["history", "show history", "open history", "past calculations"]

/-- The table `numberWords` of the source, in its order of insertion. -/
def numberWords : List (String × String) :=
  [("zero", "0"), ("one", "1"), ("two", "2"), ("three", "3"), ("four", "4"),
   ("five", "5"), ("six", "6"), ("seven", "7"), ("eight", "8"), ("nine", "9"),
   ("ten", "10"), ("eleven", "11"), ("twelve", "12"), ("thirteen", "13"),
   ("fourteen", "14"), ("fifteen", "15"), ("sixteen", "16"), ("seventeen", "17"),
   ("eighteen", "18"), ("nineteen", "19"), ("twenty", "20"),
   ("thirty", "30"), ("forty", "40"), ("fifty", "50"), ("sixty", "60"),
   ("seventy", "70"), ("eighty", "80"), ("ninety", "90")]

/-- The pattern `\bw\b`. -/
def wordRe (w : String) : Re := Re.seqs [.wordB, Re.lit w, .wordB]

/-- The pattern `\d+`. -/
def digitsRe : Re := Re.plus .digit

/-- The pattern `\s*`. -/
def spacesRe : Re := .star .space

/-- The pattern `(\d+(\.\d+)?)`, its groups numbered `i` and `j`. -/
def numRe (i j : Nat) : Re :=
  .group i (.seq digitsRe (.opt (.group j (.seq (.chr '.') digitsRe))))

/-- The pattern `(\d+)\s*unit`. -/
def unitRe (unit : String) : Re := Re.seqs [.group 1 digitsRe, spacesRe, Re.lit unit]

/-- Step 1: large number units. The replacement functions of the source return the first
group followed by `*` and the scale, which is what these templates say. -/
def unitPasses : List Pass :=
  [⟨unitRe "trillion", "$1*1000000000000"⟩,
   ⟨unitRe "billion", "$1*1000000000"⟩,
   ⟨unitRe "million", "$1*1000000"⟩,
   ⟨unitRe "lakh", "$1*100000"⟩,
   ⟨unitRe "crore", "$1*10000000"⟩,
   ⟨Re.seqs [.group 1 digitsRe, Re.lit " hundred"], "$100"⟩]

/-- Step 2: one pass `\bword\b` per entry of `numberWords`. -/
def numberWordPasses : List Pass :=
  numberWords.map fun wd => ⟨wordRe wd.1, wd.2⟩

/-- Step 3: operator words, and `x` between two numbers. -/
def operatorPasses : List Pass :=
  [⟨.alt (wordRe "plus") (wordRe "add"), "+"⟩,
   ⟨.alt (wordRe "minus") (wordRe "subtract"), "-"⟩,
   ⟨Re.alts [wordRe "times", wordRe "multiply", wordRe "multiplied by"], "*"⟩,
   ⟨.alt (wordRe "divide") (wordRe "divided by"), "/"⟩,
   ⟨.alt (wordRe "point") (wordRe "dot"), "."⟩,
   ⟨.alt (wordRe "open parenthesis") (wordRe "open bracket"), "("⟩,
   ⟨.alt (wordRe "close parenthesis") (wordRe "close bracket"), ")"⟩,
   ⟨Re.seqs [.group 1 digitsRe, spacesRe, .chr 'x', spacesRe, .group 2 digitsRe], "$1*$2"⟩]

/-- The pattern `\b(name)\s*(?:of\s*)?(\d+(\.\d+)?)\b` of a function phrase. -/
def functionRe (name : Re) : Re :=
  Re.seqs [.wordB, .group 1 name, spacesRe, .opt (.seq (Re.lit "of") spacesRe), numRe 2 3,
    .wordB]

/-- The pattern `\bsquare\s*root\s*(?:of\s*)?(\d+(\.\d+)?)\b`. -/
def squareRootRe : Re :=
  Re.seqs [.wordB, Re.lit "square", spacesRe, Re.lit "root", spacesRe,
    .opt (.seq (Re.lit "of") spacesRe), numRe 1 2, .wordB]

/-- The pattern `(\d+(\.\d+)?)\s*squared\b`. -/
def squaredRe : Re := Re.seqs [numRe 1 2, spacesRe, Re.lit "squared", .wordB]

/-- The pattern `(\d+(\.\d+)?)\s*(?:to\s*the\s*)?power\s*(?:of\s*)?(\d+(\.\d+)?)\b`. -/
def powerRe : Re :=
  Re.seqs [numRe 1 2, spacesRe,
    .opt (Re.seqs [Re.lit "to", spacesRe, Re.lit "the", spacesRe]),
    Re.lit "power", spacesRe, .opt (.seq (Re.lit "of") spacesRe), numRe 3 4, .wordB]

/-- The pattern `\brandom\b|\brandom\s*number\b|\broll\s*dice\b`. -/
def randomRe : Re :=
  Re.alts [wordRe "random",
    Re.seqs [.wordB, Re.lit "random", spacesRe, Re.lit "number", .wordB],
    Re.seqs [.wordB, Re.lit "roll", spacesRe, Re.lit "dice", .wordB]]

/-- Step 4: functions and constants. -/
def functionPasses : List Pass :=
  [⟨functionRe (.alt (Re.lit "sin") (Re.lit "sine")), "sin($2)"⟩,
   ⟨functionRe (.alt (Re.lit "cos") (Re.lit "cosine")), "cos($2)"⟩,
   ⟨functionRe (.alt (Re.lit "tan") (Re.lit "tangent")), "tan($2)"⟩,
   ⟨functionRe (Re.lit "log"), "log($2)"⟩,
   ⟨functionRe (.alt (Re.seqs [Re.lit "natural", spacesRe, Re.lit "log"]) (Re.lit "ln")),
     "ln($2)"⟩,
   ⟨functionRe (.alt (Re.lit "log two") (Re.lit "log2")), "log2($2)"⟩,
   ⟨functionRe (.alt (Re.lit "exp") (Re.lit "exponential")), "exp($2)"⟩,
   ⟨squareRootRe, "sqrt($1)"⟩,
   ⟨squaredRe, "$1^2"⟩,
   ⟨powerRe, "$1^$3"⟩,
   ⟨wordRe "pi", "PI"⟩,
   ⟨wordRe "e", "E"⟩,
   ⟨randomRe, "rand"⟩]

/-- Step 5: the filler words
`\b(the|a|an|result|value|do|can|you|me|please|give|show|tell)\b`. -/
def fillerRe : Re :=
  Re.seqs [.wordB, .group 1 (Re.alts (["the", "a", "an", "result", "value", "do", "can",
    "you", "me", "please", "give", "show", "tell"].map Re.lit)), .wordB]

/-- Steps 5 and 6: filler words are removed, then every run of white space. -/
def cleanupPasses : List Pass :=
  [⟨fillerRe, ""⟩, ⟨Re.plus .space, ""⟩]

/-- The characters of the class `[0-9+\-*/.()sqrtasincoletanlogPIE^rand]`. -/
def validItems : List ClsItem :=
  .range '0' '9' :: "+-*/.()sqrtasincoletanlogPIE^rand".toList.map ClsItem.one

/-- The final validation `/^[0-9+\-*/.()sqrtasincoletanlogPIE^rand]+$/`. -/
def validRe : Re := Re.seqs [.bol, Re.plus (.cls false validItems), .eol]

/-- All substitution passes of `parseVoiceToMath`, in the order of the source. -/
def allPasses : List Pass :=
  unitPasses ++ numberWordPasses ++ operatorPasses ++ functionPasses ++ cleanupPasses

/-- The end of `parseVoiceToMath`: validation, and the trailing `=` dropped. -/
def validate (processed : List Char) : Option (List Char) :=
  if test validRe processed then
    if processed.getLast? = some '=' then some processed.dropLast else some processed
  else none

/-- The method `parseVoiceToMath`. The result is a command tag, an expression, or `none`
for the source's `null`; `toLowerCase` is the host's method of that name. -/
def parseVoiceToMath (toLowerCase : List Char → List Char) (text : List Char) :
    Option (List Char) :=
  let processed := trim (toLowerCase text)
  if test cmdClearRe processed then some "CMD_CLEAR".toList
  else if test (cmdRe calculateSynonyms) processed then some "CMD_CALCULATE".toList
  else if test (cmdRe repeatSynonyms) processed then some "CMD_REPEAT".toList
  else if test (cmdRe historySynonyms) processed then some "CMD_HISTORY".toList
  else validate (runPasses allPasses processed)

/-- The four command tags. -/
def commandTags : List (List Char) :=
  ["CMD_CLEAR".toList, "CMD_CALCULATE".toList, "CMD_REPEAT".toList, "CMD_HISTORY".toList]

/-- `parseVoiceToMath` on a string literal, with the ASCII `toLowerCase`. -/
def parseVoice (text : String) : Option String :=
  (parseVoiceToMath asciiToLowerCase text.toList).map String.mk

/-! ## `calculate` and its helpers -/

/-- The setting `angleUnit`. -/
inductive AngleUnit where
  | degrees
  | radians
  deriving DecidableEq, Repr

/-- The settings that `calculate` reads. -/
structure Settings where
  decimalPlaces : Nat
  angleUnit : AngleUnit

/-- The host's primitives on values of type `V`, none of them code of the repository.
`run body` is `Function('Math', 'return ' + body)(Math)` and `runStrict body` is
`Function('Math', '"use strict"; return ' + body)(Math)`; both are `none` when that throws.
`isFiniteNumber v` is the test `typeof v === 'number' && isFinite(v)`, and `isFinite v` is
the test `v !== null && isFinite(v)`, which is `none` when it throws (as `isFinite` does
on a value that has no conversion to a number). `toFixed` is `none` when the value has no
such method. -/
structure Host (V : Type) where
  run : List Char → Option V
  runStrict : List Char → Option V
  isFiniteNumber : V → Bool
  isFinite : V → Option Bool
  isInteger : V → Bool
  toStr : V → List Char
  toFixed : V → Nat → Option (List Char)
  parseFloat : List Char → V

/-- An entry of the history. -/
structure HistoryItem where
  expression : List Char
  result : List Char
  timestamp : List Char
  deriving DecidableEq, Repr

/-- The state that `calculate` reads and writes. -/
structure Calc where
  currentExpression : List Char
  currentResult : List Char
  history : List HistoryItem
  deriving DecidableEq, Repr

/-- What `calculate` reports. -/
inductive Outcome where
  | noExpression
  | result (text : List Char)
  | invalidCalculation
  | invalidExpression
  deriving DecidableEq, Repr

/-- The method `balanceParentheses`. -/
def balanceParentheses (expression : List Char) : List Char :=
  let openCount := matchCount (.chr '(') expression
  let closeCount := matchCount (.chr ')') expression
  if openCount > closeCount then expression ++ List.replicate (openCount - closeCount) ')'
  else expression

/-- The first lines of `calculate`: operator glyphs, constants and the power sign. -/
def glyphPasses : List Pass :=
  [⟨.chr 'x', "*"⟩, ⟨.chr '×', "*"⟩, ⟨.chr '÷', "/"⟩, ⟨.chr '−', "-"⟩,
   ⟨Re.lit "PI", "Math.PI"⟩, ⟨.chr 'E', "Math.E"⟩, ⟨.chr '^', "**"⟩]

/-- The pattern `/(sin|cos|tan)\(([^)]*)\)/g`. -/
def trigRe : Re :=
  Re.seqs [.group 1 (Re.alts [Re.lit "sin", Re.lit "cos", Re.lit "tan"]), .chr '(',
    .group 2 (.star (.cls true [.one ')'])), .chr ')']

/-- The replacement function of the degrees branch: the argument is evaluated on its own,
in strict mode, and, when it is a finite number, the call is rewritten with the factor
`π/180`; otherwise, and when the evaluation throws, the call is kept as it is. -/
def trigDegrees {V : Type} (host : Host V) (matched : List Char)
    (caps : List (Nat × List Char)) : List Char :=
  match host.runStrict ('(' :: capOf caps 2 ++ [')']) with
  | some v =>
    if host.isFiniteNumber v then
      "Math.".toList ++ capOf caps 1 ++ '(' :: host.toStr v ++ " * Math.PI / 180)".toList
    else matched
  | none => matched

/-- The pattern `/(sin|cos|tan)\(/g` of the radians branch. -/
def trigOpenRe : Re :=
  Re.seqs [.group 1 (Re.alts [Re.lit "sin", Re.lit "cos", Re.lit "tan"]), .chr '(']

/-- The remaining function names of `calculate`. -/
def namePasses : List Pass :=
  [⟨Re.lit "sqrt(", "Math.sqrt("⟩, ⟨Re.lit "log(", "Math.log10("⟩,
   ⟨Re.lit "ln(", "Math.log("⟩, ⟨Re.lit "log2(", "Math.log2("⟩,
   ⟨Re.lit "exp(", "Math.exp("⟩]

/-- The string that `calculate` hands to `evaluateExpression`. -/
def prepare {V : Type} (host : Host V) (settings : Settings)
    (currentExpression : List Char) : List Char :=
  let expression := runPasses glyphPasses currentExpression
  let expression :=
    match settings.angleUnit with
    | .degrees => replaceWith trigRe (trigDegrees host) expression
    | .radians => replaceAll trigOpenRe "Math.$1(" expression
  balanceParentheses (runPasses namePasses expression)

/-- The substitutions at the head of `evaluateExpression`. -/
def evaluatorPasses : List Pass :=
  [⟨.space, ""⟩, ⟨Re.lit "PI", "Math.PI"⟩, ⟨.chr 'E', "Math.E"⟩, ⟨.chr '^', "**"⟩,
   ⟨Re.lit "log(", "Math.log10("⟩, ⟨Re.lit "ln(", "Math.log("⟩,
   ⟨Re.lit "log2(", "Math.log2("⟩]

/-- The variable `evaluatedString` of `evaluateExpression`: the text that is checked by
the safety gate and then handed to the host evaluator. -/
def evaluatedString (expr : List Char) : List Char := runPasses evaluatorPasses expr

/-- The class `[0-9+\-*/.()]`. -/
def arithItems : List ClsItem :=
  [.range '0' '9', .one '+', .one '-', .one '*', .one '/', .one '.', .one '(', .one ')']

/-- The first pattern of the gate,
`/^[0-9+\-*/.()]+(\*\*[\d.]+)*|Math\.(?:PI|E)|(?:Math\.(?:sin|cos|tan|sqrt|log|log10|log2|exp))\([0-9+\-*/.()Ee]+\)*$/`:
three alternatives, the first anchored at the start only and the last at the end only. -/
def gateRe : Re :=
  Re.alts [
    Re.seqs [.bol, Re.plus (.cls false arithItems),
      .star (.group 1 (.seq (Re.lit "**") (Re.plus (.cls false [.digits, .one '.']))))],
    .seq (Re.lit "Math.") (.alt (Re.lit "PI") (.chr 'E')),
    Re.seqs [.seq (Re.lit "Math.") (Re.alts [Re.lit "sin", Re.lit "cos", Re.lit "tan",
        Re.lit "sqrt", Re.lit "log", Re.lit "log10", Re.lit "log2", Re.lit "exp"]),
      .chr '(', Re.plus (.cls false (arithItems ++ [.one 'E', .one 'e'])),
      .star (.chr ')'), .eol]]

/-- The second pattern of the gate, `/^[\d+\-*/.()]+$|^Math\.(PI|E)$/`. -/
def gateFallbackRe : Re :=
  .alt
    (Re.seqs [.bol, Re.plus (.cls false [.digits, .one '+', .one '-', .one '*', .one '/',
      .one '.', .one '(', .one ')']), .eol])
    (Re.seqs [.bol, Re.lit "Math.", .group 1 (.alt (Re.lit "PI") (.chr 'E')), .eol])

/-- The safety gate of `evaluateExpression`: the text is rejected when neither pattern
matches. -/
def gateAccepts (evaluated : List Char) : Bool :=
  test gateRe evaluated || test gateFallbackRe evaluated

/-- The method `evaluateExpression`; `none` when it throws, be it at the gate or in the
host evaluator. -/
def evaluateExpression {V : Type} (host : Host V) (expr : List Char) : Option V :=
  if gateAccepts (evaluatedString expr) then host.run (evaluatedString expr) else none

/-- The method `formatResult`; `none` when it throws. -/
def formatResult {V : Type} (host : Host V) (settings : Settings) (result : V) :
    Option (List Char) :=
  if host.isInteger result then some (host.toStr result)
  else (host.toFixed result settings.decimalPlaces).map fun t => host.toStr (host.parseFloat t)

/-- The method `addToHistory`; `now` is the time stamp `new Date().toISOString()`. -/
def addToHistory (now : List Char) (history : List HistoryItem)
    (expression result : List Char) : List HistoryItem :=
  let history := ⟨expression, result, now⟩ :: history
  if history.length > 50 then history.take 50 else history

/-- The method `calculate`: the state after the call and what is reported. The outcome
`invalidExpression` is the `catch` branch, taken when `evaluateExpression`, the test of
the result or `formatResult` throws. -/
def calculate {V : Type} (host : Host V) (settings : Settings) (now : List Char)
    (c : Calc) : Calc × Outcome :=
  if c.currentExpression.isEmpty then (c, .noExpression)
  else
    match evaluateExpression host (prepare host settings c.currentExpression) with
    | none => (c, .invalidExpression)
    | some result =>
      match host.isFinite result with
      | none => (c, .invalidExpression)
      | some true =>
        match formatResult host settings result with
        | none => (c, .invalidExpression)
        | some text =>
          (⟨text, text, addToHistory now c.history text text⟩, .result text)
      | some false => (c, .invalidCalculation)

/-- The method `showError`: the text that it hands to `showVoiceFeedback`. -/
def showError (message : List Char) : List Char := "Error: ".toList ++ message

/-- The arguments of the calls of `showVoiceFeedback` that the body of `calculate` makes,
directly or through `showError`, in the order of the calls. Each call replaces the text
of the feedback element, so the last text of the list is the one that stays on display.
Both failures call `showError` and then `showVoiceFeedback('Calculation failed')`. -/
def calculateFeedback {V : Type} (host : Host V) (settings : Settings) (c : Calc) :
    List (List Char) :=
  if c.currentExpression.isEmpty then ["No expression to calculate".toList]
  else
    match evaluateExpression host (prepare host settings c.currentExpression) with
    | none => [showError "Invalid expression".toList, "Calculation failed".toList]
    | some result =>
      match host.isFinite result with
      | none => [showError "Invalid expression".toList, "Calculation failed".toList]
      | some true =>
        match formatResult host settings result with
        | none => [showError "Invalid expression".toList, "Calculation failed".toList]
        | some text => ["Result: ".toList ++ text]
      | some false => [showError "Invalid calculation".toList, "Calculation failed".toList]

/-- The text that `calculate` delegates to the host evaluator for an expression. -/
def delegated {V : Type} (host : Host V) (settings : Settings)
    (currentExpression : List Char) : List Char :=
  evaluatedString (prepare host settings currentExpression)

/-- Successive calls of `addToHistory`, one per item, the first item first. -/
def addAll (history : List HistoryItem) (items : List HistoryItem) : List HistoryItem :=
  items.foldl (fun h it => addToHistory it.timestamp h it.expression it.result) history

/-- The items `1 = 1` with `n` distinct time stamps, the first without characters. -/
def stamped (n : Nat) : List HistoryItem :=
  (List.range n).map fun i => ⟨['1'], ['1'], List.replicate i 't'⟩

/-- A host that knows the integer values of the texts of a table and throws on any other
text; it serves as a concrete instance of `Host`. -/
def tableHost (table : List (String × Int)) : Host Int where
  run := fun body => (table.find? fun p => p.1.toList == body).map fun p => p.2
  runStrict := fun body => (table.find? fun p => p.1.toList == body).map fun p => p.2
  isFiniteNumber := fun _ => true
  isFinite := fun _ => some true
  isInteger := fun _ => true
  toStr := fun v => (toString v).toList
  toFixed := fun v _ => some (toString v).toList
  parseFloat := fun t => (String.mk t).toInt?.getD 0

/-! ## Auxiliary definitions -/

/-- The greedy repetition of a one-character class, written out on the input: the
longest run is tried first, then the shorter ones. -/
def greedyRun (p : Char → Bool) (k : St → Option St) (caps : List (Nat × List Char)) :
    List Char → List Char → Option St
  | left, [] => k ⟨left, [], caps⟩
  | left, c :: r =>
    if p c then orElse (greedyRun p k caps (c :: left) r) (k ⟨left, c :: r, caps⟩)
    else k ⟨left, c :: r, caps⟩

/-- All command synonyms. -/
def allSynonyms : List String :=
  clearSynonyms ++ calculateSynonyms ++ repeatSynonyms ++ historySynonyms

/-- The command synonyms with the tag of their family. -/
def synonymTags : List (String × String) :=
  clearSynonyms.map (fun w => (w, "CMD_CLEAR"))
    ++ calculateSynonyms.map (fun w => (w, "CMD_CALCULATE"))
    ++ repeatSynonyms.map (fun w => (w, "CMD_REPEAT"))
    ++ historySynonyms.map (fun w => (w, "CMD_HISTORY"))

/-- The string `s` contains `syn` between white space or the ends of the string. -/
def Delimited (syn s : List Char) : Prop :=
  ∃ pre post, s = pre ++ syn ++ post
    ∧ (pre = [] ∨ ∃ p w, pre = p ++ [w] ∧ isSpace w = true)
    ∧ (post = [] ∨ ∃ w q, post = w :: q ∧ isSpace w = true)

/-- Whether `\bw\b` matches at a position: a word boundary, the word, a word boundary. -/
def wordHit (w left right : List Char) : Bool :=
  atWordB left right && w.isPrefixOf right
    && atWordB (w.reverse ++ left) (right.drop w.length)

/-- A pass that replaces a word of word characters, `\bw\b`. -/
def IsWordPass (p : Pass) : Prop :=
  ∃ w : List Char, w ≠ [] ∧ (∀ c ∈ w, isWordChar c = true)
    ∧ p.re = .seq .wordB (.seq (Re.str w) .wordB)

/-- Whether two strings differ at a position that both have. -/
def mismatch : List Char → List Char → Bool
  | c :: w, x :: a => c != x || mismatch w a
  | _, _ => false

/-- A non-empty string of decimal digits. -/
def Digits (ds : List Char) : Prop := ds ≠ [] ∧ ∀ c ∈ ds, isDigit c = true

/-- A decimal numeral: digits with an optional fractional part. -/
def Numeral (n : List Char) : Prop :=
  ∃ ds, Digits ds ∧ (n = ds ∨ ∃ fs, Digits fs ∧ n = ds ++ '.' :: fs)

/-- The first character of a string, if there is one, does not satisfy `p`. -/
def HeadNot (p : Char → Bool) (s : List Char) : Prop := ∀ c r, s = c :: r → p c = false

/-- The characters `[0-9+\-*/.()^]` of an expression without names. -/
def arithChars : List Char := "0123456789+-*/.()^".toList

/-- The characters that the final validation of `parseVoiceToMath` lets through. -/
def allowedChars : List Char := "0123456789+-*/.()sqrtasincoletanlogPIE^rand".toList

/-- The tokens of an expression string in the words of the specification: the characters
`[0-9+\-*/.()^]` and the literal tokens `sin(`, `cos(`, `tan(`, `sqrt(`, `log(`, `ln(`,
`log2(`, `exp(`, `PI`, `E`, `rand`. -/
def expressionTokens : List (List Char) :=
  "0123456789+-*/.()^".toList.map (fun c => [c]) ++
    ["sin(", "cos(", "tan(", "sqrt(", "log(", "ln(", "log2(", "exp(", "PI", "E",
      "rand"].map String.toList

/-- Whether a string is a concatenation of at most `n` expression tokens. -/
def tokenConcat : Nat → List Char → Bool
  | _, [] => true
  | 0, _ :: _ => false
  | n + 1, c :: s =>
    expressionTokens.any fun t =>
      t.isPrefixOf (c :: s) && tokenConcat n ((c :: s).drop t.length)

/-- An expression string in the words of the specification: a non-empty concatenation of
expression tokens. -/
def isExpressionString (s : List Char) : Bool := !s.isEmpty && tokenConcat s.length s

/-! ### Patterns of strings and an over-approximating matcher -/

/-- A segment of a pattern of strings: one character, any string over an alphabet, or
one of finitely many words. -/
inductive Seg where
  | lit (c : Char)
  | many (alphabet : List Char)
  | words (ws : List (List Char))
  deriving DecidableEq, Repr

/-- What a pattern knows of the character before a position: there is none, it is `c`,
or nothing is known. -/
inductive APrev where
  | start
  | ch (c : Char)
  | unk
  deriving DecidableEq, Repr

/-- The strings of a pattern. -/
def Denotes : List Seg → List Char → Prop
  | [], s => s = []
  | .lit c :: segs, s => ∃ t, s = c :: t ∧ Denotes segs t
  | .many alphabet :: segs, s => ∃ w t, s = w ++ t ∧ (∀ c ∈ w, c ∈ alphabet) ∧ Denotes segs t
  | .words ws :: segs, s => ∃ w t, w ∈ ws ∧ s = w ++ t ∧ Denotes segs t

/-- The left contexts that fit what a pattern knows of the previous character. -/
def PrevOK : APrev → List Char → Prop
  | .start, left => left = []
  | .ch c, left => ∃ l, left = c :: l
  | .unk, _ => True

/-- A position of a pattern describes a position of a string: the left context fits and
the rest of the string is a string of the rest of the pattern. -/
def Abs (a : APrev × List Seg) (left right : List Char) : Prop :=
  PrevOK a.1 left ∧ Denotes a.2 right

/-- The literal segments of a word. -/
def lits (w : List Char) : List Seg := w.map Seg.lit

/-- Whether some string of the pattern starts with a character satisfying `p` and the
continuation may accept what is left. -/
def aread (p : Char → Bool) (k : APrev × List Seg → Bool) (prev : APrev) :
    List Seg → Bool
  | [] => false
  | .lit c :: rest => p c && k (.ch c, rest)
  | .many alphabet :: rest =>
    (alphabet.any p && k (.unk, .many alphabet :: rest)) || aread p k prev rest
  | .words ws :: rest =>
    ws.any fun w =>
      match w with
      | [] => aread p k prev rest
      | c :: w => p c && k (.ch c, lits w ++ rest)

/-- Whether the pattern contains the empty string. -/
def canBeEmpty : List Seg → Bool
  | [] => true
  | .lit _ :: _ => false
  | .many _ :: rest => canBeEmpty rest
  | .words ws :: rest => ws.any (fun w => w.isEmpty) && canBeEmpty rest

/-- Whether the next character may be a word character (`true`) or may be none or no
word character (`false`). -/
def nextMay (b : Bool) : List Seg → Bool
  | [] => !b
  | .lit c :: _ => isWordChar c == b
  | .many alphabet :: rest => alphabet.any (fun c => isWordChar c == b) || nextMay b rest
  | .words ws :: rest =>
    ws.any fun w =>
      match w with
      | [] => nextMay b rest
      | c :: _ => isWordChar c == b

/-- Whether the previous character may be a word character (`true`) or may be none or no
word character (`false`). -/
def prevMay (b : Bool) : APrev → Bool
  | .start => !b
  | .ch c => isWordChar c == b
  | .unk => true

/-- Whether `\b` may hold at a position of the pattern. -/
def mayWordB (prev : APrev) (segs : List Seg) : Bool :=
  (prevMay true prev && nextMay false segs) || (prevMay false prev && nextMay true segs)

/-- The over-approximation of greedy repetition: an iteration that comes back to the
same position of the pattern adds nothing and is cut; when the bound on the number of
iterations is reached the answer is `true`. -/
def aStar (body : (APrev × List Seg → Bool) → APrev × List Seg → Bool) :
    Nat → (APrev × List Seg → Bool) → APrev × List Seg → Bool
  | 0, _, _ => true
  | n + 1, k, s => body (fun t => if t = s then false else aStar body n k t) s || k s

/-- A bound on the number of positions of a pattern that a match can run through. -/
def segSize : List Seg → Nat
  | [] => 1
  | .lit _ :: rest => segSize rest + 1
  | .many _ :: rest => segSize rest + 1
  | .words ws :: rest => segSize rest + (ws.map List.length).sum + 1

/-- The over-approximating matcher: `r.may k s` is `false` only if `r`, followed by what
`k` stands for, matches at the position `s` of no string of the pattern. -/
def Re.may : Re → (APrev × List Seg → Bool) → APrev × List Seg → Bool
  | .eps => fun k s => k s
  | .chr c => fun k s => aread (fun d => d == c) k s.1 s.2
  | .cls neg items => fun k s => aread (clsHas neg items) k s.1 s.2
  | .digit => fun k s => aread isDigit k s.1 s.2
  | .space => fun k s => aread isSpace k s.1 s.2
  | .bol => fun k s => match s.1 with
      | .ch _ => false
      | _ => k s
  | .eol => fun k s => canBeEmpty s.2 && k (s.1, [])
  | .wordB => fun k s => mayWordB s.1 s.2 && k s
  | .seq a b => fun k s => a.may (b.may k) s
  | .alt a b => fun k s => a.may k s || b.may k s
  | .star a => fun k s => aStar a.may (segSize s.2) k s
  | .opt a => fun k s => a.may (fun t => if t = s then false else k t) s || k s
  | .group _ a => fun k s => a.may k s

/-- The positions inside a word that is followed by `rest`. -/
def wordPositions (rest : List Seg) : APrev → List Char → List (APrev × List Seg)
  | _, [] => []
  | prev, c :: w => (prev, lits (c :: w) ++ rest) :: wordPositions rest (.ch c) w

/-- Positions of a pattern that cover every position of each of its strings. -/
def positions : APrev → List Seg → List (APrev × List Seg)
  | prev, [] => [(prev, [])]
  | prev, .lit c :: rest => (prev, .lit c :: rest) :: positions (.ch c) rest
  | prev, .many alphabet :: rest =>
    (prev, .many alphabet :: rest) :: (.unk, .many alphabet :: rest) :: positions .unk rest
  | prev, .words ws :: rest =>
    (prev, .words ws :: rest) :: (ws.map (wordPositions rest prev)).flatten
      ++ positions .unk rest

/-- The positions of the pattern `segs ++ rest` that lie inside `segs`. -/
def positionsIn (prev : APrev) (segs rest : List Seg) : List (APrev × List Seg) :=
  ((positions prev segs).filter fun a => !a.2.isEmpty).map fun a => (a.1, a.2 ++ rest)

/-- Whether `r` may match at a position inside `segs` in a string of `segs ++ rest` that
comes after a left context described by `prev`. -/
def mayMatchIn (r : Re) (prev : APrev) (segs rest : List Seg) : Bool :=
  (positionsIn prev segs rest).any fun a => r.may (fun _ => true) a

/-- Whether `r` may match somewhere in a string of the pattern that comes after a left
context described by `prev`. -/
def mayMatchAfter (r : Re) (prev : APrev) (segs : List Seg) : Bool :=
  (positions prev segs).any fun a => r.may (fun _ => true) a

/-- Whether `r` may match somewhere in a string of the pattern. -/
def mayMatch (r : Re) (segs : List Seg) : Bool :=
  (positions .start segs).any fun a => r.may (fun _ => true) a

/-- The pattern of the strings `square root of n` for a string `n` of digits and dots. -/
def squareRootPhrase : List Seg :=
  lits "square root of ".toList ++ [.many "0123456789.".toList]

/-- The pattern of the strings `sqrt(n)` for a string `n` of digits and dots. -/
def sqrtCall : List Seg :=
  lits "sqrt(".toList ++ [.many "0123456789.".toList, .lit ')']

/-- The pattern of the strings `square root of w` for a number word `w`. -/
def squareRootWord : List Seg :=
  lits "square root of ".toList ++ [.words (numberWords.map fun wd => wd.1.toList)]

/-- The operator words of `parseVoiceToMath` with their symbols. -/
def operatorWords : List (String × String) :=
  [("plus", "+"), ("add", "+"), ("minus", "-"), ("subtract", "-"), ("times", "*"),
   ("multiply", "*"), ("multiplied by", "*"), ("divide", "/"), ("divided by", "/")]

/-- The number words of the vocabulary. -/
def vocabularyWords : List (List Char) := numberWords.map fun wd => wd.1.toList

/-- The numerals of the number words of the vocabulary. -/
def vocabularyNumerals : List (List Char) := numberWords.map fun wd => wd.2.toList

/-- The pattern of the strings `w₁ op w₂` of two number words and an operator word. -/
def wordOpWord : List Seg :=
  [.words vocabularyWords, .lit ' ', .words (operatorWords.map fun op => op.1.toList),
    .lit ' ', .words vocabularyWords]

/-- The pattern of the strings `d₁ op d₂` of two numerals of the vocabulary and one of
the operator words `ops`. -/
def numOpNum (ops : List String) : List Seg :=
  [.words vocabularyNumerals, .lit ' ', .words (ops.map String.toList), .lit ' ',
    .words vocabularyNumerals]

/-- The pattern of the strings `d₁ sym d₂` of two numerals of the vocabulary and an
operator symbol between spaces. -/
def numSymNum (sym : Char) : List Seg :=
  [.words vocabularyNumerals, .lit ' ', .lit sym, .lit ' ', .words vocabularyNumerals]

/-- A host whose values are the integers and one value that is not finite (`none`); it
evaluates the texts of a table and throws on any other text. The texts of the table are
evaluated alike in strict mode. -/
def extendedHost (table : List (String × Option Int)) : Host (Option Int) where
  run := fun body => (table.find? fun p => p.1.toList == body).map fun p => p.2
  runStrict := fun body => (table.find? fun p => p.1.toList == body).map fun p => p.2
  isFiniteNumber := fun v => v.isSome
  isFinite := fun v => some v.isSome
  isInteger := fun v => v.isSome
  toStr := fun v => match v with
    | some i => (toString i).toList
    | none => "Infinity".toList
  toFixed := fun v _ => some (match v with
    | some i => (toString i).toList
    | none => "Infinity".toList)
  parseFloat := fun t => (String.mk t).toInt?

/-! ## Restart of the voice recognition -/

/-- The error codes of a speech recognition error event that the source tells apart, and
any other code. -/
inductive RecognitionError where
  | noSpeech
  | audioCapture
  | notAllowed
  | network
  | aborted
  | languageNotSupported
  | serviceNotAllowed
  | other
  deriving DecidableEq, Repr

/-- The state that the handlers `recognition.onend` and `recognition.onerror` read and
write, and the timers of the host: `restartTimeOut` is the handle stored in the field of
that name (`none` for `null`), `timers` are the host's pending timeouts that call
`startVoiceRecognition`, each with its handle and its delay in milliseconds, and
`nextHandle` is the handle that the host gives to the next timeout. -/
structure Listener where
  isListening : Bool
  isRecognitionActive : Bool
  restartTimeOut : Option Nat
  timers : List (Nat × Nat)
  nextHandle : Nat
  deriving DecidableEq, Repr

/-- The host's `clearTimeout`. -/
def clearTimeout (handle : Nat) (timers : List (Nat × Nat)) : List (Nat × Nat) :=
  timers.filter fun t => t.1 != handle

/-- The lines `if (this.restartTimeOut) clearTimeout(this.restartTimeOut);
this.restartTimeOut = setTimeout(() => this.startVoiceRecognition(), delay)`; handles of
the host are positive numbers, so the test is whether a handle is stored. -/
def scheduleRestart (delay : Nat) (s : Listener) : Listener :=
  let timers :=
    match s.restartTimeOut with
    | some handle => clearTimeout handle s.timers
    | none => s.timers
  { s with restartTimeOut := some s.nextHandle,
           timers := timers ++ [(s.nextHandle, delay)],
           nextHandle := s.nextHandle + 1 }

/-- The handler `recognition.onend`. -/
def onend (s : Listener) : Listener :=
  let s := { s with isRecognitionActive := false }
  if s.isListening then scheduleRestart 500 s else s

/-- The handler `recognition.onerror`. -/
def onerror (error : RecognitionError) (s : Listener) : Listener :=
  let s := { s with isRecognitionActive := false }
  if s.isListening && error != .notAllowed && error != .audioCapture then
    scheduleRestart 1000 s
  else if error == .notAllowed || error == .audioCapture then
    { s with isListening := false }
  else s

/-- Every pending restart is the one whose handle is stored in `restartTimeOut`. -/
def SingleSlot (s : Listener) : Prop :=
  ∀ t ∈ s.timers, s.restartTimeOut = some t.1

/-! ## `toggleSign` -/

/-- The pattern `/(\d+\.?\d*)$/`. -/
def lastNumberRe : Re :=
  Re.seqs [.group 1 (Re.seqs [digitsRe, .opt (.chr '.'), .star .digit]), .eol]

/-- The text of the first match among scanned pieces: element 0 of the result of
`String.prototype.match` with a regular expression that is not global. -/
def firstMatch : List Piece → Option (List Char)
  | [] => none
  | .keep _ :: ps => firstMatch ps
  | .hit matched _ :: _ => some matched

/-- The method `toggleSign`. The host's number functions are parameters: `negated t` is
`(parseFloat(t) * -1).toString()` and `isNaN` is the host's function of that name on
strings. The source's constant `prefix` is called `kept` here. -/
def toggleSign (negated : List Char → List Char) (isNaN : List Char → Bool) (c : Calc) :
    Calc :=
  match firstMatch (pieces lastNumberRe c.currentExpression) with
  | some lastNumber =>
    let kept := c.currentExpression.take (c.currentExpression.length - lastNumber.length)
    { c with currentExpression := kept ++ negated lastNumber }
  | none =>
    if c.currentExpression = c.currentResult ∧ isNaN c.currentResult = false then
      { c with currentExpression := negated c.currentResult }
    else if c.currentExpression.head? = some '-' then
      { c with currentExpression := c.currentExpression.drop 1 }
    else { c with currentExpression := '-' :: c.currentExpression }

/-- The host's `(parseFloat(t) * -1).toString()` on the decimal numerals of integers; it
serves as a concrete instance of the parameter of `toggleSign`. -/
def negatedInteger (t : List Char) : List Char :=
  (toString (-((String.mk t).toInt?.getD 0))).toList

/-! ## `isCompleteExpression` and `processVoiceInput` -/

/-- The function names of the pattern of `hasUnclosedFunction`, in its order. -/
def functionNames : List String := ["sin", "cos", "tan", "log", "ln", "log2", "exp", "sqrt"]

/-- The pattern `/[0-9]/`. -/
def hasDigitRe : Re := .cls false [.range '0' '9']

/-- The pattern `/[+\-*/(^]$/`. -/
def endsWithOperatorOrOpenParenRe : Re :=
  .seq (.cls false [.one '+', .one '-', .one '*', .one '/', .one '(', .one '^']) .eol

/-- The pattern `/(sin|cos|tan|log|ln|log2|exp|sqrt)\([^)]*$/`. -/
def hasUnclosedFunctionRe : Re :=
  Re.seqs [.group 1 (Re.alts (functionNames.map Re.lit)), .chr '(',
    .star (.cls true [.one ')']), .eol]

/-- The method `isCompleteExpression`; the source also computes `hasOperator` and does
not use it. -/
def isCompleteExpression (expression : List Char) : Bool :=
  let hasDigit := test hasDigitRe expression
  let endsWithOperatorOrOpenParen := test endsWithOperatorOrOpenParenRe expression
  let openParens := matchCount (.chr '(') expression
  let closeParens := matchCount (.chr ')') expression
  let balancedParens := openParens == closeParens
  let hasUnclosedFunction := test hasUnclosedFunctionRe expression
  hasDigit && !endsWithOperatorOrOpenParen && balancedParens && !hasUnclosedFunction

/-- What `processVoiceInput` does with an utterance: one of the four commands, a new
`currentExpression` together with whether `calculate` is scheduled for it, or the report
that the input was not understood. -/
inductive VoiceAction where
  | clear
  | calculate
  | repeatLast
  | history
  | expression (text : List Char) (scheduled : Bool)
  | notUnderstood
  deriving DecidableEq, Repr

/-- The method `processVoiceInput`, as far as it decides what is done. -/
def processVoiceInput (toLowerCase : List Char → List Char) (voiceText : List Char) :
    VoiceAction :=
  match parseVoiceToMath toLowerCase voiceText with
  | some parsedCommand =>
    if parsedCommand = "CMD_CLEAR".toList then .clear
    else if parsedCommand = "CMD_CALCULATE".toList then .calculate
    else if parsedCommand = "CMD_REPEAT".toList then .repeatLast
    else if parsedCommand = "CMD_HISTORY".toList then .history
    else .expression parsedCommand (isCompleteExpression parsedCommand)
  | none => .notUnderstood

/-- Completeness of an expression in words: it contains a digit, it does not end with one
of `+ - * / ( ^`, it has as many `(` as `)`, and no function name followed by `(` is
followed by no `)` up to the end. -/
def CompleteInWords (e : List Char) : Prop :=
  (∃ c ∈ e, isDigit c = true)
  ∧ (∀ c, e.getLast? = some c → c ∉ "+-*/(^".toList)
  ∧ e.count '(' = e.count ')'
  ∧ ¬ ∃ pre name post, name ∈ functionNames ∧ e = pre ++ (name.toList ++ '(' :: post)
      ∧ ')' ∉ post

/-- The ASCII operator that the first four substitutions of `calculate` write for a
character: `*` for `x` and `×`, `/` for `÷`, `-` for `−`, and the character itself
otherwise. -/
def asciiOperator (c : Char) : Char :=
  if c = 'x' then '*' else if c = '×' then '*' else if c = '÷' then '/'
  else if c = '−' then '-' else c

/-- The characters of an expression built from digits, the operator glyphs and the ASCII
operators. -/
def glyphChars : List Char := "0123456789x×÷−+-*/".toList

/-- The digits and the ASCII operators. -/
def asciiChars : List Char := "0123456789+-*/".toList

/-- The characters of an argument without parentheses: digits, the dot and the ASCII
operators. -/
def argChars : List Char := "0123456789+-*/.".toList

/-- The text of a call `name(arg)`. -/
def call (name : String) (arg : List Char) : List Char :=
  name.toList ++ '(' :: (arg ++ [')'])

/-- The pattern of the calls `name(arg)` with an argument over `argChars`. -/
def callPattern (name : String) : List Seg :=
  lits (name.toList ++ ['(']) ++ [.many argChars, .lit ')']

/-- The names that the third alternative of the first pattern of the gate lets follow
`Math.`. -/
def gateNames : List String := ["sin", "cos", "tan", "sqrt", "log", "log10", "log2", "exp"]

/-- The characters that occur in the strings of a pattern. -/
def segChars : List Seg → List Char
  | [] => []
  | .lit c :: rest => c :: segChars rest
  | .many alphabet :: rest => alphabet ++ segChars rest
  | .words ws :: rest => ws.flatten ++ segChars rest

/-- The four command patterns of `parseVoiceToMath`. -/
def commandPatterns : List Re :=
  [cmdClearRe, cmdRe calculateSynonyms, cmdRe repeatSynonyms, cmdRe historySynonyms]

/-- The decimal digits. -/
def digitChars : List Char := "0123456789".toList

/-- The characters of a decimal numeral. -/
def numeralChars : List Char := "0123456789.".toList

/-- The multiplier units of `parseVoiceToMath` with their scales, in the order of the
source. -/
def unitScales : List (String × String) :=
  [("trillion", "1000000000000"), ("billion", "1000000000"), ("million", "1000000"),
   ("lakh", "100000"), ("crore", "10000000")]

/-- The pattern of the strings `d unit` for a string `d` of digits. -/
def unitPhrase (unit : String) : List Seg :=
  [.many digitChars, .lit ' '] ++ lits unit.toList

/-- The pattern of the strings `d*scale` for a string `d` of digits. -/
def scaledNumber (scale : String) : List Seg :=
  [.many digitChars, .lit '*'] ++ lits scale.toList

/-- What follows the name in the pattern of a function phrase:
`\s*(?:of\s*)?(\d+(\.\d+)?)\b`. -/
def functionTail : Re :=
  Re.seqs [spacesRe, .opt (.seq (Re.lit "of") spacesRe), numRe 2 3, .wordB]

/-- The pattern of the strings `phrase n` for one of the given phrases and a string `n`
of digits and dots. -/
def phrasePattern (phrases : List (List Char)) : List Seg :=
  [.words phrases, .many numeralChars]

/-- The pattern of what may follow a name that is not the whole word of a function
phrase: the rest of the word, then spaces, `of` and a numeral. -/
def afterShortName (rest : List Char) : List Seg :=
  lits rest ++ [.many " of".toList, .many numeralChars]

/-- The end of the power pattern: `\s*(?:of\s*)?(\d+(\.\d+)?)\b`, with the groups `i` and
`j`. -/
def ofNumberTail (i j : Nat) : Re :=
  .seq (.star .space) (.seq (.opt (.seq (Re.str "of".toList) (.star .space)))
    (.seq (numRe i j) .wordB))

/-- The part `to\s*the\s*` of the power pattern. -/
def toThePart : Re :=
  .seq (Re.str "to".toList) (.seq (.star .space) (.seq (Re.str "the".toList) (.star .space)))

/-- The part `power\s*(?:of\s*)?(\d+(\.\d+)?)\b` of the power pattern. -/
def powerPart : Re := .seq (Re.str "power".toList) (ofNumberTail 3 4)

/-- The four ways of saying a power, between the two numbers. -/
def powerConnectives : List (List Char) :=
  [" power ".toList, " power of ".toList, " to the power ".toList,
    " to the power of ".toList]

/-- The pattern of the strings `n conn m` for two strings of digits and dots and a way of
saying a power. -/
def powerPhrase : List Seg :=
  [.many numeralChars, .words powerConnectives, .many numeralChars]

/-- The pattern of the strings `n^m` for two strings of digits and dots. -/
def powerText : List Seg := [.many numeralChars, .lit '^', .many numeralChars]

/-- The pattern of the strings `n squared` for a string of digits and dots. -/
def squaredPhrase : List Seg := [.many numeralChars] ++ lits " squared".toList

/-- The pattern of the strings `w conn v` for two number words and a way of saying a
power. -/
def powerWords : List Seg :=
  [.words vocabularyWords, .words powerConnectives, .words vocabularyWords]

/-- The pattern of the strings `w squared` for a number word. -/
def squaredWord : List Seg := [.words vocabularyWords] ++ lits " squared".toList

/-! ## Trigonometric calls in radians -/

/-- Whether a text starts with `sin(`, `cos(` or `tan(`. -/
def startsTrigCall (s : List Char) : Bool :=
  "sin(".toList.isPrefixOf s || "cos(".toList.isPrefixOf s || "tan(".toList.isPrefixOf s

/-- The text with `Math.` written before every `sin(`, `cos(` and `tan(` and with nothing
else changed. -/
def mathPrefixed : List Char → List Char
  | [] => []
  | c :: s => (if startsTrigCall (c :: s) then "Math.".toList else []) ++ c :: mathPrefixed s

/-! ## Replacement of delimited words, written out on the input -/

/-- The first of the words `ws` that `\bw\b` matches at a position. -/
def hitOf (ws : List (List Char)) (left right : List Char) : Option (List Char) :=
  ws.find? fun w => wordHit w left right

/-- The global replacement of the delimited words `ws` by the text `t`, written out on
the input: at each position the first word that matches there is replaced and the scan
goes on behind it; where no word matches the character is kept. The first argument
bounds the number of steps. -/
def wscan (ws : List (List Char)) (t : List Char) : Nat → List Char → List Char → List Char
  | 0, _, right => right
  | n + 1, left, right =>
    match hitOf ws left right with
    | some w => t ++ wscan ws t n (w.reverse ++ left) (right.drop w.length)
    | none =>
      match right with
      | [] => []
      | c :: rest => c :: wscan ws t n (c :: left) rest

/-- A word that starts and ends with a word character. -/
def wordOK (w : List Char) : Bool := headIsWord w && headIsWord w.reverse

/-- The side conditions on a stage of word replacements, each given by its words and its
replacement text: every word starts and ends with a word character, no word of the stage
has a character of a replacement text, and where a replacement text is empty the words
consist of word characters. -/
def stageOK (specs : List (List (List Char) × List Char)) : Bool :=
  specs.all fun e => e.1.all wordOK && specs.all fun e' =>
    e'.1.all fun w => w.all fun c => !e.2.contains c && (!e.2.isEmpty || isWordChar c)

/-- A pass that replaces the delimited words `ws` by a text without `$`: at every
position its pattern matches the first of the words that is delimited there. -/
def IsWordsPass (p : Pass) (ws : List (List Char)) : Prop :=
  '$' ∉ p.template.toList
  ∧ ∀ l r, (matchAt p.re l r).map (fun t => (t.left, t.right))
      = (hitOf ws l r).map (fun w => (w.reverse ++ l, r.drop w.length))

/-- No word of `ws` is delimited at any position of `y`. -/
def NoHit (ws : List (List Char)) (y : List Char) : Prop :=
  ∀ a b, y = a ++ b → hitOf ws (a.reverse ++ []) b = none

/-- A stage of word replacements, each applied to the output of the one before. -/
def wstage (specs : List (List (List Char) × List Char)) (s : List Char) : List Char :=
  specs.foldl (fun x e => wscan e.1 e.2 (x.length + 1) [] x) s

/-- The words and the symbol of each of the first seven passes of step 3, the operator
words. -/
def operatorWordTable : List (List String × String) :=
  [(["plus", "add"], "+"), (["minus", "subtract"], "-"),
   (["times", "multiply", "multiplied by"], "*"), (["divide", "divided by"], "/"),
   (["point", "dot"], "."), (["open parenthesis", "open bracket"], "("),
   (["close parenthesis", "close bracket"], ")")]

/-- The filler words. -/
def fillerWords : List String :=
  ["the", "a", "an", "result", "value", "do", "can", "you", "me", "please", "give", "show",
   "tell"]

/-! ## A host given by tables of printed values -/

/-- A host whose values are named by the text that `toString` prints for them. The tables
say which values `Number.isInteger` accepts, what `toFixed` returns for a value and a
number of places, which value `parseFloat` reads from a text (`NaN` for a text that is
not in the table), and which value the evaluator returns for a text (it throws on any
other text). -/
def printedHost (integers : List String) (fixed : List (String × Nat × String))
    (parsed : List (String × String)) (evaluated : List (String × String)) :
    Host String where
  run := fun body => (evaluated.find? fun e => e.1.toList == body).map fun e => e.2
  runStrict := fun body => (evaluated.find? fun e => e.1.toList == body).map fun e => e.2
  isFiniteNumber := fun _ => true
  isFinite := fun _ => some true
  isInteger := fun v => integers.contains v
  toStr := fun v => v.toList
  toFixed := fun v n => (fixed.find? fun e => e.1 == v && e.2.1 == n).map fun e => e.2.2.toList
  parseFloat := fun t => ((parsed.find? fun e => e.1.toList == t).map fun e => e.2).getD "NaN"

/-! ## Theorems -/

/-! ### Basic facts about the matcher -/

@[simp] theorem orElse_none_left (y : Option St) : orElse none y = y := rfl

@[simp] theorem orElse_some (r : St) (y : Option St) : orElse (some r) y = some r := rfl

@[simp] theorem orElse_none_right (x : Option St) : orElse x none = x := by
  cases x <;> rfl

theorem orElse_eq_none {x y : Option St} : orElse x y = none ↔ x = none ∧ y = none := by
  cases x <;> simp

theorem isSome_orElse (x y : Option St) : (orElse x y).isSome = (x.isSome || y.isSome) := by
  cases x <;> simp

theorem starLoop_none_of_cont_none (body : (St → Option St) → St → Option St)
    (hbody : ∀ k s, (∀ t, k t = none) → body k s = none) (k : St → Option St)
    (hk : ∀ t, k t = none) : ∀ (n : Nat) (s : St), starLoop body n k s = none := by
  intro n
  induction n with
  | zero => intro s; exact hk s
  | succ n ih =>
    intro s
    simp only [starLoop, orElse_eq_none]
    refine ⟨hbody _ _ ?_, hk s⟩
    intro t
    split
    · exact ih t
    · rfl

theorem readIf_none_of_cont_none (p : Char → Bool) (k : St → Option St) (s : St)
    (hk : ∀ t, k t = none) : readIf p k s = none := by
  unfold readIf
  split
  · split
    · exact hk _
    · rfl
  · rfl

theorem m_none_of_cont_none (r : Re) :
    ∀ (k : St → Option St) (s : St), (∀ t, k t = none) → r.m k s = none := by
  induction r with
  | eps => intro k s hk; exact hk s
  | chr c => intro k s hk; exact readIf_none_of_cont_none _ k s hk
  | cls neg items => intro k s hk; exact readIf_none_of_cont_none _ k s hk
  | digit => intro k s hk; exact readIf_none_of_cont_none _ k s hk
  | space => intro k s hk; exact readIf_none_of_cont_none _ k s hk
  | bol =>
    intro k s hk
    simp only [Re.m]
    split
    · exact hk s
    · rfl
  | eol =>
    intro k s hk
    simp only [Re.m]
    split
    · exact hk s
    · rfl
  | wordB =>
    intro k s hk
    simp only [Re.m]
    split
    · exact hk s
    · rfl
  | seq a b iha ihb =>
    intro k s hk
    simp only [Re.m]
    exact iha _ s (fun t => ihb k t hk)
  | alt a b iha ihb =>
    intro k s hk
    simp only [Re.m, orElse_eq_none]
    exact ⟨iha k s hk, ihb k s hk⟩
  | star a iha =>
    intro k s hk
    simp only [Re.m]
    exact starLoop_none_of_cont_none _ iha k hk _ s
  | opt a iha =>
    intro k s hk
    simp only [Re.m, orElse_eq_none]
    refine ⟨iha _ s ?_, hk s⟩
    intro t
    split
    · exact hk t
    · rfl
  | group i a iha =>
    intro k s hk
    simp only [Re.m]
    exact iha _ s (fun t => hk _)

/-! ### Unfolding the matcher one constructor at a time -/

theorem m_eps (k : St → Option St) (s : St) : Re.eps.m k s = k s := rfl

theorem m_chr (c : Char) : (Re.chr c).m = readIf (fun d => d == c) := rfl

theorem m_cls (neg : Bool) (items : List ClsItem) :
    (Re.cls neg items).m = readIf (clsHas neg items) := rfl

theorem m_digit : Re.digit.m = readIf isDigit := rfl

theorem m_space : Re.space.m = readIf isSpace := rfl

theorem m_bol_nil (k : St → Option St) (right : List Char) (caps : List (Nat × List Char)) :
    Re.bol.m k ⟨[], right, caps⟩ = k ⟨[], right, caps⟩ := rfl

theorem m_bol_cons (k : St → Option St) (c : Char) (left right : List Char)
    (caps : List (Nat × List Char)) : Re.bol.m k ⟨c :: left, right, caps⟩ = none := rfl

theorem m_eol_nil (k : St → Option St) (left : List Char) (caps : List (Nat × List Char)) :
    Re.eol.m k ⟨left, [], caps⟩ = k ⟨left, [], caps⟩ := rfl

theorem m_eol_cons (k : St → Option St) (c : Char) (left right : List Char)
    (caps : List (Nat × List Char)) : Re.eol.m k ⟨left, c :: right, caps⟩ = none := rfl

theorem m_wordB (k : St → Option St) (s : St) :
    Re.wordB.m k s = if atWordB s.left s.right then k s else none := rfl

theorem m_seq (a b : Re) (k : St → Option St) (s : St) :
    (Re.seq a b).m k s = a.m (b.m k) s := rfl

theorem m_alt (a b : Re) (k : St → Option St) (s : St) :
    (Re.alt a b).m k s = orElse (a.m k s) (b.m k s) := rfl

theorem m_star (a : Re) (k : St → Option St) (s : St) :
    (Re.star a).m k s = starLoop a.m s.right.length k s := rfl

theorem m_opt (a : Re) (k : St → Option St) (s : St) :
    (Re.opt a).m k s
      = orElse (a.m (fun t => if t.right.length < s.right.length then k t else none) s)
          (k s) := rfl

theorem m_group (i : Nat) (a : Re) (k : St → Option St) (s : St) :
    (Re.group i a).m k s
      = a.m (fun t => k { t with
          caps := (i, s.right.take (s.right.length - t.right.length)) :: t.caps }) s := rfl

theorem readIf_nil (p : Char → Bool) (k : St → Option St) (left : List Char)
    (caps : List (Nat × List Char)) : readIf p k ⟨left, [], caps⟩ = none := rfl

theorem readIf_cons (p : Char → Bool) (k : St → Option St) (left : List Char) (d : Char)
    (r : List Char) (caps : List (Nat × List Char)) :
    readIf p k ⟨left, d :: r, caps⟩ = if p d then k ⟨d :: left, r, caps⟩ else none := rfl

/-! ### Greedy repetition of a one-character class -/

theorem starLoop_readIf (p : Char → Bool) (k : St → Option St) :
    ∀ (n : Nat) (s : St), s.right.length ≤ n →
      starLoop (readIf p) n k s = greedyRun p k s.caps s.left s.right := by
  intro n
  induction n with
  | zero =>
    intro s hs
    obtain ⟨left, right, caps⟩ := s
    have : right = [] := by simpa using hs
    subst this
    rfl
  | succ n ih =>
    intro s hs
    obtain ⟨left, right, caps⟩ := s
    cases right with
    | nil => simp [starLoop, readIf, greedyRun]
    | cons d r =>
      have hr : r.length ≤ n := by simpa using hs
      by_cases hp : p d = true
      · have := ih ⟨d :: left, r, caps⟩ hr
        simp only [starLoop, readIf, St.step, hp, if_true, List.length_cons,
          Nat.lt_succ_self, this, greedyRun]
      · simp [starLoop, readIf, greedyRun, hp]

theorem m_star_readIf (a : Re) (p : Char → Bool) (ha : a.m = readIf p)
    (k : St → Option St) (s : St) :
    (Re.star a).m k s = greedyRun p k s.caps s.left s.right := by
  rw [m_star, ha]
  exact starLoop_readIf p k _ s (Nat.le_refl _)

theorem greedyRun_eol (p : Char → Bool) (caps : List (Nat × List Char)) :
    ∀ (right left : List Char),
      greedyRun p (Re.eol.m some) caps left right
        = if right.all p then some ⟨right.reverse ++ left, [], caps⟩ else none := by
  intro right
  induction right with
  | nil => intro left; simp [greedyRun, m_eol_nil]
  | cons c r ih =>
    intro left
    by_cases hp : p c = true
    · simp only [greedyRun, hp, if_true, ih, m_eol_cons, orElse_none_right, List.all_cons,
        Bool.true_and, List.reverse_cons, List.append_assoc, List.singleton_append]
    · simp [greedyRun, hp, m_eol_cons]

/-! ### The final validation -/

theorem search_bol_none (x : Re) :
    ∀ (right left : List Char), left ≠ [] → search (.seq .bol x) left right = none := by
  intro right
  induction right with
  | nil =>
    intro left hl
    cases left with
    | nil => exact absurd rfl hl
    | cons a l => simp [search, matchAt, m_seq, m_bol_cons]
  | cons c r ih =>
    intro left hl
    cases left with
    | nil => exact absurd rfl hl
    | cons a l =>
      simp only [search, matchAt, m_seq, m_bol_cons, orElse_none_left]
      exact ih (c :: a :: l) (by simp)

theorem test_validRe (s : List Char) :
    test validRe s = (!s.isEmpty && s.all (clsHas false validItems)) := by
  have hv : validRe = .seq .bol (.seq (.seq (.cls false validItems)
      (.star (.cls false validItems))) .eol) := rfl
  cases s with
  | nil => simp [test, search, matchAt, hv, m_seq, m_bol_nil, m_cls, readIf_nil]
  | cons c r =>
    have hrest : search validRe [c] r = none := by
      rw [hv]; exact search_bol_none _ r [c] (by simp)
    simp only [test, search, hrest, orElse_none_right]
    by_cases hp : clsHas false validItems c = true
    · simp only [matchAt, hv, m_seq, m_bol_nil, m_cls, readIf_cons, hp, if_true]
      rw [m_star_readIf (.cls false validItems) (clsHas false validItems) rfl,
        greedyRun_eol]
      by_cases hr : r.all (clsHas false validItems) = true
      · simp [hp, hr]
      · simp [hp, hr]
    · simp [matchAt, hv, m_seq, m_bol_nil, m_cls, readIf_cons, hp]

theorem isDigit_iff (c : Char) : isDigit c = true ↔ c ∈ "0123456789".toList := by
  constructor
  · intro h
    simp only [isDigit, Bool.and_eq_true, decide_eq_true_eq] at h
    obtain ⟨h1, h2⟩ := h
    have h1n : 48 ≤ c.toNat := h1
    have h2n : c.toNat ≤ 57 := h2
    have hc : c = Char.ofNat c.toNat := (Char.ofNat_toNat c).symm
    rw [hc]
    interval_cases c.toNat <;> decide
  · intro h
    simp only [String.toList, List.mem_cons, List.mem_singleton] at h
    rcases h with h | h | h | h | h | h | h | h | h | h | h <;> first | (subst h; decide) | simp at h

theorem clsHas_validItems (c : Char) :
    clsHas false validItems c = true ↔ c ∈ allowedChars := by
  have h1 : validItems = .range '0' '9' ::
      ("+-*/.()sqrtasincoletanlogPIE^rand".toList.map ClsItem.one) := rfl
  have h2 : allowedChars
      = "0123456789".toList ++ "+-*/.()sqrtasincoletanlogPIE^rand".toList := by decide
  have h3 : (ClsItem.range '0' '9').has c = isDigit c := rfl
  have h4 : ∀ l : List Char, (l.map ClsItem.one).any (fun i => i.has c) = true ↔ c ∈ l := by
    intro l
    simp [List.any_map, ClsItem.has, List.any_eq_true]
  rw [h2, List.mem_append, ← isDigit_iff, ← h4]
  simp only [clsHas, h1, List.any_cons, h3, bne_iff_ne, ne_eq, Bool.not_eq_false,
    Bool.or_eq_true]

theorem validate_eq (processed : List Char) :
    validate processed
      = if processed ≠ [] ∧ ∀ c ∈ processed, c ∈ allowedChars then some processed
        else none := by
  unfold validate
  rw [test_validRe]
  by_cases h : processed ≠ [] ∧ ∀ c ∈ processed, c ∈ allowedChars
  · have hall : processed.all (clsHas false validItems) = true := by
      rw [List.all_eq_true]
      intro c hc
      exact (clsHas_validItems c).2 (h.2 c hc)
    have hne : processed.isEmpty = false := by
      cases processed with
      | nil => exact absurd rfl h.1
      | cons a l => rfl
    have hlast : processed.getLast? ≠ some '=' := by
      intro hl
      have hmem : '=' ∈ processed := List.mem_of_getLast?_eq_some hl
      have := h.2 _ hmem
      revert this
      decide
    rw [if_pos h]
    simp only [hne, hall, Bool.not_false, Bool.and_self, if_true, hlast, if_false]
  · have : (!processed.isEmpty && processed.all (clsHas false validItems)) = false := by
      rw [Bool.eq_false_iff]
      intro hb
      apply h
      simp only [Bool.and_eq_true, Bool.not_eq_true', List.all_eq_true] at hb
      refine ⟨?_, fun c hc => (clsHas_validItems c).1 (hb.2 c hc)⟩
      intro he
      rw [he] at hb
      simp at hb
    rw [if_neg h]
    simp only [this, Bool.false_eq_true, if_false]

/-! ### Command patterns -/

theorem m_str_append (w : List Char) :
    ∀ (k : St → Option St) (l rest : List Char) (caps : List (Nat × List Char)),
      (Re.str w).m k ⟨l, w ++ rest, caps⟩ = k ⟨w.reverse ++ l, rest, caps⟩ := by
  induction w with
  | nil => intro k l rest caps; rfl
  | cons c w ih =>
    intro k l rest caps
    cases w with
    | nil => simp [Re.str, m_chr, readIf_cons]
    | cons d w =>
      have h := ih (k := k) (c :: l) rest caps
      simp only [Re.str, m_seq, m_chr, List.cons_append, readIf_cons, beq_self_eq_true,
        if_true] at h ⊢
      rw [h]
      simp

theorem alts_lits_isSome (syn : String) :
    ∀ (syns : List String), syn ∈ syns →
      ∀ (k : St → Option St) (l rest : List Char) (caps : List (Nat × List Char)),
        (k ⟨syn.toList.reverse ++ l, rest, caps⟩).isSome = true →
        ((Re.alts (syns.map Re.lit)).m k ⟨l, syn.toList ++ rest, caps⟩).isSome = true := by
  intro syns
  induction syns with
  | nil => intro h; simp at h
  | cons a as ih =>
    intro hmem k l rest caps hk
    cases as with
    | nil =>
      have : syn = a := by simpa using hmem
      subst this
      simp only [List.map, Re.alts, Re.lit]
      rw [m_str_append]
      exact hk
    | cons b bs =>
      simp only [List.map, Re.alts, m_alt, isSome_orElse, Bool.or_eq_true]
      rcases List.mem_cons.1 hmem with h | h
      · left
        subst h
        simp only [Re.lit]
        rw [m_str_append]
        exact hk
      · right
        exact ih h k l rest caps hk

theorem search_isSome (r : Re) (b : List Char) :
    ∀ (a left : List Char), (matchAt r (a.reverse ++ left) b).isSome = true →
      (search r left (a ++ b)).isSome = true := by
  intro a
  induction a with
  | nil =>
    intro left h
    cases b with
    | nil => exact h
    | cons c rest =>
      simp only [List.nil_append, search, isSome_orElse, Bool.or_eq_true]
      exact Or.inl h
  | cons c a ih =>
    intro left h
    simp only [List.cons_append, search, isSome_orElse, Bool.or_eq_true]
    right
    apply ih
    simpa using h

theorem cmd_tail_isSome (post l : List Char) (caps : List (Nat × List Char))
    (hpost : post = [] ∨ ∃ w q, post = w :: q ∧ isSpace w = true) (i : Nat) :
    ((Re.group i (Re.alts [.space, .wordB, .eol])).m some ⟨l, post, caps⟩).isSome = true := by
  rcases hpost with h | ⟨w, q, h, hw⟩
  · subst h
    simp [Re.alts, m_group, m_alt, m_eol_nil, isSome_orElse]
  · subst h
    simp [Re.alts, m_group, m_alt, m_space, readIf_cons, hw, isSome_orElse]

theorem cmdRe_matchAt (syns : List String) (syn : String) (hsyn : syn ∈ syns)
    (post l : List Char) (hpost : post = [] ∨ ∃ w q, post = w :: q ∧ isSpace w = true)
    (caps : List (Nat × List Char)) :
    ((Re.seq (Re.group 2 (Re.alts (syns.map Re.lit)))
        (Re.group 3 (Re.alts [.space, .wordB, .eol]))).m some
      ⟨l, syn.toList ++ post, caps⟩).isSome = true := by
  rw [m_seq, m_group]
  apply alts_lits_isSome syn syns hsyn
  exact cmd_tail_isSome post _ _ hpost 3

theorem test_cmdRe (syns : List String) (syn : String) (hsyn : syn ∈ syns) (s : List Char)
    (h : Delimited syn.toList s) : test (cmdRe syns) s = true := by
  obtain ⟨pre, post, hs, hpre, hpost⟩ := h
  have hre : cmdRe syns = .seq (.group 1 (.alt .bol .space))
      (.seq (.group 2 (Re.alts (syns.map Re.lit)))
        (.group 3 (Re.alts [.space, .wordB, .eol]))) := rfl
  subst hs
  rcases hpre with h | ⟨p, w, h, hw⟩
  · subst h
    rw [List.nil_append]
    apply search_isSome _ _ [] []
    simp only [List.reverse_nil, List.nil_append, matchAt, hre]
    rw [m_seq, m_group, m_alt, isSome_orElse, Bool.or_eq_true]
    left
    rw [m_bol_nil]
    exact cmdRe_matchAt syns syn hsyn post _ hpost _
  · subst h
    rw [List.append_assoc, List.append_assoc]
    apply search_isSome _ _ p []
    simp only [List.singleton_append, List.append_nil, matchAt, hre]
    rw [m_seq, m_group, m_alt, isSome_orElse, Bool.or_eq_true]
    right
    rw [m_space, readIf_cons, if_pos hw]
    exact cmdRe_matchAt syns syn hsyn post _ hpost _

theorem clear_tail_isSome (post l : List Char) (caps : List (Nat × List Char))
    (hpost : post = [] ∨ ∃ w q, post = w :: q ∧ isSpace w = true) (x : Re) :
    ((Re.seq (Re.opt x) (Re.group 4 (.alt .eol .space))).m some ⟨l, post, caps⟩).isSome
      = true := by
  rw [m_seq, m_opt, isSome_orElse, Bool.or_eq_true]
  right
  rcases hpost with h | ⟨w, q, h, hw⟩
  · subst h
    simp [m_group, m_alt, m_eol_nil, isSome_orElse]
  · subst h
    simp [m_group, m_alt, m_space, readIf_cons, hw, isSome_orElse]

theorem test_cmdClearRe (syn : String) (hsyn : syn ∈ clearSynonyms) (s : List Char)
    (h : Delimited syn.toList s) : test cmdClearRe s = true := by
  obtain ⟨pre, post, hs, hpre, hpost⟩ := h
  have hre : cmdClearRe = .seq (.group 1 (.alt .bol .space))
      (.seq (.group 2 (Re.alts (clearSynonyms.map Re.lit)))
        (.seq (.opt (.group 3 (Re.alts [.eps, .seq .space (Re.lit "display"),
          .seq .space (Re.lit "screen")]))) (.group 4 (.alt .eol .space)))) := rfl
  have key : ∀ (l : List Char) (caps : List (Nat × List Char)),
      ((Re.seq (Re.group 2 (Re.alts (clearSynonyms.map Re.lit)))
        (.seq (.opt (.group 3 (Re.alts [.eps, .seq .space (Re.lit "display"),
          .seq .space (Re.lit "screen")]))) (.group 4 (.alt .eol .space)))).m some
        ⟨l, syn.toList ++ post, caps⟩).isSome = true := by
    intro l caps
    rw [m_seq, m_group]
    apply alts_lits_isSome syn clearSynonyms hsyn
    exact clear_tail_isSome post _ _ hpost _
  subst hs
  rcases hpre with h | ⟨p, w, h, hw⟩
  · subst h
    rw [List.nil_append]
    apply search_isSome _ _ [] []
    simp only [List.reverse_nil, List.nil_append, matchAt, hre]
    rw [m_seq, m_group, m_alt, isSome_orElse, Bool.or_eq_true]
    left
    rw [m_bol_nil]
    exact key _ _
  · subst h
    rw [List.append_assoc, List.append_assoc]
    apply search_isSome _ _ p []
    simp only [List.singleton_append, List.append_nil, matchAt, hre]
    rw [m_seq, m_group, m_alt, isSome_orElse, Bool.or_eq_true]
    right
    rw [m_space, readIf_cons, if_pos hw]
    exact key _ _

/-! ### Soundness of the over-approximating matcher -/

theorem denotes_lits_append (w : List Char) (segs : List Seg) (t : List Char)
    (h : Denotes segs t) : Denotes (lits w ++ segs) (w ++ t) := by
  induction w with
  | nil => exact h
  | cons c w ih => exact ⟨w ++ t, rfl, ih⟩

theorem aread_sound (p : Char → Bool) (ka : APrev × List Seg → Bool) (left : List Char)
    (d : Char) (hp : p d = true) :
    ∀ (segs : List Seg) (prev : APrev) (r : List Char), Denotes segs (d :: r) →
      aread p ka prev segs = false → ∃ a, Abs a (d :: left) r ∧ ka a = false := by
  intro segs
  induction segs with
  | nil => intro prev r h; simp [Denotes] at h
  | cons seg rest ih =>
    intro prev r h ha
    cases seg with
    | lit c =>
      obtain ⟨t, ht, hd⟩ := h
      have hc : d = c := (List.cons.inj ht).1
      have hr : r = t := (List.cons.inj ht).2
      subst hc; subst hr
      simp only [aread, hp, Bool.true_and] at ha
      exact ⟨(.ch d, rest), ⟨⟨left, rfl⟩, hd⟩, ha⟩
    | many alphabet =>
      obtain ⟨w, t, hs, hw, hd⟩ := h
      simp only [aread, Bool.or_eq_false_iff] at ha
      cases w with
      | nil =>
        have : t = d :: r := by simpa using hs.symm
        subst this
        exact ih prev r hd ha.2
      | cons e w =>
        have he : d = e := (List.cons.inj hs).1
        have hr : r = w ++ t := (List.cons.inj hs).2
        subst he; subst hr
        have hany : alphabet.any p = true :=
          List.any_eq_true.2 ⟨d, hw d (List.mem_cons_self _ _), hp⟩
        have hk : ka (.unk, .many alphabet :: rest) = false := by
          simpa [hany] using ha.1
        exact ⟨(.unk, .many alphabet :: rest),
          ⟨trivial, w, t, rfl, fun c hc => hw c (List.mem_cons_of_mem _ hc), hd⟩, hk⟩
    | words ws =>
      obtain ⟨w, t, hmem, hs, hd⟩ := h
      simp only [aread] at ha
      have hw := (List.any_eq_false.1 ha) w hmem
      cases w with
      | nil =>
        have : t = d :: r := by simpa using hs.symm
        subst this
        simp only [Bool.not_eq_true] at hw
        exact ih prev r hd hw
      | cons e w =>
        have he : d = e := (List.cons.inj hs).1
        have hr : r = w ++ t := (List.cons.inj hs).2
        subst he; subst hr
        simp only [hp, Bool.true_and, Bool.not_eq_true] at hw
        exact ⟨(.ch d, lits w ++ rest), ⟨⟨left, rfl⟩, denotes_lits_append w rest t hd⟩, hw⟩

theorem readIf_sound (p : Char → Bool) (ka : APrev × List Seg → Bool) (kr : St → Option St)
    (hk : ∀ a σ, Abs a σ.left σ.right → ka a = false → kr σ = none)
    (a : APrev × List Seg) (σ : St) (ha : Abs a σ.left σ.right)
    (h : aread p ka a.1 a.2 = false) : readIf p kr σ = none := by
  obtain ⟨left, right, caps⟩ := σ
  cases right with
  | nil => rfl
  | cons d r =>
    rw [readIf_cons]
    by_cases hp : p d = true
    · rw [if_pos hp]
      obtain ⟨a', ha', hka⟩ := aread_sound p ka left d hp a.2 a.1 r ha.2 h
      exact hk a' ⟨d :: left, r, caps⟩ ha' hka
    · rw [if_neg hp]

theorem canBeEmpty_of_denotes : ∀ (segs : List Seg), Denotes segs [] → canBeEmpty segs = true := by
  intro segs
  induction segs with
  | nil => intro _; rfl
  | cons seg rest ih =>
    intro h
    cases seg with
    | lit c =>
      obtain ⟨t, ht, _⟩ := h
      simp at ht
    | many alphabet =>
      obtain ⟨w, t, hs, _, hd⟩ := h
      have ht : t = [] := (List.append_eq_nil.1 hs.symm).2
      subst ht
      exact ih hd
    | words ws =>
      obtain ⟨w, t, hmem, hs, hd⟩ := h
      have hw : w = [] := (List.append_eq_nil.1 hs.symm).1
      have ht : t = [] := (List.append_eq_nil.1 hs.symm).2
      subst hw; subst ht
      simp only [canBeEmpty, Bool.and_eq_true]
      exact ⟨List.any_eq_true.2 ⟨[], hmem, rfl⟩, ih hd⟩

theorem nextMay_sound : ∀ (segs : List Seg) (right : List Char), Denotes segs right →
    nextMay (headIsWord right) segs = true := by
  intro segs
  induction segs with
  | nil =>
    intro right h
    have : right = [] := h
    subst this
    rfl
  | cons seg rest ih =>
    intro right h
    cases seg with
    | lit c =>
      obtain ⟨t, ht, _⟩ := h
      subst ht
      simp [nextMay, headIsWord]
    | many alphabet =>
      obtain ⟨w, t, hs, hw, hd⟩ := h
      cases w with
      | nil =>
        have : right = t := by simpa using hs
        subst this
        simp only [nextMay, Bool.or_eq_true]
        exact Or.inr (ih _ hd)
      | cons e w =>
        subst hs
        simp only [nextMay, Bool.or_eq_true, List.cons_append, headIsWord]
        left
        exact List.any_eq_true.2 ⟨e, hw e (List.mem_cons_self _ _), by simp⟩
    | words ws =>
      obtain ⟨w, t, hmem, hs, hd⟩ := h
      simp only [nextMay]
      refine List.any_eq_true.2 ⟨w, hmem, ?_⟩
      cases w with
      | nil =>
        have : right = t := by simpa using hs
        subst this
        exact ih _ hd
      | cons e w =>
        subst hs
        simp [headIsWord]

theorem prevMay_sound (prev : APrev) (left : List Char) (h : PrevOK prev left) :
    prevMay (headIsWord left) prev = true := by
  cases prev with
  | start =>
    have : left = [] := h
    subst this
    rfl
  | ch c =>
    obtain ⟨l, hl⟩ := h
    subst hl
    simp [prevMay, headIsWord]
  | unk => rfl

theorem mayWordB_sound (a : APrev × List Seg) (left right : List Char)
    (ha : Abs a left right) (h : atWordB left right = true) : mayWordB a.1 a.2 = true := by
  have h1 := prevMay_sound a.1 left ha.1
  have h2 := nextMay_sound a.2 right ha.2
  unfold atWordB at h
  unfold mayWordB
  generalize headIsWord left = x at h h1
  generalize headIsWord right = y at h h2
  cases x <;> cases y <;> simp_all

theorem aStar_sound (bodyA : (APrev × List Seg → Bool) → APrev × List Seg → Bool)
    (bodyR : (St → Option St) → St → Option St)
    (hbody : ∀ (ka : APrev × List Seg → Bool) (kr : St → Option St),
      (∀ a σ, Abs a σ.left σ.right → ka a = false → kr σ = none) →
      ∀ a σ, Abs a σ.left σ.right → bodyA ka a = false → bodyR kr σ = none)
    (ka : APrev × List Seg → Bool) (kr : St → Option St)
    (hk : ∀ a σ, Abs a σ.left σ.right → ka a = false → kr σ = none) :
    ∀ (n m : Nat) (a : APrev × List Seg) (σ : St), Abs a σ.left σ.right →
      aStar bodyA n ka a = false → starLoop bodyR m kr σ = none := by
  intro n
  induction n with
  | zero => intro m a σ _ h; simp [aStar] at h
  | succ n ihn =>
    intro m
    induction m with
    | zero =>
      intro a σ ha h
      simp only [aStar, Bool.or_eq_false_iff] at h
      exact hk a σ ha h.2
    | succ m ihm =>
      intro a σ ha h
      have h' := h
      simp only [aStar, Bool.or_eq_false_iff] at h'
      simp only [starLoop, orElse_eq_none]
      refine ⟨hbody _ _ ?_ a σ ha h'.1, hk a σ ha h'.2⟩
      intro t τ ht hkt
      by_cases hprog : τ.right.length < σ.right.length
      · rw [if_pos hprog]
        by_cases hta : t = a
        · subst hta
          exact ihm t τ ht h
        · rw [if_neg hta] at hkt
          exact ihn m t τ ht hkt
      · rw [if_neg hprog]

theorem may_sound (r : Re) :
    ∀ (ka : APrev × List Seg → Bool) (kr : St → Option St),
      (∀ a σ, Abs a σ.left σ.right → ka a = false → kr σ = none) →
      ∀ a σ, Abs a σ.left σ.right → r.may ka a = false → r.m kr σ = none := by
  induction r with
  | eps => intro ka kr hk a σ ha h; exact hk a σ ha h
  | chr c => intro ka kr hk a σ ha h; exact readIf_sound _ ka kr hk a σ ha h
  | cls neg items => intro ka kr hk a σ ha h; exact readIf_sound _ ka kr hk a σ ha h
  | digit => intro ka kr hk a σ ha h; exact readIf_sound _ ka kr hk a σ ha h
  | space => intro ka kr hk a σ ha h; exact readIf_sound _ ka kr hk a σ ha h
  | bol =>
    intro ka kr hk a σ ha h
    obtain ⟨left, right, caps⟩ := σ
    cases left with
    | nil =>
      rw [m_bol_nil]
      obtain ⟨prev, segs⟩ := a
      cases prev with
      | start => exact hk _ _ ha h
      | ch c =>
        obtain ⟨l, hl⟩ := ha.1
        simp at hl
      | unk => exact hk _ _ ha h
    | cons c l => rfl
  | eol =>
    intro ka kr hk a σ ha h
    obtain ⟨left, right, caps⟩ := σ
    cases right with
    | nil =>
      rw [m_eol_nil]
      have he : canBeEmpty a.2 = true := canBeEmpty_of_denotes a.2 ha.2
      have h2 : ka (a.1, []) = false := by
        have h' : (canBeEmpty a.2 && ka (a.1, [])) = false := h
        simpa [he] using h'
      exact hk (a.1, []) ⟨left, [], caps⟩ ⟨ha.1, rfl⟩ h2
    | cons c l => rfl
  | wordB =>
    intro ka kr hk a σ ha h
    rw [m_wordB]
    by_cases hb : atWordB σ.left σ.right = true
    · rw [if_pos hb]
      have hm := mayWordB_sound a σ.left σ.right ha hb
      have h' : (mayWordB a.1 a.2 && ka a) = false := h
      rw [hm, Bool.true_and] at h'
      exact hk a σ ha h'
    · rw [if_neg hb]
  | seq x y ihx ihy =>
    intro ka kr hk a σ ha h
    rw [m_seq]
    exact ihx (y.may ka) (y.m kr) (fun a' σ' ha' h' => ihy ka kr hk a' σ' ha' h') a σ ha h
  | alt x y ihx ihy =>
    intro ka kr hk a σ ha h
    have h' : (x.may ka a || y.may ka a) = false := h
    rw [Bool.or_eq_false_iff] at h'
    rw [m_alt, orElse_eq_none]
    exact ⟨ihx ka kr hk a σ ha h'.1, ihy ka kr hk a σ ha h'.2⟩
  | star x ih =>
    intro ka kr hk a σ ha h
    rw [m_star]
    exact aStar_sound x.may x.m ih ka kr hk _ _ a σ ha h
  | opt x ih =>
    intro ka kr hk a σ ha h
    have h' : (x.may (fun t => if t = a then false else ka t) a || ka a) = false := h
    rw [Bool.or_eq_false_iff] at h'
    rw [m_opt, orElse_eq_none]
    refine ⟨ih _ _ ?_ a σ ha h'.1, hk a σ ha h'.2⟩
    intro t τ ht hkt
    by_cases hprog : τ.right.length < σ.right.length
    · rw [if_pos hprog]
      by_cases hta : t = a
      · subst hta
        exact hk t τ ht h'.2
      · rw [if_neg hta] at hkt
        exact hk t τ ht hkt
    · rw [if_neg hprog]
  | group i x ih =>
    intro ka kr hk a σ ha h
    rw [m_group]
    exact ih ka (fun t => kr { t with
      caps := (i, σ.right.take (σ.right.length - t.right.length)) :: t.caps })
      (fun a' σ' ha' h' => hk a' _ ha' h') a σ ha h

theorem matchAt_none_of_may (r : Re) (a : APrev × List Seg) (left right : List Char)
    (ha : Abs a left right) (h : r.may (fun _ => true) a = false) :
    matchAt r left right = none :=
  may_sound r (fun _ => true) some (fun _ _ _ h' => by simp at h') a ⟨left, right, []⟩ ha h

/-! ### Strings in which a pattern cannot match -/

theorem wordPositions_cover (rest : List Seg) (t : List Char) (ht : Denotes rest t) :
    ∀ (u x : List Char) (prev : APrev) (left : List Char), x ≠ [] → PrevOK prev left →
      ∃ a ∈ wordPositions rest prev (u ++ x), Abs a (u.reverse ++ left) (x ++ t) := by
  intro u
  induction u with
  | nil =>
    intro x prev left hx hp
    cases x with
    | nil => exact absurd rfl hx
    | cons c x =>
      exact ⟨(prev, lits (c :: x) ++ rest), List.mem_cons_self _ _,
        hp, denotes_lits_append (c :: x) rest t ht⟩
  | cons e u ih =>
    intro x prev left hx hp
    obtain ⟨a, hmem, ha⟩ := ih x (.ch e) (e :: left) hx ⟨left, rfl⟩
    refine ⟨a, List.mem_cons_of_mem _ hmem, ?_⟩
    simpa using ha

theorem positions_cover :
    ∀ (segs : List Seg) (u v : List Char) (prev : APrev) (left : List Char),
      Denotes segs (u ++ v) → PrevOK prev left →
      ∃ a ∈ positions prev segs, Abs a (u.reverse ++ left) v := by
  intro segs
  induction segs with
  | nil =>
    intro u v prev left h hp
    have hu : u = [] := (List.append_eq_nil.1 h).1
    have hv : v = [] := (List.append_eq_nil.1 h).2
    subst hu; subst hv
    exact ⟨(prev, []), List.mem_singleton_self _, hp, rfl⟩
  | cons seg rest ih =>
    intro u v prev left h hp
    cases seg with
    | lit c =>
      obtain ⟨t, ht, hd⟩ := h
      cases u with
      | nil =>
        exact ⟨(prev, .lit c :: rest), List.mem_cons_self _ _, hp, t, ht, hd⟩
      | cons e u =>
        have he : e = c := (List.cons.inj ht).1
        have hr : u ++ v = t := (List.cons.inj ht).2
        subst he; subst hr
        obtain ⟨a, hmem, ha⟩ := ih u v (.ch e) (e :: left) hd ⟨left, rfl⟩
        refine ⟨a, List.mem_cons_of_mem _ hmem, ?_⟩
        simpa using ha
    | many alphabet =>
      obtain ⟨w, t, hs, hw, hd⟩ := h
      rcases List.append_eq_append_iff.1 hs with ⟨x, hx1, hx2⟩ | ⟨u', hu1, hu2⟩
      · -- `u` ends inside the run `w`
        have hv : Denotes (.many alphabet :: rest) v :=
          ⟨x, t, hx2, fun c hc => hw c (by rw [hx1]; exact List.mem_append_right _ hc), hd⟩
        cases u with
        | nil =>
          exact ⟨(prev, .many alphabet :: rest), List.mem_cons_self _ _, hp, hv⟩
        | cons e u =>
          exact ⟨(.unk, .many alphabet :: rest),
            List.mem_cons_of_mem _ (List.mem_cons_self _ _), trivial, hv⟩
      · -- `u` reaches beyond the run `w`
        subst hu1
        rw [hu2] at hd
        obtain ⟨a, hmem, ha⟩ := ih u' v .unk (w.reverse ++ left) hd trivial
        refine ⟨a, List.mem_cons_of_mem _ (List.mem_cons_of_mem _ hmem), ?_⟩
        simpa using ha
    | words ws =>
      obtain ⟨w, t, hmem, hs, hd⟩ := h
      rcases List.append_eq_append_iff.1 hs with ⟨x, hx1, hx2⟩ | ⟨u', hu1, hu2⟩
      · by_cases hx : x = []
        · subst hx
          have hwu : w = u := by simpa using hx1
          have hvt : v = t := by simpa using hx2
          subst hwu; subst hvt
          obtain ⟨a, hmem', ha⟩ := ih [] v .unk (w.reverse ++ left) hd trivial
          refine ⟨a, ?_, by simpa using ha⟩
          simp only [positions, List.mem_cons, List.mem_append]
          tauto
        · obtain ⟨a, hmem', ha⟩ := wordPositions_cover rest t hd u x prev left hx hp
          refine ⟨a, ?_, by rw [hx2]; exact ha⟩
          have hfl : a ∈ (ws.map (wordPositions rest prev)).flatten :=
            List.mem_flatten.2 ⟨_, List.mem_map.2 ⟨w, hmem, rfl⟩, by rw [hx1]; exact hmem'⟩
          simp only [positions, List.mem_cons, List.mem_append]
          tauto
      · subst hu1
        rw [hu2] at hd
        obtain ⟨a, hmem', ha⟩ := ih u' v .unk (w.reverse ++ left) hd trivial
        refine ⟨a, ?_, by simpa using ha⟩
        simp only [positions, List.mem_cons, List.mem_append]
        tauto

theorem scan_keep_of_no_match (r : Re) :
    ∀ (right : List Char) (n : Nat) (left : List Char),
      (∀ u v, right = u ++ v → matchAt r (u.reverse ++ left) v = none) →
      scan r n left right = right.map Piece.keep := by
  intro right
  induction right with
  | nil =>
    intro n left h
    cases n with
    | zero => rfl
    | succ n =>
      have h0 := h [] [] rfl
      simp only [List.reverse_nil, List.nil_append] at h0
      simp [scan, h0]
  | cons c rest ih =>
    intro n left h
    cases n with
    | zero => rfl
    | succ n =>
      have h0 := h [] (c :: rest) rfl
      simp only [List.reverse_nil, List.nil_append] at h0
      simp only [scan, h0, List.map_cons]
      congr 1
      apply ih
      intro u v huv
      have := h (c :: u) v (by rw [huv]; rfl)
      simpa using this

theorem search_none_of_no_match (r : Re) :
    ∀ (right : List Char) (left : List Char),
      (∀ u v, right = u ++ v → matchAt r (u.reverse ++ left) v = none) →
      search r left right = none := by
  intro right
  induction right with
  | nil =>
    intro left h
    have h0 := h [] [] rfl
    simpa [search] using h0
  | cons c rest ih =>
    intro left h
    have h0 := h [] (c :: rest) rfl
    simp only [List.reverse_nil, List.nil_append] at h0
    simp only [search, h0, orElse_none_left]
    apply ih
    intro u v huv
    have := h (c :: u) v (by rw [huv]; rfl)
    simpa using this

theorem no_match_of_mayMatch (r : Re) (segs : List Seg) (s : List Char)
    (hs : Denotes segs s) (h : mayMatch r segs = false) :
    ∀ u v, s = u ++ v → matchAt r (u.reverse ++ []) v = none := by
  intro u v huv
  subst huv
  obtain ⟨a, hmem, ha⟩ := positions_cover segs u v .start [] hs rfl
  have hf := (List.any_eq_false.1 h) a hmem
  exact matchAt_none_of_may r a _ _ ha (by simpa using hf)

theorem pieces_of_mayMatch (r : Re) (segs : List Seg) (s : List Char)
    (hs : Denotes segs s) (h : mayMatch r segs = false) :
    pieces r s = s.map Piece.keep :=
  scan_keep_of_no_match r s _ [] (no_match_of_mayMatch r segs s hs h)

theorem test_of_mayMatch (r : Re) (segs : List Seg) (s : List Char)
    (hs : Denotes segs s) (h : mayMatch r segs = false) : test r s = false := by
  unfold test
  rw [search_none_of_no_match r s [] (no_match_of_mayMatch r segs s hs h)]
  rfl

/-! ### Scanning a string with one match -/

theorem denotes_append :
    ∀ (segs rest : List Seg) (x y : List Char), Denotes segs x → Denotes rest y →
      Denotes (segs ++ rest) (x ++ y) := by
  intro segs
  induction segs with
  | nil =>
    intro rest x y hx hy
    have : x = [] := hx
    subst this
    exact hy
  | cons seg segs ih =>
    intro rest x y hx hy
    cases seg with
    | lit c =>
      obtain ⟨t, ht, hd⟩ := hx
      subst ht
      exact ⟨t ++ y, rfl, ih rest t y hd hy⟩
    | many alphabet =>
      obtain ⟨w, t, hs, hw, hd⟩ := hx
      subst hs
      exact ⟨w, t ++ y, by simp, hw, ih rest t y hd hy⟩
    | words ws =>
      obtain ⟨w, t, hmem, hs, hd⟩ := hx
      subst hs
      exact ⟨w, t ++ y, hmem, by simp, ih rest t y hd hy⟩

theorem denotes_lits (w : List Char) : Denotes (lits w) w := by
  have := denotes_lits_append w [] [] rfl
  simpa using this

theorem no_match_of_mayMatchIn (r : Re) (prev : APrev) (segs rest : List Seg)
    (left u v : List Char) (hp : PrevOK prev left) (hu : Denotes segs u)
    (hv : Denotes rest v) (h : mayMatchIn r prev segs rest = false) :
    ∀ u1 c u2, u = u1 ++ c :: u2 → matchAt r (u1.reverse ++ left) (c :: u2 ++ v) = none := by
  intro u1 c u2 hsplit
  subst hsplit
  obtain ⟨a, hmem, ha⟩ := positions_cover segs u1 (c :: u2) prev left hu hp
  have hne : a.2.isEmpty = false := by
    cases hseg : a.2 with
    | nil =>
      have hd : Denotes a.2 (c :: u2) := ha.2
      rw [hseg] at hd
      simp [Denotes] at hd
    | cons x xs => rfl
  have hin : (a.1, a.2 ++ rest) ∈ positionsIn prev segs rest := by
    unfold positionsIn
    refine List.mem_map.2 ⟨a, List.mem_filter.2 ⟨hmem, by simp [hne]⟩, rfl⟩
  have hf := (List.any_eq_false.1 h) _ hin
  exact matchAt_none_of_may r (a.1, a.2 ++ rest) _ _
    ⟨ha.1, denotes_append a.2 rest (c :: u2) v ha.2 hv⟩ (by simpa using hf)

theorem no_match_of_mayMatchAfter (r : Re) (prev : APrev) (segs : List Seg)
    (left s : List Char) (hp : PrevOK prev left) (hs : Denotes segs s)
    (h : mayMatchAfter r prev segs = false) :
    ∀ u v, s = u ++ v → matchAt r (u.reverse ++ left) v = none := by
  intro u v huv
  subst huv
  obtain ⟨a, hmem, ha⟩ := positions_cover segs u v prev left hs hp
  have hf := (List.any_eq_false.1 h) a hmem
  exact matchAt_none_of_may r a _ _ ha (by simpa using hf)

theorem scan_skip (r : Re) (rest : List Char) :
    ∀ (u : List Char) (n : Nat) (left : List Char),
      (∀ u1 c u2, u = u1 ++ c :: u2 →
        matchAt r (u1.reverse ++ left) (c :: u2 ++ rest) = none) →
      scan r (n + u.length) left (u ++ rest)
        = u.map Piece.keep ++ scan r n (u.reverse ++ left) rest := by
  intro u
  induction u with
  | nil => intro n left _; rfl
  | cons c u ih =>
    intro n left h
    have h0 : matchAt r left (c :: (u ++ rest)) = none := by
      have := h [] c u rfl
      simpa using this
    have hn : n + (c :: u).length = (n + u.length) + 1 := by simp [Nat.add_assoc]
    have hrec : scan r (n + u.length) (c :: left) (u ++ rest)
        = u.map Piece.keep ++ scan r n (u.reverse ++ (c :: left)) rest := by
      apply ih n (c :: left)
      intro u1 d u2 hsplit
      have := h (c :: u1) d u2 (by rw [hsplit]; rfl)
      simpa using this
    rw [hn]
    simp only [List.cons_append, scan, h0, List.map_cons, hrec, List.reverse_cons,
      List.append_assoc, List.singleton_append, List.nil_append]

theorem scan_hit (r : Re) (n : Nat) (left right : List Char) (t : St)
    (h : matchAt r left right = some t) (hlt : t.right.length < right.length) :
    scan r (n + 1) left right
      = .hit (right.take (right.length - t.right.length)) t.caps :: scan r n t.left t.right := by
  simp only [scan, h, hlt, if_true]

theorem pieces_one_hit (r : Re) (u m v left : List Char) (caps : List (Nat × List Char))
    (hm : m ≠ [])
    (hu : ∀ u1 c u2, u = u1 ++ c :: u2 →
      matchAt r (u1.reverse ++ []) (c :: u2 ++ (m ++ v)) = none)
    (hhit : matchAt r (u.reverse ++ []) (m ++ v) = some ⟨left, v, caps⟩)
    (hv : ∀ v1 v2, v = v1 ++ v2 → matchAt r (v1.reverse ++ left) v2 = none) :
    pieces r (u ++ (m ++ v)) = u.map Piece.keep ++ .hit m caps :: v.map Piece.keep := by
  unfold pieces
  have hlen : (u ++ (m ++ v)).length + 1 = ((v.length + 1) + m.length) + u.length := by
    simp only [List.length_append]; omega
  rw [hlen, scan_skip r (m ++ v) u _ [] hu]
  have hlt : v.length < (m ++ v).length := by
    cases m with
    | nil => exact absurd rfl hm
    | cons a m => simp only [List.length_append, List.length_cons]; omega
  have hfuel : (v.length + 1) + m.length = (v.length + m.length) + 1 := by omega
  rw [hfuel, scan_hit r _ _ (m ++ v) ⟨left, v, caps⟩ hhit hlt]
  have htake : (m ++ v).take ((m ++ v).length - v.length) = m := by
    simp
  simp only [htake]
  rw [scan_keep_of_no_match r v _ left hv]

/-! ### Matches that succeed on their preferred path -/

theorem greedyRun_cons (p : Char → Bool) (k : St → Option St)
    (caps : List (Nat × List Char)) (left : List Char) (c : Char) (r : List Char) :
    greedyRun p k caps left (c :: r)
      = if p c then orElse (greedyRun p k caps (c :: left) r) (k ⟨left, c :: r, caps⟩)
        else k ⟨left, c :: r, caps⟩ := rfl

theorem orElse_of_isSome (x y : Option St) (h : x.isSome = true) : orElse x y = x := by
  cases x with
  | none => simp at h
  | some r => rfl

theorem greedyRun_run (p : Char → Bool) (k : St → Option St) (caps : List (Nat × List Char))
    (rest : List Char) (hrest : HeadNot p rest) :
    ∀ (ws left : List Char), (∀ c ∈ ws, p c = true) →
      (k ⟨ws.reverse ++ left, rest, caps⟩).isSome = true →
      greedyRun p k caps left (ws ++ rest) = k ⟨ws.reverse ++ left, rest, caps⟩ := by
  intro ws
  induction ws with
  | nil =>
    intro left _ _
    cases rest with
    | nil => rfl
    | cons c r =>
      show greedyRun p k caps left (c :: r) = _
      rw [greedyRun_cons, if_neg (by simp [hrest c r rfl])]
      rfl
  | cons c ws ih =>
    intro left hws hk
    have hc : p c = true := hws c (List.mem_cons_self _ _)
    have hk' : (k ⟨ws.reverse ++ (c :: left), rest, caps⟩).isSome = true := by
      simpa using hk
    have hrec := ih (c :: left) (fun d hd => hws d (List.mem_cons_of_mem _ hd)) hk'
    show greedyRun p k caps left (c :: (ws ++ rest)) = _
    rw [greedyRun_cons, if_pos hc, hrec, orElse_of_isSome _ _ hk']
    simp

theorem star_run (a : Re) (p : Char → Bool) (ha : a.m = readIf p) (k : St → Option St)
    (caps : List (Nat × List Char)) (ws rest left : List Char) (hws : ∀ c ∈ ws, p c = true)
    (hrest : HeadNot p rest)
    (hk : (k ⟨ws.reverse ++ left, rest, caps⟩).isSome = true) :
    (Re.star a).m k ⟨left, ws ++ rest, caps⟩ = k ⟨ws.reverse ++ left, rest, caps⟩ := by
  rw [m_star_readIf a p ha]
  exact greedyRun_run p k caps rest hrest ws left hws hk

theorem digitsRe_run (k : St → Option St) (caps : List (Nat × List Char))
    (ds rest left : List Char) (hds : Digits ds) (hrest : HeadNot isDigit rest)
    (hk : (k ⟨ds.reverse ++ left, rest, caps⟩).isSome = true) :
    digitsRe.m k ⟨left, ds ++ rest, caps⟩ = k ⟨ds.reverse ++ left, rest, caps⟩ := by
  obtain ⟨hne, hall⟩ := hds
  cases ds with
  | nil => exact absurd rfl hne
  | cons d ds =>
    have hd : isDigit d = true := hall d (List.mem_cons_self _ _)
    show (Re.seq .digit (.star .digit)).m k ⟨left, d :: ds ++ rest, caps⟩ = _
    rw [m_seq, m_digit]
    simp only [List.cons_append, readIf_cons, hd, if_true]
    rw [star_run .digit isDigit rfl k caps ds rest (d :: left)
      (fun c hc => hall c (List.mem_cons_of_mem _ hc)) hrest (by simpa using hk)]
    simp

theorem take_length_sub (x y : List Char) : (x ++ y).take ((x ++ y).length - y.length) = x := by
  simp

theorem isDigit_dot : isDigit '.' = false := by decide

theorem numRe_run (i j : Nat) (k : St → Option St) (caps : List (Nat × List Char))
    (n rest left : List Char) (hn : Numeral n) (hrest : HeadNot isDigit rest)
    (hdot : HeadNot (fun c => c == '.') rest)
    (hk : ∀ extra, (k ⟨n.reverse ++ left, rest, (i, n) :: (extra ++ caps)⟩).isSome = true) :
    ∃ extra, (numRe i j).m k ⟨left, n ++ rest, caps⟩
      = k ⟨n.reverse ++ left, rest, (i, n) :: (extra ++ caps)⟩ := by
  obtain ⟨ds, hds, hcase⟩ := hn
  unfold numRe
  rw [m_group, m_seq]
  rcases hcase with h | ⟨fs, hfs, h⟩
  · -- no fractional part
    subst h
    refine ⟨[], ?_⟩
    have hnone : ∀ k' : St → Option St, (Re.group j (.seq (.chr '.') digitsRe)).m k'
        ⟨n.reverse ++ left, rest, caps⟩ = none := by
      intro k'
      rw [m_group, m_seq, m_chr]
      cases rest with
      | nil => rfl
      | cons c r =>
        rw [readIf_cons, if_neg]
        simpa using hdot c r rfl
    have hopt : ∀ k' : St → Option St, (Re.opt (Re.group j (.seq (.chr '.') digitsRe))).m k'
        ⟨n.reverse ++ left, rest, caps⟩ = k' ⟨n.reverse ++ left, rest, caps⟩ := by
      intro k'
      rw [m_opt, hnone, orElse_none_left]
    rw [digitsRe_run _ caps n rest left hds hrest]
    · rw [hopt]
      simp only [take_length_sub, List.nil_append]
    · rw [hopt]
      simp only [take_length_sub]
      exact hk []
  · -- a fractional part
    subst h
    refine ⟨[(j, '.' :: fs)], ?_⟩
    have hrest1 : HeadNot isDigit ('.' :: fs ++ rest) := by
      intro c r hc
      have : c = '.' := ((List.cons.inj hc).1).symm
      subst this
      exact isDigit_dot
    have happ : ds ++ '.' :: fs ++ rest = ds ++ ('.' :: fs ++ rest) := by simp
    have h1 : ('.' :: (fs ++ rest)).take (('.' :: (fs ++ rest)).length - rest.length)
        = '.' :: fs := by
      have := take_length_sub ('.' :: fs) rest
      simpa using this
    have h2 : (ds ++ ('.' :: fs ++ rest)).take
        ((ds ++ ('.' :: fs ++ rest)).length - rest.length) = ds ++ '.' :: fs := by
      have := take_length_sub (ds ++ '.' :: fs) rest
      simpa using this
    have hlt : rest.length < ('.' :: fs ++ rest).length := by
      simp only [List.cons_append, List.length_cons, List.length_append]; omega
    have hfinal := hk [(j, '.' :: fs)]
    have hrev : fs.reverse ++ ('.' :: (ds.reverse ++ left))
        = (ds ++ '.' :: fs).reverse ++ left := by simp
    have hopt : ∀ k' : St → Option St,
        (k' ⟨fs.reverse ++ ('.' :: (ds.reverse ++ left)), rest,
          (j, '.' :: fs) :: caps⟩).isSome = true →
        (Re.opt (Re.group j (.seq (.chr '.') digitsRe))).m k'
          ⟨ds.reverse ++ left, '.' :: fs ++ rest, caps⟩
        = k' ⟨fs.reverse ++ ('.' :: (ds.reverse ++ left)), rest, (j, '.' :: fs) :: caps⟩ := by
      intro k' hk'
      rw [m_opt, m_group, m_seq, m_chr]
      simp only [List.cons_append, readIf_cons, beq_self_eq_true, if_true]
      have hlt' : rest.length < ('.' :: (fs ++ rest)).length := by simpa using hlt
      rw [digitsRe_run _ caps fs rest ('.' :: (ds.reverse ++ left)) hfs hrest]
      · simp only [hlt', if_true, h1]
        exact orElse_of_isSome _ _ hk'
      · simp only [hlt', if_true, h1]
        exact hk'
    rw [happ, digitsRe_run _ caps ds ('.' :: fs ++ rest) left hds hrest1]
    · rw [hopt]
      · simp only [h2, hrev]
        rfl
      · simp only [h2, hrev]
        exact hfinal
    · rw [hopt]
      · simp only [h2, hrev]
        exact hfinal
      · simp only [h2, hrev]
        exact hfinal

/-! ### Numerals -/

theorem numeral_ne_nil (n : List Char) (hn : Numeral n) : n ≠ [] := by
  obtain ⟨ds, ⟨hne, _⟩, h | ⟨fs, _, h⟩⟩ := hn
  · subst h; exact hne
  · subst h; simp

theorem numeral_chars (n : List Char) (hn : Numeral n) :
    ∀ c ∈ n, c ∈ "0123456789.".toList := by
  have hdig : ∀ c, isDigit c = true → c ∈ "0123456789.".toList := by
    intro c hc
    have := (isDigit_iff c).1 hc
    have hsub : ∀ d ∈ "0123456789".toList, d ∈ "0123456789.".toList := by decide
    exact hsub c this
  obtain ⟨ds, ⟨_, hds⟩, h | ⟨fs, ⟨_, hfs⟩, h⟩⟩ := hn
  · subst h
    intro c hc
    exact hdig c (hds c hc)
  · subst h
    intro c hc
    rcases List.mem_append.1 hc with h1 | h1
    · exact hdig c (hds c h1)
    · rcases List.mem_cons.1 h1 with h2 | h2
      · subst h2; decide
      · exact hdig c (hfs c h2)

theorem isWordChar_of_isDigit (c : Char) (h : isDigit c = true) : isWordChar c = true := by
  simp [isWordChar, h]

theorem getLast_isDigit (n : List Char) (hn : Numeral n) :
    ∃ init d, n = init ++ [d] ∧ isDigit d = true := by
  obtain ⟨ds, ⟨hne, hds⟩, h | ⟨fs, ⟨hfne, hfs⟩, h⟩⟩ := hn
  · subst h
    refine ⟨n.dropLast, n.getLast hne, (List.dropLast_append_getLast hne).symm, ?_⟩
    exact hds _ (List.getLast_mem hne)
  · subst h
    refine ⟨ds ++ '.' :: fs.dropLast, fs.getLast hfne, ?_, hfs _ (List.getLast_mem hfne)⟩
    rw [List.append_assoc, List.cons_append, List.dropLast_append_getLast hfne]

theorem headIsWord_reverse_numeral (n l : List Char) (hn : Numeral n) :
    headIsWord (n.reverse ++ l) = true := by
  obtain ⟨init, d, h, hd⟩ := getLast_isDigit n hn
  subst h
  simp [headIsWord, isWordChar_of_isDigit d hd]

/-! ### Scanning with a one-character pattern -/

theorem matchAt_chr (c : Char) (left right : List Char) :
    matchAt (.chr c) left right =
      match right with
      | d :: r => if d == c then some ⟨d :: left, r, []⟩ else none
      | [] => none := by
  cases right <;> simp [matchAt, Re.m, readIf, St.step]

theorem hits_scan_chr (c : Char) (right : List Char) :
    ∀ (n : Nat) (left : List Char), right.length < n →
      hits (scan (.chr c) n left right) = right.count c := by
  induction right with
  | nil =>
    intro n left hn
    cases n with
    | zero => simp at hn
    | succ n => simp [scan, matchAt_chr, hits]
  | cons d r ih =>
    intro n left hn
    cases n with
    | zero => simp at hn
    | succ n =>
      have hn2 : r.length < n := by simpa using hn
      by_cases h : d = c
      · subst h
        simp [scan, matchAt_chr, hits, ih n _ hn2]
      · have h2 : (d == c) = false := by simpa using h
        simp [scan, matchAt_chr, hits, ih n _ hn2, h2, List.count_cons, h]

theorem matchCount_chr (c : Char) (s : List Char) : matchCount (.chr c) s = s.count c :=
  hits_scan_chr c s _ [] (Nat.lt_succ_self _)

theorem balanceParentheses_eq (e : List Char) :
    balanceParentheses e = e ++ List.replicate (e.count '(' - e.count ')') ')' := by
  unfold balanceParentheses
  simp only [matchCount_chr]
  split
  · rfl
  · next h =>
    have : e.count '(' - e.count ')' = 0 := by omega
    simp [this]

/-! ### The history -/

theorem addToHistory_eq (now : List Char) (h : List HistoryItem) (e r : List Char) :
    addToHistory now h e r = (⟨e, r, now⟩ :: h).take 50 := by
  unfold addToHistory
  simp only
  split
  · rfl
  · next hlen => exact (List.take_of_length_le (by omega)).symm

theorem addAll_eq (items : List HistoryItem) :
    ∀ h : List HistoryItem, h.length ≤ 50 → addAll h items = (items.reverse ++ h).take 50 := by
  induction items with
  | nil => intro h hh; simp [addAll, List.take_of_length_le hh]
  | cons it rest ih =>
    intro h hh
    have hstep : addAll h (it :: rest)
        = addAll (addToHistory it.timestamp h it.expression it.result) rest := rfl
    rw [hstep, addToHistory_eq, ih _ (by simp [List.length_take])]
    have hit : (⟨it.expression, it.result, it.timestamp⟩ : HistoryItem) = it := rfl
    rw [hit, List.reverse_cons, List.append_assoc]
    simp only [List.singleton_append]
    rw [List.take_append_eq_append_take,
      @List.take_append_eq_append_take _ rest.reverse (it :: h) 50]
    congr 1
    rw [List.take_take]
    congr 1
    omega

/-! ### Texts handed to the host evaluator -/

theorem render_keep (repl : List Char → List (Nat × List Char) → List Char) (s : List Char) :
    render repl (s.map Piece.keep) = s := by
  induction s with
  | nil => rfl
  | cons c s ih => simp [render, ih]

theorem replaceAll_of_mayMatch (r : Re) (template : String) (segs : List Seg)
    (s : List Char) (hs : Denotes segs s) (h : mayMatch r segs = false) :
    replaceAll r template s = s := by
  unfold replaceAll replaceWith
  rw [pieces_of_mayMatch r segs s hs h, render_keep]

theorem runPasses_of_mayMatch (segs : List Seg) (s : List Char) (hs : Denotes segs s) :
    ∀ (ps : List Pass), (ps.any fun p => mayMatch p.re segs) = false → runPasses ps s = s := by
  intro ps
  induction ps with
  | nil => intro _; rfl
  | cons p ps ih =>
    intro h
    simp only [List.any_cons, Bool.or_eq_false_iff] at h
    have hstep : runPasses (p :: ps) s = runPasses ps (replaceAll p.re p.template s) := rfl
    rw [hstep, replaceAll_of_mayMatch p.re p.template segs s hs h.1]
    exact ih h.2

set_option maxRecDepth 100000 in
theorem delegated_sqrt4 {V : Type} (host : Host V) (settings : Settings) :
    delegated host settings "sqrt(4".toList = "Math.sqrt(4)".toList := by
  have h1 : runPasses glyphPasses "sqrt(4".toList = "sqrt(4".toList := by decide!
  have h2 : pieces trigRe "sqrt(4".toList = ("sqrt(4".toList).map Piece.keep := by decide!
  have h3 : replaceAll trigOpenRe "Math.$1(" "sqrt(4".toList = "sqrt(4".toList := by decide!
  have h4 : evaluatedString (balanceParentheses (runPasses namePasses "sqrt(4".toList))
      = "Math.sqrt(4)".toList := by decide!
  unfold delegated prepare
  simp only [h1]
  cases settings.angleUnit
  · simp only [replaceWith, h2, render_keep, h4]
  · simp only [h3, h4]

set_option maxRecDepth 100000 in
theorem delegated_constant {V : Type} (host : Host V) (settings : Settings) :
    delegated host settings "PI".toList = "Math.Math.PI".toList
    ∧ delegated host settings "E".toList = "Math.Math.E".toList := by
  have p1 : runPasses glyphPasses "PI".toList = "Math.PI".toList := by decide!
  have p2 : pieces trigRe "Math.PI".toList = ("Math.PI".toList).map Piece.keep := by decide!
  have p3 : replaceAll trigOpenRe "Math.$1(" "Math.PI".toList = "Math.PI".toList := by
    decide!
  have p4 : evaluatedString (balanceParentheses (runPasses namePasses "Math.PI".toList))
      = "Math.Math.PI".toList := by decide!
  have e1 : runPasses glyphPasses "E".toList = "Math.E".toList := by decide!
  have e2 : pieces trigRe "Math.E".toList = ("Math.E".toList).map Piece.keep := by decide!
  have e3 : replaceAll trigOpenRe "Math.$1(" "Math.E".toList = "Math.E".toList := by decide!
  have e4 : evaluatedString (balanceParentheses (runPasses namePasses "Math.E".toList))
      = "Math.Math.E".toList := by decide!
  unfold delegated prepare
  simp only [p1, e1]
  cases settings.angleUnit
  · simp only [replaceWith, p2, e2, render_keep, p4, e4, and_self]
  · simp only [p3, e3, p4, e4, and_self]

/-- C4 (as the code behaves): in degrees mode, with the argument `(90)` evaluated in
strict mode by the host to a finite number printed as `90`, the text that `calculate` hands to the host
evaluator for `sin(90)` is `Math.sin(90*Math.Math.PI/180)`: the constant `PI` of the
rewritten call is substituted a second time by `evaluateExpression`, the gate lets the
text through, and when the host throws on it `calculate` reports an invalid expression
and leaves the state as it was, instead of yielding 1. -/
theorem degrees_sin90_delegates_broken_text {V : Type} (host : Host V) (dp : Nat)
    (now : List Char) (c : Calc) (v : V)
    (harg : host.runStrict "(90)".toList = some v) (hfin : host.isFiniteNumber v = true)
    (hstr : host.toStr v = "90".toList)
    (hthrow : host.run "Math.sin(90*Math.Math.PI/180)".toList = none)
    (hc : c.currentExpression = "sin(90)".toList) :
    delegated host ⟨dp, .degrees⟩ "sin(90)".toList = "Math.sin(90*Math.Math.PI/180)".toList
    ∧ gateAccepts "Math.sin(90*Math.Math.PI/180)".toList = true
    ∧ calculate host ⟨dp, .degrees⟩ now c = (c, .invalidExpression) := by
  have h1 : runPasses glyphPasses "sin(90)".toList = "sin(90)".toList := by decide!
  have h2 : pieces trigRe "sin(90)".toList
      = [.hit "sin(90)".toList [(2, "90".toList), (1, "sin".toList)]] := by decide!
  have h3 : '(' :: capOf [(2, "90".toList), (1, "sin".toList)] 2 ++ [')'] = "(90)".toList := by
    decide!
  have h4 : evaluatedString (balanceParentheses (runPasses namePasses
      ("Math.".toList ++ capOf [(2, "90".toList), (1, "sin".toList)] 1
        ++ '(' :: "90".toList ++ " * Math.PI / 180)".toList ++ [])))
      = "Math.sin(90*Math.Math.PI/180)".toList := by decide!
  have hg : gateAccepts "Math.sin(90*Math.Math.PI/180)".toList = true := by decide!
  have hd : delegated host ⟨dp, .degrees⟩ "sin(90)".toList
      = "Math.sin(90*Math.Math.PI/180)".toList := by
    show evaluatedString (balanceParentheses (runPasses namePasses
      (render (trigDegrees host) (pieces trigRe (runPasses glyphPasses "sin(90)".toList))))) = _
    rw [h1, h2]
    show evaluatedString (balanceParentheses (runPasses namePasses
      (trigDegrees host "sin(90)".toList [(2, "90".toList), (1, "sin".toList)] ++ []))) = _
    unfold trigDegrees
    rw [h3, harg]
    simp only [hfin, if_true, hstr]
    exact h4
  refine ⟨hd, hg, ?_⟩
  have he : evaluatedString (prepare host ⟨dp, .degrees⟩ "sin(90)".toList)
      = "Math.sin(90*Math.Math.PI/180)".toList := hd
  unfold calculate evaluateExpression
  rw [hc, he, hg]
  simp only [if_true, hthrow, List.isEmpty_cons, Bool.false_eq_true, if_false]
  rfl

set_option maxRecDepth 100000 in
/-- Witness for C4: a host that evaluates `(90)` to 90 and throws on every other text. -/
theorem degrees_sin90_delegates_broken_text_witness :
    delegated (tableHost [("(90)", 90)]) ⟨2, .degrees⟩ "sin(90)".toList
      = "Math.sin(90*Math.Math.PI/180)".toList
    ∧ gateAccepts "Math.sin(90*Math.Math.PI/180)".toList = true
    ∧ calculate (tableHost [("(90)", 90)]) ⟨2, .degrees⟩ [] ⟨"sin(90)".toList, ['0'], []⟩
      = (⟨"sin(90)".toList, ['0'], []⟩, .invalidExpression) :=
  degrees_sin90_delegates_broken_text (tableHost [("(90)", 90)]) 2 []
    ⟨"sin(90)".toList, ['0'], []⟩ 90 (by decide!) (by decide!) (by decide!) (by decide!)
    (by decide!)

/-- C10 (as the code behaves): for the expressions `PI` and `E` the text that `calculate`
hands to the host evaluator is `Math.Math.PI` and `Math.Math.E`: the constant is
substituted once by `calculate` and once more by `evaluateExpression`, the gate accepts
both texts, and nothing of the form `Math.PI` or `Math.E` alone reaches the host. -/
theorem constants_are_substituted_twice {V : Type} (host : Host V) (settings : Settings) :
    delegated host settings "PI".toList = "Math.Math.PI".toList
    ∧ delegated host settings "E".toList = "Math.Math.E".toList
    ∧ gateAccepts "Math.Math.PI".toList = true
    ∧ gateAccepts "Math.Math.E".toList = true
    ∧ evaluateExpression host (prepare host settings "PI".toList)
        = host.run "Math.Math.PI".toList
    ∧ evaluateExpression host (prepare host settings "E".toList)
        = host.run "Math.Math.E".toList := by
  have hp : evaluatedString (prepare host settings "PI".toList) = "Math.Math.PI".toList :=
    (delegated_constant host settings).1
  have he : evaluatedString (prepare host settings "E".toList) = "Math.Math.E".toList :=
    (delegated_constant host settings).2
  have gp : gateAccepts "Math.Math.PI".toList = true := by decide!
  have ge : gateAccepts "Math.Math.E".toList = true := by decide!
  refine ⟨hp, he, gp, ge, ?_, ?_⟩
  · unfold evaluateExpression
    rw [hp, gp]
    rfl
  · unfold evaluateExpression
    rw [he, ge]
    rfl

set_option maxRecDepth 100000 in
/-- C6 (as the code behaves): the gate rejects `alert(1)`, so `evaluateExpression` throws
without calling the host, but it accepts `1+alert(1)`: the first alternative of the
first pattern is anchored at the start only, and the text, with its call of `alert`, is
handed to the host evaluator unchanged. -/
theorem gate_accepts_text_with_foreign_call {V : Type} (host : Host V) :
    gateAccepts (evaluatedString "alert(1)".toList) = false
    ∧ evaluateExpression host "alert(1)".toList = none
    ∧ evaluatedString "1+alert(1)".toList = "1+alert(1)".toList
    ∧ gateAccepts (evaluatedString "1+alert(1)".toList) = true
    ∧ evaluateExpression host "1+alert(1)".toList = host.run "1+alert(1)".toList := by
  have a1 : gateAccepts (evaluatedString "alert(1)".toList) = false := by decide!
  have b1 : evaluatedString "1+alert(1)".toList = "1+alert(1)".toList := by decide!
  have b2 : gateAccepts (evaluatedString "1+alert(1)".toList) = true := by decide!
  refine ⟨a1, ?_, b1, b2, ?_⟩
  · unfold evaluateExpression
    rw [a1]
    rfl
  · unfold evaluateExpression
    rw [b2, b1]
    rfl

/-- C5: `balanceParentheses e` is `e` followed by as many `)` as `e` has more `(` than
`)`, so `e` is an initial segment of the result and the result is `e` when nothing is
missing; `calculate` therefore hands `Math.sqrt(4)` to the host evaluator for `sqrt(4`,
and with a host that evaluates this text to a finite integer printed as `2` it succeeds
with the result `2`. -/
theorem balanceParentheses_appends_missing_closers {V : Type} (host : Host V)
    (settings : Settings) (now : List Char) (c : Calc) (v : V) (e : List Char) :
    balanceParentheses e = e ++ List.replicate (e.count '(' - e.count ')') ')'
    ∧ e <+: balanceParentheses e
    ∧ (e.count '(' ≤ e.count ')' → balanceParentheses e = e)
    ∧ delegated host settings "sqrt(4".toList = "Math.sqrt(4)".toList
    ∧ (c.currentExpression = "sqrt(4".toList → host.run "Math.sqrt(4)".toList = some v →
        host.isFinite v = some true → host.isInteger v = true → host.toStr v = ['2'] →
        calculate host settings now c
          = (⟨['2'], ['2'], addToHistory now c.history ['2'] ['2']⟩, .result ['2'])) := by
  refine ⟨balanceParentheses_eq e, ?_, ?_, delegated_sqrt4 host settings, ?_⟩
  · rw [balanceParentheses_eq]
    exact List.prefix_append _ _
  · intro h
    rw [balanceParentheses_eq, Nat.sub_eq_zero_of_le h]
    simp
  · intro hc hrun hfin hint hstr
    have hd : evaluatedString (prepare host settings "sqrt(4".toList)
        = "Math.sqrt(4)".toList := delegated_sqrt4 host settings
    have hg : gateAccepts "Math.sqrt(4)".toList = true := by decide!
    unfold calculate evaluateExpression formatResult
    rw [hc, hd, hg]
    simp only [if_true, hrun, hfin, hint, hstr]
    rfl

set_option maxRecDepth 100000 in
/-- Witness for C5: the expression `sqrt(4` with a host that evaluates `Math.sqrt(4)`
to 2. -/
theorem balanceParentheses_appends_missing_closers_witness :
    balanceParentheses "sqrt(4".toList = "sqrt(4)".toList
    ∧ calculate (tableHost [("Math.sqrt(4)", 2)]) ⟨2, .degrees⟩ [] ⟨"sqrt(4".toList, ['0'], []⟩
      = (⟨['2'], ['2'], [⟨['2'], ['2'], []⟩]⟩, .result ['2']) :=
  ⟨by decide!,
   (balanceParentheses_appends_missing_closers (tableHost [("Math.sqrt(4)", 2)])
      ⟨2, .degrees⟩ [] ⟨"sqrt(4".toList, ['0'], []⟩ 2 "sqrt(4".toList).2.2.2.2
      rfl (by decide!) (by decide!) (by decide!) (by decide!)⟩

/-- C7: on a history of at most 50 entries `addToHistory` gives the new entry followed
by the old entries in their order, cut to the first 50: the length stays at most 50 and
the new entry is at index 0. After 51 additions to the empty history the list is the
last 50 added entries, newest first, so the entry added first is in it only if it was
added again. -/
theorem addToHistory_keeps_newest_fifty (now e r : List Char) (h : List HistoryItem) :
    addToHistory now h e r = (⟨e, r, now⟩ :: h).take 50
    ∧ (addToHistory now h e r).length ≤ 50
    ∧ (addToHistory now h e r).head? = some ⟨e, r, now⟩
    ∧ (∀ items : List HistoryItem, items.length = 51 →
        addAll [] items = (items.drop 1).reverse
        ∧ (addAll [] items).length = 50
        ∧ ∀ first, items.head? = some first → first ∉ items.drop 1 →
            first ∉ addAll [] items) := by
  refine ⟨addToHistory_eq now h e r, ?_, ?_, ?_⟩
  · rw [addToHistory_eq]
    simp [List.length_take]
  · rw [addToHistory_eq]
    rfl
  · intro items hitems
    have hall : addAll [] items = (items.drop 1).reverse := by
      rw [addAll_eq items [] (by simp), List.append_nil]
      cases items with
      | nil => simp at hitems
      | cons a rest =>
        have hr : rest.length = 50 := by simpa using hitems
        rw [List.reverse_cons, List.take_append_eq_append_take]
        simp [hr, List.take_of_length_le]
    refine ⟨hall, ?_, ?_⟩
    · rw [hall]
      simp [hitems]
    · intro first _ hnot
      rw [hall]
      simpa using hnot

set_option maxRecDepth 100000 in
/-- Witness for C7: 51 additions with distinct time stamps to the empty history. -/
theorem addToHistory_keeps_newest_fifty_witness :
    addAll [] (stamped 51) = ((stamped 51).drop 1).reverse
    ∧ (addAll [] (stamped 51)).length = 50
    ∧ (⟨['1'], ['1'], []⟩ : HistoryItem) ∉ addAll [] (stamped 51) :=
  let w := (addToHistory_keeps_newest_fifty [] ['1'] ['1'] []).2.2.2 (stamped 51) (by decide)
  ⟨w.1, w.2.1, w.2.2 ⟨['1'], ['1'], []⟩ (by decide) (by decide)⟩

/-! ### Results of `parseVoiceToMath` -/

theorem validate_some (processed s : List Char) (h : validate processed = some s) :
    s = processed ∧ s ≠ [] ∧ ∀ c ∈ s, c ∈ allowedChars := by
  rw [validate_eq] at h
  by_cases hc : processed ≠ [] ∧ ∀ c ∈ processed, c ∈ allowedChars
  · rw [if_pos hc] at h
    have : processed = s := by simpa using h
    subst this
    exact ⟨rfl, hc.1, hc.2⟩
  · rw [if_neg hc] at h
    simp at h

theorem parseVoiceToMath_cases (toLowerCase : List Char → List Char) (text : List Char) :
    (∃ tag ∈ commandTags, parseVoiceToMath toLowerCase text = some tag)
    ∨ parseVoiceToMath toLowerCase text
        = validate (runPasses allPasses (trim (toLowerCase text))) := by
  unfold parseVoiceToMath
  simp only
  split
  · exact Or.inl ⟨"CMD_CLEAR".toList, by decide, rfl⟩
  split
  · exact Or.inl ⟨"CMD_CALCULATE".toList, by decide, rfl⟩
  split
  · exact Or.inl ⟨"CMD_REPEAT".toList, by decide, rfl⟩
  split
  · exact Or.inl ⟨"CMD_HISTORY".toList, by decide, rfl⟩
  exact Or.inr rfl

theorem parseVoiceToMath_of_tests_false (toLowerCase : List Char → List Char)
    (text : List Char)
    (h1 : test cmdClearRe (trim (toLowerCase text)) = false)
    (h2 : test (cmdRe calculateSynonyms) (trim (toLowerCase text)) = false)
    (h3 : test (cmdRe repeatSynonyms) (trim (toLowerCase text)) = false)
    (h4 : test (cmdRe historySynonyms) (trim (toLowerCase text)) = false) :
    parseVoiceToMath toLowerCase text
      = validate (runPasses allPasses (trim (toLowerCase text))) := by
  unfold parseVoiceToMath
  simp only [h1, h2, h3, h4, Bool.false_eq_true, if_false]

theorem dropWhile_of_none (p : Char → Bool) (l : List Char) (h : ∀ c ∈ l, p c = false) :
    l.dropWhile p = l := by
  cases l with
  | nil => rfl
  | cons a l => simp [List.dropWhile, h a (List.mem_cons_self _ _)]

theorem trim_of_no_space (s : List Char) (h : ∀ c ∈ s, isSpace c = false) : trim s = s := by
  unfold trim
  rw [dropWhile_of_none isSpace s h,
    dropWhile_of_none isSpace s.reverse (fun c hc => h c (List.mem_reverse.1 hc)),
    List.reverse_reverse]

theorem asciiToLowerCase_of_fixed (s : List Char) (h : ∀ c ∈ s, c.toLower = c) :
    asciiToLowerCase s = s := by
  unfold asciiToLowerCase
  induction s with
  | nil => rfl
  | cons a l ih =>
    rw [List.map_cons, h a (List.mem_cons_self _ _),
      ih (fun c hc => h c (List.mem_cons_of_mem _ hc))]

set_option maxRecDepth 100000 in
theorem parseVoiceToMath_arith (toLowerCase : List Char → List Char) (s : List Char)
    (hlower : toLowerCase s = s) (hne : s ≠ []) (hs : ∀ c ∈ s, c ∈ arithChars) :
    parseVoiceToMath toLowerCase s = some s := by
  have hspace : ∀ c ∈ arithChars, isSpace c = false := by decide
  have hallowed : ∀ c ∈ arithChars, c ∈ allowedChars := by decide
  have htrim : trim (toLowerCase s) = s := by
    rw [hlower]
    exact trim_of_no_space s (fun c hc => hspace c (hs c hc))
  have hden : Denotes [.many arithChars] s := ⟨s, [], by simp, hs, rfl⟩
  have h1 : mayMatch cmdClearRe [.many arithChars] = false := by decide!
  have h2 : mayMatch (cmdRe calculateSynonyms) [.many arithChars] = false := by decide!
  have h3 : mayMatch (cmdRe repeatSynonyms) [.many arithChars] = false := by decide!
  have h4 : mayMatch (cmdRe historySynonyms) [.many arithChars] = false := by decide!
  have h5 : (allPasses.any fun p => mayMatch p.re [.many arithChars]) = false := by decide!
  rw [parseVoiceToMath_of_tests_false toLowerCase s
    (by rw [htrim]; exact test_of_mayMatch _ _ s hden h1)
    (by rw [htrim]; exact test_of_mayMatch _ _ s hden h2)
    (by rw [htrim]; exact test_of_mayMatch _ _ s hden h3)
    (by rw [htrim]; exact test_of_mayMatch _ _ s hden h4),
    htrim, runPasses_of_mayMatch _ s hden allPasses h5, validate_eq,
    if_pos ⟨hne, fun c hc => hallowed c (hs c hc)⟩]

set_option maxRecDepth 100000 in
/-- C1: when the lower-cased and trimmed utterance contains a command synonym between
white space or the ends of the string, `parseVoiceToMath` returns one of the four command
tags, whatever else the utterance holds, and no command tag is a string that the final
validation would return as an expression; every synonym on its own gives the tag of its
family, and `what is five plus three` gives `CMD_CALCULATE`. -/
theorem command_synonym_gives_command_tag :
    (∀ (toLowerCase : List Char → List Char) (text : List Char) (syn : String),
      syn ∈ allSynonyms → Delimited syn.toList (trim (toLowerCase text)) →
      ∃ tag ∈ commandTags, parseVoiceToMath toLowerCase text = some tag)
    ∧ (∀ tag ∈ commandTags, validate tag = none)
    ∧ (∀ p ∈ synonymTags, parseVoice p.1 = some p.2)
    ∧ parseVoice "what is five plus three" = some "CMD_CALCULATE" := by
  refine ⟨?_, by decide!, by decide!, by decide!⟩
  intro toLowerCase text syn hsyn hdel
  simp only [allSynonyms, List.mem_append] at hsyn
  unfold parseVoiceToMath
  simp only
  by_cases h1 : test cmdClearRe (trim (toLowerCase text)) = true
  · exact ⟨"CMD_CLEAR".toList, by decide, by rw [if_pos h1]⟩
  rw [if_neg h1]
  by_cases h2 : test (cmdRe calculateSynonyms) (trim (toLowerCase text)) = true
  · exact ⟨"CMD_CALCULATE".toList, by decide, by rw [if_pos h2]⟩
  rw [if_neg h2]
  by_cases h3 : test (cmdRe repeatSynonyms) (trim (toLowerCase text)) = true
  · exact ⟨"CMD_REPEAT".toList, by decide, by rw [if_pos h3]⟩
  rw [if_neg h3]
  by_cases h4 : test (cmdRe historySynonyms) (trim (toLowerCase text)) = true
  · exact ⟨"CMD_HISTORY".toList, by decide, by rw [if_pos h4]⟩
  exfalso
  rcases hsyn with ((h | h) | h) | h
  · exact h1 (test_cmdClearRe syn h _ hdel)
  · exact h2 (test_cmdRe _ syn h _ hdel)
  · exact h3 (test_cmdRe _ syn h _ hdel)
  · exact h4 (test_cmdRe _ syn h _ hdel)

set_option maxRecDepth 100000 in
/-- Witness for C1: the utterance `Please CLEAR the screen`. -/
theorem command_synonym_gives_command_tag_witness :
    ∃ tag ∈ commandTags,
      parseVoiceToMath asciiToLowerCase "Please CLEAR the screen".toList = some tag :=
  command_synonym_gives_command_tag.1 asciiToLowerCase "Please CLEAR the screen".toList
    "clear" (by decide)
    ⟨"please ".toList, " the screen".toList, by decide!,
      Or.inr ⟨"please".toList, ' ', by decide, by decide⟩,
      Or.inr ⟨' ', "the screen".toList, by decide, by decide⟩⟩

set_option maxRecDepth 100000 in
/-- Counterexample to C9: `cat` is returned as it is, and it is not a concatenation of
expression tokens. -/
theorem cat_is_returned_and_is_no_expression_string :
    parseVoice "cat" = some "cat" ∧ isExpressionString "cat".toList = false := by
  decide!

/-- C9 (amended): every value returned by `parseVoiceToMath` is `none`, a command tag, or
a non-empty string all of whose characters belong to
`0123456789+-*/.()sqrtasincoletanlogPIE^rand`; the final validation returns `none` exactly
for the empty text and for a text with a character outside this set, and otherwise
returns the text as it is. -/
theorem parseVoiceToMath_returns_allowed_characters :
    (∀ (toLowerCase : List Char → List Char) (text : List Char),
      parseVoiceToMath toLowerCase text = none
      ∨ (∃ tag ∈ commandTags, parseVoiceToMath toLowerCase text = some tag)
      ∨ ∃ s, parseVoiceToMath toLowerCase text = some s ∧ s ≠ []
          ∧ ∀ c ∈ s, c ∈ allowedChars)
    ∧ (∀ processed : List Char,
        validate processed = none ↔ (processed = [] ∨ ∃ c ∈ processed, c ∉ allowedChars))
    ∧ (∀ processed s : List Char, validate processed = some s → s = processed) := by
  refine ⟨?_, ?_, fun processed s h => (validate_some processed s h).1⟩
  · intro toLowerCase text
    rcases parseVoiceToMath_cases toLowerCase text with h | h
    · exact Or.inr (Or.inl h)
    · rw [h]
      cases hv : validate (runPasses allPasses (trim (toLowerCase text))) with
      | none => exact Or.inl rfl
      | some s => exact Or.inr (Or.inr ⟨s, rfl, (validate_some _ s hv).2⟩)
  · intro processed
    rw [validate_eq]
    by_cases hc : processed ≠ [] ∧ ∀ c ∈ processed, c ∈ allowedChars
    · rw [if_pos hc]
      simp only [reduceCtorEq, false_iff, not_or, not_exists, not_and, not_not]
      exact ⟨hc.1, hc.2⟩
    · rw [if_neg hc]
      simp only [true_iff]
      by_cases he : processed = []
      · exact Or.inl he
      · right
        by_contra hno
        apply hc
        refine ⟨he, fun c hcm => ?_⟩
        by_contra hnot
        exact hno ⟨c, hcm, hnot⟩

set_option maxRecDepth 100000 in
/-- Counterexample to C8: `2 pi` is normalised to `2PI`, and `2PI` is normalised to
nothing, because the input is lower-cased before the word `pi` is looked for. -/
theorem normalizing_2pi_twice_fails :
    parseVoice "2 pi" = some "2PI" ∧ parseVoice "2PI" = none := by
  decide!

/-- C8 (amended): when `parseVoiceToMath` returns for an utterance an expression `s` made
only of the characters `[0-9+\-*/.()^]`, with no letter, it returns `s` for `s`; the host's
`toLowerCase` leaves such a string as it is. -/
theorem parseVoiceToMath_idempotent_without_letters
    (toLowerCase : List Char → List Char) (u s : List Char)
    (hlower : toLowerCase s = s)
    (hu : parseVoiceToMath toLowerCase u = some s)
    (hs : ∀ c ∈ s, c ∈ arithChars) :
    parseVoiceToMath toLowerCase s = some s := by
  have hne : s ≠ [] := by
    rcases parseVoiceToMath_cases toLowerCase u with ⟨tag, htag, h⟩ | h
    · rw [hu] at h
      have hst : s = tag := by simpa using h
      subst hst
      intro he
      subst he
      revert htag
      decide
    · rw [hu] at h
      exact (validate_some _ s h.symm).2.1
  exact parseVoiceToMath_arith toLowerCase s hlower hne hs

set_option maxRecDepth 100000 in
/-- Witness for C8: `five plus three` gives `5+3`, and `5+3` gives `5+3`. -/
theorem parseVoiceToMath_idempotent_without_letters_witness :
    parseVoiceToMath asciiToLowerCase "5+3".toList = some "5+3".toList :=
  parseVoiceToMath_idempotent_without_letters asciiToLowerCase "five plus three".toList
    "5+3".toList (by decide) (by decide!) (by decide)

/-! ### Word patterns and separators -/

theorem m_str (w : List Char) :
    ∀ (k : St → Option St) (l right : List Char) (caps : List (Nat × List Char)),
      (Re.str w).m k ⟨l, right, caps⟩
        = if w.isPrefixOf right then k ⟨w.reverse ++ l, right.drop w.length, caps⟩
          else none := by
  induction w with
  | nil => intro k l right caps; simp [Re.str, m_eps]
  | cons c w ih =>
    intro k l right caps
    cases w with
    | nil =>
      cases right with
      | nil => simp [Re.str, m_chr, readIf_nil]
      | cons d r =>
        by_cases h : d = c
        · subst h; simp [Re.str, m_chr, readIf_cons]
        · have h' : ¬ c = d := fun e => h e.symm
          simp [Re.str, m_chr, readIf_cons, h, h']
    | cons e w =>
      have hstr : Re.str (c :: e :: w) = .seq (.chr c) (Re.str (e :: w)) := rfl
      rw [hstr, m_seq, m_chr]
      cases right with
      | nil => simp [readIf_nil]
      | cons d r =>
        rw [readIf_cons]
        by_cases h : d = c
        · subst h
          rw [if_pos (by simp), ih k (d :: l) r caps]
          simp
        · have h' : ¬ c = d := fun e => h e.symm
          rw [if_neg (by simpa using h)]
          simp [h']

theorem matchAt_wordB_str (w left right : List Char) :
    matchAt (.seq .wordB (.seq (Re.str w) .wordB)) left right
      = if wordHit w left right then some ⟨w.reverse ++ left, right.drop w.length, []⟩
        else none := by
  unfold matchAt wordHit
  rw [m_seq, m_wordB, m_seq, m_str, m_wordB]
  generalize atWordB left right = b1
  generalize w.isPrefixOf right = b2
  generalize atWordB (w.reverse ++ left) (right.drop w.length) = b3
  cases b1 <;> cases b2 <;> cases b3 <;> rfl

theorem matchAt_wordRe (w : String) (left right : List Char) :
    matchAt (wordRe w) left right
      = if wordHit w.toList left right then
          some ⟨w.toList.reverse ++ left, right.drop w.toList.length, []⟩
        else none :=
  matchAt_wordB_str w.toList left right

theorem headIsWord_append_sep (a b : List Char) (sp : Char) (hsp : isWordChar sp = false) :
    headIsWord (a ++ sp :: b) = headIsWord a := by
  cases a with
  | nil => simp [headIsWord, hsp]
  | cons x a => rfl

theorem isPrefixOf_append_sep (sp : Char) (b : List Char) :
    ∀ (w a : List Char), w ≠ [] → (∀ c ∈ w, c ≠ sp) →
      w.isPrefixOf (a ++ sp :: b) = w.isPrefixOf a := by
  intro w
  induction w with
  | nil => intro a h; exact absurd rfl h
  | cons c w ih =>
    intro a _ hw
    have hc : c ≠ sp := hw c (List.mem_cons_self _ _)
    cases a with
    | nil => simp [List.isPrefixOf, hc]
    | cons x a =>
      cases w with
      | nil => simp [List.isPrefixOf]
      | cons e w =>
        have := ih a (by simp) (fun d hd => hw d (List.mem_cons_of_mem _ hd))
        show (c == x && (e :: w).isPrefixOf (a ++ sp :: b)) = (c == x && (e :: w).isPrefixOf a)
        rw [this]

theorem length_le_of_isPrefixOf :
    ∀ (w a : List Char), w.isPrefixOf a = true → w.length ≤ a.length := by
  intro w
  induction w with
  | nil => intro a _; simp
  | cons c w ih =>
    intro a h
    cases a with
    | nil => simp [List.isPrefixOf] at h
    | cons x a =>
      simp only [List.isPrefixOf, Bool.and_eq_true] at h
      simpa using ih a h.2

theorem headIsWord_reverse_word (w l l' : List Char) (hw : w ≠ []) :
    headIsWord (w.reverse ++ l) = headIsWord (w.reverse ++ l') := by
  have : w.reverse ≠ [] := by simpa using hw
  cases h : w.reverse with
  | nil => exact absurd h this
  | cons x xs => rfl

theorem wordHit_append_sep (w a b left left' : List Char) (sp : Char)
    (hne : w ≠ []) (hw : ∀ c ∈ w, isWordChar c = true) (hsp : isWordChar sp = false)
    (hl : headIsWord left = headIsWord left') :
    wordHit w left (a ++ sp :: b) = wordHit w left' a := by
  have hwsp : ∀ c ∈ w, c ≠ sp := by
    intro c hc e
    have := hw c hc
    rw [e, hsp] at this
    exact absurd this (by simp)
  unfold wordHit atWordB
  rw [headIsWord_append_sep a b sp hsp, isPrefixOf_append_sep sp b w a hne hwsp, hl,
    headIsWord_reverse_word w left left' hne]
  by_cases hp : w.isPrefixOf a = true
  · have hlen := length_le_of_isPrefixOf w a hp
    rw [List.drop_append_of_le_length hlen, headIsWord_append_sep _ b sp hsp]
  · simp [hp]

theorem wordHit_congr (w a left left' : List Char) (hne : w ≠ [])
    (hl : headIsWord left = headIsWord left') : wordHit w left a = wordHit w left' a := by
  unfold wordHit atWordB
  rw [hl, headIsWord_reverse_word w left left' hne]

theorem isPrefixOf_split :
    ∀ (w a : List Char), w.isPrefixOf a = true → ∃ t, a = w ++ t := by
  intro w
  induction w with
  | nil => intro a _; exact ⟨a, rfl⟩
  | cons c w ih =>
    intro a h
    cases a with
    | nil => simp [List.isPrefixOf] at h
    | cons x a =>
      simp only [List.isPrefixOf, Bool.and_eq_true, beq_iff_eq] at h
      obtain ⟨t, ht⟩ := ih a h.2
      exact ⟨t, by rw [h.1, ht]; rfl⟩

theorem wordHit_split (w left a : List Char) (h : wordHit w left a = true) :
    ∃ t, a = w ++ t := by
  unfold wordHit at h
  simp only [Bool.and_eq_true] at h
  exact isPrefixOf_split w a h.1.2

theorem scan_word_hit (w : List Char) (hne : w ≠ []) (n : Nat) (left t : List Char)
    (h : wordHit w left (w ++ t) = true) :
    scan (.seq .wordB (.seq (Re.str w) .wordB)) (n + 1) left (w ++ t)
      = .hit w [] :: scan (.seq .wordB (.seq (Re.str w) .wordB)) n (w.reverse ++ left) t := by
  have hm := matchAt_wordB_str w left (w ++ t)
  rw [if_pos h] at hm
  have hdrop : (w ++ t).drop w.length = t := by simp
  rw [hdrop] at hm
  have hlt : t.length < (w ++ t).length := by
    cases w with
    | nil => exact absurd rfl hne
    | cons c w => simp only [List.cons_append, List.length_cons, List.length_append]; omega
  rw [scan_hit _ n left (w ++ t) ⟨w.reverse ++ left, t, []⟩ hm hlt]
  simp

theorem scan_word_miss (w : List Char) (n : Nat) (left : List Char) (x : Char)
    (a : List Char) (h : wordHit w left (x :: a) = false) :
    scan (.seq .wordB (.seq (Re.str w) .wordB)) (n + 1) left (x :: a)
      = .keep x :: scan (.seq .wordB (.seq (Re.str w) .wordB)) n (x :: left) a := by
  have hm := matchAt_wordB_str w left (x :: a)
  rw [if_neg (by simp [h])] at hm
  simp only [scan, hm]

theorem scan_word_nil (w : List Char) (hne : w ≠ []) (n : Nat) (left : List Char) :
    scan (.seq .wordB (.seq (Re.str w) .wordB)) (n + 1) left [] = [] := by
  have hm := matchAt_wordB_str w left []
  have hf : wordHit w left [] = false := by
    cases w with
    | nil => exact absurd rfl hne
    | cons c w => simp [wordHit, List.isPrefixOf]
  rw [if_neg (by simp [hf])] at hm
  simp only [scan, hm]

theorem scan_word_congr (w : List Char) (hne : w ≠ []) :
    ∀ (n1 n2 : Nat) (a l1 l2 : List Char), headIsWord l1 = headIsWord l2 →
      a.length < n1 → a.length < n2 →
      scan (.seq .wordB (.seq (Re.str w) .wordB)) n1 l1 a
        = scan (.seq .wordB (.seq (Re.str w) .wordB)) n2 l2 a := by
  intro n1
  induction n1 with
  | zero => intro n2 a l1 l2 _ h1 _; omega
  | succ n1 ih =>
    intro n2 a l1 l2 hl h1 h2
    cases n2 with
    | zero => omega
    | succ n2 =>
      have hh := wordHit_congr w a l1 l2 hne hl
      cases hhit : wordHit w l2 a with
      | true =>
        rw [hhit] at hh
        obtain ⟨t, ht⟩ := wordHit_split w l2 a hhit
        subst ht
        rw [scan_word_hit w hne n1 l1 t hh, scan_word_hit w hne n2 l2 t hhit]
        congr 1
        have hlen : t.length < (w ++ t).length := by
          cases w with
          | nil => exact absurd rfl hne
          | cons c w => simp only [List.cons_append, List.length_cons, List.length_append]; omega
        exact ih n2 t _ _ (headIsWord_reverse_word w l1 l2 hne) (by omega) (by omega)
      | false =>
        rw [hhit] at hh
        cases a with
        | nil => rw [scan_word_nil w hne, scan_word_nil w hne]
        | cons x a =>
          rw [scan_word_miss w n1 l1 x a hh, scan_word_miss w n2 l2 x a hhit]
          congr 1
          have hlen1 : a.length < n1 := by simpa using h1
          have hlen2 : a.length < n2 := by simpa using h2
          exact ih n2 a _ _ rfl hlen1 hlen2

theorem scan_word_split (w : List Char) (hne : w ≠ []) (hw : ∀ c ∈ w, isWordChar c = true)
    (sp : Char) (hsp : isWordChar sp = false) (b : List Char) :
    ∀ (n : Nat) (a left left' : List Char), headIsWord left = headIsWord left' →
      a.length < n →
      scan (.seq .wordB (.seq (Re.str w) .wordB)) (n + (b.length + 1)) left (a ++ sp :: b)
        = scan (.seq .wordB (.seq (Re.str w) .wordB)) n left' a
          ++ .keep sp :: scan (.seq .wordB (.seq (Re.str w) .wordB)) (b.length + 1) [] b := by
  intro n
  induction n with
  | zero => intro a left left' _ h; omega
  | succ n ih =>
    intro a left left' hl hlen
    have hfuel : n + 1 + (b.length + 1) = (n + (b.length + 1)) + 1 := by omega
    rw [hfuel]
    have hh := wordHit_append_sep w a b left left' sp hne hw hsp hl
    cases hhit : wordHit w left' a with
    | true =>
      rw [hhit] at hh
      obtain ⟨t, ht⟩ := wordHit_split w left' a hhit
      subst ht
      have happ : w ++ t ++ sp :: b = w ++ (t ++ sp :: b) := by simp
      rw [happ] at hh ⊢
      rw [scan_word_hit w hne _ left (t ++ sp :: b) hh, scan_word_hit w hne n left' t hhit]
      have hlt : t.length < n := by
        have : t.length < (w ++ t).length := by
          cases w with
          | nil => exact absurd rfl hne
          | cons c w => simp only [List.cons_append, List.length_cons, List.length_append]; omega
        omega
      rw [ih t _ _ (headIsWord_reverse_word w left left' hne) hlt]
      rfl
    | false =>
      rw [hhit] at hh
      cases a with
      | nil =>
        have hh' : wordHit w left (sp :: b) = false := hh
        show scan _ (n + (b.length + 1) + 1) left (sp :: b) = _
        rw [scan_word_miss w _ left sp b hh', scan_word_nil w hne]
        show _ = Piece.keep sp :: _
        congr 1
        exact scan_word_congr w hne _ _ b _ _ (by simp [headIsWord, hsp]) (by omega)
          (by omega)
      | cons x a =>
        have hh' : wordHit w left (x :: (a ++ sp :: b)) = false := hh
        show scan _ (n + (b.length + 1) + 1) left (x :: (a ++ sp :: b)) = _
        rw [scan_word_miss w _ left x (a ++ sp :: b) hh', scan_word_miss w n left' x a hhit]
        have hlt : a.length < n := by simpa using hlen
        rw [ih a (x :: left) (x :: left') rfl hlt]
        rfl

theorem pieces_word_split (w : List Char) (hne : w ≠ []) (hw : ∀ c ∈ w, isWordChar c = true)
    (sp : Char) (hsp : isWordChar sp = false) (a b : List Char) :
    pieces (.seq .wordB (.seq (Re.str w) .wordB)) (a ++ sp :: b)
      = pieces (.seq .wordB (.seq (Re.str w) .wordB)) a
        ++ .keep sp :: pieces (.seq .wordB (.seq (Re.str w) .wordB)) b := by
  unfold pieces
  have hlen : (a ++ sp :: b).length + 1 = (a.length + 1) + (b.length + 1) := by
    simp only [List.length_append, List.length_cons]; omega
  rw [hlen]
  exact scan_word_split w hne hw sp hsp b (a.length + 1) a [] [] rfl (Nat.lt_succ_self _)

theorem render_append (repl : List Char → List (Nat × List Char) → List Char) :
    ∀ (p q : List Piece), render repl (p ++ q) = render repl p ++ render repl q := by
  intro p
  induction p with
  | nil => intro q; rfl
  | cons x p ih =>
    intro q
    cases x with
    | keep c => simp [render, ih]
    | hit m caps => simp [render, ih]

theorem replaceAll_word_split (p : Pass) (hp : IsWordPass p) (sp : Char)
    (hsp : isWordChar sp = false) (a b : List Char) :
    replaceAll p.re p.template (a ++ sp :: b)
      = replaceAll p.re p.template a ++ sp :: replaceAll p.re p.template b := by
  obtain ⟨w, hne, hw, hre⟩ := hp
  unfold replaceAll replaceWith
  rw [hre, pieces_word_split w hne hw sp hsp a b, render_append]
  rfl

theorem runPasses_word_split (sp : Char) (hsp : isWordChar sp = false) :
    ∀ (ps : List Pass), (∀ p ∈ ps, IsWordPass p) → ∀ (a b : List Char),
      runPasses ps (a ++ sp :: b) = runPasses ps a ++ sp :: runPasses ps b := by
  intro ps
  induction ps with
  | nil => intro _ a b; rfl
  | cons p ps ih =>
    intro hps a b
    have hstep : ∀ s, runPasses (p :: ps) s = runPasses ps (replaceAll p.re p.template s) :=
      fun _ => rfl
    rw [hstep, hstep, hstep,
      replaceAll_word_split p (hps p (List.mem_cons_self _ _)) sp hsp a b,
      ih (fun q hq => hps q (List.mem_cons_of_mem _ hq))]

theorem numberWordPasses_word : ∀ p ∈ numberWordPasses, IsWordPass p := by
  intro p hp
  unfold numberWordPasses at hp
  obtain ⟨wd, hwd, rfl⟩ := List.mem_map.1 hp
  have key : ∀ wd ∈ numberWords, wd.1.toList ≠ [] ∧ ∀ c ∈ wd.1.toList, isWordChar c = true := by
    decide
  exact ⟨wd.1.toList, (key wd hwd).1, (key wd hwd).2, rfl⟩

theorem runPasses_append (ps qs : List Pass) (s : List Char) :
    runPasses (ps ++ qs) s = runPasses qs (runPasses ps s) := by
  unfold runPasses
  rw [List.foldl_append]

/-! ### Alternations of word patterns -/

theorem isPrefixOf_sep (sp : Char) (b : List Char) :
    ∀ (w a : List Char), (w.length ≤ a.length ∨ ∀ c ∈ w, c ≠ sp) →
      w.isPrefixOf (a ++ sp :: b) = w.isPrefixOf (a ++ [sp]) := by
  intro w
  induction w with
  | nil => intro a _; simp [List.isPrefixOf]
  | cons c w ih =>
    intro a h
    cases a with
    | nil =>
      rcases h with h | h
      · simp at h
      · have hc : c ≠ sp := h c (List.mem_cons_self _ _)
        have hf : (c == sp) = false := by simpa using hc
        show (c == sp && w.isPrefixOf b) = (c == sp && w.isPrefixOf [])
        rw [hf]
        rfl
    | cons x a =>
      have hrec := ih a (by
        rcases h with h | h
        · left; simpa using h
        · right; exact fun d hd => h d (List.mem_cons_of_mem _ hd))
      show (c == x && w.isPrefixOf (a ++ sp :: b)) = (c == x && w.isPrefixOf (a ++ [sp]))
      rw [hrec]

theorem length_of_isPrefixOf_sep (sp : Char) :
    ∀ (w a : List Char), (w.length ≤ a.length ∨ ∀ c ∈ w, c ≠ sp) →
      w.isPrefixOf (a ++ [sp]) = true → w.length ≤ a.length := by
  intro w
  induction w with
  | nil => intro a _ _; simp
  | cons c w ih =>
    intro a h hp
    cases a with
    | nil =>
      rcases h with h | h
      · simp at h
      · have hc : c ≠ sp := h c (List.mem_cons_self _ _)
        simp [List.isPrefixOf, hc] at hp
    | cons x a =>
      have hp' : (c == x && w.isPrefixOf (a ++ [sp])) = true := hp
      rw [Bool.and_eq_true] at hp'
      have := ih a (by
        rcases h with h | h
        · left; simpa using h
        · right; exact fun d hd => h d (List.mem_cons_of_mem _ hd)) hp'.2
      simpa using this

theorem headIsWord_append_cons (a b : List Char) (sp : Char) :
    headIsWord (a ++ sp :: b) = headIsWord (a ++ [sp]) := by
  cases a with
  | nil => rfl
  | cons x a => rfl

theorem isPrefixOf_of_mismatch :
    ∀ (w a rest : List Char), mismatch w a = true → w.isPrefixOf (a ++ rest) = false := by
  intro w
  induction w with
  | nil => intro a rest h; simp [mismatch] at h
  | cons c w ih =>
    intro a rest h
    cases a with
    | nil => simp [mismatch] at h
    | cons x a =>
      simp only [mismatch, Bool.or_eq_true, bne_iff_ne, ne_eq] at h
      show (c == x && w.isPrefixOf (a ++ rest)) = false
      rcases h with h | h
      · have : (c == x) = false := by simpa using h
        rw [this]
        rfl
      · rw [ih a rest h, Bool.and_false]

theorem wordHit_sep (w a b left left' : List Char) (sp : Char) (hne : w ≠ [])
    (h : w.length ≤ a.length ∨ (∀ c ∈ w, c ≠ sp) ∨ mismatch w (a ++ [sp]) = true)
    (hl : headIsWord left = headIsWord left') :
    wordHit w left (a ++ sp :: b) = wordHit w left' (a ++ [sp]) := by
  rcases h with h | h | h
  · unfold wordHit atWordB
    rw [headIsWord_append_cons a b sp, isPrefixOf_sep sp b w a (Or.inl h), hl,
      headIsWord_reverse_word w left left' hne,
      List.drop_append_of_le_length h, List.drop_append_of_le_length h,
      headIsWord_append_cons (List.drop w.length a) b sp]
  · unfold wordHit atWordB
    rw [headIsWord_append_cons a b sp, isPrefixOf_sep sp b w a (Or.inr h), hl,
      headIsWord_reverse_word w left left' hne]
    by_cases hp : w.isPrefixOf (a ++ [sp]) = true
    · have hlen := length_of_isPrefixOf_sep sp w a (Or.inr h) hp
      rw [List.drop_append_of_le_length hlen, List.drop_append_of_le_length hlen,
        headIsWord_append_cons (List.drop w.length a) b sp]
    · simp [hp]
  · unfold wordHit
    have h1 := isPrefixOf_of_mismatch w (a ++ [sp]) b h
    have h2 := isPrefixOf_of_mismatch w (a ++ [sp]) [] h
    rw [List.append_assoc, List.singleton_append] at h1
    rw [List.append_nil] at h2
    rw [h1, h2]
    simp

theorem matchAt_alt (x y : Re) (left right : List Char) :
    matchAt (.alt x y) left right = orElse (matchAt x left right) (matchAt y left right) :=
  rfl

theorem find_cons_pos (f : String → Bool) (w : String) (ws : List String)
    (h : f w = true) : (w :: ws).find? f = some w :=
  List.find?_cons_of_pos ws h

theorem find_cons_neg (f : String → Bool) (w : String) (ws : List String)
    (h : f w = false) : (w :: ws).find? f = ws.find? f :=
  List.find?_cons_of_neg ws (by rw [h]; exact Bool.false_ne_true)

theorem matchAt_alts_words (left right : List Char) :
    ∀ (ws : List String), ws ≠ [] →
      matchAt (Re.alts (ws.map wordRe)) left right
        = (ws.find? fun w => wordHit w.toList left right).map fun w =>
            ⟨w.toList.reverse ++ left, right.drop w.toList.length, []⟩ := by
  intro ws
  induction ws with
  | nil => intro h; exact absurd rfl h
  | cons w ws ih =>
    intro _
    cases ws with
    | nil =>
      show matchAt (wordRe w) left right = _
      rw [matchAt_wordRe]
      rcases Bool.eq_false_or_eq_true (wordHit w.toList left right) with h | h
      · rw [find_cons_pos _ w [] h, if_pos h]
        rfl
      · rw [find_cons_neg _ w [] h, if_neg (by rw [h]; exact Bool.false_ne_true)]
        rfl
    | cons v vs =>
      show matchAt (.alt (wordRe w) (Re.alts ((v :: vs).map wordRe))) left right = _
      rw [matchAt_alt, matchAt_wordRe, ih (by simp)]
      rcases Bool.eq_false_or_eq_true (wordHit w.toList left right) with h | h
      · rw [find_cons_pos _ w (v :: vs) h, if_pos h, orElse_some]
        rfl
      · rw [find_cons_neg _ w (v :: vs) h, if_neg (by rw [h]; exact Bool.false_ne_true),
          orElse_none_left]

theorem find_wordHit_sep (a b left left' : List Char) (sp : Char)
    (hl : headIsWord left = headIsWord left') :
    ∀ (ws : List String),
      (∀ w ∈ ws, w.toList ≠ [] ∧ (w.toList.length ≤ a.length ∨ (∀ c ∈ w.toList, c ≠ sp)
        ∨ mismatch w.toList (a ++ [sp]) = true)) →
      (ws.find? fun w => wordHit w.toList left (a ++ sp :: b))
        = ws.find? fun w => wordHit w.toList left' (a ++ [sp]) := by
  intro ws
  induction ws with
  | nil => intro _; rfl
  | cons w ws ih =>
    intro h
    have hw := h w (List.mem_cons_self _ _)
    have heq := wordHit_sep w.toList a b left left' sp hw.1 hw.2 hl
    have hrec := ih (fun v hv => h v (List.mem_cons_of_mem _ hv))
    rcases Bool.eq_false_or_eq_true (wordHit w.toList left' (a ++ [sp])) with h1 | h1
    · rw [find_cons_pos _ w ws (by rw [heq]; exact h1), find_cons_pos _ w ws h1]
    · rw [find_cons_neg _ w ws (by rw [heq]; exact h1), find_cons_neg _ w ws h1, hrec]

/-! ### Removal of white space -/

theorem greedyRun_some (p : Char → Bool) (caps : List (Nat × List Char)) :
    ∀ (r left : List Char),
      greedyRun p some caps left r
        = some ⟨(r.takeWhile p).reverse ++ left, r.dropWhile p, caps⟩ := by
  intro r
  induction r with
  | nil => intro left; rfl
  | cons c r ih =>
    intro left
    rw [greedyRun_cons]
    by_cases hp : p c = true
    · rw [if_pos hp, ih, orElse_some]
      simp [List.takeWhile, List.dropWhile, hp]
    · rw [if_neg hp]
      simp [List.takeWhile, List.dropWhile, hp]

theorem matchAt_spaces (left : List Char) (c : Char) (r : List Char) :
    matchAt (Re.plus .space) left (c :: r)
      = if isSpace c then
          some ⟨(r.takeWhile isSpace).reverse ++ (c :: left), r.dropWhile isSpace, []⟩
        else none := by
  show (Re.seq .space (.star .space)).m some ⟨left, c :: r, []⟩ = _
  rw [m_seq, m_space, readIf_cons]
  by_cases hc : isSpace c = true
  · rw [if_pos hc, if_pos hc, m_star_readIf .space isSpace rfl, greedyRun_some]
  · rw [if_neg hc, if_neg hc]

theorem render_scan_spaces :
    ∀ (n : Nat) (right left : List Char), right.length < n →
      render (fun _ _ => []) (scan (Re.plus .space) n left right)
        = right.filter fun c => !isSpace c := by
  intro n
  induction n with
  | zero => intro right left h; omega
  | succ n ih =>
    intro right left h
    cases right with
    | nil =>
      have : matchAt (Re.plus .space) left [] = none := rfl
      simp [scan, this, render]
    | cons c r =>
      have hr : r.length < n := by simpa using h
      by_cases hc : isSpace c = true
      · have hm := matchAt_spaces left c r
        rw [if_pos hc] at hm
        have hle : (r.dropWhile isSpace).length ≤ r.length :=
          (List.dropWhile_suffix isSpace).length_le
        have hlt : (r.dropWhile isSpace).length < (c :: r).length := by
          simp only [List.length_cons]; omega
        rw [scan_hit _ n left (c :: r) _ hm hlt]
        simp only [render, List.nil_append]
        rw [ih _ _ (by omega)]
        have hsplit : r = r.takeWhile isSpace ++ r.dropWhile isSpace :=
          (List.takeWhile_append_dropWhile isSpace r).symm
        have hfil : (r.takeWhile isSpace).filter (fun c => !isSpace c) = [] := by
          rw [List.filter_eq_nil_iff]
          intro d hd
          simp [List.mem_takeWhile_imp hd]
        conv_rhs => rw [List.filter_cons_of_neg (by simp [hc]), hsplit, List.filter_append, hfil]
        simp
      · have hm := matchAt_spaces left c r
        rw [if_neg hc] at hm
        simp only [scan, hm, render]
        rw [ih r (c :: left) hr, List.filter_cons_of_pos (by simpa using hc)]

theorem replaceAll_spaces (s : List Char) :
    replaceAll (Re.plus .space) "" s = s.filter fun c => !isSpace c := by
  unfold replaceAll replaceWith pieces
  exact render_scan_spaces _ s [] (Nat.lt_succ_self _)

/-! ### The square root phrase -/

theorem headNot_nil (p : Char → Bool) : HeadNot p [] := by
  intro c r h
  simp at h

theorem headNot_numeral_space (n rest : List Char) (hn : Numeral n) :
    HeadNot isSpace (n ++ rest) := by
  intro c r h
  have hne := numeral_ne_nil n hn
  cases n with
  | nil => exact absurd rfl hne
  | cons d n' =>
    have hc : c = d := ((List.cons.inj h).1).symm
    have hmem := numeral_chars (d :: n') hn d (List.mem_cons_self _ _)
    have key : ∀ e ∈ "0123456789.".toList, isSpace e = false := by decide
    rw [hc]
    exact key d hmem

/-- A word followed by white space, then the rest of a pattern. -/
theorem str_spaces_run (w ws rest l : List Char) (caps : List (Nat × List Char))
    (x : Re) (k : St → Option St) (hws : ∀ c ∈ ws, isSpace c = true)
    (hrest : HeadNot isSpace rest)
    (hk : (x.m k ⟨ws.reverse ++ (w.reverse ++ l), rest, caps⟩).isSome = true) :
    (Re.seq (Re.str w) (.seq (.star .space) x)).m k ⟨l, w ++ (ws ++ rest), caps⟩
      = x.m k ⟨ws.reverse ++ (w.reverse ++ l), rest, caps⟩ := by
  rw [m_seq, m_str_append, m_seq,
    star_run .space isSpace rfl (x.m k) caps ws rest (w.reverse ++ l) hws hrest hk]

/-- An optional word followed by white space, when the word is there. -/
theorem opt_str_spaces_run (w ws rest l : List Char) (caps : List (Nat × List Char))
    (k : St → Option St) (hw : w ≠ []) (hws : ∀ c ∈ ws, isSpace c = true)
    (hrest : HeadNot isSpace rest)
    (hk : (k ⟨ws.reverse ++ (w.reverse ++ l), rest, caps⟩).isSome = true) :
    (Re.opt (.seq (Re.str w) (.star .space))).m k ⟨l, w ++ (ws ++ rest), caps⟩
      = k ⟨ws.reverse ++ (w.reverse ++ l), rest, caps⟩ := by
  have hlt : rest.length < (w ++ (ws ++ rest)).length := by
    cases w with
    | nil => exact absurd rfl hw
    | cons a w => simp only [List.cons_append, List.length_cons, List.length_append]; omega
  have hcont : (if (⟨ws.reverse ++ (w.reverse ++ l), rest, caps⟩ : St).right.length
        < (⟨l, w ++ (ws ++ rest), caps⟩ : St).right.length
      then k ⟨ws.reverse ++ (w.reverse ++ l), rest, caps⟩ else none)
      = k ⟨ws.reverse ++ (w.reverse ++ l), rest, caps⟩ := if_pos hlt
  rw [m_opt, m_seq, m_str_append,
    star_run .space isSpace rfl _ caps ws rest (w.reverse ++ l) hws hrest
      (by rw [hcont]; exact hk), hcont]
  exact orElse_of_isSome _ _ hk

theorem squareRoot_matchAt (n : List Char) (hn : Numeral n) :
    ∃ left extra, matchAt squareRootRe [] ("square root of ".toList ++ n)
      = some ⟨left, [], (1, n) :: extra⟩ := by
  have hre : squareRootRe = .seq .wordB (.seq (Re.str "square".toList)
      (.seq (.star .space) (.seq (Re.str "root".toList) (.seq (.star .space)
        (.seq (.opt (.seq (Re.str "of".toList) (.star .space)))
          (.seq (numRe 1 2) .wordB)))))) := rfl
  have htext : "square root of ".toList ++ n
      = "square".toList ++ ([' '] ++ ("root".toList ++ ([' '] ++ ("of".toList
          ++ ([' '] ++ (n ++ [])))))) := by simp
  have hsp : ∀ c ∈ [' '], isSpace c = true := by decide
  have hword : ∀ (l : List Char) (caps : List (Nat × List Char)),
      Re.wordB.m some ⟨n.reverse ++ l, [], caps⟩ = some ⟨n.reverse ++ l, [], caps⟩ := by
    intro l caps
    rw [m_wordB]
    have : atWordB (n.reverse ++ l) [] = true := by
      unfold atWordB
      rw [headIsWord_reverse_numeral n l hn]
      rfl
    simp only [this, if_true]
  have hnum : ∀ l : List Char, ∃ extra, ((Re.seq (numRe 1 2) .wordB).m some ⟨l, n ++ [], []⟩)
      = some ⟨n.reverse ++ l, [], (1, n) :: extra⟩ := by
    intro l
    obtain ⟨extra, h⟩ := numRe_run 1 2 (Re.wordB.m some) [] n [] l hn (headNot_nil _)
      (headNot_nil _) (fun extra => by rw [hword]; rfl)
    exact ⟨extra ++ [], by rw [m_seq, h, hword]⟩
  obtain ⟨extra, h6⟩ := hnum
    ([' '].reverse ++ ("of".toList.reverse ++ ([' '].reverse ++ ("root".toList.reverse
      ++ ([' '].reverse ++ ("square".toList.reverse ++ []))))))
  refine ⟨n.reverse ++ ([' '].reverse ++ ("of".toList.reverse ++ ([' '].reverse
    ++ ("root".toList.reverse ++ ([' '].reverse ++ ("square".toList.reverse ++ [])))))),
    extra, ?_⟩
  have h5 := opt_str_spaces_run "of".toList [' '] (n ++ [])
    ([' '].reverse ++ ("root".toList.reverse ++ ([' '].reverse
      ++ ("square".toList.reverse ++ [])))) [] ((Re.seq (numRe 1 2) .wordB).m some)
    (by decide) hsp (headNot_numeral_space n [] hn) (by rw [h6]; rfl)
  have h4 := str_spaces_run "root".toList [' '] ("of".toList ++ ([' '] ++ (n ++ [])))
    ([' '].reverse ++ ("square".toList.reverse ++ [])) []
    (.seq (.opt (.seq (Re.str "of".toList) (.star .space))) (.seq (numRe 1 2) .wordB)) some
    hsp (by intro c r h; have : c = 'o' := ((List.cons.inj h).1).symm; subst this; decide)
    (by rw [m_seq, h5, h6]; rfl)
  have h3 := str_spaces_run "square".toList [' ']
    ("root".toList ++ ([' '] ++ ("of".toList ++ ([' '] ++ (n ++ []))))) [] []
    (.seq (Re.str "root".toList) (.seq (.star .space)
      (.seq (.opt (.seq (Re.str "of".toList) (.star .space))) (.seq (numRe 1 2) .wordB)))) some
    hsp (by intro c r h; have : c = 'r' := ((List.cons.inj h).1).symm; subst this; decide)
    (by rw [h4, m_seq, h5, h6]; rfl)
  unfold matchAt
  rw [hre, htext, m_seq, m_wordB, if_pos (by rfl), h3, h4, m_seq, h5, h6]


theorem trim_of_ends (s : List Char) (h1 : HeadNot isSpace s)
    (h2 : HeadNot isSpace s.reverse) : trim s = s := by
  have hd : ∀ l : List Char, HeadNot isSpace l → l.dropWhile isSpace = l := by
    intro l hl
    cases l with
    | nil => rfl
    | cons a t => simp [List.dropWhile, hl a t rfl]
  unfold trim
  rw [hd s h1, hd s.reverse h2, List.reverse_reverse]

theorem expand_sqrt (matched : List Char) (caps : List (Nat × List Char)) :
    expandTemplate 2 matched caps .none "sqrt($1)".toList
      = "sqrt(".toList ++ (capOf caps 1 ++ [')']) := rfl

set_option maxRecDepth 100000 in
theorem replaceAll_squareRoot (n : List Char) (hn : Numeral n) :
    replaceAll squareRootRe "sqrt($1)" ("square root of ".toList ++ n)
      = "sqrt(".toList ++ (n ++ [')']) := by
  obtain ⟨left, extra, hm⟩ := squareRoot_matchAt n hn
  have hafter : mayMatchAfter squareRootRe .unk [] = false := by decide!
  have hne : "square root of ".toList ++ n ≠ [] := by simp
  have hp := pieces_one_hit squareRootRe [] ("square root of ".toList ++ n) [] left
    ((1, n) :: extra) hne (by intro u1 c u2 h; simp at h) (by simpa using hm)
    (no_match_of_mayMatchAfter squareRootRe .unk [] left [] trivial rfl hafter)
  have hp' : pieces squareRootRe ("square root of ".toList ++ n)
      = [.hit ("square root of ".toList ++ n) ((1, n) :: extra)] := by
    simpa using hp
  unfold replaceAll replaceWith
  rw [hp']
  show expandTemplate 2 _ _ .none "sqrt($1)".toList ++ [] = _
  rw [expand_sqrt]
  simp [capOf]

theorem denotes_squareRootPhrase (n : List Char) (hn : Numeral n) :
    Denotes squareRootPhrase ("square root of ".toList ++ n) :=
  denotes_append _ _ _ _ (denotes_lits _) ⟨n, [], by simp, numeral_chars n hn, rfl⟩

theorem denotes_sqrtCall (n : List Char) (hn : Numeral n) :
    Denotes sqrtCall ("sqrt(".toList ++ (n ++ [')'])) :=
  denotes_append _ _ _ _ (denotes_lits _) ⟨n, [')'], rfl, numeral_chars n hn, [], rfl, rfl⟩

set_option maxRecDepth 100000 in
theorem runPasses_tail_squareRoot (n : List Char) (hn : Numeral n) :
    runPasses (operatorPasses ++ functionPasses ++ cleanupPasses)
      ("square root of ".toList ++ n) = "sqrt(".toList ++ (n ++ [')']) := by
  have hsplit : operatorPasses ++ functionPasses ++ cleanupPasses
      = (operatorPasses ++ functionPasses.take 7)
        ++ ([⟨squareRootRe, "sqrt($1)"⟩] ++ (functionPasses.drop 8 ++ cleanupPasses)) := rfl
  have h1 : ((operatorPasses ++ functionPasses.take 7).any
      fun p => mayMatch p.re squareRootPhrase) = false := by decide!
  have h2 : ((functionPasses.drop 8 ++ cleanupPasses).any
      fun p => mayMatch p.re sqrtCall) = false := by decide!
  rw [hsplit, runPasses_append, runPasses_append,
    runPasses_of_mayMatch squareRootPhrase _ (denotes_squareRootPhrase n hn) _ h1]
  show runPasses _ (replaceAll squareRootRe "sqrt($1)" ("square root of ".toList ++ n)) = _
  rw [replaceAll_squareRoot n hn,
    runPasses_of_mayMatch sqrtCall _ (denotes_sqrtCall n hn) _ h2]

theorem isSpace_of_isDigit (c : Char) (h : isDigit c = true) : isSpace c = false := by
  have key : ∀ d ∈ "0123456789".toList, isSpace d = false := by decide
  exact key c ((isDigit_iff c).1 h)

theorem headNot_space_reverse_numeral (n l : List Char) (hn : Numeral n) :
    HeadNot isSpace ((l ++ n).reverse) := by
  obtain ⟨init, d, h, hd⟩ := getLast_isDigit n hn
  subst h
  intro c r hc
  have : c = d := by
    have h' : d :: (init.reverse ++ l.reverse) = c :: r := by simpa using hc
    exact ((List.cons.inj h').1).symm
  rw [this]
  exact isSpace_of_isDigit d hd

set_option maxRecDepth 100000 in
theorem validate_sqrtCall (n : List Char) (hn : Numeral n) :
    validate ("sqrt(".toList ++ (n ++ [')'])) = some ("sqrt(".toList ++ (n ++ [')'])) := by
  have k1 : ∀ c ∈ "sqrt(".toList, c ∈ allowedChars := by decide
  have k2 : ∀ c ∈ "0123456789.".toList, c ∈ allowedChars := by decide
  have k3 : ')' ∈ allowedChars := by decide
  rw [validate_eq, if_pos]
  refine ⟨by simp, ?_⟩
  intro c hc
  rcases List.mem_append.1 hc with h | h
  · exact k1 c h
  · rcases List.mem_append.1 h with h | h
    · exact k2 c (numeral_chars n hn c h)
    · have : c = ')' := by simpa using h
      rw [this]
      exact k3

set_option maxRecDepth 100000 in
theorem parse_squareRoot_numeral (n : List Char) (hn : Numeral n) :
    parseVoiceToMath asciiToLowerCase ("square root of ".toList ++ n)
      = some ("sqrt(".toList ++ (n ++ [')'])) := by
  have hlow : asciiToLowerCase ("square root of ".toList ++ n)
      = "square root of ".toList ++ n := by
    apply asciiToLowerCase_of_fixed
    have k1 : ∀ c ∈ "square root of ".toList, c.toLower = c := by decide
    have k2 : ∀ c ∈ "0123456789.".toList, c.toLower = c := by decide
    intro c hc
    rcases List.mem_append.1 hc with h | h
    · exact k1 c h
    · exact k2 c (numeral_chars n hn c h)
  have htrim : trim (asciiToLowerCase ("square root of ".toList ++ n))
      = "square root of ".toList ++ n := by
    rw [hlow]
    apply trim_of_ends
    · intro c r h
      have h' : 's' :: ("quare root of ".toList ++ n) = c :: r := h
      rw [← (List.cons.inj h').1]
      decide
    · exact headNot_space_reverse_numeral n _ hn
  have hden := denotes_squareRootPhrase n hn
  have t1 : mayMatch cmdClearRe squareRootPhrase = false := by decide!
  have t2 : mayMatch (cmdRe calculateSynonyms) squareRootPhrase = false := by decide!
  have t3 : mayMatch (cmdRe repeatSynonyms) squareRootPhrase = false := by decide!
  have t4 : mayMatch (cmdRe historySynonyms) squareRootPhrase = false := by decide!
  have h0 : ((unitPasses ++ numberWordPasses).any
      fun p => mayMatch p.re squareRootPhrase) = false := by decide!
  have hall : allPasses = (unitPasses ++ numberWordPasses)
      ++ (operatorPasses ++ functionPasses ++ cleanupPasses) := by
    simp [allPasses, List.append_assoc]
  rw [parseVoiceToMath_of_tests_false asciiToLowerCase _
    (by rw [htrim]; exact test_of_mayMatch _ _ _ hden t1)
    (by rw [htrim]; exact test_of_mayMatch _ _ _ hden t2)
    (by rw [htrim]; exact test_of_mayMatch _ _ _ hden t3)
    (by rw [htrim]; exact test_of_mayMatch _ _ _ hden t4),
    htrim, hall, runPasses_append, runPasses_of_mayMatch squareRootPhrase _ hden _ h0,
    runPasses_tail_squareRoot n hn, validate_sqrtCall n hn]

/-! ### Number words -/

set_option maxRecDepth 100000 in
theorem numberWords_run :
    ∀ wd ∈ numberWords, runPasses numberWordPasses wd.1.toList = wd.2.toList := by
  decide!

theorem numberWords_facts :
    ∀ wd ∈ numberWords, (wd.1.toList ≠ [] ∧ ∀ c ∈ wd.1.toList, isSpace c = false ∧ c.toLower = c)
      ∧ wd.2.toList ≠ [] ∧ ∀ c ∈ wd.2.toList, isDigit c = true := by
  decide

theorem numeral_of_numberWord (wd : String × String) (h : wd ∈ numberWords) :
    Numeral wd.2.toList :=
  ⟨wd.2.toList, ⟨(numberWords_facts wd h).2.1, (numberWords_facts wd h).2.2⟩, Or.inl rfl⟩

theorem headNot_space_reverse_word (w l : List Char) (hne : w ≠ [])
    (hw : ∀ c ∈ w, isSpace c = false) : HeadNot isSpace ((l ++ w).reverse) := by
  intro c r hc
  have hrev : (l ++ w).reverse = w.reverse ++ l.reverse := by simp
  rw [hrev] at hc
  cases hwr : w.reverse with
  | nil =>
    have : w = [] := by simpa using hwr
    exact absurd this hne
  | cons x xs =>
    rw [hwr] at hc
    have hx : c = x := ((List.cons.inj hc).1).symm
    have hmem : x ∈ w := by
      have : x ∈ w.reverse := by rw [hwr]; exact List.mem_cons_self _ _
      simpa using this
    rw [hx]
    exact hw x hmem

set_option maxRecDepth 100000 in
theorem parse_squareRoot_word (wd : String × String) (hwd : wd ∈ numberWords) :
    parseVoiceToMath asciiToLowerCase ("square root of ".toList ++ wd.1.toList)
      = some ("sqrt(".toList ++ (wd.2.toList ++ [')'])) := by
  obtain ⟨⟨hne, hchars⟩, _, _⟩ := numberWords_facts wd hwd
  have hn := numeral_of_numberWord wd hwd
  have hlow : asciiToLowerCase ("square root of ".toList ++ wd.1.toList)
      = "square root of ".toList ++ wd.1.toList := by
    apply asciiToLowerCase_of_fixed
    have k1 : ∀ c ∈ "square root of ".toList, c.toLower = c := by decide
    intro c hc
    rcases List.mem_append.1 hc with h | h
    · exact k1 c h
    · exact (hchars c h).2
  have htrim : trim (asciiToLowerCase ("square root of ".toList ++ wd.1.toList))
      = "square root of ".toList ++ wd.1.toList := by
    rw [hlow]
    apply trim_of_ends
    · intro c r h
      have h' : 's' :: ("quare root of ".toList ++ wd.1.toList) = c :: r := h
      rw [← (List.cons.inj h').1]
      decide
    · exact headNot_space_reverse_word _ _ hne (fun c hc => (hchars c hc).1)
  have hden : Denotes squareRootWord ("square root of ".toList ++ wd.1.toList) :=
    denotes_append _ _ _ _ (denotes_lits _)
      ⟨wd.1.toList, [], List.mem_map.2 ⟨wd, hwd, rfl⟩, by simp, rfl⟩
  have t1 : mayMatch cmdClearRe squareRootWord = false := by decide!
  have t2 : mayMatch (cmdRe calculateSynonyms) squareRootWord = false := by decide!
  have t3 : mayMatch (cmdRe repeatSynonyms) squareRootWord = false := by decide!
  have t4 : mayMatch (cmdRe historySynonyms) squareRootWord = false := by decide!
  have h0 : (unitPasses.any fun p => mayMatch p.re squareRootWord) = false := by decide!
  have hall : allPasses = unitPasses ++ (numberWordPasses
      ++ (operatorPasses ++ functionPasses ++ cleanupPasses)) := by
    simp [allPasses, List.append_assoc]
  have htext : "square root of ".toList ++ wd.1.toList
      = "square".toList ++ ' ' :: ("root".toList ++ ' ' :: ("of".toList ++ ' ' :: wd.1.toList)) :=
    rfl
  have hsp : isWordChar ' ' = false := by decide
  have w1 : runPasses numberWordPasses "square".toList = "square".toList := by decide!
  have w2 : runPasses numberWordPasses "root".toList = "root".toList := by decide!
  have w3 : runPasses numberWordPasses "of".toList = "of".toList := by decide!
  have hstep2 : runPasses numberWordPasses ("square root of ".toList ++ wd.1.toList)
      = "square root of ".toList ++ wd.2.toList := by
    rw [htext, runPasses_word_split ' ' hsp _ numberWordPasses_word,
      runPasses_word_split ' ' hsp _ numberWordPasses_word,
      runPasses_word_split ' ' hsp _ numberWordPasses_word, w1, w2, w3,
      numberWords_run wd hwd]
    rfl
  rw [parseVoiceToMath_of_tests_false asciiToLowerCase _
    (by rw [htrim]; exact test_of_mayMatch _ _ _ hden t1)
    (by rw [htrim]; exact test_of_mayMatch _ _ _ hden t2)
    (by rw [htrim]; exact test_of_mayMatch _ _ _ hden t3)
    (by rw [htrim]; exact test_of_mayMatch _ _ _ hden t4),
    htrim, hall, runPasses_append, runPasses_of_mayMatch squareRootWord _ hden _ h0,
    runPasses_append, hstep2, runPasses_tail_squareRoot _ hn, validate_sqrtCall _ hn]

/-- C3: for every decimal numeral `n` (digits with an optional fractional part) and for
every number word of the vocabulary with digits `n`, `parseVoiceToMath` maps
`square root of ` followed by the numeral or the word to `sqrt(n)`; in particular
`square root of nine` gives `sqrt(9)`. -/
theorem square_root_phrase_gives_sqrt_call :
    (∀ n : List Char, Numeral n →
      parseVoiceToMath asciiToLowerCase ("square root of ".toList ++ n)
        = some ("sqrt(".toList ++ n ++ [')']))
    ∧ (∀ wd ∈ numberWords,
      parseVoiceToMath asciiToLowerCase ("square root of ".toList ++ wd.1.toList)
        = some ("sqrt(".toList ++ wd.2.toList ++ [')']))
    ∧ parseVoiceToMath asciiToLowerCase "square root of nine".toList
        = some "sqrt(9)".toList := by
  refine ⟨?_, ?_, ?_⟩
  · intro n hn
    rw [parse_squareRoot_numeral n hn]
    simp
  · intro wd hwd
    rw [parse_squareRoot_word wd hwd]
    simp
  · exact parse_squareRoot_word ("nine", "9") (by decide)

/-- Witness for C3: the numeral `2.5`. -/
theorem square_root_phrase_gives_sqrt_call_witness :
    parseVoiceToMath asciiToLowerCase "square root of 2.5".toList = some "sqrt(2.5)".toList :=
  square_root_phrase_gives_sqrt_call.1 "2.5".toList
    ⟨['2'], ⟨by decide, by decide⟩, Or.inr ⟨['5'], ⟨by decide, by decide⟩, rfl⟩⟩

/-! ### Two numbers and an operator word -/

theorem render_hit_between (repl : List Char → List (Nat × List Char) → List Char)
    (u m v : List Char) (caps : List (Nat × List Char)) :
    render repl (u.map Piece.keep ++ .hit m caps :: v.map Piece.keep)
      = u ++ (repl m caps ++ v) := by
  rw [render_append, render_keep]
  show u ++ (repl m caps ++ render repl (v.map Piece.keep)) = _
  rw [render_keep]

theorem expand_symbol (n : Nat) (matched : List Char) (caps : List (Nat × List Char))
    (sym : Char) (hsym : sym ≠ '$') :
    expandTemplate n matched caps .none [sym] = [sym] := by
  simp [expandTemplate, hsym]

theorem filter_spaces_numerals (d1 d2 : List Char) (sym : Char)
    (h1 : ∀ c ∈ d1, isSpace c = false) (h2 : ∀ c ∈ d2, isSpace c = false)
    (hs : isSpace sym = false) :
    (d1 ++ ' ' :: sym :: ' ' :: d2).filter (fun c => !isSpace c) = d1 ++ sym :: d2 := by
  have hsp : isSpace ' ' = true := by decide
  have f1 : d1.filter (fun c => !isSpace c) = d1 :=
    List.filter_eq_self.2 (fun c hc => by simp [h1 c hc])
  have f2 : d2.filter (fun c => !isSpace c) = d2 :=
    List.filter_eq_self.2 (fun c hc => by simp [h2 c hc])
  rw [List.filter_append, f1, List.filter_cons_of_neg (by simp [hsp]),
    List.filter_cons_of_pos (by simp [hs]), List.filter_cons_of_neg (by simp [hsp]), f2]

theorem operator_stage (pre post : List Pass) (ws : List String) (sym : Char) (tpl : String)
    (htpl : tpl.toList = [sym]) (hsym : sym ≠ '$') (hspace : isSpace sym = false)
    (hws : ws ≠ [])
    (hpre : (pre.any fun p => mayMatch p.re (numOpNum ws)) = false)
    (hin : mayMatchIn (Re.alts (ws.map wordRe)) .start [.words vocabularyNumerals, .lit ' ']
      [.words (ws.map String.toList), .lit ' ', .words vocabularyNumerals] = false)
    (hafter : mayMatchAfter (Re.alts (ws.map wordRe)) .unk
      [.lit ' ', .words vocabularyNumerals] = false)
    (hpost : (post.any fun p => mayMatch p.re (numSymNum sym)) = false)
    (hfind : ∀ op ∈ ws,
      (ws.find? fun w => wordHit w.toList [' '] (op.toList ++ [' '])) = some op)
    (hcond : ∀ op ∈ ws, op.toList ≠ [] ∧ ∀ w ∈ ws, w.toList ≠ []
      ∧ (w.toList.length ≤ op.toList.length ∨ (∀ c ∈ w.toList, c ≠ ' ')
        ∨ mismatch w.toList (op.toList ++ [' ']) = true))
    (op : String) (hop : op ∈ ws) (d1 d2 : List Char)
    (hd1 : d1 ∈ vocabularyNumerals) (hd2 : d2 ∈ vocabularyNumerals) :
    runPasses (pre ++ ([⟨Re.alts (ws.map wordRe), tpl⟩]
        ++ (post ++ [⟨Re.plus .space, ""⟩])))
      (d1 ++ ' ' :: (op.toList ++ ' ' :: d2)) = d1 ++ sym :: d2 := by
  have hnosp : ∀ d ∈ vocabularyNumerals, ∀ c ∈ d, isSpace c = false := by decide
  have hden2 : Denotes [.words vocabularyNumerals] d2 := ⟨d2, [], hd2, by simp, rfl⟩
  have hdenv : Denotes [.lit ' ', .words vocabularyNumerals] (' ' :: d2) := ⟨d2, rfl, hden2⟩
  have hdenm : Denotes [.words (ws.map String.toList), .lit ' ', .words vocabularyNumerals]
      (op.toList ++ ' ' :: d2) :=
    ⟨op.toList, ' ' :: d2, List.mem_map.2 ⟨op, hop, rfl⟩, rfl, hdenv⟩
  have hdenu : Denotes [.words vocabularyNumerals, .lit ' '] (d1 ++ [' ']) :=
    ⟨d1, [' '], hd1, rfl, [], rfl, rfl⟩
  have hden : Denotes (numOpNum ws) (d1 ++ ' ' :: (op.toList ++ ' ' :: d2)) :=
    ⟨d1, _, hd1, rfl, _, rfl, hdenm⟩
  have hdens : Denotes (numSymNum sym) (d1 ++ ' ' :: sym :: ' ' :: d2) :=
    ⟨d1, _, hd1, rfl, _, rfl, _, rfl, hdenv⟩
  -- the pass of the operator word
  have htext : d1 ++ ' ' :: (op.toList ++ ' ' :: d2)
      = (d1 ++ [' ']) ++ (op.toList ++ ' ' :: d2) := by simp
  have hhead : headIsWord ((d1 ++ [' ']).reverse ++ []) = headIsWord [' '] := by simp [headIsWord]
  have hhit : matchAt (Re.alts (ws.map wordRe)) ((d1 ++ [' ']).reverse ++ [])
      (op.toList ++ ' ' :: d2)
      = some ⟨op.toList.reverse ++ ((d1 ++ [' ']).reverse ++ []), ' ' :: d2, []⟩ := by
    rw [matchAt_alts_words _ _ ws hws,
      find_wordHit_sep op.toList d2 _ [' '] ' ' hhead ws (hcond op hop).2, hfind op hop]
    simp
  have hown : replaceAll (Re.alts (ws.map wordRe)) tpl (d1 ++ ' ' :: (op.toList ++ ' ' :: d2))
      = d1 ++ ' ' :: sym :: ' ' :: d2 := by
    unfold replaceAll replaceWith
    rw [htext, pieces_one_hit _ (d1 ++ [' ']) op.toList (' ' :: d2) _ [] (hcond op hop).1
      (no_match_of_mayMatchIn _ .start _ _ [] _ _ rfl hdenu hdenm hin) hhit
      (no_match_of_mayMatchAfter _ .unk _ _ _ trivial hdenv hafter),
      render_hit_between, htpl, expand_symbol _ _ _ sym hsym]
    simp
  rw [runPasses_append, runPasses_append, runPasses_append,
    runPasses_of_mayMatch (numOpNum ws) _ hden pre hpre]
  show runPasses _ (runPasses post (replaceAll (Re.alts (ws.map wordRe)) tpl _)) = _
  rw [hown, runPasses_of_mayMatch (numSymNum sym) _ hdens post hpost]
  show replaceAll (Re.plus .space) "" _ = _
  rw [replaceAll_spaces, filter_spaces_numerals d1 d2 sym (hnosp d1 hd1) (hnosp d2 hd2) hspace]

set_option maxRecDepth 100000 in
theorem stage_plus (op : String) (hop : op ∈ ["plus", "add"]) (d1 d2 : List Char)
    (hd1 : d1 ∈ vocabularyNumerals) (hd2 : d2 ∈ vocabularyNumerals) :
    runPasses (operatorPasses ++ functionPasses ++ cleanupPasses)
      (d1 ++ ' ' :: (op.toList ++ ' ' :: d2)) = d1 ++ '+' :: d2 := by
  have hsplit : operatorPasses ++ functionPasses ++ cleanupPasses
      = operatorPasses.take 0 ++ ([⟨Re.alts (["plus", "add"].map wordRe), "+"⟩]
        ++ ((operatorPasses.drop 1 ++ functionPasses ++ [⟨fillerRe, ""⟩])
          ++ [⟨Re.plus .space, ""⟩])) := rfl
  rw [hsplit]
  exact operator_stage _ _ ["plus", "add"] '+' "+" rfl (by decide) (by decide) (by decide)
    (by decide!) (by decide!) (by decide!) (by decide!) (by decide!) (by decide!)
    op hop d1 d2 hd1 hd2

set_option maxRecDepth 100000 in
theorem stage_minus (op : String) (hop : op ∈ ["minus", "subtract"]) (d1 d2 : List Char)
    (hd1 : d1 ∈ vocabularyNumerals) (hd2 : d2 ∈ vocabularyNumerals) :
    runPasses (operatorPasses ++ functionPasses ++ cleanupPasses)
      (d1 ++ ' ' :: (op.toList ++ ' ' :: d2)) = d1 ++ '-' :: d2 := by
  have hsplit : operatorPasses ++ functionPasses ++ cleanupPasses
      = operatorPasses.take 1 ++ ([⟨Re.alts (["minus", "subtract"].map wordRe), "-"⟩]
        ++ ((operatorPasses.drop 2 ++ functionPasses ++ [⟨fillerRe, ""⟩])
          ++ [⟨Re.plus .space, ""⟩])) := rfl
  rw [hsplit]
  exact operator_stage _ _ ["minus", "subtract"] '-' "-" rfl (by decide) (by decide) (by decide)
    (by decide!) (by decide!) (by decide!) (by decide!) (by decide!) (by decide!)
    op hop d1 d2 hd1 hd2

set_option maxRecDepth 100000 in
theorem stage_times (op : String) (hop : op ∈ ["times", "multiply", "multiplied by"]) (d1 d2 : List Char)
    (hd1 : d1 ∈ vocabularyNumerals) (hd2 : d2 ∈ vocabularyNumerals) :
    runPasses (operatorPasses ++ functionPasses ++ cleanupPasses)
      (d1 ++ ' ' :: (op.toList ++ ' ' :: d2)) = d1 ++ '*' :: d2 := by
  have hsplit : operatorPasses ++ functionPasses ++ cleanupPasses
      = operatorPasses.take 2 ++ ([⟨Re.alts (["times", "multiply", "multiplied by"].map wordRe), "*"⟩]
        ++ ((operatorPasses.drop 3 ++ functionPasses ++ [⟨fillerRe, ""⟩])
          ++ [⟨Re.plus .space, ""⟩])) := rfl
  rw [hsplit]
  exact operator_stage _ _ ["times", "multiply", "multiplied by"] '*' "*" rfl (by decide) (by decide) (by decide)
    (by decide!) (by decide!) (by decide!) (by decide!) (by decide!) (by decide!)
    op hop d1 d2 hd1 hd2

set_option maxRecDepth 100000 in
theorem stage_divide (op : String) (hop : op ∈ ["divide", "divided by"]) (d1 d2 : List Char)
    (hd1 : d1 ∈ vocabularyNumerals) (hd2 : d2 ∈ vocabularyNumerals) :
    runPasses (operatorPasses ++ functionPasses ++ cleanupPasses)
      (d1 ++ ' ' :: (op.toList ++ ' ' :: d2)) = d1 ++ '/' :: d2 := by
  have hsplit : operatorPasses ++ functionPasses ++ cleanupPasses
      = operatorPasses.take 3 ++ ([⟨Re.alts (["divide", "divided by"].map wordRe), "/"⟩]
        ++ ((operatorPasses.drop 4 ++ functionPasses ++ [⟨fillerRe, ""⟩])
          ++ [⟨Re.plus .space, ""⟩])) := rfl
  rw [hsplit]
  exact operator_stage _ _ ["divide", "divided by"] '/' "/" rfl (by decide) (by decide) (by decide)
    (by decide!) (by decide!) (by decide!) (by decide!) (by decide!) (by decide!)
    op hop d1 d2 hd1 hd2

set_option maxRecDepth 100000 in
theorem stage_operator (op : String × String) (hop : op ∈ operatorWords) (d1 d2 : List Char)
    (hd1 : d1 ∈ vocabularyNumerals) (hd2 : d2 ∈ vocabularyNumerals) :
    runPasses (operatorPasses ++ functionPasses ++ cleanupPasses)
      (d1 ++ ' ' :: (op.1.toList ++ ' ' :: d2)) = d1 ++ (op.2.toList ++ d2) := by
  simp only [operatorWords, List.mem_cons, List.mem_singleton, List.not_mem_nil, or_false]
    at hop
  rcases hop with h | h | h | h | h | h | h | h | h <;> subst h
  · exact stage_plus "plus" (by decide) d1 d2 hd1 hd2
  · exact stage_plus "add" (by decide) d1 d2 hd1 hd2
  · exact stage_minus "minus" (by decide) d1 d2 hd1 hd2
  · exact stage_minus "subtract" (by decide) d1 d2 hd1 hd2
  · exact stage_times "times" (by decide) d1 d2 hd1 hd2
  · exact stage_times "multiply" (by decide) d1 d2 hd1 hd2
  · exact stage_times "multiplied by" (by decide) d1 d2 hd1 hd2
  · exact stage_divide "divide" (by decide) d1 d2 hd1 hd2
  · exact stage_divide "divided by" (by decide) d1 d2 hd1 hd2

theorem headNot_of_append (p : Char → Bool) (w rest : List Char) (hne : w ≠ [])
    (hw : ∀ c ∈ w, p c = false) : HeadNot p (w ++ rest) := by
  intro c r h
  cases w with
  | nil => exact absurd rfl hne
  | cons x w =>
    have hx : c = x := ((List.cons.inj h).1).symm
    rw [hx]
    exact hw x (List.mem_cons_self _ _)

set_option maxRecDepth 100000 in
theorem operatorWords_facts :
    (∀ op ∈ operatorWords, (∀ c ∈ op.1.toList, c.toLower = c)
      ∧ (∀ c ∈ op.2.toList, c ∈ allowedChars)
      ∧ runPasses numberWordPasses op.1.toList = op.1.toList)
    ∧ (∀ d ∈ vocabularyNumerals, ∀ c ∈ d, c ∈ allowedChars) := by
  decide!

set_option maxRecDepth 100000 in
theorem parse_word_op_word (wd1 : String × String) (h1 : wd1 ∈ numberWords)
    (op : String × String) (hop : op ∈ operatorWords)
    (wd2 : String × String) (h2 : wd2 ∈ numberWords) :
    parseVoiceToMath asciiToLowerCase
        (wd1.1.toList ++ ' ' :: (op.1.toList ++ ' ' :: wd2.1.toList))
      = some (wd1.2.toList ++ (op.2.toList ++ wd2.2.toList)) := by
  obtain ⟨⟨hne1, hch1⟩, hdne1, _⟩ := numberWords_facts wd1 h1
  obtain ⟨⟨hne2, hch2⟩, _, _⟩ := numberWords_facts wd2 h2
  obtain ⟨hopl, hopa, hoprun⟩ := operatorWords_facts.1 op hop
  have hnum := operatorWords_facts.2
  have hd1 : wd1.2.toList ∈ vocabularyNumerals := List.mem_map.2 ⟨wd1, h1, rfl⟩
  have hd2 : wd2.2.toList ∈ vocabularyNumerals := List.mem_map.2 ⟨wd2, h2, rfl⟩
  have hlow : asciiToLowerCase (wd1.1.toList ++ ' ' :: (op.1.toList ++ ' ' :: wd2.1.toList))
      = wd1.1.toList ++ ' ' :: (op.1.toList ++ ' ' :: wd2.1.toList) := by
    apply asciiToLowerCase_of_fixed
    intro c hc
    rcases List.mem_append.1 hc with h | h
    · exact (hch1 c h).2
    · rcases List.mem_cons.1 h with h | h
      · rw [h]; decide
      · rcases List.mem_append.1 h with h | h
        · exact hopl c h
        · rcases List.mem_cons.1 h with h | h
          · rw [h]; decide
          · exact (hch2 c h).2
  have htrim : trim (asciiToLowerCase
      (wd1.1.toList ++ ' ' :: (op.1.toList ++ ' ' :: wd2.1.toList)))
      = wd1.1.toList ++ ' ' :: (op.1.toList ++ ' ' :: wd2.1.toList) := by
    rw [hlow]
    apply trim_of_ends
    · exact headNot_of_append _ _ _ hne1 (fun c hc => (hch1 c hc).1)
    · have happ : wd1.1.toList ++ ' ' :: (op.1.toList ++ ' ' :: wd2.1.toList)
          = (wd1.1.toList ++ ' ' :: (op.1.toList ++ [' '])) ++ wd2.1.toList := by simp
      rw [happ]
      exact headNot_space_reverse_word _ _ hne2 (fun c hc => (hch2 c hc).1)
  have hden : Denotes wordOpWord
      (wd1.1.toList ++ ' ' :: (op.1.toList ++ ' ' :: wd2.1.toList)) :=
    ⟨wd1.1.toList, _, List.mem_map.2 ⟨wd1, h1, rfl⟩, rfl, _, rfl,
      op.1.toList, _, List.mem_map.2 ⟨op, hop, rfl⟩, rfl, _, rfl,
      wd2.1.toList, [], List.mem_map.2 ⟨wd2, h2, rfl⟩, by simp, rfl⟩
  have t1 : mayMatch cmdClearRe wordOpWord = false := by decide!
  have t2 : mayMatch (cmdRe calculateSynonyms) wordOpWord = false := by decide!
  have t3 : mayMatch (cmdRe repeatSynonyms) wordOpWord = false := by decide!
  have t4 : mayMatch (cmdRe historySynonyms) wordOpWord = false := by decide!
  have h0 : (unitPasses.any fun p => mayMatch p.re wordOpWord) = false := by decide!
  have hall : allPasses = unitPasses ++ (numberWordPasses
      ++ (operatorPasses ++ functionPasses ++ cleanupPasses)) := by
    simp [allPasses, List.append_assoc]
  have hsp : isWordChar ' ' = false := by decide
  have hstep2 : runPasses numberWordPasses
      (wd1.1.toList ++ ' ' :: (op.1.toList ++ ' ' :: wd2.1.toList))
      = wd1.2.toList ++ ' ' :: (op.1.toList ++ ' ' :: wd2.2.toList) := by
    rw [runPasses_word_split ' ' hsp _ numberWordPasses_word,
      runPasses_word_split ' ' hsp _ numberWordPasses_word,
      numberWords_run wd1 h1, numberWords_run wd2 h2, hoprun]
  have hvalid : validate (wd1.2.toList ++ (op.2.toList ++ wd2.2.toList))
      = some (wd1.2.toList ++ (op.2.toList ++ wd2.2.toList)) := by
    rw [validate_eq, if_pos]
    refine ⟨fun h => hdne1 (List.append_eq_nil.1 h).1, ?_⟩
    intro c hc
    rcases List.mem_append.1 hc with h | h
    · exact hnum _ hd1 c h
    · rcases List.mem_append.1 h with h | h
      · exact hopa c h
      · exact hnum _ hd2 c h
  rw [parseVoiceToMath_of_tests_false asciiToLowerCase _
    (by rw [htrim]; exact test_of_mayMatch _ _ _ hden t1)
    (by rw [htrim]; exact test_of_mayMatch _ _ _ hden t2)
    (by rw [htrim]; exact test_of_mayMatch _ _ _ hden t3)
    (by rw [htrim]; exact test_of_mayMatch _ _ _ hden t4),
    htrim, hall, runPasses_append, runPasses_of_mayMatch wordOpWord _ hden _ h0,
    runPasses_append, hstep2, stage_operator op hop _ _ hd1 hd2, hvalid]

/-- C2: for every two number words `w₁`, `w₂` of the vocabulary and every operator word
`op` among plus, add, minus, subtract, times, multiply, multiplied by, divide and divided
by, `parseVoiceToMath` maps `w₁ op w₂` to the digits of `w₁`, the symbol of `op` and the
digits of `w₂`, without spaces; in particular `five plus three` gives `5+3`. -/
theorem number_word_operator_number_word :
    (∀ wd1 ∈ numberWords, ∀ op ∈ operatorWords, ∀ wd2 ∈ numberWords,
      parseVoiceToMath asciiToLowerCase
          (wd1.1.toList ++ ' ' :: op.1.toList ++ ' ' :: wd2.1.toList)
        = some (wd1.2.toList ++ op.2.toList ++ wd2.2.toList))
    ∧ parseVoiceToMath asciiToLowerCase "five plus three".toList = some "5+3".toList := by
  refine ⟨?_, ?_⟩
  · intro wd1 h1 op hop wd2 h2
    have := parse_word_op_word wd1 h1 op hop wd2 h2
    simpa using this
  · exact parse_word_op_word ("five", "5") (by decide) ("plus", "+") (by decide)
      ("three", "3") (by decide)

/-- Witness for C2: `ninety divided by ten`. -/
theorem number_word_operator_number_word_witness :
    parseVoiceToMath asciiToLowerCase "ninety divided by ten".toList = some "90/10".toList :=
  number_word_operator_number_word.1 ("ninety", "90") (by decide) ("divided by", "/")
    (by decide) ("ten", "10") (by decide)

/-! ### Function names in `calculate` and `evaluateExpression` -/

set_option maxRecDepth 100000 in
theorem delegated_logarithms {V : Type} (host : Host V) (settings : Settings) :
    delegated host settings "ln(1)".toList = "Math.Math.log10(1)".toList
    ∧ delegated host settings "log2(8)".toList = "Math.Math.log2(8)".toList := by
  have p1 : runPasses glyphPasses "ln(1)".toList = "ln(1)".toList := by decide!
  have p2 : pieces trigRe "ln(1)".toList = ("ln(1)".toList).map Piece.keep := by decide!
  have p3 : replaceAll trigOpenRe "Math.$1(" "ln(1)".toList = "ln(1)".toList := by decide!
  have p4 : evaluatedString (balanceParentheses (runPasses namePasses "ln(1)".toList))
      = "Math.Math.log10(1)".toList := by decide!
  have e1 : runPasses glyphPasses "log2(8)".toList = "log2(8)".toList := by decide!
  have e2 : pieces trigRe "log2(8)".toList = ("log2(8)".toList).map Piece.keep := by decide!
  have e3 : replaceAll trigOpenRe "Math.$1(" "log2(8)".toList = "log2(8)".toList := by
    decide!
  have e4 : evaluatedString (balanceParentheses (runPasses namePasses "log2(8)".toList))
      = "Math.Math.log2(8)".toList := by decide!
  unfold delegated prepare
  simp only [p1, e1]
  cases settings.angleUnit
  · simp only [replaceWith, p2, e2, render_keep, p4, e4, and_self]
  · simp only [p3, e3, p4, e4, and_self]

set_option maxRecDepth 100000 in
/-- C11 (as the code behaves): for `ln(1)` the text that `calculate` hands to the host
evaluator is `Math.Math.log10(1)` and for `log2(8)` it is `Math.Math.log2(8)`:
`calculate` writes `Math.log(1)` and `Math.log2(8)`, and `evaluateExpression` then
applies its own substitutions of `log(` and `log2(` to these texts. The intermediate
texts are the ones the claim names, the gate accepts the final texts, and they, not
`Math.log(1)` and `Math.log2(8)`, are what the host evaluator receives. -/
theorem logarithm_names_are_substituted_twice {V : Type} (host : Host V)
    (settings : Settings) :
    runPasses namePasses "ln(1)".toList = "Math.log(1)".toList
    ∧ runPasses namePasses "log2(8)".toList = "Math.log2(8)".toList
    ∧ delegated host settings "ln(1)".toList = "Math.Math.log10(1)".toList
    ∧ delegated host settings "log2(8)".toList = "Math.Math.log2(8)".toList
    ∧ gateAccepts "Math.Math.log10(1)".toList = true
    ∧ gateAccepts "Math.Math.log2(8)".toList = true
    ∧ evaluateExpression host (prepare host settings "ln(1)".toList)
        = host.run "Math.Math.log10(1)".toList
    ∧ evaluateExpression host (prepare host settings "log2(8)".toList)
        = host.run "Math.Math.log2(8)".toList := by
  have hp : evaluatedString (prepare host settings "ln(1)".toList)
      = "Math.Math.log10(1)".toList := (delegated_logarithms host settings).1
  have he : evaluatedString (prepare host settings "log2(8)".toList)
      = "Math.Math.log2(8)".toList := (delegated_logarithms host settings).2
  have gp : gateAccepts "Math.Math.log10(1)".toList = true := by decide!
  have ge : gateAccepts "Math.Math.log2(8)".toList = true := by decide!
  refine ⟨by decide!, by decide!, hp, he, gp, ge, ?_, ?_⟩
  · unfold evaluateExpression
    rw [hp, gp]
    rfl
  · unfold evaluateExpression
    rw [he, ge]
    rfl

set_option maxRecDepth 100000 in
theorem delegated_exp0 {V : Type} (host : Host V) (settings : Settings) :
    delegated host settings "exp(0)".toList = "e*p(0)".toList := by
  have p1 : runPasses glyphPasses "exp(0)".toList = "e*p(0)".toList := by decide!
  have p2 : pieces trigRe "e*p(0)".toList = ("e*p(0)".toList).map Piece.keep := by decide!
  have p3 : replaceAll trigOpenRe "Math.$1(" "e*p(0)".toList = "e*p(0)".toList := by decide!
  have p4 : evaluatedString (balanceParentheses (runPasses namePasses "e*p(0)".toList))
      = "e*p(0)".toList := by decide!
  unfold delegated prepare
  simp only [p1]
  cases settings.angleUnit
  · simp only [replaceWith, p2, render_keep, p4]
  · simp only [p3, p4]

set_option maxRecDepth 100000 in
/-- C12 (as the code behaves): the first substitution of `calculate` replaces every `x`
by `*`, also the `x` of `exp`: for `exp(0)` the text checked by the gate is `e*p(0)`,
the gate rejects it, the host evaluator is not called and `calculate` reports an invalid
expression with the state unchanged, whatever the host and the settings are. -/
theorem exp_call_is_broken_by_the_x_substitution {V : Type} (host : Host V)
    (settings : Settings) (now r : List Char) (h : List HistoryItem) :
    replaceAll (.chr 'x') "*" "exp(0)".toList = "e*p(0)".toList
    ∧ delegated host settings "exp(0)".toList = "e*p(0)".toList
    ∧ gateAccepts "e*p(0)".toList = false
    ∧ evaluateExpression host (prepare host settings "exp(0)".toList) = none
    ∧ calculate host settings now ⟨"exp(0)".toList, r, h⟩
        = (⟨"exp(0)".toList, r, h⟩, .invalidExpression) := by
  have hd : evaluatedString (prepare host settings "exp(0)".toList) = "e*p(0)".toList :=
    delegated_exp0 host settings
  have hg : gateAccepts "e*p(0)".toList = false := by decide!
  have hev : evaluateExpression host (prepare host settings "exp(0)".toList) = none := by
    unfold evaluateExpression
    rw [hd, hg]
    rfl
  refine ⟨by decide!, hd, hg, hev, ?_⟩
  unfold calculate
  rw [hev]
  rfl

/-! ### Failures and successes of `calculate` -/

theorem evaluateExpression_prepare {V : Type} (host : Host V) (settings : Settings)
    (e : List Char) :
    evaluateExpression host (prepare host settings e)
      = if gateAccepts (delegated host settings e) then host.run (delegated host settings e)
        else none := rfl

theorem isEmpty_of_ne_nil (e : List Char) (h : e ≠ []) : e.isEmpty = false := by
  cases e with
  | nil => exact absurd rfl h
  | cons a l => rfl

theorem calculate_empty {V : Type} (host : Host V) (settings : Settings)
    (now : List Char) (c : Calc) (h : c.currentExpression = []) :
    calculate host settings now c = (c, .noExpression) := by
  unfold calculate
  rewrite [h]
  simp only [List.isEmpty_nil, if_true]

theorem calculate_throws {V : Type} (host : Host V) (settings : Settings)
    (now : List Char) (c : Calc) (h : c.currentExpression ≠ [])
    (hev : evaluateExpression host (prepare host settings c.currentExpression) = none) :
    calculate host settings now c = (c, .invalidExpression) := by
  unfold calculate
  rewrite [isEmpty_of_ne_nil _ h, hev]
  simp only [Bool.false_eq_true, if_false]

theorem calculate_test_throws {V : Type} (host : Host V) (settings : Settings)
    (now : List Char) (c : Calc) (v : V) (h : c.currentExpression ≠ [])
    (hev : evaluateExpression host (prepare host settings c.currentExpression) = some v)
    (hf : host.isFinite v = none) :
    calculate host settings now c = (c, .invalidExpression) := by
  unfold calculate
  rewrite [isEmpty_of_ne_nil _ h, hev]
  simp only [Bool.false_eq_true, if_false, hf]

theorem calculate_not_finite {V : Type} (host : Host V) (settings : Settings)
    (now : List Char) (c : Calc) (v : V) (h : c.currentExpression ≠ [])
    (hev : evaluateExpression host (prepare host settings c.currentExpression) = some v)
    (hf : host.isFinite v = some false) :
    calculate host settings now c = (c, .invalidCalculation) := by
  unfold calculate
  rewrite [isEmpty_of_ne_nil _ h, hev]
  simp only [Bool.false_eq_true, if_false, hf]

theorem calculate_format_throws {V : Type} (host : Host V) (settings : Settings)
    (now : List Char) (c : Calc) (v : V) (h : c.currentExpression ≠ [])
    (hev : evaluateExpression host (prepare host settings c.currentExpression) = some v)
    (hf : host.isFinite v = some true) (hfr : formatResult host settings v = none) :
    calculate host settings now c = (c, .invalidExpression) := by
  unfold calculate
  rewrite [isEmpty_of_ne_nil _ h, hev]
  simp only [Bool.false_eq_true, if_false, hf, hfr]

theorem calculate_succeeds {V : Type} (host : Host V) (settings : Settings)
    (now : List Char) (c : Calc) (v : V) (t : List Char) (h : c.currentExpression ≠ [])
    (hev : evaluateExpression host (prepare host settings c.currentExpression) = some v)
    (hf : host.isFinite v = some true) (hfr : formatResult host settings v = some t) :
    calculate host settings now c
      = (⟨t, t, addToHistory now c.history t t⟩, .result t) := by
  unfold calculate
  rewrite [isEmpty_of_ne_nil _ h, hev]
  simp only [Bool.false_eq_true, if_false, hf, hfr]

theorem calculate_cases {V : Type} (host : Host V) (settings : Settings)
    (now : List Char) (c : Calc) :
    (∃ r, calculate host settings now c
        = (⟨r, r, addToHistory now c.history r r⟩, .result r))
    ∨ (∃ o, (∀ r, o ≠ Outcome.result r) ∧ calculate host settings now c = (c, o)) := by
  by_cases h : c.currentExpression = []
  · exact Or.inr ⟨.noExpression, ⟨fun r hr => Outcome.noConfusion hr,
      calculate_empty host settings now c h⟩⟩
  · cases hev : evaluateExpression host (prepare host settings c.currentExpression) with
    | none =>
      exact Or.inr ⟨.invalidExpression, ⟨fun r hr => Outcome.noConfusion hr,
        calculate_throws host settings now c h hev⟩⟩
    | some v =>
      cases hf : host.isFinite v with
      | none =>
        exact Or.inr ⟨.invalidExpression, ⟨fun r hr => Outcome.noConfusion hr,
          calculate_test_throws host settings now c v h hev hf⟩⟩
      | some b =>
        cases b with
        | false =>
          exact Or.inr ⟨.invalidCalculation, ⟨fun r hr => Outcome.noConfusion hr,
            calculate_not_finite host settings now c v h hev hf⟩⟩
        | true =>
          cases hfr : formatResult host settings v with
          | none =>
            exact Or.inr ⟨.invalidExpression, ⟨fun r hr => Outcome.noConfusion hr,
              calculate_format_throws host settings now c v h hev hf hfr⟩⟩
          | some t =>
            exact Or.inl ⟨t, calculate_succeeds host settings now c v t h hev hf hfr⟩

theorem calculateFeedback_empty {V : Type} (host : Host V) (settings : Settings)
    (c : Calc) (h : c.currentExpression = []) :
    calculateFeedback host settings c = ["No expression to calculate".toList] := by
  unfold calculateFeedback
  rewrite [h]
  simp only [List.isEmpty_nil, if_true]

theorem calculateFeedback_throws {V : Type} (host : Host V) (settings : Settings)
    (c : Calc) (h : c.currentExpression ≠ [])
    (hev : evaluateExpression host (prepare host settings c.currentExpression) = none) :
    calculateFeedback host settings c
      = ["Error: Invalid expression".toList, "Calculation failed".toList] := by
  unfold calculateFeedback
  rewrite [isEmpty_of_ne_nil _ h, hev]
  simp only [Bool.false_eq_true, if_false]
  rfl

theorem calculateFeedback_test_throws {V : Type} (host : Host V) (settings : Settings)
    (c : Calc) (v : V) (h : c.currentExpression ≠ [])
    (hev : evaluateExpression host (prepare host settings c.currentExpression) = some v)
    (hf : host.isFinite v = none) :
    calculateFeedback host settings c
      = ["Error: Invalid expression".toList, "Calculation failed".toList] := by
  unfold calculateFeedback
  rewrite [isEmpty_of_ne_nil _ h, hev]
  simp only [Bool.false_eq_true, if_false, hf]
  rfl

theorem calculateFeedback_not_finite {V : Type} (host : Host V) (settings : Settings)
    (c : Calc) (v : V) (h : c.currentExpression ≠ [])
    (hev : evaluateExpression host (prepare host settings c.currentExpression) = some v)
    (hf : host.isFinite v = some false) :
    calculateFeedback host settings c
      = ["Error: Invalid calculation".toList, "Calculation failed".toList] := by
  unfold calculateFeedback
  rewrite [isEmpty_of_ne_nil _ h, hev]
  simp only [Bool.false_eq_true, if_false, hf]
  rfl

set_option maxRecDepth 100000 in
theorem delegated_one_by_zero {V : Type} (host : Host V) (settings : Settings) :
    delegated host settings "1/0".toList = "1/0".toList := by
  have p1 : runPasses glyphPasses "1/0".toList = "1/0".toList := by decide!
  have p2 : pieces trigRe "1/0".toList = ("1/0".toList).map Piece.keep := by decide!
  have p3 : replaceAll trigOpenRe "Math.$1(" "1/0".toList = "1/0".toList := by decide!
  have p4 : evaluatedString (balanceParentheses (runPasses namePasses "1/0".toList))
      = "1/0".toList := by decide!
  unfold delegated prepare
  simp only [p1]
  cases settings.angleUnit
  · simp only [replaceWith, p2, render_keep, p4]
  · simp only [p3, p4]

set_option maxRecDepth 100000 in
theorem delegated_bigint_literal {V : Type} (host : Host V) (settings : Settings) :
    delegated host settings "1n".toList = "1n".toList := by
  have p1 : runPasses glyphPasses "1n".toList = "1n".toList := by decide!
  have p2 : pieces trigRe "1n".toList = ("1n".toList).map Piece.keep := by decide!
  have p3 : replaceAll trigOpenRe "Math.$1(" "1n".toList = "1n".toList := by decide!
  have p4 : evaluatedString (balanceParentheses (runPasses namePasses "1n".toList))
      = "1n".toList := by decide!
  unfold delegated prepare
  simp only [p1]
  cases settings.angleUnit
  · simp only [replaceWith, p2, render_keep, p4]
  · simp only [p3, p4]

set_option maxRecDepth 100000 in
/-- Counterexample for C14: the two failures do not report the messages "Invalid
expression" and "Invalid calculation". For `1/0`, which the host evaluates to a value
that is not finite, `calculate` shows "Error: Invalid calculation" and then "Calculation
failed"; for `2+`, on which the host evaluator throws, and for `abc`, which the gate
rejects, it shows "Error: Invalid expression" and then "Calculation failed". The text
that stays on display is the same in the three cases. -/
theorem failures_end_with_calculation_failed :
    calculateFeedback (extendedHost [("1/0", none)]) ⟨2, .degrees⟩ ⟨"1/0".toList, ['0'], []⟩
      = ["Error: Invalid calculation".toList, "Calculation failed".toList]
    ∧ calculateFeedback (extendedHost [("1/0", none)]) ⟨2, .degrees⟩ ⟨"2+".toList, ['0'], []⟩
      = ["Error: Invalid expression".toList, "Calculation failed".toList]
    ∧ calculateFeedback (extendedHost [("1/0", none)]) ⟨2, .degrees⟩ ⟨"abc".toList, ['0'], []⟩
      = ["Error: Invalid expression".toList, "Calculation failed".toList]
    ∧ "Invalid calculation".toList ∉
        calculateFeedback (extendedHost [("1/0", none)]) ⟨2, .degrees⟩
          ⟨"1/0".toList, ['0'], []⟩
    ∧ "Invalid expression".toList ∉
        calculateFeedback (extendedHost [("1/0", none)]) ⟨2, .degrees⟩
          ⟨"2+".toList, ['0'], []⟩
    ∧ (calculateFeedback (extendedHost [("1/0", none)]) ⟨2, .degrees⟩
          ⟨"1/0".toList, ['0'], []⟩).getLast?
      = (calculateFeedback (extendedHost [("1/0", none)]) ⟨2, .degrees⟩
          ⟨"2+".toList, ['0'], []⟩).getLast? := by
  decide!

set_option maxRecDepth 100000 in
/-- C14 (amended): a call of `calculate` that does not report a result leaves the state
as it was. With an empty expression it shows "No expression to calculate". When the gate
rejects the text, when the host evaluator throws and when the test of the value throws,
it shows "Error: Invalid expression" and then "Calculation failed". When the host value
is not finite it shows "Error: Invalid calculation" and then "Calculation failed"; this
is the case of `1/0` for a host that evaluates this text to a value that is not finite.
The two failures differ in the first text only. The gate accepts the text `1n`, whose
value has no conversion to a number, so the test of the value can throw. -/
theorem failed_calculate_keeps_state {V : Type} (host : Host V) (settings : Settings)
    (now : List Char) (c : Calc) :
    ((∃ r, (calculate host settings now c).2 = .result r)
      ∨ (calculate host settings now c).1 = c)
    ∧ (c.currentExpression = [] →
        calculate host settings now c = (c, .noExpression)
        ∧ calculateFeedback host settings c = ["No expression to calculate".toList])
    ∧ (c.currentExpression ≠ [] →
        gateAccepts (delegated host settings c.currentExpression) = false →
        calculate host settings now c = (c, .invalidExpression)
        ∧ calculateFeedback host settings c
          = ["Error: Invalid expression".toList, "Calculation failed".toList])
    ∧ (c.currentExpression ≠ [] →
        host.run (delegated host settings c.currentExpression) = none →
        calculate host settings now c = (c, .invalidExpression)
        ∧ calculateFeedback host settings c
          = ["Error: Invalid expression".toList, "Calculation failed".toList])
    ∧ (∀ v, c.currentExpression ≠ [] →
        gateAccepts (delegated host settings c.currentExpression) = true →
        host.run (delegated host settings c.currentExpression) = some v →
        host.isFinite v = none →
        calculate host settings now c = (c, .invalidExpression)
        ∧ calculateFeedback host settings c
          = ["Error: Invalid expression".toList, "Calculation failed".toList])
    ∧ (∀ v, c.currentExpression ≠ [] →
        gateAccepts (delegated host settings c.currentExpression) = true →
        host.run (delegated host settings c.currentExpression) = some v →
        host.isFinite v = some false →
        calculate host settings now c = (c, .invalidCalculation)
        ∧ calculateFeedback host settings c
          = ["Error: Invalid calculation".toList, "Calculation failed".toList])
    ∧ delegated host settings "1/0".toList = "1/0".toList
    ∧ gateAccepts "1/0".toList = true
    ∧ delegated host settings "1n".toList = "1n".toList
    ∧ gateAccepts "1n".toList = true := by
  refine ⟨?_, ?_, ?_, ?_, ?_, ?_, delegated_one_by_zero host settings, by decide!,
    delegated_bigint_literal host settings, by decide!⟩
  · rcases calculate_cases host settings now c with ⟨r, hr⟩ | ⟨o, _, ho⟩
    · exact Or.inl ⟨r, by rw [hr]⟩
    · exact Or.inr (by rw [ho])
  · intro h
    exact ⟨calculate_empty host settings now c h, calculateFeedback_empty host settings c h⟩
  · intro h hg
    have hev : evaluateExpression host (prepare host settings c.currentExpression)
        = none := by
      rw [evaluateExpression_prepare, hg]
      rfl
    exact ⟨calculate_throws host settings now c h hev,
      calculateFeedback_throws host settings c h hev⟩
  · intro h hr
    have hev : evaluateExpression host (prepare host settings c.currentExpression)
        = none := by
      rw [evaluateExpression_prepare, hr]
      simp only [ite_self]
    exact ⟨calculate_throws host settings now c h hev,
      calculateFeedback_throws host settings c h hev⟩
  · intro v h hg hr hf
    have hev : evaluateExpression host (prepare host settings c.currentExpression)
        = some v := by
      rw [evaluateExpression_prepare, hg, hr]
      rfl
    exact ⟨calculate_test_throws host settings now c v h hev hf,
      calculateFeedback_test_throws host settings c v h hev hf⟩
  · intro v h hg hr hf
    have hev : evaluateExpression host (prepare host settings c.currentExpression)
        = some v := by
      rw [evaluateExpression_prepare, hg, hr]
      rfl
    exact ⟨calculate_not_finite host settings now c v h hev hf,
      calculateFeedback_not_finite host settings c v h hev hf⟩

set_option maxRecDepth 100000 in
/-- Witness for C14: the expression `1/0` with a host that evaluates `1/0` to a value
that is not finite. -/
theorem failed_calculate_keeps_state_witness :
    calculate (extendedHost [("1/0", none)]) ⟨2, .degrees⟩ [] ⟨"1/0".toList, ['0'], []⟩
      = (⟨"1/0".toList, ['0'], []⟩, .invalidCalculation)
    ∧ calculateFeedback (extendedHost [("1/0", none)]) ⟨2, .degrees⟩
        ⟨"1/0".toList, ['0'], []⟩
      = ["Error: Invalid calculation".toList, "Calculation failed".toList] :=
  (failed_calculate_keeps_state (extendedHost [("1/0", none)]) ⟨2, .degrees⟩ []
    ⟨"1/0".toList, ['0'], []⟩).2.2.2.2.2.1 none (by decide) (by decide!) (by decide!)
    (by decide!)

/-- C28: when `calculate` reports the result `r`, the new `currentResult` and the new
`currentExpression` are both `r` and the new history is the entry `(r, r, now)` followed
by the old history, cut to 50 entries: one entry was added at the head, and its
expression field is the result text, not the expression that was evaluated. -/
theorem successful_calculate_records_result_as_expression {V : Type} (host : Host V)
    (settings : Settings) (now : List Char) (c c' : Calc) (r : List Char)
    (h : calculate host settings now c = (c', .result r)) :
    c'.currentResult = r ∧ c'.currentExpression = r
    ∧ c'.history = (⟨r, r, now⟩ :: c.history).take 50
    ∧ c'.history.head? = some ⟨r, r, now⟩
    ∧ (∀ it, c'.history.head? = some it → it.expression = it.result) := by
  have key : c' = ⟨r, r, addToHistory now c.history r r⟩ := by
    rcases calculate_cases host settings now c with ⟨t, ht⟩ | ⟨o, hno, ho⟩
    · rw [ht] at h
      simp only [Prod.mk.injEq, Outcome.result.injEq] at h
      obtain ⟨h1, h2⟩ := h
      rw [← h1, h2]
    · rw [ho] at h
      simp only [Prod.mk.injEq] at h
      exact absurd h.2 (hno r)
  have hh : c'.history = (⟨r, r, now⟩ :: c.history).take 50 := by
    rw [key, addToHistory_eq]
  have hhead : c'.history.head? = some ⟨r, r, now⟩ := by
    rw [hh]
    rfl
  refine ⟨by rw [key], by rw [key], hh, hhead, ?_⟩
  intro it hit
  rw [hhead] at hit
  cases hit
  rfl

set_option maxRecDepth 100000 in
/-- Witness for C28: the expression `1+2` with a host that evaluates `1+2` to 3; the
entry of the history has the expression `3`. -/
theorem successful_calculate_records_result_as_expression_witness :
    calculate (tableHost [("1+2", 3)]) ⟨2, .degrees⟩ [] ⟨"1+2".toList, ['0'], []⟩
      = (⟨['3'], ['3'], [⟨['3'], ['3'], []⟩]⟩, .result ['3'])
    ∧ (⟨['3'], ['3'], [⟨['3'], ['3'], []⟩]⟩ : Calc).history.head?
      = some ⟨['3'], ['3'], []⟩ :=
  ⟨by decide!,
   (successful_calculate_records_result_as_expression (tableHost [("1+2", 3)])
      ⟨2, .degrees⟩ [] ⟨"1+2".toList, ['0'], []⟩ ⟨['3'], ['3'], [⟨['3'], ['3'], []⟩]⟩ ['3']
      (by decide!)).2.2.2.1⟩

/-! ### Order of the command families -/

set_option maxRecDepth 100000 in
/-- C15: the command families are tried in the order CLEAR, CALCULATE, REPEAT, HISTORY and
the first one whose pattern matches gives the tag, whatever later patterns match:
`clear history` matches the patterns of CLEAR and HISTORY and gives `CMD_CLEAR`,
`what is the history` matches those of CALCULATE and HISTORY and gives `CMD_CALCULATE`,
`repeat history` matches those of REPEAT and HISTORY and gives `CMD_REPEAT`. -/
theorem command_families_are_tried_in_order (toLowerCase : List Char → List Char)
    (text : List Char) :
    (test cmdClearRe (trim (toLowerCase text)) = true →
      parseVoiceToMath toLowerCase text = some "CMD_CLEAR".toList)
    ∧ (test cmdClearRe (trim (toLowerCase text)) = false →
      test (cmdRe calculateSynonyms) (trim (toLowerCase text)) = true →
      parseVoiceToMath toLowerCase text = some "CMD_CALCULATE".toList)
    ∧ (test cmdClearRe (trim (toLowerCase text)) = false →
      test (cmdRe calculateSynonyms) (trim (toLowerCase text)) = false →
      test (cmdRe repeatSynonyms) (trim (toLowerCase text)) = true →
      parseVoiceToMath toLowerCase text = some "CMD_REPEAT".toList)
    ∧ (test cmdClearRe (trim (toLowerCase text)) = false →
      test (cmdRe calculateSynonyms) (trim (toLowerCase text)) = false →
      test (cmdRe repeatSynonyms) (trim (toLowerCase text)) = false →
      test (cmdRe historySynonyms) (trim (toLowerCase text)) = true →
      parseVoiceToMath toLowerCase text = some "CMD_HISTORY".toList)
    ∧ (test cmdClearRe "clear history".toList = true
      ∧ test (cmdRe historySynonyms) "clear history".toList = true
      ∧ parseVoice "clear history" = some "CMD_CLEAR")
    ∧ (test (cmdRe calculateSynonyms) "what is the history".toList = true
      ∧ test (cmdRe historySynonyms) "what is the history".toList = true
      ∧ parseVoice "what is the history" = some "CMD_CALCULATE")
    ∧ (test (cmdRe repeatSynonyms) "repeat history".toList = true
      ∧ test (cmdRe historySynonyms) "repeat history".toList = true
      ∧ parseVoice "repeat history" = some "CMD_REPEAT") := by
  refine ⟨?_, ?_, ?_, ?_, ⟨by decide!, by decide!, by decide!⟩,
    ⟨by decide!, by decide!, by decide!⟩, ⟨by decide!, by decide!, by decide!⟩⟩
  · intro h1
    unfold parseVoiceToMath
    simp only [h1, if_true]
  · intro h1 h2
    unfold parseVoiceToMath
    simp only [h1, h2, if_true, Bool.false_eq_true, if_false]
  · intro h1 h2 h3
    unfold parseVoiceToMath
    simp only [h1, h2, h3, if_true, Bool.false_eq_true, if_false]
  · intro h1 h2 h3 h4
    unfold parseVoiceToMath
    simp only [h1, h2, h3, h4, if_true, Bool.false_eq_true, if_false]

set_option maxRecDepth 100000 in
/-- Witness for C15: `what is the history` does not match the pattern of CLEAR, matches
that of CALCULATE, and gives `CMD_CALCULATE`. -/
theorem command_families_are_tried_in_order_witness :
    parseVoiceToMath asciiToLowerCase "what is the history".toList
      = some "CMD_CALCULATE".toList :=
  (command_families_are_tried_in_order asciiToLowerCase "what is the history".toList).2.1
    (by decide!) (by decide!)

/-! ### Phrases that the passes do not turn into the text of the specification -/

set_option maxRecDepth 100000 in
/-- C18 (as the code behaves): all three phrases give `null`. The pass for `log` runs
before the pass for `natural log` and rewrites `log of 5` inside the phrase, which leaves
`naturallog(5)`; the number-word passes run before the function passes and turn `two`
into `2`, after which the pass for `log` rewrites `log 2`, which leaves `log(2)of5`; and
`exponential of 5` is rewritten to `exp(5)`, but the letters `x` and `p` are not in the
class of the final validation, so this text is rejected as well. -/
theorem function_phrases_ln_log2_exp_give_null :
    runPasses allPasses "natural log of 5".toList = "naturallog(5)".toList
    ∧ parseVoice "natural log of 5" = none
    ∧ runPasses allPasses "log two of 5".toList = "log(2)of5".toList
    ∧ parseVoice "log two of 5" = none
    ∧ runPasses allPasses "exponential of 5".toList = "exp(5)".toList
    ∧ 'x' ∉ allowedChars ∧ 'p' ∉ allowedChars
    ∧ validate "exp(5)".toList = none
    ∧ parseVoice "exponential of 5" = none := by
  refine ⟨by decide!, by decide!, by decide!, by decide!, by decide!, by decide, by decide,
    by decide!, by decide!⟩

set_option maxRecDepth 100000 in
/-- C19 (as the code behaves): `pi` gives `PI`, `e` gives `E`, `random` and `roll dice`
give `rand`, but `random number` gives `null`: in the pattern
`\brandom\b|\brandom\s*number\b|\broll\s*dice\b` the first alternative matches the word
`random` of `random number`, the processed text is `randnumber`, and it fails the final
validation. -/
theorem random_number_gives_null :
    parseVoice "pi" = some "PI"
    ∧ parseVoice "e" = some "E"
    ∧ parseVoice "random" = some "rand"
    ∧ parseVoice "roll dice" = some "rand"
    ∧ replaceAll randomRe "rand" "random number".toList = "rand number".toList
    ∧ runPasses allPasses "random number".toList = "randnumber".toList
    ∧ parseVoice "random number" = none := by
  refine ⟨by decide!, by decide!, by decide!, by decide!, by decide!, by decide!,
    by decide!⟩

set_option maxRecDepth 100000 in
/-- C20 (as the code behaves): a processed text that ends with `=` never passes the final
validation, because `=` is not in the class of the validation pattern, so the branch
that drops a trailing `=` is never reached: `5+3=` gives `null`, not `5+3`. -/
theorem trailing_equals_sign_gives_null (e : List Char) :
    validate (e ++ ['=']) = none
    ∧ runPasses allPasses "5+3=".toList = "5+3=".toList
    ∧ parseVoice "5+3=" = none
    ∧ parseVoice "5+3" = some "5+3" := by
  refine ⟨?_, by decide!, by decide!, by decide!⟩
  rw [validate_eq, if_neg]
  intro h
  have := h.2 '=' (by simp)
  revert this
  decide

set_option maxRecDepth 100000 in
/-- C26 (as the code behaves): `5 hundred` gives `500`, but `five hundred` gives `null`.
The pass for `(\d+) hundred` runs before the number-word passes, when the text still
reads `five hundred`; afterwards the text is `5 hundred`, no pass rewrites it, and the
processed text `5hundred` fails the final validation. -/
theorem five_hundred_gives_null :
    parseVoice "5 hundred" = some "500"
    ∧ runPasses unitPasses "five hundred".toList = "five hundred".toList
    ∧ runPasses (unitPasses ++ numberWordPasses) "five hundred".toList = "5 hundred".toList
    ∧ runPasses allPasses "five hundred".toList = "5hundred".toList
    ∧ parseVoice "five hundred" = none := by
  refine ⟨by decide!, by decide!, by decide!, by decide!, by decide!⟩

/-! ### Restart of the voice recognition -/

theorem scheduleRestart_timers (delay : Nat) (s : Listener) (h : SingleSlot s) :
    (scheduleRestart delay s).timers = [(s.nextHandle, delay)] := by
  have hclear : (match s.restartTimeOut with
      | some handle => clearTimeout handle s.timers
      | none => s.timers) = [] := by
    cases hr : s.restartTimeOut with
    | none =>
      cases ht : s.timers with
      | nil => rfl
      | cons t ts =>
        have := h t (by rw [ht]; exact List.mem_cons_self _ _)
        rw [hr] at this
        cases this
    | some handle =>
      show clearTimeout handle s.timers = []
      unfold clearTimeout
      rw [List.filter_eq_nil_iff]
      intro t ht
      have := h t ht
      rw [hr] at this
      cases this
      simp
  show (match s.restartTimeOut with
      | some handle => clearTimeout handle s.timers
      | none => s.timers) ++ [(s.nextHandle, delay)] = _
  rw [hclear]
  rfl

/-- C23 (as the code behaves): the first three parts hold. When every pending restart is
the one whose handle is stored, an end event with `isListening` true leaves exactly one
pending restart, after 500 ms, and an error event with `isListening` true and an error
other than not-allowed and audio-capture leaves exactly one, after 1000 ms; an end event
with `isListening` false schedules nothing. An error event of class not-allowed or
audio-capture sets `isListening` to false, but it does not cancel a pending restart:
after a network error and then a not-allowed error, the restart that the first event
scheduled is still pending. -/
theorem denial_error_leaves_restart_pending (s : Listener) (error : RecognitionError) :
    (s.isListening = true → SingleSlot s →
      (onend s).timers = [(s.nextHandle, 500)]
      ∧ (onend s).restartTimeOut = some s.nextHandle ∧ SingleSlot (onend s))
    ∧ (s.isListening = true → error ≠ .notAllowed → error ≠ .audioCapture → SingleSlot s →
      (onerror error s).timers = [(s.nextHandle, 1000)]
      ∧ (onerror error s).restartTimeOut = some s.nextHandle
      ∧ SingleSlot (onerror error s))
    ∧ (s.isListening = false → (onend s).timers = s.timers
      ∧ (onend s).restartTimeOut = s.restartTimeOut ∧ (onend s).isListening = false)
    ∧ (error = .notAllowed ∨ error = .audioCapture →
      (onerror error s).isListening = false ∧ (onerror error s).timers = s.timers)
    ∧ (onerror .notAllowed (onerror .network ⟨true, true, none, [], 1⟩)).isListening = false
    ∧ (onerror .notAllowed (onerror .network ⟨true, true, none, [], 1⟩)).timers
        = [(1, 1000)] := by
  refine ⟨?_, ?_, ?_, ?_, by decide, by decide⟩
  · intro hl hs
    have hs' : SingleSlot { s with isRecognitionActive := false } := hs
    have e : onend s = scheduleRestart 500 { s with isRecognitionActive := false } := by
      unfold onend
      simp only [hl, if_true]
    have ht := scheduleRestart_timers 500 _ hs'
    rw [e]
    refine ⟨ht, rfl, ?_⟩
    intro t hmem
    rw [ht] at hmem
    simp only [List.mem_singleton] at hmem
    rw [hmem]
    rfl
  · intro hl h1 h2 hs
    obtain ⟨l, a, r, t, n⟩ := s
    have hl' : l = true := hl
    subst hl'
    have hs' : SingleSlot ⟨true, false, r, t, n⟩ := hs
    have e : onerror error ⟨true, a, r, t, n⟩
        = scheduleRestart 1000 ⟨true, false, r, t, n⟩ := by
      cases error <;> first | exact absurd rfl h1 | exact absurd rfl h2 | rfl
    have ht := scheduleRestart_timers 1000 _ hs'
    rw [e]
    refine ⟨ht, rfl, ?_⟩
    intro t hmem
    rw [ht] at hmem
    simp only [List.mem_singleton] at hmem
    rw [hmem]
    rfl
  · intro hl
    have e : onend s = { s with isRecognitionActive := false } := by
      unfold onend
      simp only [hl, Bool.false_eq_true, if_false]
    rw [e]
    exact ⟨rfl, rfl, hl⟩
  · intro he
    have e : onerror error s = { s with isRecognitionActive := false, isListening := false } := by
      unfold onerror
      rcases he with he | he <;> subst he <;> simp
    rw [e]
    exact ⟨rfl, rfl⟩

/-- Witness for C23: a listening state with one pending restart whose handle is stored;
the end event replaces it by one restart after 500 ms. -/
theorem denial_error_leaves_restart_pending_witness :
    (onend ⟨true, true, some 1, [(1, 1000)], 2⟩).timers = [(2, 500)] :=
  ((denial_error_leaves_restart_pending ⟨true, true, some 1, [(1, 1000)], 2⟩ .network).1
    rfl (by intro t ht; simp only [List.mem_singleton] at ht; rw [ht])).1

/-! ### `toggleSign` -/

set_option maxRecDepth 100000 in
/-- C30 (as the code behaves): `toggleSign` is no involution on expressions that end in
digits. With a host that negates `5` to `-5` and `3` to `-3`, the expression `5` becomes
`-5` and then `--5`, and `2+3` becomes `2+-3` and then `2+--3`: the pattern
`(\d+\.?\d*)$` matches the digits only, so the second call negates the digits again and
keeps the `-` that the first call wrote. -/
theorem toggleSign_twice_writes_two_minus_signs (negated : List Char → List Char)
    (isNaN : List Char → Bool) (r : List Char) (h : List HistoryItem)
    (h5 : negated ['5'] = "-5".toList) (h3 : negated ['3'] = "-3".toList) :
    (toggleSign negated isNaN ⟨"5".toList, r, h⟩).currentExpression = "-5".toList
    ∧ (toggleSign negated isNaN (toggleSign negated isNaN ⟨"5".toList, r, h⟩)).currentExpression
        = "--5".toList
    ∧ (toggleSign negated isNaN ⟨"2+3".toList, r, h⟩).currentExpression = "2+-3".toList
    ∧ (toggleSign negated isNaN
        (toggleSign negated isNaN ⟨"2+3".toList, r, h⟩)).currentExpression = "2+--3".toList := by
  have m1 : firstMatch (pieces lastNumberRe "5".toList) = some ['5'] := by decide!
  have m2 : firstMatch (pieces lastNumberRe "-5".toList) = some ['5'] := by decide!
  have m3 : firstMatch (pieces lastNumberRe "2+3".toList) = some ['3'] := by decide!
  have m4 : firstMatch (pieces lastNumberRe "2+-3".toList) = some ['3'] := by decide!
  have s1 : toggleSign negated isNaN ⟨"5".toList, r, h⟩ = ⟨"-5".toList, r, h⟩ := by
    unfold toggleSign
    simp only [m1, h5]
    rfl
  have s2 : toggleSign negated isNaN ⟨"-5".toList, r, h⟩ = ⟨"--5".toList, r, h⟩ := by
    unfold toggleSign
    simp only [m2, h5]
    rfl
  have s3 : toggleSign negated isNaN ⟨"2+3".toList, r, h⟩ = ⟨"2+-3".toList, r, h⟩ := by
    unfold toggleSign
    simp only [m3, h3]
    rfl
  have s4 : toggleSign negated isNaN ⟨"2+-3".toList, r, h⟩ = ⟨"2+--3".toList, r, h⟩ := by
    unfold toggleSign
    simp only [m4, h3]
    rfl
  refine ⟨by rw [s1], by rw [s1, s2], by rw [s3], by rw [s3, s4]⟩

set_option maxRecDepth 100000 in
/-- Witness for C30: the host function on the numerals of integers. -/
theorem toggleSign_twice_writes_two_minus_signs_witness :
    (toggleSign negatedInteger (fun _ => false)
        (toggleSign negatedInteger (fun _ => false) ⟨"5".toList, ['0'], []⟩)).currentExpression
      = "--5".toList :=
  (toggleSign_twice_writes_two_minus_signs negatedInteger (fun _ => false) ['0'] []
    (by decide!) (by decide!)).2.1

/-! ### `isCompleteExpression` -/

theorem search_readIf (r : Re) (p : Char → Bool) (hr : r.m = readIf p) :
    ∀ (s left : List Char), (search r left s).isSome = s.any p := by
  intro s
  induction s with
  | nil => intro left; simp [search, matchAt, hr, readIf_nil]
  | cons c rest ih =>
    intro left
    simp only [search, isSome_orElse, ih, matchAt, hr, readIf_cons, List.any_cons]
    cases p c <;> simp

theorem search_readIf_eol (a : Re) (p : Char → Bool) (ha : a.m = readIf p) :
    ∀ (s left : List Char),
      (search (.seq a .eol) left s).isSome = (s.getLast?.map p).getD false := by
  intro s
  induction s with
  | nil => intro left; simp [search, matchAt, m_seq, ha, readIf_nil]
  | cons c rest ih =>
    intro left
    simp only [search, isSome_orElse, ih, matchAt, m_seq, ha, readIf_cons]
    cases rest with
    | nil =>
      cases hp : p c <;> simp [St.step, m_eol_nil, hp]
    | cons d r =>
      cases hp : p c <;> simp [St.step, m_eol_cons, List.getLast?_cons_cons, hp]

theorem search_isSome_elim (r : Re) :
    ∀ (s left : List Char), (search r left s).isSome = true →
      ∃ a b, s = a ++ b ∧ (matchAt r (a.reverse ++ left) b).isSome = true := by
  intro s
  induction s with
  | nil => intro left h; exact ⟨[], [], rfl, h⟩
  | cons c rest ih =>
    intro left h
    simp only [search, isSome_orElse, Bool.or_eq_true] at h
    rcases h with h | h
    · exact ⟨[], c :: rest, rfl, h⟩
    · obtain ⟨a, b, hab, hm⟩ := ih (c :: left) h
      exact ⟨c :: a, b, by rw [hab]; rfl, by simpa using hm⟩

theorem isPrefixOf_eq_append (w right : List Char) (h : w.isPrefixOf right = true) :
    right = w ++ right.drop w.length := by
  have hp : w <+: right := List.isPrefixOf_iff_prefix.1 h
  obtain ⟨t, ht⟩ := hp
  subst ht
  simp

theorem alts_lits_elim :
    ∀ (syns : List String), syns ≠ [] →
      ∀ (k : St → Option St) (l right : List Char) (caps : List (Nat × List Char)),
        ((Re.alts (syns.map Re.lit)).m k ⟨l, right, caps⟩).isSome = true →
        ∃ syn ∈ syns, ∃ rest, right = syn.toList ++ rest
          ∧ (k ⟨syn.toList.reverse ++ l, rest, caps⟩).isSome = true := by
  intro syns
  induction syns with
  | nil => intro h; exact absurd rfl h
  | cons a as ih =>
    intro _ k l right caps h
    have one : ((Re.lit a).m k ⟨l, right, caps⟩).isSome = true →
        ∃ rest, right = a.toList ++ rest
          ∧ (k ⟨a.toList.reverse ++ l, rest, caps⟩).isSome = true := by
      intro h1
      simp only [Re.lit] at h1
      rw [m_str] at h1
      by_cases hp : a.toList.isPrefixOf right = true
      · rw [if_pos hp] at h1
        exact ⟨right.drop a.toList.length, isPrefixOf_eq_append _ _ hp, h1⟩
      · rw [if_neg hp] at h1
        simp at h1
    cases as with
    | nil =>
      simp only [List.map, Re.alts] at h
      obtain ⟨rest, h1, h2⟩ := one h
      exact ⟨a, List.mem_cons_self _ _, rest, h1, h2⟩
    | cons b bs =>
      simp only [List.map, Re.alts, m_alt, isSome_orElse, Bool.or_eq_true] at h
      rcases h with h | h
      · obtain ⟨rest, h1, h2⟩ := one h
        exact ⟨a, List.mem_cons_self _ _, rest, h1, h2⟩
      · obtain ⟨syn, hmem, rest, h1, h2⟩ := ih (by simp) k l right caps h
        exact ⟨syn, List.mem_cons_of_mem _ hmem, rest, h1, h2⟩

theorem unclosed_tail (l right : List Char) (caps : List (Nat × List Char)) :
    ((Re.seq (.chr '(') (.seq (.star (.cls true [.one ')'])) .eol)).m some
        ⟨l, right, caps⟩).isSome = true
      ↔ ∃ rest, right = '(' :: rest ∧ ')' ∉ rest := by
  have hall : ∀ rest : List Char, rest.all (clsHas true [.one ')']) = true ↔ ')' ∉ rest := by
    intro rest
    simp only [List.all_eq_true, clsHas, List.any_cons, ClsItem.has, List.any_nil,
      Bool.or_false, bne_iff_ne, ne_eq, Bool.not_eq_true, beq_eq_false_iff_ne]
    constructor
    · intro h hmem
      exact h _ hmem rfl
    · intro h c hc hcc
      subst hcc
      exact h hc
  cases right with
  | nil =>
    simp [m_seq, m_chr, readIf_nil]
  | cons d r =>
    rw [m_seq, m_chr, readIf_cons]
    by_cases hd : d = '('
    · subst hd
      simp only [beq_self_eq_true, if_true, St.step]
      rw [m_seq, m_star_readIf (.cls true [.one ')']) (clsHas true [.one ')']) rfl,
        greedyRun_eol]
      by_cases hr : r.all (clsHas true [.one ')']) = true
      · rw [if_pos hr]
        simp only [Option.isSome_some, true_iff]
        exact ⟨r, rfl, (hall r).1 hr⟩
      · rw [if_neg hr]
        simp only [Option.isSome_none, Bool.false_eq_true, false_iff]
        rintro ⟨rest, h1, h2⟩
        have : r = rest := (List.cons.inj h1).2
        subst this
        exact hr ((hall r).2 h2)
    · have : (d == '(') = false := by simpa using hd
      simp only [this, Bool.false_eq_true, if_false, Option.isSome_none, false_iff]
      rintro ⟨rest, h1, _⟩
      exact hd (List.cons.inj h1).1

theorem test_hasUnclosedFunctionRe (e : List Char) :
    test hasUnclosedFunctionRe e = true
      ↔ ∃ pre name post, name ∈ functionNames ∧ e = pre ++ (name.toList ++ '(' :: post)
          ∧ ')' ∉ post := by
  have hre : hasUnclosedFunctionRe = .seq (.group 1 (Re.alts (functionNames.map Re.lit)))
      (.seq (.chr '(') (.seq (.star (.cls true [.one ')'])) .eol)) := rfl
  constructor
  · intro h
    obtain ⟨a, b, hab, hm⟩ := search_isSome_elim _ e [] h
    unfold matchAt at hm
    rw [hre, m_seq, m_group] at hm
    obtain ⟨syn, hmem, rest, h1, h2⟩ := alts_lits_elim functionNames (by decide) _ _ _ _ hm
    obtain ⟨post, h3, h4⟩ := (unclosed_tail _ _ _).1 h2
    have h3' : rest = '(' :: post := h3
    refine ⟨a, syn, post, hmem, ?_, h4⟩
    rw [hab, h1, h3']
  · rintro ⟨pre, name, post, hmem, he, hpost⟩
    subst he
    apply search_isSome
    unfold matchAt
    rw [hre, m_seq, m_group]
    apply alts_lits_isSome name functionNames hmem
    exact (unclosed_tail _ _ _).2 ⟨post, rfl, hpost⟩

set_option maxRecDepth 100000 in
/-- C29: `isCompleteExpression e` is true exactly when `e` contains a digit, does not end
with one of `+ - * / ( ^`, has as many `(` as `)`, and contains no function name followed
by `(` that is followed by no `)` up to the end of `e`. No operator is needed: `5` is
complete, and `processVoiceInput` schedules `calculate` for the utterance `5`; `5+` and
`sqrt(4` are not complete. -/
theorem isCompleteExpression_iff (e : List Char) :
    (isCompleteExpression e = true ↔ CompleteInWords e)
    ∧ isCompleteExpression "5".toList = true
    ∧ processVoiceInput asciiToLowerCase "5".toList = .expression "5".toList true
    ∧ isCompleteExpression "5+".toList = false
    ∧ isCompleteExpression "sqrt(4".toList = false := by
  refine ⟨?_, by decide!, by decide!, by decide!, by decide!⟩
  have h1 : test hasDigitRe e = true ↔ ∃ c ∈ e, isDigit c = true := by
    unfold test
    rw [search_readIf hasDigitRe (clsHas false [.range '0' '9']) rfl, List.any_eq_true]
    have : ∀ c, clsHas false [.range '0' '9'] c = isDigit c := by
      intro c
      simp [clsHas, ClsItem.has, isDigit]
    simp only [this]
  have h2 : test endsWithOperatorOrOpenParenRe e = false
      ↔ ∀ c, e.getLast? = some c → c ∉ "+-*/(^".toList := by
    unfold test endsWithOperatorOrOpenParenRe
    rw [search_readIf_eol (.cls false [.one '+', .one '-', .one '*', .one '/', .one '(',
      .one '^']) (clsHas false [.one '+', .one '-', .one '*', .one '/', .one '(', .one '^'])
      rfl]
    have key : ∀ c, clsHas false [.one '+', .one '-', .one '*', .one '/', .one '(',
        .one '^'] c = false ↔ c ∉ "+-*/(^".toList := by
      intro c
      simp [clsHas, ClsItem.has]
    cases hl : e.getLast? with
    | none => simp
    | some d =>
      simp only [Option.map_some', Option.getD_some, key, Option.some.injEq, forall_eq']
  have h3 : (matchCount (.chr '(') e == matchCount (.chr ')') e) = true
      ↔ e.count '(' = e.count ')' := by
    rw [matchCount_chr, matchCount_chr, beq_iff_eq]
  have h4 := test_hasUnclosedFunctionRe e
  unfold isCompleteExpression CompleteInWords
  simp only [Bool.and_eq_true, Bool.not_eq_true', h1, h2, h3]
  rw [← h4, Bool.not_eq_true]
  tauto

/-! ### The radians branch on every text -/

theorem matchAt_trigOpen_at (f : String) (hf : f ∈ ["sin", "cos", "tan"])
    (l v : List Char) :
    matchAt trigOpenRe l (f.toList ++ '(' :: v)
      = some ⟨'(' :: (f.toList.reverse ++ l), v, [(1, f.toList)]⟩ := by
  simp only [List.mem_cons, List.mem_singleton, List.not_mem_nil, or_false] at hf
  rcases hf with h | h | h <;> subst h <;>
    simp [matchAt, trigOpenRe, Re.seqs, Re.alts, Re.lit, Re.str, m_seq, m_group, m_alt, m_chr,
      readIf, St.step, orElse]

theorem startsTrigCall_intro (f : String) (hf : f ∈ ["sin", "cos", "tan"]) (v : List Char) :
    startsTrigCall (f.toList ++ '(' :: v) = true := by
  simp only [List.mem_cons, List.mem_singleton, List.not_mem_nil, or_false] at hf
  rcases hf with h | h | h <;> subst h <;> simp [startsTrigCall, List.isPrefixOf]

theorem startsTrigCall_elim (r : List Char) (h : startsTrigCall r = true) :
    ∃ f ∈ ["sin", "cos", "tan"], ∃ v, r = f.toList ++ '(' :: v := by
  unfold startsTrigCall at h
  simp only [Bool.or_eq_true] at h
  rcases h with (h | h) | h
  · exact ⟨"sin", by decide, r.drop 4, isPrefixOf_eq_append _ _ h⟩
  · exact ⟨"cos", by decide, r.drop 4, isPrefixOf_eq_append _ _ h⟩
  · exact ⟨"tan", by decide, r.drop 4, isPrefixOf_eq_append _ _ h⟩

theorem matchAt_trigOpen_none (l r : List Char) (h : startsTrigCall r = false) :
    matchAt trigOpenRe l r = none := by
  cases hm : matchAt trigOpenRe l r with
  | none => rfl
  | some st =>
    exfalso
    have hre : trigOpenRe
        = .seq (.group 1 (Re.alts (["sin", "cos", "tan"].map Re.lit))) (.chr '(') := rfl
    have hs : (matchAt trigOpenRe l r).isSome = true := by rw [hm]; rfl
    unfold matchAt at hs
    rw [hre, m_seq, m_group] at hs
    obtain ⟨f, hf, rest, hr, hk⟩ := alts_lits_elim _ (by decide) _ _ _ _ hs
    cases rest with
    | nil => simp [m_chr, readIf] at hk
    | cons d v =>
      by_cases hd : d = '('
      · rw [hr, hd, startsTrigCall_intro f hf v] at h
        exact Bool.noConfusion h
      · simp [m_chr, readIf, hd] at hk

theorem mathPrefixed_call (f : String) (hf : f ∈ ["sin", "cos", "tan"]) (v : List Char) :
    mathPrefixed (f.toList ++ '(' :: v)
      = "Math.".toList ++ (f.toList ++ '(' :: mathPrefixed v) := by
  simp only [List.mem_cons, List.mem_singleton, List.not_mem_nil, or_false] at hf
  rcases hf with h | h | h <;> subst h <;> simp [mathPrefixed, startsTrigCall, List.isPrefixOf]

theorem render_scan_trigOpen :
    ∀ (n : Nat) (l r : List Char), r.length < n →
      render (fun matched caps =>
          expandTemplate trigOpenRe.groups matched caps .none "Math.$1(".toList)
        (scan trigOpenRe n l r) = mathPrefixed r := by
  have hexp : ∀ g ∈ ["sin", "cos", "tan"], ∀ matched,
      expandTemplate trigOpenRe.groups matched [(1, g.toList)] .none "Math.$1(".toList
        = "Math.".toList ++ (g.toList ++ ['(']) := by
    intro g hg matched
    simp only [List.mem_cons, List.mem_singleton, List.not_mem_nil, or_false] at hg
    rcases hg with h | h | h <;> subst h <;> rfl
  intro n
  induction n with
  | zero => intro l r h; omega
  | succ n ih =>
    intro l r hn
    rcases Bool.eq_false_or_eq_true (startsTrigCall r) with hs | hs
    · obtain ⟨f, hf, v, hr⟩ := startsTrigCall_elim r hs
      have hlen : r.length = f.toList.length + (v.length + 1) := by
        rw [hr, List.length_append, List.length_cons]
      have hm := matchAt_trigOpen_at f hf l v
      rw [← hr] at hm
      rw [scan_hit trigOpenRe n l r _ hm (by show v.length < r.length; omega)]
      simp only [render]
      rw [hexp f hf, ih _ v (by omega), hr, mathPrefixed_call f hf v]
      simp
    · have hm := matchAt_trigOpen_none l r hs
      cases r with
      | nil => simp only [scan, hm, render, mathPrefixed]
      | cons c rest =>
        have hn' : rest.length < n := by simpa using hn
        simp only [scan, hm, render, mathPrefixed, hs]
        rw [ih _ rest hn']
        rfl

theorem replaceAll_trigOpen (s : List Char) :
    replaceAll trigOpenRe "Math.$1(" s = mathPrefixed s :=
  render_scan_trigOpen _ [] s (Nat.lt_succ_self _)

/-! ### Operator glyphs -/

theorem render_scan_chr (c x : Char)
    (repl : List Char → List (Nat × List Char) → List Char)
    (hrepl : ∀ m caps, repl m caps = [x]) (right : List Char) :
    ∀ (n : Nat) (left : List Char), right.length < n →
      render repl (scan (.chr c) n left right)
        = right.map fun d => if d = c then x else d := by
  induction right with
  | nil =>
    intro n left hn
    cases n with
    | zero => simp at hn
    | succ n => simp [scan, matchAt_chr, render]
  | cons d r ih =>
    intro n left hn
    cases n with
    | zero => simp at hn
    | succ n =>
      have hn2 : r.length < n := by simpa using hn
      by_cases h : d = c
      · subst h
        simp [scan, matchAt_chr, render, hrepl, ih n _ hn2]
      · have h2 : (d == c) = false := by simpa using h
        simp [scan, matchAt_chr, render, ih n _ hn2, h2, h]

theorem replaceAll_chr (c x : Char) (template : String)
    (h : ∀ m caps, expandTemplate 0 m caps .none template.toList = [x]) (s : List Char) :
    replaceAll (.chr c) template s = s.map fun d => if d = c then x else d := by
  unfold replaceAll replaceWith pieces
  exact render_scan_chr c x _ h s _ [] (Nat.lt_succ_self _)

theorem glyphs_to_ascii (s : List Char) :
    runPasses (glyphPasses.take 4) s = s.map asciiOperator := by
  show replaceAll (.chr '−') "-" (replaceAll (.chr '÷') "/" (replaceAll (.chr '×') "*"
    (replaceAll (.chr 'x') "*" s))) = _
  rw [replaceAll_chr 'x' '*' "*" (fun _ _ => rfl), replaceAll_chr '×' '*' "*" (fun _ _ => rfl),
    replaceAll_chr '÷' '/' "/" (fun _ _ => rfl), replaceAll_chr '−' '-' "-" (fun _ _ => rfl)]
  simp only [List.map_map]
  apply List.map_congr_left
  intro c _
  simp only [Function.comp, asciiOperator]
  by_cases h1 : c = 'x'
  · subst h1; decide
  · by_cases h2 : c = '×'
    · subst h2; decide
    · by_cases h3 : c = '÷'
      · subst h3; decide
      · by_cases h4 : c = '−'
        · subst h4; decide
        · simp [h1, h2, h3, h4]

theorem asciiOperator_mem (c : Char) (h : c ∈ glyphChars) : asciiOperator c ∈ asciiChars := by
  have key : ∀ d ∈ glyphChars, asciiOperator d ∈ asciiChars := by decide
  exact key c h

set_option maxRecDepth 100000 in
theorem delegated_ascii {V : Type} (host : Host V) (settings : Settings) (s : List Char)
    (hs : ∀ c ∈ s, c ∈ asciiChars) :
    evaluatedString (balanceParentheses (runPasses namePasses
      (match settings.angleUnit with
        | .degrees => replaceWith trigRe (trigDegrees host) (runPasses (glyphPasses.drop 4) s)
        | .radians => replaceAll trigOpenRe "Math.$1(" (runPasses (glyphPasses.drop 4) s))))
      = s := by
  have hden : Denotes [.many asciiChars] s := ⟨s, [], by simp, hs, rfl⟩
  have g : ((glyphPasses.drop 4).any fun p => mayMatch p.re [.many asciiChars]) = false := by
    decide!
  have t1 : mayMatch trigRe [.many asciiChars] = false := by decide!
  have t2 : mayMatch trigOpenRe [.many asciiChars] = false := by decide!
  have n1 : (namePasses.any fun p => mayMatch p.re [.many asciiChars]) = false := by decide!
  have e1 : (evaluatorPasses.any fun p => mayMatch p.re [.many asciiChars]) = false := by
    decide!
  have hb : balanceParentheses s = s := by
    rw [balanceParentheses_eq]
    have k : ∀ c ∈ asciiChars, c ≠ '(' := by decide
    have : s.count '(' = 0 := by
      rw [List.count_eq_zero]
      intro hmem
      exact k _ (hs _ hmem) rfl
    rw [this]
    simp
  rw [runPasses_of_mayMatch _ s hden _ g]
  have htrig : (match settings.angleUnit with
      | .degrees => replaceWith trigRe (trigDegrees host) s
      | .radians => replaceAll trigOpenRe "Math.$1(" s) = s := by
    cases settings.angleUnit
    · show render (trigDegrees host) (pieces trigRe s) = s
      rw [pieces_of_mayMatch trigRe _ s hden t1, render_keep]
    · exact replaceAll_of_mayMatch trigOpenRe _ _ s hden t2
  rw [htrig, runPasses_of_mayMatch _ s hden _ n1, hb]
  exact runPasses_of_mayMatch _ s hden _ e1

set_option maxRecDepth 100000 in
/-- C24: the first four substitutions of `calculate` replace every `x` and every `×` by
`*`, every `÷` by `/` and every `−` by `-` and keep all other characters. For an
expression built from digits, these glyphs and the ASCII operators, the text handed to
the host evaluator is the expression with its glyphs replaced, so it contains only digits
and ASCII operators; `6×7`, `6x7` and `6*7` all hand `6*7` to the host evaluator. -/
theorem glyphs_are_normalised_to_ascii {V : Type} (host : Host V) (settings : Settings)
    (e : List Char) :
    runPasses (glyphPasses.take 4) e = e.map asciiOperator
    ∧ ((∀ c ∈ e, c ∈ glyphChars) →
        delegated host settings e = e.map asciiOperator
        ∧ ∀ c ∈ delegated host settings e, c ∈ asciiChars)
    ∧ delegated host settings "6×7".toList = "6*7".toList
    ∧ delegated host settings "6x7".toList = "6*7".toList
    ∧ delegated host settings "6*7".toList = "6*7".toList
    ∧ evaluateExpression host (prepare host settings "6×7".toList) = host.run "6*7".toList
    ∧ evaluateExpression host (prepare host settings "6x7".toList) = host.run "6*7".toList
    ∧ evaluateExpression host (prepare host settings "6*7".toList)
        = host.run "6*7".toList := by
  have gen : ∀ e : List Char, (∀ c ∈ e, c ∈ glyphChars) →
      delegated host settings e = e.map asciiOperator := by
    intro e he
    have hsplit : glyphPasses = glyphPasses.take 4 ++ glyphPasses.drop 4 := rfl
    have hs : ∀ c ∈ e.map asciiOperator, c ∈ asciiChars := by
      intro c hc
      obtain ⟨d, hd, hdc⟩ := List.mem_map.1 hc
      rw [← hdc]
      exact asciiOperator_mem d (he d hd)
    have := delegated_ascii host settings (e.map asciiOperator) hs
    unfold delegated prepare
    rw [hsplit, runPasses_append, glyphs_to_ascii]
    exact this
  have a1 := gen "6×7".toList (by decide)
  have a2 := gen "6x7".toList (by decide)
  have a3 := gen "6*7".toList (by decide)
  have v1 : "6×7".toList.map asciiOperator = "6*7".toList := by decide
  have v2 : "6x7".toList.map asciiOperator = "6*7".toList := by decide
  have v3 : "6*7".toList.map asciiOperator = "6*7".toList := by decide
  rw [v1] at a1
  rw [v2] at a2
  rw [v3] at a3
  have hg : gateAccepts "6*7".toList = true := by decide!
  refine ⟨glyphs_to_ascii e, ?_, a1, a2, a3, ?_, ?_, ?_⟩
  · intro he
    refine ⟨gen e he, ?_⟩
    rw [gen e he]
    intro c hc
    obtain ⟨d, hd, hdc⟩ := List.mem_map.1 hc
    rw [← hdc]
    exact asciiOperator_mem d (he d hd)
  · rw [evaluateExpression_prepare, a1, hg]; rfl
  · rw [evaluateExpression_prepare, a2, hg]; rfl
  · rw [evaluateExpression_prepare, a3, hg]; rfl

set_option maxRecDepth 100000 in
/-- Witness for C24: the expression `12÷4−1`. -/
theorem glyphs_are_normalised_to_ascii_witness :
    delegated (tableHost []) ⟨2, .degrees⟩ "12÷4−1".toList = "12/4-1".toList :=
  ((glyphs_are_normalised_to_ascii (tableHost []) ⟨2, .degrees⟩ "12÷4−1".toList).2.1
    (by decide)).1

/-! ### Passes applied twice -/

set_option maxRecDepth 100000 in
/-- C25 (counterexample): the operator pass, with its rule for `x` between two numbers,
is not idempotent: `1 x 2 x 3` becomes `1*2 x 3`, and `1*2 x 3` becomes `1*2*3`. -/
theorem operator_pass_twice_differs :
    runPasses operatorPasses "1 x 2 x 3".toList = "1*2 x 3".toList
    ∧ runPasses operatorPasses (runPasses operatorPasses "1 x 2 x 3".toList)
        = "1*2*3".toList
    ∧ runPasses operatorPasses (runPasses operatorPasses "1 x 2 x 3".toList)
        ≠ runPasses operatorPasses "1 x 2 x 3".toList := by
  have h1 : runPasses operatorPasses "1 x 2 x 3".toList = "1*2 x 3".toList := by decide!
  have h2 : runPasses operatorPasses "1*2 x 3".toList = "1*2*3".toList := by decide!
  refine ⟨h1, by rw [h1, h2], ?_⟩
  rw [h1, h2]
  decide

/-! ### Calls of a function on an argument without parentheses -/

theorem m_none_of_may (r : Re) (kr : St → Option St) (a : APrev × List Seg) (σ : St)
    (ha : Abs a σ.left σ.right) (h : r.may (fun _ => true) a = false) : r.m kr σ = none :=
  may_sound r (fun _ => true) kr (fun _ _ _ h' => by simp at h') a σ ha h

theorem denotes_callPattern (name : String) (arg : List Char)
    (harg : ∀ c ∈ arg, c ∈ argChars) : Denotes (callPattern name) (call name arg) := by
  have h : call name arg = (name.toList ++ ['(']) ++ (arg ++ [')']) := by
    simp [call]
  rw [h]
  exact denotes_append _ _ _ _ (denotes_lits _) ⟨arg, [')'], rfl, harg, [], rfl, rfl⟩

theorem numeral_argChars (n : List Char) (hn : Numeral n) : ∀ c ∈ n, c ∈ argChars := by
  have key : ∀ c ∈ "0123456789.".toList, c ∈ argChars := by decide
  intro c hc
  exact key c (numeral_chars n hn c hc)

/-- A replacement whose pattern matches at the start of the text and nowhere behind the
match. -/
theorem replaceAll_head (r : Re) (template : String) (m v left out : List Char)
    (caps : List (Nat × List Char)) (prev : APrev) (segs : List Seg) (hm : m ≠ [])
    (hhit : matchAt r [] (m ++ v) = some ⟨left, v, caps⟩)
    (hp : PrevOK prev left) (hv : Denotes segs v) (hafter : mayMatchAfter r prev segs = false)
    (hexp : expandTemplate r.groups m caps .none template.toList = out) :
    replaceAll r template (m ++ v) = out ++ v := by
  have hp' := pieces_one_hit r [] m v left caps hm (by intro u1 c u2 h; simp at h)
    (by simpa using hhit) (no_match_of_mayMatchAfter r prev segs left v hp hv hafter)
  have hp'' : pieces r (m ++ v) = .hit m caps :: v.map Piece.keep := by simpa using hp'
  unfold replaceAll replaceWith
  rw [hp'']
  show expandTemplate r.groups m caps .none template.toList ++ render _ (v.map Piece.keep) = _
  rw [hexp, render_keep]

theorem matchAt_lit (w : String) (v : List Char) :
    matchAt (Re.lit w) [] (w.toList ++ v) = some ⟨w.toList.reverse ++ [], v, []⟩ := by
  unfold matchAt Re.lit
  rw [m_str_append]

theorem count_call_text (nm arg : List Char) (harg : ∀ c ∈ arg, c ∈ argChars)
    (hname : ∀ c ∈ nm, c ≠ '(' ∧ c ≠ ')') :
    (nm ++ '(' :: (arg ++ [')'])).count '(' = 1 ∧ (nm ++ '(' :: (arg ++ [')'])).count ')' = 1 := by
  have k : ∀ c ∈ argChars, c ≠ '(' ∧ c ≠ ')' := by decide
  have c1 : ∀ l : List Char, (∀ c ∈ l, c ≠ '(' ∧ c ≠ ')') → l.count '(' = 0 ∧ l.count ')' = 0 := by
    intro l hl
    constructor
    · rw [List.count_eq_zero]; intro h; exact (hl _ h).1 rfl
    · rw [List.count_eq_zero]; intro h; exact (hl _ h).2 rfl
  have a1 := c1 nm hname
  have a2 := c1 arg (fun c hc => k c (harg c hc))
  constructor
  · simp [List.count_append, List.count_cons, a1.1, a2.1]
  · simp [List.count_append, List.count_cons, a1.2, a2.2]

theorem count_call (name : String) (arg : List Char) (harg : ∀ c ∈ arg, c ∈ argChars)
    (hname : ∀ c ∈ name.toList, c ≠ '(' ∧ c ≠ ')') :
    balanceParentheses (call name arg) = call name arg := by
  have h := count_call_text name.toList arg harg hname
  rw [balanceParentheses_eq]
  unfold call
  rw [h.1, h.2]
  exact List.append_nil _

/-- The text handed to the host evaluator, from what the steps of `calculate` do. -/
theorem delegated_of_steps {V : Type} (host : Host V) (settings : Settings)
    (e mid out : List Char) (segsE segsOut : List Seg) (hdE : Denotes segsE e)
    (hg : (glyphPasses.any fun p => mayMatch p.re segsE) = false)
    (hdeg : settings.angleUnit = .degrees → replaceWith trigRe (trigDegrees host) e = mid)
    (hrad : settings.angleUnit = .radians → replaceAll trigOpenRe "Math.$1(" e = mid)
    (hname : runPasses namePasses mid = out)
    (hbal : balanceParentheses out = out) (hdOut : Denotes segsOut out)
    (hev : (evaluatorPasses.any fun p => mayMatch p.re segsOut) = false) :
    delegated host settings e = out := by
  obtain ⟨dp, unit⟩ := settings
  cases unit
  · show evaluatedString (balanceParentheses (runPasses namePasses
      (replaceWith trigRe (trigDegrees host) (runPasses glyphPasses e)))) = out
    rw [runPasses_of_mayMatch segsE e hdE _ hg, hdeg rfl, hname, hbal]
    exact runPasses_of_mayMatch segsOut out hdOut _ hev
  · show evaluatedString (balanceParentheses (runPasses namePasses
      (replaceAll trigOpenRe "Math.$1(" (runPasses glyphPasses e)))) = out
    rw [runPasses_of_mayMatch segsE e hdE _ hg, hrad rfl, hname, hbal]
    exact runPasses_of_mayMatch segsOut out hdOut _ hev

theorem no_trig_degrees {V : Type} (host : Host V) (e : List Char) (segs : List Seg)
    (hd : Denotes segs e) (h1 : mayMatch trigRe segs = false) :
    replaceWith trigRe (trigDegrees host) e = e := by
  show render (trigDegrees host) (pieces trigRe e) = e
  rw [pieces_of_mayMatch trigRe _ e hd h1, render_keep]

/-- The gate accepts `Math.name(w)` for the names of its third alternative and a text `w`
over its class that is not empty. -/
theorem gateAccepts_call (name : String) (hname : name ∈ gateNames) (w : List Char)
    (hw : w ≠ [])
    (hall : ∀ c ∈ w, clsHas false (arithItems ++ [.one 'E', .one 'e']) c = true) :
    gateAccepts ("Math.".toList ++ (name.toList ++ '(' :: w)) = true := by
  have hre : gateRe = .alt
      (Re.seqs [.bol, Re.plus (.cls false arithItems),
        .star (.group 1 (.seq (Re.lit "**") (Re.plus (.cls false [.digits, .one '.']))))])
      (.alt (.seq (Re.lit "Math.") (.alt (Re.lit "PI") (.chr 'E')))
        (.seq (.seq (Re.str "Math.".toList) (Re.alts (gateNames.map Re.lit)))
          (.seq (.chr '(') (.seq (.seq (.cls false (arithItems ++ [.one 'E', .one 'e']))
            (.star (.cls false (arithItems ++ [.one 'E', .one 'e']))))
            (.seq (.star (.chr ')')) .eol))))) := rfl
  have htest : test gateRe ("Math.".toList ++ (name.toList ++ '(' :: w)) = true := by
    unfold test
    refine search_isSome gateRe ("Math.".toList ++ (name.toList ++ '(' :: w)) [] [] ?_
    unfold matchAt
    rw [hre, m_alt, isSome_orElse, m_alt, isSome_orElse]
    simp only [Bool.or_eq_true]
    right; right
    rw [m_seq, m_seq, m_str_append]
    apply alts_lits_isSome name gateNames hname
    rw [m_seq, m_chr, readIf_cons]
    simp only [beq_self_eq_true, if_true, St.step]
    cases w with
    | nil => exact absurd rfl hw
    | cons d w' =>
      have hd := hall d (List.mem_cons_self _ _)
      rw [m_seq, m_seq, m_cls, readIf_cons]
      simp only [hd, if_true, St.step]
      have hend : ∀ (l : List Char) (caps : List (Nat × List Char)),
          ((Re.seq (.star (.chr ')')) .eol).m some ⟨l, [], caps⟩).isSome = true := by
        intro l caps
        rw [m_seq, m_star]
        rfl
      have h := star_run (Re.cls false (arithItems ++ [ClsItem.one 'E', ClsItem.one 'e']))
        (clsHas false (arithItems ++ [ClsItem.one 'E', ClsItem.one 'e'])) rfl
        ((Re.seq (.star (.chr ')')) .eol).m some) [] w' []
        (d :: '(' :: (name.toList.reverse ++ ("Math.".toList.reverse ++ ([].reverse ++ []))))
        (fun c hc => hall c (List.mem_cons_of_mem _ hc)) (headNot_nil _) (hend _ _)
      simp only [List.append_nil] at h ⊢
      rw [h]
      exact hend _ _
  unfold gateAccepts
  rw [htest]
  rfl

theorem gateAccepts_math_call (name : String) (hname : name ∈ gateNames) (arg : List Char)
    (harg : ∀ c ∈ arg, c ∈ argChars) :
    gateAccepts ("Math.".toList ++ (name.toList ++ '(' :: (arg ++ [')']))) = true := by
  have key : ∀ c ∈ argChars ++ [')'],
      clsHas false (arithItems ++ [ClsItem.one 'E', ClsItem.one 'e']) c = true := by decide
  apply gateAccepts_call name hname (arg ++ [')']) (by simp)
  intro c hc
  rcases List.mem_append.1 hc with h | h
  · exact key c (List.mem_append_left _ (harg c h))
  · exact key c (List.mem_append_right _ h)

theorem calculate_integer {V : Type} (host : Host V) (settings : Settings)
    (now : List Char) (c : Calc) (v : V) (text out : List Char)
    (hne : c.currentExpression ≠ [])
    (hd : delegated host settings c.currentExpression = text)
    (hg : gateAccepts text = true) (hrun : host.run text = some v)
    (hfin : host.isFinite v = some true) (hint : host.isInteger v = true)
    (hstr : host.toStr v = out) :
    calculate host settings now c
      = (⟨out, out, addToHistory now c.history out out⟩, .result out) := by
  apply calculate_succeeds host settings now c v out hne
  · rw [evaluateExpression_prepare, hd, hg, hrun]
    rfl
  · exact hfin
  · unfold formatResult
    rw [hint, hstr]
    rfl

set_option maxRecDepth 100000 in
theorem delegated_sqrt_call {V : Type} (host : Host V) (settings : Settings)
    (arg : List Char) (harg : ∀ c ∈ arg, c ∈ argChars) :
    delegated host settings (call "sqrt" arg) = call "Math.sqrt" arg := by
  have hdE := denotes_callPattern "sqrt" arg harg
  have hdO := denotes_callPattern "Math.sqrt" arg harg
  have hg : (glyphPasses.any fun p => mayMatch p.re (callPattern "sqrt")) = false := by
    decide!
  have t1 : mayMatch trigRe (callPattern "sqrt") = false := by decide!
  have t2 : mayMatch trigOpenRe (callPattern "sqrt") = false := by decide!
  have ha : mayMatchAfter (Re.lit "sqrt(") (.ch '(') [.many argChars, .lit ')'] = false := by
    decide!
  have hpost : ((namePasses.drop 1).any fun p => mayMatch p.re (callPattern "Math.sqrt"))
      = false := by decide!
  have hev : (evaluatorPasses.any fun p => mayMatch p.re (callPattern "Math.sqrt")) = false := by
    decide!
  have hrep : replaceAll (Re.lit "sqrt(") "Math.sqrt(" ("sqrt(".toList ++ (arg ++ [')']))
      = "Math.sqrt(".toList ++ (arg ++ [')']) :=
    replaceAll_head (Re.lit "sqrt(") "Math.sqrt(" "sqrt(".toList (arg ++ [')']) _ _ []
      (.ch '(') [.many argChars, .lit ')'] (by decide) (matchAt_lit "sqrt(" _) ⟨_, rfl⟩
      ⟨arg, [')'], rfl, harg, [], rfl, rfl⟩ ha rfl
  have hname : runPasses namePasses (call "sqrt" arg) = call "Math.sqrt" arg := by
    show runPasses (namePasses.drop 1)
      (replaceAll (Re.lit "sqrt(") "Math.sqrt(" ("sqrt(".toList ++ (arg ++ [')']))) = _
    rw [hrep]
    exact runPasses_of_mayMatch _ _ hdO _ hpost
  exact delegated_of_steps host settings _ _ _ _ _ hdE hg
    (fun _ => no_trig_degrees host _ _ hdE t1)
    (fun _ => replaceAll_of_mayMatch trigOpenRe _ _ _ hdE t2) hname
    (count_call "Math.sqrt" arg harg (by decide)) hdO hev

set_option maxRecDepth 100000 in
theorem delegated_log_call {V : Type} (host : Host V) (settings : Settings)
    (arg : List Char) (harg : ∀ c ∈ arg, c ∈ argChars) :
    delegated host settings (call "log" arg) = call "Math.log10" arg := by
  have hdE := denotes_callPattern "log" arg harg
  have hdO := denotes_callPattern "Math.log10" arg harg
  have hg : (glyphPasses.any fun p => mayMatch p.re (callPattern "log")) = false := by
    decide!
  have t1 : mayMatch trigRe (callPattern "log") = false := by decide!
  have t2 : mayMatch trigOpenRe (callPattern "log") = false := by decide!
  have hpre : ((namePasses.take 1).any fun p => mayMatch p.re (callPattern "log"))
      = false := by decide!
  have ha : mayMatchAfter (Re.lit "log(") (.ch '(') [.many argChars, .lit ')'] = false := by
    decide!
  have hpost : ((namePasses.drop 2).any fun p => mayMatch p.re (callPattern "Math.log10"))
      = false := by decide!
  have hev : (evaluatorPasses.any fun p => mayMatch p.re (callPattern "Math.log10"))
      = false := by decide!
  have hrep : replaceAll (Re.lit "log(") "Math.log10(" ("log(".toList ++ (arg ++ [')']))
      = "Math.log10(".toList ++ (arg ++ [')']) :=
    replaceAll_head (Re.lit "log(") "Math.log10(" "log(".toList (arg ++ [')']) _ _ []
      (.ch '(') [.many argChars, .lit ')'] (by decide) (matchAt_lit "log(" _) ⟨_, rfl⟩
      ⟨arg, [')'], rfl, harg, [], rfl, rfl⟩ ha rfl
  have hname : runPasses namePasses (call "log" arg) = call "Math.log10" arg := by
    have hsplit : namePasses = namePasses.take 1 ++ namePasses.drop 1 := rfl
    rw [hsplit, runPasses_append, runPasses_of_mayMatch _ _ hdE _ hpre]
    show runPasses (namePasses.drop 2)
      (replaceAll (Re.lit "log(") "Math.log10(" ("log(".toList ++ (arg ++ [')']))) = _
    rw [hrep]
    exact runPasses_of_mayMatch _ _ hdO _ hpost
  exact delegated_of_steps host settings _ _ _ _ _ hdE hg
    (fun _ => no_trig_degrees host _ _ hdE t1)
    (fun _ => replaceAll_of_mayMatch trigOpenRe _ _ _ hdE t2) hname
    (count_call "Math.log10" arg harg (by decide)) hdO hev

/-- C13: for every decimal numeral `n` the text that `calculate` hands to the host
evaluator is `Math.sqrt(n)` for `sqrt(n)` and `Math.log10(n)` for `log(n)`, with the
function name substituted once; the gate accepts both texts. With a host that evaluates
`Math.sqrt(9)` to the integer printed as `3` and `Math.log10(100)` to the integer printed
as `2`, `calculate` yields `3` for `sqrt(9)` and `2` for `log(100)`. -/
theorem sqrt_and_log_are_mapped_once {V : Type} (host : Host V) (settings : Settings)
    (n : List Char) (hn : Numeral n) :
    delegated host settings ("sqrt(".toList ++ (n ++ [')'])) = "Math.sqrt(".toList ++ (n ++ [')'])
    ∧ delegated host settings ("log(".toList ++ (n ++ [')']))
        = "Math.log10(".toList ++ (n ++ [')'])
    ∧ evaluateExpression host (prepare host settings ("sqrt(".toList ++ (n ++ [')'])))
        = host.run ("Math.sqrt(".toList ++ (n ++ [')']))
    ∧ evaluateExpression host (prepare host settings ("log(".toList ++ (n ++ [')'])))
        = host.run ("Math.log10(".toList ++ (n ++ [')']))
    ∧ (∀ now r h v, host.run "Math.sqrt(9)".toList = some v → host.isFinite v = some true →
        host.isInteger v = true → host.toStr v = ['3'] →
        calculate host settings now ⟨"sqrt(9)".toList, r, h⟩
          = (⟨['3'], ['3'], addToHistory now h ['3'] ['3']⟩, .result ['3']))
    ∧ (∀ now r h v, host.run "Math.log10(100)".toList = some v → host.isFinite v = some true →
        host.isInteger v = true → host.toStr v = ['2'] →
        calculate host settings now ⟨"log(100)".toList, r, h⟩
          = (⟨['2'], ['2'], addToHistory now h ['2'] ['2']⟩, .result ['2'])) := by
  have harg := numeral_argChars n hn
  have s1 : delegated host settings ("sqrt(".toList ++ (n ++ [')']))
      = "Math.sqrt(".toList ++ (n ++ [')']) := delegated_sqrt_call host settings n harg
  have l1 : delegated host settings ("log(".toList ++ (n ++ [')']))
      = "Math.log10(".toList ++ (n ++ [')']) := delegated_log_call host settings n harg
  have g1 : gateAccepts ("Math.sqrt(".toList ++ (n ++ [')'])) = true :=
    gateAccepts_math_call "sqrt" (by decide) n harg
  have g2 : gateAccepts ("Math.log10(".toList ++ (n ++ [')'])) = true :=
    gateAccepts_math_call "log10" (by decide) n harg
  refine ⟨s1, l1, ?_, ?_, ?_, ?_⟩
  · rw [evaluateExpression_prepare, s1, g1]; rfl
  · rw [evaluateExpression_prepare, l1, g2]; rfl
  · intro now r h v hrun hfin hint hstr
    exact calculate_integer host settings now ⟨"sqrt(9)".toList, r, h⟩ v
      "Math.sqrt(9)".toList ['3'] (List.cons_ne_nil _ _)
      (delegated_sqrt_call host settings ['9'] (by decide))
      (gateAccepts_math_call "sqrt" (by decide) ['9'] (by decide)) hrun hfin hint hstr
  · intro now r h v hrun hfin hint hstr
    exact calculate_integer host settings now ⟨"log(100)".toList, r, h⟩ v
      "Math.log10(100)".toList ['2'] (List.cons_ne_nil _ _)
      (delegated_log_call host settings "100".toList (by decide))
      (gateAccepts_math_call "log10" (by decide) "100".toList (by decide)) hrun hfin hint hstr

set_option maxRecDepth 100000 in
/-- Witness for C13: the numeral `2.25`, and a host that evaluates `Math.sqrt(9)` to 3. -/
theorem sqrt_and_log_are_mapped_once_witness :
    delegated (tableHost [("Math.sqrt(9)", 3)]) ⟨2, .degrees⟩ "sqrt(2.25)".toList
      = "Math.sqrt(2.25)".toList
    ∧ calculate (tableHost [("Math.sqrt(9)", 3)]) ⟨2, .degrees⟩ [] ⟨"sqrt(9)".toList, ['0'], []⟩
      = (⟨['3'], ['3'], [⟨['3'], ['3'], []⟩]⟩, .result ['3']) :=
  ⟨(sqrt_and_log_are_mapped_once (tableHost [("Math.sqrt(9)", 3)]) ⟨2, .degrees⟩
      "2.25".toList ⟨['2'], ⟨by decide, by decide⟩, Or.inr ⟨"25".toList, ⟨by decide, by decide⟩, rfl⟩⟩).1,
   (sqrt_and_log_are_mapped_once (tableHost [("Math.sqrt(9)", 3)]) ⟨2, .degrees⟩
      ['9'] ⟨['9'], ⟨by decide, by decide⟩, Or.inl rfl⟩).2.2.2.2.1 [] ['0'] [] 3
      (by decide!) (by decide!) (by decide!) (by decide!)⟩

/-! ### Trigonometric calls in radians -/

theorem matchAt_trigOpen (f : String) (hf : f ∈ ["sin", "cos", "tan"]) (v : List Char) :
    matchAt trigOpenRe [] (f.toList ++ '(' :: v)
      = some ⟨'(' :: (f.toList.reverse ++ []), v, [(1, f.toList)]⟩ := by
  simp only [List.mem_cons, List.mem_singleton, List.not_mem_nil, or_false] at hf
  rcases hf with h | h | h <;> subst h <;>
    simp [matchAt, trigOpenRe, Re.seqs, Re.alts, Re.lit, Re.str, m_seq, m_group, m_alt, m_chr,
      readIf, St.step, orElse]

set_option maxRecDepth 100000 in
theorem delegated_trig_radians {V : Type} (host : Host V) (dp : Nat) (f : String)
    (hf : f ∈ ["sin", "cos", "tan"]) (arg : List Char) (harg : ∀ c ∈ arg, c ∈ argChars) :
    delegated host ⟨dp, .radians⟩ (call f arg) = "Math.".toList ++ call f arg := by
  have hg : ∀ g ∈ ["sin", "cos", "tan"],
      (glyphPasses.any fun p => mayMatch p.re (callPattern g)) = false := by decide!
  have ha : mayMatchAfter trigOpenRe (.ch '(') [.many argChars, .lit ')'] = false := by
    decide!
  have hn : ∀ g ∈ ["sin", "cos", "tan"],
      (namePasses.any fun p => mayMatch p.re (lits "Math.".toList ++ callPattern g))
        = false := by decide!
  have hev : ∀ g ∈ ["sin", "cos", "tan"],
      (evaluatorPasses.any fun p => mayMatch p.re (lits "Math.".toList ++ callPattern g))
        = false := by decide!
  have hexp : ∀ g ∈ ["sin", "cos", "tan"],
      expandTemplate trigOpenRe.groups (g.toList ++ ['(']) [(1, g.toList)] .none
        "Math.$1(".toList = "Math.".toList ++ (g.toList ++ ['(']) := by decide
  have hchars : ∀ g ∈ ["sin", "cos", "tan"],
      ∀ c ∈ "Math.".toList ++ g.toList, c ≠ '(' ∧ c ≠ ')' := by decide
  have hdE := denotes_callPattern f arg harg
  have hdO : Denotes (lits "Math.".toList ++ callPattern f) ("Math.".toList ++ call f arg) :=
    denotes_append _ _ _ _ (denotes_lits _) hdE
  have hrep : replaceAll trigOpenRe "Math.$1(" ((f.toList ++ ['(']) ++ (arg ++ [')']))
      = ("Math.".toList ++ (f.toList ++ ['('])) ++ (arg ++ [')']) :=
    replaceAll_head trigOpenRe "Math.$1(" (f.toList ++ ['(']) (arg ++ [')']) _ _
      [(1, f.toList)] (.ch '(') [.many argChars, .lit ')'] (by simp)
      (by simpa using matchAt_trigOpen f hf (arg ++ [')'])) ⟨_, rfl⟩
      ⟨arg, [')'], rfl, harg, [], rfl, rfl⟩ ha (hexp f hf)
  have hrep' : replaceAll trigOpenRe "Math.$1(" (call f arg) = "Math.".toList ++ call f arg := by
    have e1 : call f arg = (f.toList ++ ['(']) ++ (arg ++ [')']) := by simp [call]
    have e2 : "Math.".toList ++ call f arg
        = ("Math.".toList ++ (f.toList ++ ['('])) ++ (arg ++ [')']) := by simp [call]
    rw [e2, e1]
    exact hrep
  have hbal : balanceParentheses ("Math.".toList ++ call f arg)
      = "Math.".toList ++ call f arg := by
    have h := count_call_text ("Math.".toList ++ f.toList) arg harg (hchars f hf)
    rw [balanceParentheses_eq]
    have e : "Math.".toList ++ call f arg
        = ("Math.".toList ++ f.toList) ++ '(' :: (arg ++ [')']) := by simp [call]
    rw [e, h.1, h.2]
    exact List.append_nil _
  exact delegated_of_steps host ⟨dp, .radians⟩ _ _ _ _ _ hdE (hg f hf)
    (fun h => by cases h) (fun _ => hrep')
    (runPasses_of_mayMatch _ _ hdO _ (hn f hf)) hbal hdO (hev f hf)

set_option maxRecDepth 100000 in
/-- Counterexample for C21: in radians mode the argument of a call is not always handed
on unchanged. The constant of `sin(PI)` is substituted by `calculate` and once more by
`evaluateExpression`, so the delegated text is `Math.sin(Math.Math.PI)`; the power sign
of `sin(2^3)` and the letter `x` of `sin(2x3)` are rewritten as well. The host takes no
part in these texts. -/
theorem radians_argument_with_constant_is_rewritten :
    delegated (tableHost []) ⟨2, .radians⟩ "sin(PI)".toList
      = "Math.sin(Math.Math.PI)".toList
    ∧ delegated (tableHost []) ⟨2, .radians⟩ "sin(2^3)".toList = "Math.sin(2**3)".toList
    ∧ delegated (tableHost []) ⟨2, .radians⟩ "sin(2x3)".toList = "Math.sin(2*3)".toList
    ∧ "Math.sin(Math.Math.PI)".toList ≠ "Math.sin(PI)".toList := by
  refine ⟨by decide!, by decide!, by decide!, by decide⟩

set_option maxRecDepth 100000 in
/-- C21 (amended): with `angleUnit` radians, the trigonometric step of `calculate` writes
`Math.` before every `sin(`, `cos(` and `tan(` of its input and changes nothing else, on
every text; no factor `π/180` is written. For each of `sin`, `cos` and `tan` and every
argument made of digits, dots and the operators `+ - * /`, the text that `calculate`
hands to the host evaluator for `f(arg)` is `Math.f(arg)`, with the argument unchanged,
and the gate accepts it. For `sin(90)` the text is `Math.sin(90)`. -/
theorem radians_pass_arguments_unchanged {V : Type} (host : Host V) (dp : Nat)
    (f : String) (arg : List Char) (hf : f ∈ ["sin", "cos", "tan"])
    (harg : ∀ c ∈ arg, c ∈ argChars) :
    (∀ s, replaceAll trigOpenRe "Math.$1(" s = mathPrefixed s)
    ∧ (∀ e, prepare host ⟨dp, .radians⟩ e
        = balanceParentheses (runPasses namePasses (mathPrefixed (runPasses glyphPasses e))))
    ∧ replaceAll trigOpenRe "Math.$1(" (f.toList ++ '(' :: (arg ++ [')']))
      = "Math.".toList ++ (f.toList ++ '(' :: (arg ++ [')']))
    ∧ delegated host ⟨dp, .radians⟩ (f.toList ++ '(' :: (arg ++ [')']))
      = "Math.".toList ++ (f.toList ++ '(' :: (arg ++ [')']))
    ∧ gateAccepts ("Math.".toList ++ (f.toList ++ '(' :: (arg ++ [')']))) = true
    ∧ evaluateExpression host (prepare host ⟨dp, .radians⟩ (f.toList ++ '(' :: (arg ++ [')'])))
      = host.run ("Math.".toList ++ (f.toList ++ '(' :: (arg ++ [')'])))
    ∧ delegated host ⟨dp, .radians⟩ "sin(90)".toList = "Math.sin(90)".toList := by
  have hd := delegated_trig_radians host dp f hf arg harg
  have hgate : gateAccepts ("Math.".toList ++ (f.toList ++ '(' :: (arg ++ [')']))) = true :=
    gateAccepts_math_call f (by
      simp only [List.mem_cons, List.mem_singleton, List.not_mem_nil, or_false] at hf
      rcases hf with h | h | h <;> subst h <;> decide) arg harg
  have hd' : delegated host ⟨dp, .radians⟩ (f.toList ++ '(' :: (arg ++ [')']))
      = "Math.".toList ++ (f.toList ++ '(' :: (arg ++ [')'])) := hd
  refine ⟨replaceAll_trigOpen, ?_, ?_, hd', hgate, ?_, ?_⟩
  · intro e
    show balanceParentheses (runPasses namePasses
      (replaceAll trigOpenRe "Math.$1(" (runPasses glyphPasses e))) = _
    rw [replaceAll_trigOpen]
  · rw [replaceAll_trigOpen]
    have h := mathPrefixed_call f hf (arg ++ [')'])
    rw [h]
    have hplain : ∀ (a : List Char), (∀ c ∈ a, c ∈ argChars) →
        mathPrefixed (a ++ [')']) = a ++ [')'] := by
      intro a
      induction a with
      | nil => intro _; rfl
      | cons c a ih =>
        intro ha
        have hc : c ∈ argChars := ha c (List.mem_cons_self _ _)
        have hs : startsTrigCall (c :: (a ++ [')'])) = false := by
          have : c ≠ 's' ∧ c ≠ 'c' ∧ c ≠ 't' := by
            revert hc
            generalize c = d
            revert d
            decide
          simp [startsTrigCall, List.isPrefixOf, this.1.symm, this.2.1.symm, this.2.2.symm]
        show (if startsTrigCall (c :: (a ++ [')'])) = true then "Math.".toList else [])
          ++ c :: mathPrefixed (a ++ [')']) = _
        rw [hs, ih fun d hd => ha d (List.mem_cons_of_mem _ hd)]
        rfl
    rw [hplain arg harg]
  · rw [evaluateExpression_prepare, hd', hgate]; rfl
  · exact delegated_trig_radians host dp "sin" (by decide) "90".toList (by decide)

set_option maxRecDepth 100000 in
/-- Witness for C21: `cos(3.5)`. -/
theorem radians_pass_arguments_unchanged_witness :
    delegated (tableHost []) ⟨2, .radians⟩ "cos(3.5)".toList = "Math.cos(3.5)".toList :=
  (radians_pass_arguments_unchanged (tableHost []) 2 "cos" "3.5".toList (by decide)
    (by decide)).2.2.2.1

/-! ### Utterances that one pass rewrites as a whole -/

theorem denotes_chars : ∀ (segs : List Seg) (s : List Char), Denotes segs s →
    ∀ c ∈ s, c ∈ segChars segs := by
  intro segs
  induction segs with
  | nil =>
    intro s h c hc
    have : s = [] := h
    subst this
    simp at hc
  | cons seg rest ih =>
    intro s h c hc
    cases seg with
    | lit d =>
      obtain ⟨t, hs, ht⟩ := h
      subst hs
      rcases List.mem_cons.1 hc with h1 | h1
      · rw [h1]; exact List.mem_cons_self _ _
      · exact List.mem_cons_of_mem _ (ih t ht c h1)
    | many alphabet =>
      obtain ⟨w, t, hs, hw, ht⟩ := h
      subst hs
      show c ∈ alphabet ++ segChars rest
      rcases List.mem_append.1 hc with h1 | h1
      · exact List.mem_append_left _ (hw c h1)
      · exact List.mem_append_right _ (ih t ht c h1)
    | words ws =>
      obtain ⟨w, t, hw, hs, ht⟩ := h
      subst hs
      show c ∈ ws.flatten ++ segChars rest
      rcases List.mem_append.1 hc with h1 | h1
      · exact List.mem_append_left _ (List.mem_flatten.2 ⟨w, hw, h1⟩)
      · exact List.mem_append_right _ (ih t ht c h1)

/-- A replacement whose pattern matches the whole text. -/
theorem replaceAll_whole (r : Re) (template : String) (s left out : List Char)
    (caps : List (Nat × List Char)) (hs : s ≠ [])
    (hhit : matchAt r [] s = some ⟨left, [], caps⟩)
    (hafter : mayMatchAfter r .unk [] = false)
    (hexp : expandTemplate r.groups s caps .none template.toList = out) :
    replaceAll r template s = out := by
  have h := replaceAll_head r template s [] left out caps .unk [] hs
    (by rw [List.append_nil]; exact hhit) trivial rfl hafter hexp
  rw [List.append_nil, List.append_nil] at h
  exact h

/-- An utterance that no command pattern matches, that one pass rewrites to a text
without white space, and that the other passes leave alone at both stages. -/
theorem parse_of_rewrite (s out : List Char) (segsIn segsOut : List Seg)
    (pre post : List Pass) (p : Pass) (hall : allPasses = pre ++ p :: post)
    (hfix : ∀ c ∈ segChars segsIn, c.toLower = c)
    (h1 : HeadNot isSpace s) (h2 : HeadNot isSpace s.reverse)
    (hden : Denotes segsIn s)
    (htests : (commandPatterns.any fun r => mayMatch r segsIn) = false)
    (hpre : (pre.any fun q => mayMatch q.re segsIn) = false)
    (hrep : replaceAll p.re p.template s = out)
    (hdout : Denotes segsOut out)
    (hpost : (post.any fun q => mayMatch q.re segsOut) = false)
    (hne : out ≠ []) (hval : ∀ c ∈ segChars segsOut, c ∈ allowedChars) :
    parseVoiceToMath asciiToLowerCase s = some out := by
  have hlow : asciiToLowerCase s = s :=
    asciiToLowerCase_of_fixed s (fun c hc => hfix c (denotes_chars segsIn s hden c hc))
  have htrim : trim (asciiToLowerCase s) = s := by
    rw [hlow]
    exact trim_of_ends s h1 h2
  simp only [commandPatterns, List.any_cons, List.any_nil, Bool.or_false,
    Bool.or_eq_false_iff] at htests
  obtain ⟨t1, t2, t3, t4⟩ := htests
  have hrun : runPasses allPasses s = out := by
    rw [hall, runPasses_append, runPasses_of_mayMatch segsIn s hden _ hpre]
    show runPasses post (replaceAll p.re p.template s) = out
    rw [hrep]
    exact runPasses_of_mayMatch segsOut out hdout _ hpost
  rw [parseVoiceToMath_of_tests_false asciiToLowerCase _
    (by rw [htrim]; exact test_of_mayMatch _ _ _ hden t1)
    (by rw [htrim]; exact test_of_mayMatch _ _ _ hden t2)
    (by rw [htrim]; exact test_of_mayMatch _ _ _ hden t3)
    (by rw [htrim]; exact test_of_mayMatch _ _ _ hden t4),
    htrim, hrun, validate_eq, if_pos]
  exact ⟨hne, fun c hc => hval c (denotes_chars segsOut out hdout c hc)⟩

theorem digits_chars (d : List Char) (hd : Digits d) : ∀ c ∈ d, c ∈ digitChars :=
  fun c hc => (isDigit_iff c).1 (hd.2 c hc)

theorem digits_numeral (d : List Char) (hd : Digits d) : Numeral d := ⟨d, hd, Or.inl rfl⟩

theorem headNot_space_cons (c : Char) (r : List Char) (hc : isSpace c = false) :
    HeadNot isSpace (c :: r) := by
  intro a t h
  rw [← (List.cons.inj h).1]
  exact hc

theorem headNot_digit_cons (c : Char) (r : List Char) (hc : isDigit c = false) :
    HeadNot isDigit (c :: r) := by
  intro a t h
  rw [← (List.cons.inj h).1]
  exact hc

theorem headNot_dot_cons (c : Char) (r : List Char) (hc : (c == '.') = false) :
    HeadNot (fun c => c == '.') (c :: r) := by
  intro a t h
  rw [← (List.cons.inj h).1]
  exact hc

theorem headNot_of_head (p : Char → Bool) (s : List Char)
    (h : s.head?.map p = some false) : HeadNot p s ∧ s ≠ [] := by
  cases s with
  | nil => simp at h
  | cons a t =>
    refine ⟨?_, List.cons_ne_nil _ _⟩
    intro c r hc
    rw [← (List.cons.inj hc).1]
    simpa using h

/-! ### Multiplier units -/

theorem group_digits_run (i : Nat) (k : St → Option St) (caps : List (Nat × List Char))
    (d rest left : List Char) (hd : Digits d) (hrest : HeadNot isDigit rest)
    (hk : (k ⟨d.reverse ++ left, rest, (i, d) :: caps⟩).isSome = true) :
    (Re.group i digitsRe).m k ⟨left, d ++ rest, caps⟩
      = k ⟨d.reverse ++ left, rest, (i, d) :: caps⟩ := by
  rw [m_group, digitsRe_run _ caps d rest left hd hrest]
  · simp only [take_length_sub]
  · simp only [take_length_sub]
    exact hk

theorem m_str_end (w : List Char) (k : St → Option St) (l : List Char)
    (caps : List (Nat × List Char)) :
    (Re.str w).m k ⟨l, w, caps⟩ = k ⟨w.reverse ++ l, [], caps⟩ := by
  have h := m_str_append w k l [] caps
  rw [List.append_nil] at h
  exact h

theorem unit_matchAt (unit : String) (hu : HeadNot isSpace unit.toList) (d : List Char)
    (hd : Digits d) :
    matchAt (unitRe unit) [] (d ++ (' ' :: unit.toList))
      = some ⟨unit.toList.reverse ++ (' ' :: (d.reverse ++ [])), [], [(1, d)]⟩ := by
  have hre : unitRe unit
      = .seq (.group 1 digitsRe) (.seq (.star .space) (Re.str unit.toList)) := rfl
  have hsp : ∀ (l : List Char) (caps : List (Nat × List Char)),
      (Re.seq (.star .space) (Re.str unit.toList)).m some ⟨l, ' ' :: unit.toList, caps⟩
        = some ⟨unit.toList.reverse ++ (' ' :: l), [], caps⟩ := by
    intro l caps
    have h := star_run .space isSpace rfl ((Re.str unit.toList).m some) caps [' ']
      unit.toList l (by decide) hu (by rw [m_str_end]; rfl)
    rw [m_seq]
    have e : ' ' :: unit.toList = [' '] ++ unit.toList := rfl
    rw [e, h, m_str_end]
    rfl
  unfold matchAt
  rw [hre, m_seq, group_digits_run 1 _ [] d (' ' :: unit.toList) [] hd
    (headNot_digit_cons ' ' _ (by decide)) (by rw [hsp]; rfl), hsp]

theorem hundred_matchAt (d : List Char) (hd : Digits d) :
    matchAt (Re.seqs [.group 1 digitsRe, Re.lit " hundred"]) [] (d ++ " hundred".toList)
      = some ⟨" hundred".toList.reverse ++ (d.reverse ++ []), [], [(1, d)]⟩ := by
  have hre : Re.seqs [.group 1 digitsRe, Re.lit " hundred"]
      = .seq (.group 1 digitsRe) (Re.str " hundred".toList) := rfl
  unfold matchAt
  rw [hre, m_seq, group_digits_run 1 _ [] d " hundred".toList [] hd
    (headNot_digit_cons ' ' _ (by decide)) (by rw [m_str_end]; rfl), m_str_end]

theorem headNot_space_reverse_append (a w : List Char) (hw : HeadNot isSpace w.reverse)
    (hne : w ≠ []) : HeadNot isSpace (a ++ w).reverse := by
  rw [List.reverse_append]
  cases hr : w.reverse with
  | nil =>
    have : w = [] := by simpa using hr
    exact absurd this hne
  | cons c r =>
    rw [hr] at hw
    intro x t h
    have hx : c = x := (List.cons.inj h).1
    rw [← hx]
    exact hw c r rfl

theorem parse_unit (i : Nat) (unit scale template : String) (d : List Char) (hd : Digits d)
    (hall : allPasses
      = allPasses.take i ++ ⟨unitRe unit, template⟩ :: allPasses.drop (i + 1))
    (hu : HeadNot isSpace unit.toList) (hlast : HeadNot isSpace unit.toList.reverse)
    (hne : unit.toList ≠ [])
    (hfix : ∀ c ∈ segChars (unitPhrase unit), c.toLower = c)
    (htests : (commandPatterns.any fun r => mayMatch r (unitPhrase unit)) = false)
    (hpre : ((allPasses.take i).any fun q => mayMatch q.re (unitPhrase unit)) = false)
    (hafter : mayMatchAfter (unitRe unit) .unk [] = false)
    (hexp : ∀ m, expandTemplate (unitRe unit).groups m [(1, d)] .none template.toList
      = d ++ '*' :: scale.toList)
    (hpost : ((allPasses.drop (i + 1)).any fun q => mayMatch q.re (scaledNumber scale))
      = false)
    (hval : ∀ c ∈ segChars (scaledNumber scale), c ∈ allowedChars) :
    parseVoiceToMath asciiToLowerCase (d ++ (' ' :: unit.toList))
      = some (d ++ ('*' :: scale.toList)) := by
  have hnum := digits_numeral d hd
  have hdin : Denotes (unitPhrase unit) (d ++ (' ' :: unit.toList)) :=
    ⟨d, ' ' :: unit.toList, rfl, digits_chars d hd, unit.toList, rfl, denotes_lits _⟩
  have hdout : Denotes (scaledNumber scale) (d ++ ('*' :: scale.toList)) :=
    ⟨d, '*' :: scale.toList, rfl, digits_chars d hd, scale.toList, rfl, denotes_lits _⟩
  have hrev : HeadNot isSpace (d ++ (' ' :: unit.toList)).reverse := by
    have e : d ++ (' ' :: unit.toList) = (d ++ [' ']) ++ unit.toList := by simp
    rw [e]
    exact headNot_space_reverse_append _ _ hlast hne
  exact parse_of_rewrite _ _ (unitPhrase unit) (scaledNumber scale) _ _ _ hall hfix
    (headNot_numeral_space d _ hnum) hrev hdin htests hpre
    (replaceAll_whole (unitRe unit) template _ _ _ [(1, d)] (by simp)
      (unit_matchAt unit hu d hd) hafter (hexp _))
    hdout hpost (by simp) hval

set_option maxRecDepth 100000 in
theorem parse_hundred (d : List Char) (hd : Digits d) :
    parseVoiceToMath asciiToLowerCase (d ++ " hundred".toList) = some (d ++ "00".toList) := by
  have hnum := digits_numeral d hd
  have hall : allPasses = allPasses.take 5
      ++ ⟨Re.seqs [.group 1 digitsRe, Re.lit " hundred"], "$100"⟩ :: allPasses.drop 6 := rfl
  have hdin : Denotes ([.many digitChars] ++ lits " hundred".toList)
      (d ++ " hundred".toList) :=
    ⟨d, " hundred".toList, rfl, digits_chars d hd, denotes_lits _⟩
  have hdout : Denotes [.many digitChars, .lit '0', .lit '0'] (d ++ "00".toList) :=
    ⟨d, "00".toList, rfl, digits_chars d hd, ['0'], rfl, [], rfl, rfl⟩
  have hfix : ∀ c ∈ segChars ([.many digitChars] ++ lits " hundred".toList),
      c.toLower = c := by decide
  have htests : (commandPatterns.any fun r =>
      mayMatch r ([.many digitChars] ++ lits " hundred".toList)) = false := by decide!
  have hpre : ((allPasses.take 5).any fun q =>
      mayMatch q.re ([.many digitChars] ++ lits " hundred".toList)) = false := by decide!
  have hafter : mayMatchAfter (Re.seqs [.group 1 digitsRe, Re.lit " hundred"]) .unk []
      = false := by decide!
  have hpost : ((allPasses.drop 6).any fun q =>
      mayMatch q.re [.many digitChars, .lit '0', .lit '0']) = false := by decide!
  have hval : ∀ c ∈ segChars [.many digitChars, .lit '0', .lit '0'], c ∈ allowedChars := by
    decide
  exact parse_of_rewrite _ _ _ _ _ _ _ hall hfix
    (headNot_numeral_space d _ hnum)
    (headNot_space_reverse_append d " hundred".toList (by
      intro c r h
      have h' : 'd' :: "erdnuh ".toList = c :: r := h
      rw [← (List.cons.inj h').1]
      decide) (by decide))
    hdin htests hpre
    (replaceAll_whole _ "$100" _ _ _ [(1, d)] (by simp) (hundred_matchAt d hd) hafter rfl)
    hdout hpost (by simp) hval

set_option maxRecDepth 100000 in
/-- C16: for every non-empty string `d` of digits, `d million`, `d billion`, `d trillion`,
`d lakh` and `d crore` give `d*1000000`, `d*1000000000`, `d*1000000000000`, `d*100000`
and `d*10000000`, and `d hundred` gives `d00`; `5 million` gives `5*1000000` and
`5 hundred` gives `500`. -/
theorem digits_and_unit_give_scaled_product (d : List Char) (hd : Digits d) :
    parseVoiceToMath asciiToLowerCase (d ++ " million".toList)
      = some (d ++ "*1000000".toList)
    ∧ parseVoiceToMath asciiToLowerCase (d ++ " billion".toList)
      = some (d ++ "*1000000000".toList)
    ∧ parseVoiceToMath asciiToLowerCase (d ++ " trillion".toList)
      = some (d ++ "*1000000000000".toList)
    ∧ parseVoiceToMath asciiToLowerCase (d ++ " lakh".toList)
      = some (d ++ "*100000".toList)
    ∧ parseVoiceToMath asciiToLowerCase (d ++ " crore".toList)
      = some (d ++ "*10000000".toList)
    ∧ parseVoiceToMath asciiToLowerCase (d ++ " hundred".toList) = some (d ++ "00".toList)
    ∧ parseVoice "5 million" = some "5*1000000"
    ∧ parseVoice "5 hundred" = some "500" := by
  have hhead : ∀ u ∈ unitScales, u.1.toList.head?.map isSpace = some false := by decide
  have hlast : ∀ u ∈ unitScales, u.1.toList.reverse.head?.map isSpace = some false := by
    decide
  have hfix : ∀ u ∈ unitScales, ∀ c ∈ segChars (unitPhrase u.1), c.toLower = c := by decide
  have htests : ∀ u ∈ unitScales,
      (commandPatterns.any fun r => mayMatch r (unitPhrase u.1)) = false := by decide!
  have hafter : ∀ u ∈ unitScales, mayMatchAfter (unitRe u.1) .unk [] = false := by decide!
  have hval : ∀ u ∈ unitScales, ∀ c ∈ segChars (scaledNumber u.2), c ∈ allowedChars := by
    decide
  have pre0 : ((allPasses.take 0).any fun q => mayMatch q.re (unitPhrase "trillion"))
      = false := by decide!
  have pre1 : ((allPasses.take 1).any fun q => mayMatch q.re (unitPhrase "billion"))
      = false := by decide!
  have pre2 : ((allPasses.take 2).any fun q => mayMatch q.re (unitPhrase "million"))
      = false := by decide!
  have pre3 : ((allPasses.take 3).any fun q => mayMatch q.re (unitPhrase "lakh"))
      = false := by decide!
  have pre4 : ((allPasses.take 4).any fun q => mayMatch q.re (unitPhrase "crore"))
      = false := by decide!
  have post0 : ((allPasses.drop 1).any fun q => mayMatch q.re (scaledNumber "1000000000000"))
      = false := by decide!
  have post1 : ((allPasses.drop 2).any fun q => mayMatch q.re (scaledNumber "1000000000"))
      = false := by decide!
  have post2 : ((allPasses.drop 3).any fun q => mayMatch q.re (scaledNumber "1000000"))
      = false := by decide!
  have post3 : ((allPasses.drop 4).any fun q => mayMatch q.re (scaledNumber "100000"))
      = false := by decide!
  have post4 : ((allPasses.drop 5).any fun q => mayMatch q.re (scaledNumber "10000000"))
      = false := by decide!
  have one : ∀ (i : Nat) (u : String × String) (template : String), u ∈ unitScales →
      allPasses = allPasses.take i ++ ⟨unitRe u.1, template⟩ :: allPasses.drop (i + 1) →
      ((allPasses.take i).any fun q => mayMatch q.re (unitPhrase u.1)) = false →
      (∀ m, expandTemplate (unitRe u.1).groups m [(1, d)] .none template.toList
        = d ++ '*' :: u.2.toList) →
      ((allPasses.drop (i + 1)).any fun q => mayMatch q.re (scaledNumber u.2)) = false →
      parseVoiceToMath asciiToLowerCase (d ++ (' ' :: u.1.toList))
        = some (d ++ ('*' :: u.2.toList)) := by
    intro i u template hu hall hpre hexp hpost
    exact parse_unit i u.1 u.2 template d hd hall (headNot_of_head _ _ (hhead u hu)).1
      (headNot_of_head _ _ (hlast u hu)).1 (headNot_of_head _ _ (hhead u hu)).2
      (hfix u hu) (htests u hu) hpre (hafter u hu) hexp hpost (hval u hu)
  refine ⟨one 2 ("million", "1000000") "$1*1000000" (by decide) rfl pre2 (fun _ => rfl) post2,
    one 1 ("billion", "1000000000") "$1*1000000000" (by decide) rfl pre1 (fun _ => rfl) post1,
    one 0 ("trillion", "1000000000000") "$1*1000000000000" (by decide) rfl pre0
      (fun _ => rfl) post0,
    one 3 ("lakh", "100000") "$1*100000" (by decide) rfl pre3 (fun _ => rfl) post3,
    one 4 ("crore", "10000000") "$1*10000000" (by decide) rfl pre4 (fun _ => rfl) post4,
    parse_hundred d hd, by decide!, by decide!⟩

set_option maxRecDepth 100000 in
/-- Witness for C16: the digits `120`. -/
theorem digits_and_unit_give_scaled_product_witness :
    parseVoiceToMath asciiToLowerCase "120 crore".toList = some "120*10000000".toList :=
  (digits_and_unit_give_scaled_product "120".toList ⟨by decide, by decide⟩).2.2.2.2.1

/-! ### Function phrases -/

theorem opt_skip (w : List Char) (x : Re) (k : St → Option St) (l right : List Char)
    (caps : List (Nat × List Char)) (h : w.isPrefixOf right = false) :
    (Re.opt (.seq (Re.str w) x)).m k ⟨l, right, caps⟩ = k ⟨l, right, caps⟩ := by
  rw [m_opt, m_seq, m_str, h]
  simp only [Bool.false_eq_true, if_false, orElse_none_left]

theorem numeral_head (n : List Char) (hn : Numeral n) :
    ∃ c r, n = c :: r ∧ isDigit c = true := by
  obtain ⟨ds, ⟨hne, hall⟩, hcase⟩ := hn
  cases ds with
  | nil => exact absurd rfl hne
  | cons c r =>
    have hc := hall c (List.mem_cons_self _ _)
    rcases hcase with h | ⟨fs, _, h⟩
    · exact ⟨c, r, h, hc⟩
    · exact ⟨c, r ++ '.' :: fs, by rw [h]; rfl, hc⟩

theorem numeral_headNot_space (n : List Char) (hn : Numeral n) : HeadNot isSpace n := by
  have h := headNot_numeral_space n [] hn
  rw [List.append_nil] at h
  exact h

theorem numeral_end (n : List Char) (hn : Numeral n) (l : List Char)
    (caps : List (Nat × List Char)) (i j : Nat) :
    ∃ extra, (Re.seq (numRe i j) .wordB).m some ⟨l, n, caps⟩
      = some ⟨n.reverse ++ l, [], (i, n) :: (extra ++ caps)⟩ := by
  have hword : ∀ (caps : List (Nat × List Char)),
      Re.wordB.m some ⟨n.reverse ++ l, [], caps⟩ = some ⟨n.reverse ++ l, [], caps⟩ := by
    intro caps
    rw [m_wordB]
    have : atWordB (n.reverse ++ l) [] = true := by
      unfold atWordB
      rw [headIsWord_reverse_numeral n l hn]
      rfl
    simp only [this, if_true]
  obtain ⟨extra, h⟩ := numRe_run i j (Re.wordB.m some) caps n [] l hn (headNot_nil _)
    (headNot_nil _) (fun extra => by rw [hword]; rfl)
  rw [List.append_nil] at h
  exact ⟨extra, by rw [m_seq, h, hword]⟩

theorem function_tail_run (n : List Char) (hn : Numeral n) (conn : List Char)
    (hconn : conn = [' '] ∨ conn = " of ".toList) (l : List Char)
    (caps : List (Nat × List Char)) :
    ∃ left extra, functionTail.m some ⟨l, conn ++ n, caps⟩
      = some ⟨left, [], (2, n) :: (extra ++ caps)⟩ := by
  have hre : functionTail = .seq (.star .space)
      (.seq (.opt (.seq (Re.str "of".toList) (.star .space))) (.seq (numRe 2 3) .wordB)) := rfl
  have hsp : ∀ c ∈ [' '], isSpace c = true := by decide
  rcases hconn with h | h
  · subst h
    obtain ⟨extra, hnum⟩ := numeral_end n hn ([' '].reverse ++ l) caps 2 3
    have hof : "of".toList.isPrefixOf n = false := by
      obtain ⟨c, r, hc, hd⟩ := numeral_head n hn
      subst hc
      have : c ≠ 'o' := by
        intro h
        subst h
        revert hd
        decide
      simp [List.isPrefixOf, this]
      intro h
      exact absurd h.symm this
    have h2 : (Re.seq (.opt (.seq (Re.str "of".toList) (.star .space)))
        (.seq (numRe 2 3) .wordB)).m some ⟨[' '].reverse ++ l, n, caps⟩
        = some ⟨n.reverse ++ ([' '].reverse ++ l), [], (2, n) :: (extra ++ caps)⟩ := by
      rw [m_seq, opt_skip _ _ _ _ _ _ hof, hnum]
    refine ⟨n.reverse ++ ([' '].reverse ++ l), extra, ?_⟩
    rw [hre, m_seq, star_run .space isSpace rfl _ caps [' '] n l hsp
      (numeral_headNot_space n hn) (by rw [h2]; rfl), h2]
  · subst h
    obtain ⟨extra, hnum⟩ := numeral_end n hn
      ([' '].reverse ++ ("of".toList.reverse ++ ([' '].reverse ++ l))) caps 2 3
    have h2 : (Re.seq (.opt (.seq (Re.str "of".toList) (.star .space)))
        (.seq (numRe 2 3) .wordB)).m some ⟨[' '].reverse ++ l, "of".toList ++ ([' '] ++ n), caps⟩
        = some ⟨n.reverse ++ ([' '].reverse ++ ("of".toList.reverse ++ ([' '].reverse ++ l))),
            [], (2, n) :: (extra ++ caps)⟩ := by
      rw [m_seq, opt_str_spaces_run "of".toList [' '] n ([' '].reverse ++ l) caps _
        (by decide) hsp (numeral_headNot_space n hn) (by rw [hnum]; rfl), hnum]
    refine ⟨n.reverse ++ ([' '].reverse ++ ("of".toList.reverse ++ ([' '].reverse ++ l))),
      extra, ?_⟩
    have e : " of ".toList ++ n = [' '] ++ ("of".toList ++ ([' '] ++ n)) := rfl
    have ho : HeadNot isSpace ("of".toList ++ ([' '] ++ n)) := by
      intro c r h
      have h' : 'o' :: ("f".toList ++ ([' '] ++ n)) = c :: r := h
      rw [← (List.cons.inj h').1]
      decide
    rw [hre, e, m_seq, star_run .space isSpace rfl _ caps [' ']
      ("of".toList ++ ([' '] ++ n)) l hsp ho (by rw [h2]; rfl), h2]

theorem function_after_name (W n : List Char) (hn : Numeral n) (conn : List Char)
    (hconn : conn = [' '] ∨ conn = " of ".toList) :
    ∃ left extra, functionTail.m some ⟨W.reverse ++ [], conn ++ n,
        [(1, (W ++ (conn ++ n)).take ((W ++ (conn ++ n)).length - (conn ++ n).length))]⟩
      = some ⟨left, [], (2, n) :: extra⟩ := by
  obtain ⟨left, extra, h⟩ := function_tail_run n hn conn hconn (W.reverse ++ []) [(1, W)]
  refine ⟨left, extra ++ [(1, W)], ?_⟩
  rw [take_length_sub]
  exact h

theorem functionRe_eq (name : Re) :
    functionRe name = .seq .wordB (.seq (.group 1 name) functionTail) := rfl

/-- The name of a function phrase is the only alternative, or the first one. -/
theorem function_matchAt_first (name : Re) (W n : List Char) (hn : Numeral n)
    (conn : List Char) (hconn : conn = [' '] ∨ conn = " of ".toList)
    (hW : headIsWord (W ++ (conn ++ n)) = true)
    (hname : ∀ (K : St → Option St) (rest : List Char),
      (K ⟨W.reverse ++ [], rest, []⟩).isSome = true →
      name.m K ⟨[], W ++ rest, []⟩ = K ⟨W.reverse ++ [], rest, []⟩) :
    ∃ left extra, matchAt (functionRe name) [] (W ++ (conn ++ n))
      = some ⟨left, [], (2, n) :: extra⟩ := by
  obtain ⟨left, extra, h⟩ := function_after_name W n hn conn hconn
  refine ⟨left, extra, ?_⟩
  unfold matchAt
  rw [functionRe_eq, m_seq, m_wordB, if_pos (by unfold atWordB; rw [hW]; rfl), m_seq, m_group,
    hname _ _ (by rw [h]; rfl)]
  exact h

/-- The name of a function phrase is the second alternative, and what follows the first
alternative cannot be matched. -/
theorem function_matchAt_second (A sfx n : List Char) (hn : Numeral n)
    (conn : List Char) (hconn : conn = [' '] ∨ conn = " of ".toList)
    (hW : headIsWord (A ++ sfx ++ (conn ++ n)) = true)
    (hmay : functionTail.may (fun _ => true) (.unk, afterShortName sfx) = false) :
    ∃ left extra, matchAt (functionRe (.alt (Re.str A) (Re.str (A ++ sfx)))) []
        (A ++ sfx ++ (conn ++ n))
      = some ⟨left, [], (2, n) :: extra⟩ := by
  obtain ⟨left, extra, h⟩ := function_after_name (A ++ sfx) n hn conn hconn
  refine ⟨left, extra, ?_⟩
  have hden : Denotes (afterShortName sfx) (sfx ++ (conn ++ n)) := by
    apply denotes_append _ _ _ _ (denotes_lits _)
    refine ⟨conn, n, rfl, ?_, n, [], by simp, numeral_chars n hn, rfl⟩
    have k1 : ∀ c ∈ [' '], c ∈ " of".toList := by decide
    have k2 : ∀ c ∈ " of ".toList, c ∈ " of".toList := by decide
    rcases hconn with hc | hc <;> subst hc
    · exact k1
    · exact k2
  have hfirst : ∀ K : St → Option St,
      K ⟨A.reverse ++ [], sfx ++ (conn ++ n), []⟩ = none →
      (Re.str A).m K ⟨[], A ++ sfx ++ (conn ++ n), []⟩ = none := by
    intro K hK
    rw [List.append_assoc, m_str_append]
    exact hK
  unfold matchAt
  rw [functionRe_eq, m_seq, m_wordB, if_pos (by unfold atWordB; rw [hW]; rfl), m_seq, m_group,
    m_alt, hfirst, orElse_none_left, m_str_append]
  · exact h
  · exact m_none_of_may functionTail some (.unk, afterShortName sfx) _ ⟨trivial, hden⟩ hmay

theorem alt_first (A B : List Char) (K : St → Option St) (rest : List Char)
    (h : (K ⟨A.reverse ++ [], rest, []⟩).isSome = true) :
    (Re.alt (Re.str A) (Re.str B)).m K ⟨[], A ++ rest, []⟩ = K ⟨A.reverse ++ [], rest, []⟩ := by
  rw [m_alt, m_str_append]
  exact orElse_of_isSome _ _ h

theorem call_ne_nil (name : String) (arg : List Char) : call name arg ≠ [] := by
  unfold call
  intro h
  have := congrArg List.length h
  simp at this

theorem parse_function_phrase (i : Nat) (name : Re) (fn template : String)
    (phrases : List (List Char)) (phrase n : List Char) (hn : Numeral n)
    (hph : phrase ∈ phrases)
    (hall : allPasses
      = allPasses.take i ++ ⟨functionRe name, template⟩ :: allPasses.drop (i + 1))
    (hhead : ∀ w ∈ phrases, w.head?.map isSpace = some false)
    (hfix : ∀ c ∈ segChars (phrasePattern phrases), c.toLower = c)
    (htests : (commandPatterns.any fun r => mayMatch r (phrasePattern phrases)) = false)
    (hpre : ((allPasses.take i).any fun q => mayMatch q.re (phrasePattern phrases)) = false)
    (hafter : mayMatchAfter (functionRe name) .unk [] = false)
    (hmatch : ∃ left extra, matchAt (functionRe name) [] (phrase ++ n)
      = some ⟨left, [], (2, n) :: extra⟩)
    (hexp : ∀ m extra, expandTemplate (functionRe name).groups m ((2, n) :: extra) .none
      template.toList = call fn n)
    (hpost : ((allPasses.drop (i + 1)).any fun q => mayMatch q.re (callPattern fn)) = false)
    (hval : ∀ c ∈ segChars (callPattern fn), c ∈ allowedChars) :
    parseVoiceToMath asciiToLowerCase (phrase ++ n) = some (call fn n) := by
  obtain ⟨left, extra, hm⟩ := hmatch
  have hne : phrase ≠ [] := (headNot_of_head _ _ (hhead phrase hph)).2
  have h1 : HeadNot isSpace (phrase ++ n) := by
    cases phrase with
    | nil => exact absurd rfl hne
    | cons c r =>
      have := (headNot_of_head _ _ (hhead _ hph)).1
      exact headNot_space_cons c _ (this c r rfl)
  exact parse_of_rewrite _ _ (phrasePattern phrases) (callPattern fn) _ _ _ hall hfix h1
    (headNot_space_reverse_numeral n phrase hn)
    ⟨phrase, n, hph, rfl, n, [], by simp, numeral_chars n hn, rfl⟩ htests hpre
    (replaceAll_whole (functionRe name) template _ _ _ _ (by simp [hne]) hm hafter
      (hexp _ _))
    (denotes_callPattern fn n (numeral_argChars n hn)) hpost (call_ne_nil fn n) hval

set_option maxRecDepth 100000 in
/-- C17: for every decimal numeral `n`, the phrases `sin of n` and `sine n` give
`sin(n)`, `cos of n` and `cosine n` give `cos(n)`, `tan of n` and `tangent n` give
`tan(n)`, and `log of n` gives `log(n)`. -/
theorem trig_and_log_phrases_give_calls (n : List Char) (hn : Numeral n) :
    parseVoiceToMath asciiToLowerCase ("sin of ".toList ++ n)
      = some ("sin(".toList ++ (n ++ [')']))
    ∧ parseVoiceToMath asciiToLowerCase ("sine ".toList ++ n)
      = some ("sin(".toList ++ (n ++ [')']))
    ∧ parseVoiceToMath asciiToLowerCase ("cos of ".toList ++ n)
      = some ("cos(".toList ++ (n ++ [')']))
    ∧ parseVoiceToMath asciiToLowerCase ("cosine ".toList ++ n)
      = some ("cos(".toList ++ (n ++ [')']))
    ∧ parseVoiceToMath asciiToLowerCase ("tan of ".toList ++ n)
      = some ("tan(".toList ++ (n ++ [')']))
    ∧ parseVoiceToMath asciiToLowerCase ("tangent ".toList ++ n)
      = some ("tan(".toList ++ (n ++ [')']))
    ∧ parseVoiceToMath asciiToLowerCase ("log of ".toList ++ n)
      = some ("log(".toList ++ (n ++ [')'])) := by
  have hval : ∀ fn ∈ ["sin", "cos", "tan", "log"],
      ∀ c ∈ segChars (callPattern fn), c ∈ allowedChars := by decide
  -- the sine
  have s0 : ∀ w ∈ ["sin of ".toList, "sine ".toList], w.head?.map isSpace = some false := by
    decide
  have s1 : ∀ c ∈ segChars (phrasePattern ["sin of ".toList, "sine ".toList]),
      c.toLower = c := by decide
  have s2 : (commandPatterns.any fun r =>
      mayMatch r (phrasePattern ["sin of ".toList, "sine ".toList])) = false := by decide!
  have s3 : ((allPasses.take 42).any fun q =>
      mayMatch q.re (phrasePattern ["sin of ".toList, "sine ".toList])) = false := by decide!
  have s4 : mayMatchAfter (functionRe (.alt (Re.lit "sin") (Re.lit "sine"))) .unk []
      = false := by decide!
  have s5 : ((allPasses.drop 43).any fun q => mayMatch q.re (callPattern "sin")) = false := by
    decide!
  have s6 : functionTail.may (fun _ => true) (.unk, afterShortName ['e']) = false := by
    decide!
  -- the cosine
  have c0 : ∀ w ∈ ["cos of ".toList, "cosine ".toList], w.head?.map isSpace = some false := by
    decide
  have c1 : ∀ c ∈ segChars (phrasePattern ["cos of ".toList, "cosine ".toList]),
      c.toLower = c := by decide
  have c2 : (commandPatterns.any fun r =>
      mayMatch r (phrasePattern ["cos of ".toList, "cosine ".toList])) = false := by decide!
  have c3 : ((allPasses.take 43).any fun q =>
      mayMatch q.re (phrasePattern ["cos of ".toList, "cosine ".toList])) = false := by decide!
  have c4 : mayMatchAfter (functionRe (.alt (Re.lit "cos") (Re.lit "cosine"))) .unk []
      = false := by decide!
  have c5 : ((allPasses.drop 44).any fun q => mayMatch q.re (callPattern "cos")) = false := by
    decide!
  have c6 : functionTail.may (fun _ => true) (.unk, afterShortName "ine".toList) = false := by
    decide!
  -- the tangent
  have t0 : ∀ w ∈ ["tan of ".toList, "tangent ".toList], w.head?.map isSpace = some false := by
    decide
  have t1 : ∀ c ∈ segChars (phrasePattern ["tan of ".toList, "tangent ".toList]),
      c.toLower = c := by decide
  have t2 : (commandPatterns.any fun r =>
      mayMatch r (phrasePattern ["tan of ".toList, "tangent ".toList])) = false := by decide!
  have t3 : ((allPasses.take 44).any fun q =>
      mayMatch q.re (phrasePattern ["tan of ".toList, "tangent ".toList])) = false := by decide!
  have t4 : mayMatchAfter (functionRe (.alt (Re.lit "tan") (Re.lit "tangent"))) .unk []
      = false := by decide!
  have t5 : ((allPasses.drop 45).any fun q => mayMatch q.re (callPattern "tan")) = false := by
    decide!
  have t6 : functionTail.may (fun _ => true) (.unk, afterShortName "gent".toList) = false := by
    decide!
  -- the logarithm
  have l0 : ∀ w ∈ ["log of ".toList], w.head?.map isSpace = some false := by decide
  have l1 : ∀ c ∈ segChars (phrasePattern ["log of ".toList]), c.toLower = c := by decide
  have l2 : (commandPatterns.any fun r => mayMatch r (phrasePattern ["log of ".toList]))
      = false := by decide!
  have l3 : ((allPasses.take 45).any fun q =>
      mayMatch q.re (phrasePattern ["log of ".toList])) = false := by decide!
  have l4 : mayMatchAfter (functionRe (Re.lit "log")) .unk [] = false := by decide!
  have l5 : ((allPasses.drop 46).any fun q => mayMatch q.re (callPattern "log")) = false := by
    decide!
  have hof : (" of ".toList = [' '] ∨ " of ".toList = " of ".toList) := Or.inr rfl
  have hsp : ([' '] = [' '] ∨ [' '] = " of ".toList) := Or.inl rfl
  refine ⟨?_, ?_, ?_, ?_, ?_, ?_, ?_⟩
  · exact parse_function_phrase 42 _ "sin" "sin($2)" _ "sin of ".toList n hn (by decide) rfl
      s0 s1 s2 s3 s4
      (function_matchAt_first (.alt (Re.lit "sin") (Re.lit "sine")) "sin".toList n hn
        " of ".toList hof rfl (fun K rest h => alt_first _ _ K rest h))
      (fun _ _ => rfl) s5 (hval "sin" (by decide))
  · exact parse_function_phrase 42 _ "sin" "sin($2)" _ "sine ".toList n hn (by decide) rfl
      s0 s1 s2 s3 s4
      (function_matchAt_second "sin".toList ['e'] n hn [' '] hsp rfl s6)
      (fun _ _ => rfl) s5 (hval "sin" (by decide))
  · exact parse_function_phrase 43 _ "cos" "cos($2)" _ "cos of ".toList n hn (by decide) rfl
      c0 c1 c2 c3 c4
      (function_matchAt_first (.alt (Re.lit "cos") (Re.lit "cosine")) "cos".toList n hn
        " of ".toList hof rfl (fun K rest h => alt_first _ _ K rest h))
      (fun _ _ => rfl) c5 (hval "cos" (by decide))
  · exact parse_function_phrase 43 _ "cos" "cos($2)" _ "cosine ".toList n hn (by decide) rfl
      c0 c1 c2 c3 c4
      (function_matchAt_second "cos".toList "ine".toList n hn [' '] hsp rfl c6)
      (fun _ _ => rfl) c5 (hval "cos" (by decide))
  · exact parse_function_phrase 44 _ "tan" "tan($2)" _ "tan of ".toList n hn (by decide) rfl
      t0 t1 t2 t3 t4
      (function_matchAt_first (.alt (Re.lit "tan") (Re.lit "tangent")) "tan".toList n hn
        " of ".toList hof rfl (fun K rest h => alt_first _ _ K rest h))
      (fun _ _ => rfl) t5 (hval "tan" (by decide))
  · exact parse_function_phrase 44 _ "tan" "tan($2)" _ "tangent ".toList n hn (by decide) rfl
      t0 t1 t2 t3 t4
      (function_matchAt_second "tan".toList "gent".toList n hn [' '] hsp rfl t6)
      (fun _ _ => rfl) t5 (hval "tan" (by decide))
  · exact parse_function_phrase 45 _ "log" "log($2)" _ "log of ".toList n hn (by decide) rfl
      l0 l1 l2 l3 l4
      (function_matchAt_first (Re.lit "log") "log".toList n hn " of ".toList hof rfl
        (fun K rest _ => m_str_append _ K [] rest []))
      (fun _ _ => rfl) l5 (hval "log" (by decide))

set_option maxRecDepth 100000 in
/-- Witness for C17: the numeral `0.5`. -/
theorem trig_and_log_phrases_give_calls_witness :
    parseVoiceToMath asciiToLowerCase "cosine 0.5".toList = some "cos(0.5)".toList :=
  (trig_and_log_phrases_give_calls "0.5".toList
    ⟨['0'], ⟨by decide, by decide⟩, Or.inr ⟨['5'], ⟨by decide, by decide⟩, rfl⟩⟩).2.2.2.1

/-! ### Squares and powers -/

theorem numRe_run_keys (i j : Nat) (k : St → Option St) (caps : List (Nat × List Char))
    (n rest left : List Char) (hn : Numeral n) (hrest : HeadNot isDigit rest)
    (hdot : HeadNot (fun c => c == '.') rest)
    (hk : ∀ extra, (k ⟨n.reverse ++ left, rest, (i, n) :: (extra ++ caps)⟩).isSome = true) :
    ∃ extra, (∀ p ∈ extra, p.1 = j) ∧ (numRe i j).m k ⟨left, n ++ rest, caps⟩
      = k ⟨n.reverse ++ left, rest, (i, n) :: (extra ++ caps)⟩ := by
  obtain ⟨ds, hds, hcase⟩ := hn
  unfold numRe
  rw [m_group, m_seq]
  rcases hcase with h | ⟨fs, hfs, h⟩
  · -- no fractional part
    subst h
    refine ⟨[], by simp, ?_⟩
    have hnone : ∀ k' : St → Option St, (Re.group j (.seq (.chr '.') digitsRe)).m k'
        ⟨n.reverse ++ left, rest, caps⟩ = none := by
      intro k'
      rw [m_group, m_seq, m_chr]
      cases rest with
      | nil => rfl
      | cons c r =>
        rw [readIf_cons, if_neg]
        simpa using hdot c r rfl
    have hopt : ∀ k' : St → Option St, (Re.opt (Re.group j (.seq (.chr '.') digitsRe))).m k'
        ⟨n.reverse ++ left, rest, caps⟩ = k' ⟨n.reverse ++ left, rest, caps⟩ := by
      intro k'
      rw [m_opt, hnone, orElse_none_left]
    rw [digitsRe_run _ caps n rest left hds hrest]
    · rw [hopt]
      simp only [take_length_sub, List.nil_append]
    · rw [hopt]
      simp only [take_length_sub]
      exact hk []
  · -- a fractional part
    subst h
    refine ⟨[(j, '.' :: fs)], by simp, ?_⟩
    have hrest1 : HeadNot isDigit ('.' :: fs ++ rest) := by
      intro c r hc
      have : c = '.' := ((List.cons.inj hc).1).symm
      subst this
      exact isDigit_dot
    have happ : ds ++ '.' :: fs ++ rest = ds ++ ('.' :: fs ++ rest) := by simp
    have h1 : ('.' :: (fs ++ rest)).take (('.' :: (fs ++ rest)).length - rest.length)
        = '.' :: fs := by
      have := take_length_sub ('.' :: fs) rest
      simpa using this
    have h2 : (ds ++ ('.' :: fs ++ rest)).take
        ((ds ++ ('.' :: fs ++ rest)).length - rest.length) = ds ++ '.' :: fs := by
      have := take_length_sub (ds ++ '.' :: fs) rest
      simpa using this
    have hlt : rest.length < ('.' :: fs ++ rest).length := by
      simp only [List.cons_append, List.length_cons, List.length_append]; omega
    have hfinal := hk [(j, '.' :: fs)]
    have hrev : fs.reverse ++ ('.' :: (ds.reverse ++ left))
        = (ds ++ '.' :: fs).reverse ++ left := by simp
    have hopt : ∀ k' : St → Option St,
        (k' ⟨fs.reverse ++ ('.' :: (ds.reverse ++ left)), rest,
          (j, '.' :: fs) :: caps⟩).isSome = true →
        (Re.opt (Re.group j (.seq (.chr '.') digitsRe))).m k'
          ⟨ds.reverse ++ left, '.' :: fs ++ rest, caps⟩
        = k' ⟨fs.reverse ++ ('.' :: (ds.reverse ++ left)), rest, (j, '.' :: fs) :: caps⟩ := by
      intro k' hk'
      rw [m_opt, m_group, m_seq, m_chr]
      simp only [List.cons_append, readIf_cons, beq_self_eq_true, if_true]
      have hlt' : rest.length < ('.' :: (fs ++ rest)).length := by simpa using hlt
      rw [digitsRe_run _ caps fs rest ('.' :: (ds.reverse ++ left)) hfs hrest]
      · simp only [hlt', if_true, h1]
        exact orElse_of_isSome _ _ hk'
      · simp only [hlt', if_true, h1]
        exact hk'
    rw [happ, digitsRe_run _ caps ds ('.' :: fs ++ rest) left hds hrest1]
    · rw [hopt]
      · simp only [h2, hrev]
        rfl
      · simp only [h2, hrev]
        exact hfinal
    · rw [hopt]
      · simp only [h2, hrev]
        exact hfinal
      · simp only [h2, hrev]
        exact hfinal

theorem capOf_skip (extra rest : List (Nat × List Char)) (i : Nat)
    (h : ∀ p ∈ extra, p.1 ≠ i) : capOf (extra ++ rest) i = capOf rest i := by
  induction extra with
  | nil => rfl
  | cons p ps ih =>
    have hp : (p.1 == i) = false := by simpa using h p (List.mem_cons_self _ _)
    have := ih (fun q hq => h q (List.mem_cons_of_mem _ hq))
    unfold capOf at this ⊢
    simp only [List.cons_append, List.find?_cons, hp]
    exact this

theorem numeral_end_keys (n : List Char) (hn : Numeral n) (l : List Char)
    (caps : List (Nat × List Char)) (i j : Nat) :
    ∃ extra, (∀ p ∈ extra, p.1 = j) ∧ (Re.seq (numRe i j) .wordB).m some ⟨l, n, caps⟩
      = some ⟨n.reverse ++ l, [], (i, n) :: (extra ++ caps)⟩ := by
  have hword : ∀ (caps : List (Nat × List Char)),
      Re.wordB.m some ⟨n.reverse ++ l, [], caps⟩ = some ⟨n.reverse ++ l, [], caps⟩ := by
    intro caps
    rw [m_wordB]
    have : atWordB (n.reverse ++ l) [] = true := by
      unfold atWordB
      rw [headIsWord_reverse_numeral n l hn]
      rfl
    simp only [this, if_true]
  obtain ⟨extra, hkeys, h⟩ := numRe_run_keys i j (Re.wordB.m some) caps n [] l hn
    (headNot_nil _) (headNot_nil _) (fun extra => by rw [hword]; rfl)
  rw [List.append_nil] at h
  exact ⟨extra, hkeys, by rw [m_seq, h, hword]⟩

theorem of_tail_run (i j : Nat) (n : List Char) (hn : Numeral n) (conn : List Char)
    (hconn : conn = [' '] ∨ conn = " of ".toList) (l : List Char)
    (caps : List (Nat × List Char)) :
    ∃ left extra, (∀ p ∈ extra, p.1 = j)
      ∧ (Re.seq (.star .space) (.seq (.opt (.seq (Re.str "of".toList) (.star .space)))
          (.seq (numRe i j) .wordB))).m some ⟨l, conn ++ n, caps⟩
        = some ⟨left, [], (i, n) :: (extra ++ caps)⟩ := by
  have hsp : ∀ c ∈ [' '], isSpace c = true := by decide
  rcases hconn with h | h
  · subst h
    obtain ⟨extra, hkeys, hnum⟩ := numeral_end_keys n hn ([' '].reverse ++ l) caps i j
    have hof : "of".toList.isPrefixOf n = false := by
      obtain ⟨c, r, hc, hd⟩ := numeral_head n hn
      subst hc
      have : c ≠ 'o' := by
        intro h
        subst h
        revert hd
        decide
      simp [List.isPrefixOf, this]
      intro h
      exact absurd h.symm this
    have h2 : (Re.seq (.opt (.seq (Re.str "of".toList) (.star .space)))
        (.seq (numRe i j) .wordB)).m some ⟨[' '].reverse ++ l, n, caps⟩
        = some ⟨n.reverse ++ ([' '].reverse ++ l), [], (i, n) :: (extra ++ caps)⟩ := by
      rw [m_seq, opt_skip _ _ _ _ _ _ hof, hnum]
    refine ⟨n.reverse ++ ([' '].reverse ++ l), extra, hkeys, ?_⟩
    rw [m_seq, star_run .space isSpace rfl _ caps [' '] n l hsp
      (numeral_headNot_space n hn) (by rw [h2]; rfl), h2]
  · subst h
    obtain ⟨extra, hkeys, hnum⟩ := numeral_end_keys n hn
      ([' '].reverse ++ ("of".toList.reverse ++ ([' '].reverse ++ l))) caps i j
    have h2 : (Re.seq (.opt (.seq (Re.str "of".toList) (.star .space)))
        (.seq (numRe i j) .wordB)).m some ⟨[' '].reverse ++ l, "of".toList ++ ([' '] ++ n), caps⟩
        = some ⟨n.reverse ++ ([' '].reverse ++ ("of".toList.reverse ++ ([' '].reverse ++ l))),
            [], (i, n) :: (extra ++ caps)⟩ := by
      rw [m_seq, opt_str_spaces_run "of".toList [' '] n ([' '].reverse ++ l) caps _
        (by decide) hsp (numeral_headNot_space n hn) (by rw [hnum]; rfl), hnum]
    refine ⟨n.reverse ++ ([' '].reverse ++ ("of".toList.reverse ++ ([' '].reverse ++ l))),
      extra, hkeys, ?_⟩
    have e : " of ".toList ++ n = [' '] ++ ("of".toList ++ ([' '] ++ n)) := rfl
    have ho : HeadNot isSpace ("of".toList ++ ([' '] ++ n)) := by
      intro c r h
      have h' : 'o' :: ("f".toList ++ ([' '] ++ n)) = c :: r := h
      rw [← (List.cons.inj h').1]
      decide
    rw [e, m_seq, star_run .space isSpace rfl _ caps [' ']
      ("of".toList ++ ([' '] ++ n)) l hsp ho (by rw [h2]; rfl), h2]

theorem opt_run (a : Re) (k : St → Option St) (s t : St)
    (hlt : t.right.length < s.right.length)
    (ha : ∀ k' : St → Option St, (k' t).isSome = true → a.m k' s = k' t)
    (hk : (k t).isSome = true) : (Re.opt a).m k s = k t := by
  have hcont : (if t.right.length < s.right.length then k t else none) = k t := if_pos hlt
  rw [m_opt, ha _ (by simp only [hcont]; exact hk)]
  simp only [hcont]
  exact orElse_of_isSome _ _ hk

theorem powerPart_run (m : List Char) (hm : Numeral m) (c2 : List Char)
    (hc2 : c2 = [' '] ∨ c2 = " of ".toList) (l : List Char) (caps : List (Nat × List Char)) :
    ∃ left extra, (∀ p ∈ extra, p.1 = 4)
      ∧ powerPart.m some ⟨l, "power".toList ++ (c2 ++ m), caps⟩
        = some ⟨left, [], (3, m) :: (extra ++ caps)⟩ := by
  obtain ⟨left, extra, hkeys, h⟩ := of_tail_run 3 4 m hm c2 hc2 ("power".toList.reverse ++ l)
    caps
  refine ⟨left, extra, hkeys, ?_⟩
  show (Re.seq (Re.str "power".toList) (ofNumberTail 3 4)).m some _ = _
  rw [m_seq, m_str_append]
  exact h

theorem toThe_power_run (m : List Char) (hm : Numeral m) (c1 c2 : List Char)
    (hc1 : c1 = [] ∨ c1 = "to the ".toList) (hc2 : c2 = [' '] ∨ c2 = " of ".toList)
    (l : List Char) (caps : List (Nat × List Char)) :
    ∃ left extra, (∀ p ∈ extra, p.1 = 4)
      ∧ (Re.seq (.opt toThePart) powerPart).m some
          ⟨l, c1 ++ ("power".toList ++ (c2 ++ m)), caps⟩
        = some ⟨left, [], (3, m) :: (extra ++ caps)⟩ := by
  have hsp : ∀ c ∈ [' '], isSpace c = true := by decide
  rcases hc1 with h | h
  · subst h
    obtain ⟨left, extra, hkeys, hp⟩ := powerPart_run m hm c2 hc2 l caps
    refine ⟨left, extra, hkeys, ?_⟩
    have hno : "to".toList.isPrefixOf ("power".toList ++ (c2 ++ m)) = false := rfl
    show (Re.seq (.opt (.seq (Re.str "to".toList) _)) powerPart).m some
      ⟨l, "power".toList ++ (c2 ++ m), caps⟩ = _
    rw [m_seq, opt_skip _ _ _ _ _ _ hno]
    exact hp
  · subst h
    obtain ⟨left, extra, hkeys, hp⟩ := powerPart_run m hm c2 hc2
      ([' '].reverse ++ ("the".toList.reverse ++ ([' '].reverse ++ ("to".toList.reverse ++ l))))
      caps
    refine ⟨left, extra, hkeys, ?_⟩
    have hR : HeadNot isSpace ("power".toList ++ (c2 ++ m)) := by
      intro c r h
      have h' : 'p' :: ("ower".toList ++ (c2 ++ m)) = c :: r := h
      rw [← (List.cons.inj h').1]
      decide
    have hT : HeadNot isSpace ("the".toList ++ ([' '] ++ ("power".toList ++ (c2 ++ m)))) := by
      intro c r h
      have h' : 't' :: ("he".toList ++ ([' '] ++ ("power".toList ++ (c2 ++ m)))) = c :: r := h
      rw [← (List.cons.inj h').1]
      decide
    have e : "to the ".toList ++ ("power".toList ++ (c2 ++ m))
        = "to".toList ++ ([' '] ++ ("the".toList ++ ([' '] ++ ("power".toList ++ (c2 ++ m))))) :=
      rfl
    have hthe : ∀ k' : St → Option St,
        (k' ⟨[' '].reverse ++ ("the".toList.reverse ++ ([' '].reverse
          ++ ("to".toList.reverse ++ l))), "power".toList ++ (c2 ++ m), caps⟩).isSome = true →
        (Re.seq (Re.str "the".toList) (.star .space)).m k'
          ⟨[' '].reverse ++ ("to".toList.reverse ++ l),
            "the".toList ++ ([' '] ++ ("power".toList ++ (c2 ++ m))), caps⟩
        = k' ⟨[' '].reverse ++ ("the".toList.reverse ++ ([' '].reverse
          ++ ("to".toList.reverse ++ l))), "power".toList ++ (c2 ++ m), caps⟩ := by
      intro k' hk'
      rw [m_seq, m_str_append, star_run .space isSpace rfl k' caps [' '] _ _ hsp hR hk']
    have hto : ∀ k' : St → Option St,
        (k' ⟨[' '].reverse ++ ("the".toList.reverse ++ ([' '].reverse
          ++ ("to".toList.reverse ++ l))), "power".toList ++ (c2 ++ m), caps⟩).isSome = true →
        toThePart.m k' ⟨l, "to".toList ++ ([' '] ++ ("the".toList ++ ([' ']
          ++ ("power".toList ++ (c2 ++ m))))), caps⟩
        = k' ⟨[' '].reverse ++ ("the".toList.reverse ++ ([' '].reverse
          ++ ("to".toList.reverse ++ l))), "power".toList ++ (c2 ++ m), caps⟩ := by
      intro k' hk'
      show (Re.seq (Re.str "to".toList) (.seq (.star .space)
        (.seq (Re.str "the".toList) (.star .space)))).m k' _ = _
      rw [str_spaces_run "to".toList [' '] _ l caps _ k' hsp hT (by rw [hthe k' hk']; exact hk'),
        hthe k' hk']
    rw [e, m_seq, opt_run toThePart _ _
      ⟨[' '].reverse ++ ("the".toList.reverse ++ ([' '].reverse ++ ("to".toList.reverse ++ l))),
        "power".toList ++ (c2 ++ m), caps⟩
      (by simp only [List.length_append, List.length_cons, List.length_nil,
            String.toList]; simp; omega)
      hto (by rw [hp]; rfl)]
    exact hp

theorem powerRe_eq : powerRe
    = .seq (numRe 1 2) (.seq (.star .space) (.seq (.opt toThePart) powerPart)) := rfl

theorem power_matchAt (n m : List Char) (hn : Numeral n) (hm : Numeral m) (c1 c2 : List Char)
    (hc1 : c1 = [] ∨ c1 = "to the ".toList) (hc2 : c2 = [' '] ∨ c2 = " of ".toList) :
    ∃ left caps, matchAt powerRe []
        (n ++ ([' '] ++ (c1 ++ ("power".toList ++ (c2 ++ m)))))
      = some ⟨left, [], caps⟩ ∧ capOf caps 1 = n ∧ capOf caps 3 = m := by
  have hsp : ∀ c ∈ [' '], isSpace c = true := by decide
  have hX : HeadNot isSpace (c1 ++ ("power".toList ++ (c2 ++ m))) := by
    rcases hc1 with h | h <;> subst h
    · intro c r h
      have h' : 'p' :: ("ower".toList ++ (c2 ++ m)) = c :: r := h
      rw [← (List.cons.inj h').1]
      decide
    · intro c r h
      have h' : 't' :: ("o the ".toList ++ ("power".toList ++ (c2 ++ m))) = c :: r := h
      rw [← (List.cons.inj h').1]
      decide
  have hS1 : ∀ (l : List Char) (caps : List (Nat × List Char)),
      ∃ left extra, (∀ p ∈ extra, p.1 = 4)
        ∧ (Re.seq (.star .space) (.seq (.opt toThePart) powerPart)).m some
            ⟨l, [' '] ++ (c1 ++ ("power".toList ++ (c2 ++ m))), caps⟩
          = some ⟨left, [], (3, m) :: (extra ++ caps)⟩ := by
    intro l caps
    obtain ⟨left, extra, hkeys, h⟩ := toThe_power_run m hm c1 c2 hc1 hc2 ([' '].reverse ++ l)
      caps
    refine ⟨left, extra, hkeys, ?_⟩
    rw [m_seq, star_run .space isSpace rfl _ caps [' '] _ l hsp hX (by rw [h]; rfl), h]
  obtain ⟨extra0, _, h0⟩ := numRe_run_keys 1 2
    ((Re.seq (.star .space) (.seq (.opt toThePart) powerPart)).m some) [] n
    ([' '] ++ (c1 ++ ("power".toList ++ (c2 ++ m)))) [] hn
    (headNot_digit_cons ' ' _ (by decide)) (headNot_dot_cons ' ' _ (by decide))
    (fun extra => by
      obtain ⟨left, extra', _, h⟩ := hS1 (n.reverse ++ []) ((1, n) :: (extra ++ []))
      rw [h]; rfl)
  obtain ⟨left, extra, hkeys, h⟩ := hS1 (n.reverse ++ []) ((1, n) :: (extra0 ++ []))
  refine ⟨left, (3, m) :: (extra ++ ((1, n) :: (extra0 ++ []))), ?_, ?_, ?_⟩
  · unfold matchAt
    rw [powerRe_eq, m_seq, h0, h]
  · have h3 : capOf ((3, m) :: (extra ++ ((1, n) :: (extra0 ++ [])))) 1
        = capOf (extra ++ ((1, n) :: (extra0 ++ []))) 1 := by
      unfold capOf
      rfl
    rw [h3, capOf_skip extra _ 1 (fun p hp => by rw [hkeys p hp]; decide)]
    unfold capOf
    rfl
  · unfold capOf
    rfl

theorem squared_matchAt (n : List Char) (hn : Numeral n) :
    ∃ left extra, matchAt squaredRe [] (n ++ ([' '] ++ "squared".toList))
      = some ⟨left, [], (1, n) :: extra⟩ := by
  have hre : squaredRe = .seq (numRe 1 2) (.seq (.star .space)
      (.seq (Re.str "squared".toList) .wordB)) := rfl
  have hsp : ∀ c ∈ [' '], isSpace c = true := by decide
  have hend : ∀ (l : List Char) (caps : List (Nat × List Char)),
      (Re.seq (.star .space) (.seq (Re.str "squared".toList) .wordB)).m some
          ⟨l, [' '] ++ "squared".toList, caps⟩
        = some ⟨"squared".toList.reverse ++ ([' '].reverse ++ l), [], caps⟩ := by
    intro l caps
    have hw : (Re.seq (Re.str "squared".toList) .wordB).m some
        ⟨[' '].reverse ++ l, "squared".toList, caps⟩
        = some ⟨"squared".toList.reverse ++ ([' '].reverse ++ l), [], caps⟩ := by
      rw [m_seq, m_str_end, m_wordB, if_pos (by rfl)]
    rw [m_seq, star_run .space isSpace rfl _ caps [' '] "squared".toList l hsp
      (by intro c r h
          have h' : 's' :: "quared".toList = c :: r := h
          rw [← (List.cons.inj h').1]
          decide)
      (by rw [hw]; rfl), hw]
  obtain ⟨extra, h⟩ := numRe_run 1 2
    ((Re.seq (.star .space) (.seq (Re.str "squared".toList) .wordB)).m some) [] n
    ([' '] ++ "squared".toList) [] hn
    (headNot_digit_cons ' ' _ (by decide)) (headNot_dot_cons ' ' _ (by decide))
    (fun extra => by rw [hend]; rfl)
  refine ⟨"squared".toList.reverse ++ ([' '].reverse ++ (n.reverse ++ [])), extra ++ [], ?_⟩
  unfold matchAt
  rw [hre, m_seq, h, hend]

/-- What passes do to a text that one of them rewrites as a whole and the others leave
alone. -/
theorem run_of_rewrite (pre post : List Pass) (p : Pass) (s out : List Char)
    (segsIn segsOut : List Seg) (hden : Denotes segsIn s)
    (hpre : (pre.any fun q => mayMatch q.re segsIn) = false)
    (hrep : replaceAll p.re p.template s = out) (hdout : Denotes segsOut out)
    (hpost : (post.any fun q => mayMatch q.re segsOut) = false) :
    runPasses (pre ++ p :: post) s = out := by
  rw [runPasses_append, runPasses_of_mayMatch segsIn s hden _ hpre]
  show runPasses post (replaceAll p.re p.template s) = out
  rw [hrep]
  exact runPasses_of_mayMatch segsOut out hdout _ hpost

/-- An utterance that no command pattern matches and that the passes turn into a text of
allowed characters. -/
theorem parse_of_run (s out : List Char) (segsIn segsOut : List Seg)
    (hfix : ∀ c ∈ segChars segsIn, c.toLower = c)
    (h1 : HeadNot isSpace s) (h2 : HeadNot isSpace s.reverse) (hden : Denotes segsIn s)
    (htests : (commandPatterns.any fun r => mayMatch r segsIn) = false)
    (hrun : runPasses allPasses s = out) (hdout : Denotes segsOut out)
    (hne : out ≠ []) (hval : ∀ c ∈ segChars segsOut, c ∈ allowedChars) :
    parseVoiceToMath asciiToLowerCase s = some out := by
  have hlow : asciiToLowerCase s = s :=
    asciiToLowerCase_of_fixed s (fun c hc => hfix c (denotes_chars segsIn s hden c hc))
  have htrim : trim (asciiToLowerCase s) = s := by
    rw [hlow]
    exact trim_of_ends s h1 h2
  simp only [commandPatterns, List.any_cons, List.any_nil, Bool.or_false,
    Bool.or_eq_false_iff] at htests
  obtain ⟨t1, t2, t3, t4⟩ := htests
  rw [parseVoiceToMath_of_tests_false asciiToLowerCase _
    (by rw [htrim]; exact test_of_mayMatch _ _ _ hden t1)
    (by rw [htrim]; exact test_of_mayMatch _ _ _ hden t2)
    (by rw [htrim]; exact test_of_mayMatch _ _ _ hden t3)
    (by rw [htrim]; exact test_of_mayMatch _ _ _ hden t4),
    htrim, hrun, validate_eq, if_pos]
  exact ⟨hne, fun c hc => hval c (denotes_chars segsOut out hdout c hc)⟩

theorem powerConnective_split (c : List Char) (hc : c ∈ powerConnectives) :
    ∃ c1 c2, (c1 = [] ∨ c1 = "to the ".toList) ∧ (c2 = [' '] ∨ c2 = " of ".toList)
      ∧ ∀ m : List Char, c ++ m = [' '] ++ (c1 ++ ("power".toList ++ (c2 ++ m))) := by
  simp only [powerConnectives, List.mem_cons, List.mem_singleton, List.not_mem_nil,
    or_false] at hc
  rcases hc with h | h | h | h <;> subst h
  · exact ⟨[], [' '], Or.inl rfl, Or.inl rfl, fun _ => rfl⟩
  · exact ⟨[], " of ".toList, Or.inl rfl, Or.inr rfl, fun _ => rfl⟩
  · exact ⟨"to the ".toList, [' '], Or.inr rfl, Or.inl rfl, fun _ => rfl⟩
  · exact ⟨"to the ".toList, " of ".toList, Or.inr rfl, Or.inr rfl, fun _ => rfl⟩

set_option maxRecDepth 100000 in
theorem tail_power (n m : List Char) (hn : Numeral n) (hm : Numeral m) (c : List Char)
    (hc : c ∈ powerConnectives) :
    runPasses (allPasses.drop 34) (n ++ (c ++ m)) = n ++ '^' :: m := by
  have hsplit : allPasses.drop 34
      = (allPasses.drop 34).take 17 ++ ⟨powerRe, "$1^$3"⟩ :: allPasses.drop 52 := rfl
  have hpre : (((allPasses.drop 34).take 17).any fun q => mayMatch q.re powerPhrase)
      = false := by decide!
  have hafter : mayMatchAfter powerRe .unk [] = false := by decide!
  have hpost : ((allPasses.drop 52).any fun q => mayMatch q.re powerText) = false := by
    decide!
  have hexp : ∀ (s : List Char) (caps : List (Nat × List Char)),
      expandTemplate powerRe.groups s caps .none "$1^$3".toList
        = capOf caps 1 ++ '^' :: capOf caps 3 := fun _ _ => rfl
  obtain ⟨c1, c2, hc1, hc2, htext⟩ := powerConnective_split c hc
  obtain ⟨left, caps, hmatch, hcap1, hcap3⟩ := power_matchAt n m hn hm c1 c2 hc1 hc2
  rw [← htext] at hmatch
  have hne : n ++ (c ++ m) ≠ [] := by
    have := numeral_ne_nil n hn
    simp [this]
  rw [hsplit]
  exact run_of_rewrite _ _ ⟨powerRe, "$1^$3"⟩ _ _ powerPhrase powerText
    ⟨n, c ++ m, rfl, numeral_chars n hn, c, m, hc, rfl, m, [], by simp, numeral_chars m hm, rfl⟩
    hpre
    (replaceAll_whole powerRe "$1^$3" _ _ _ caps hne hmatch hafter
      (by rw [hexp, hcap1, hcap3]))
    ⟨n, '^' :: m, rfl, numeral_chars n hn, m, rfl, m, [], by simp, numeral_chars m hm, rfl⟩
    hpost

set_option maxRecDepth 100000 in
theorem tail_squared (n : List Char) (hn : Numeral n) :
    runPasses (allPasses.drop 34) (n ++ " squared".toList) = n ++ "^2".toList := by
  have hsplit : allPasses.drop 34
      = (allPasses.drop 34).take 16 ++ ⟨squaredRe, "$1^2"⟩ :: allPasses.drop 51 := rfl
  have hpre : (((allPasses.drop 34).take 16).any fun q => mayMatch q.re squaredPhrase)
      = false := by decide!
  have hafter : mayMatchAfter squaredRe .unk [] = false := by decide!
  have hpost : ((allPasses.drop 51).any fun q =>
      mayMatch q.re [.many numeralChars, .lit '^', .lit '2']) = false := by decide!
  obtain ⟨left, extra, hmatch⟩ := squared_matchAt n hn
  have hne : n ++ " squared".toList ≠ [] := by simp
  rw [hsplit]
  exact run_of_rewrite _ _ ⟨squaredRe, "$1^2"⟩ _ _ squaredPhrase
    [.many numeralChars, .lit '^', .lit '2']
    ⟨n, " squared".toList, rfl, numeral_chars n hn, denotes_lits _⟩ hpre
    (replaceAll_whole squaredRe "$1^2" _ _ _ _ hne hmatch hafter rfl)
    ⟨n, "^2".toList, rfl, numeral_chars n hn, ['2'], rfl, [], rfl, rfl⟩ hpost

theorem numberStage_split (a b : List Char) :
    runPasses numberWordPasses (a ++ ' ' :: b)
      = runPasses numberWordPasses a ++ ' ' :: runPasses numberWordPasses b :=
  runPasses_word_split ' ' (by decide) _ numberWordPasses_word a b

set_option maxRecDepth 100000 in
theorem numberStage_connective (c : List Char) (hc : c ∈ powerConnectives)
    (w1 w2 d1 d2 : List Char) (h1 : runPasses numberWordPasses w1 = d1)
    (h2 : runPasses numberWordPasses w2 = d2) :
    runPasses numberWordPasses (w1 ++ (c ++ w2)) = d1 ++ (c ++ d2) := by
  have kto : runPasses numberWordPasses "to".toList = "to".toList := by decide!
  have kthe : runPasses numberWordPasses "the".toList = "the".toList := by decide!
  have kpower : runPasses numberWordPasses "power".toList = "power".toList := by decide!
  have kof : runPasses numberWordPasses "of".toList = "of".toList := by decide!
  simp only [powerConnectives, List.mem_cons, List.mem_singleton, List.not_mem_nil,
    or_false] at hc
  rcases hc with h | h | h | h <;> subst h
  · show runPasses numberWordPasses (w1 ++ ' ' :: ("power".toList ++ ' ' :: w2))
      = d1 ++ ' ' :: ("power".toList ++ ' ' :: d2)
    rw [numberStage_split, numberStage_split, h1, h2, kpower]
  · show runPasses numberWordPasses
        (w1 ++ ' ' :: ("power".toList ++ ' ' :: ("of".toList ++ ' ' :: w2)))
      = d1 ++ ' ' :: ("power".toList ++ ' ' :: ("of".toList ++ ' ' :: d2))
    rw [numberStage_split, numberStage_split, numberStage_split, h1, h2, kpower, kof]
  · show runPasses numberWordPasses
        (w1 ++ ' ' :: ("to".toList ++ ' ' :: ("the".toList ++ ' ' :: ("power".toList
          ++ ' ' :: w2))))
      = d1 ++ ' ' :: ("to".toList ++ ' ' :: ("the".toList ++ ' ' :: ("power".toList
          ++ ' ' :: d2)))
    rw [numberStage_split, numberStage_split, numberStage_split, numberStage_split, h1, h2,
      kto, kthe, kpower]
  · show runPasses numberWordPasses
        (w1 ++ ' ' :: ("to".toList ++ ' ' :: ("the".toList ++ ' ' :: ("power".toList
          ++ ' ' :: ("of".toList ++ ' ' :: w2)))))
      = d1 ++ ' ' :: ("to".toList ++ ' ' :: ("the".toList ++ ' ' :: ("power".toList
          ++ ' ' :: ("of".toList ++ ' ' :: d2))))
    rw [numberStage_split, numberStage_split, numberStage_split, numberStage_split,
      numberStage_split, h1, h2, kto, kthe, kpower, kof]

theorem headNot_space_reverse_numeral_append (a n : List Char) (hn : Numeral n) :
    HeadNot isSpace (a ++ n).reverse := headNot_space_reverse_numeral n a hn

set_option maxRecDepth 100000 in
theorem parse_power_numeral (n m : List Char) (hn : Numeral n) (hm : Numeral m)
    (c : List Char) (hc : c ∈ powerConnectives) :
    parseVoiceToMath asciiToLowerCase (n ++ (c ++ m)) = some (n ++ '^' :: m) := by
  have hfix : ∀ c ∈ segChars powerPhrase, c.toLower = c := by decide
  have htests : (commandPatterns.any fun r => mayMatch r powerPhrase) = false := by decide!
  have h34 : ((allPasses.take 34).any fun q => mayMatch q.re powerPhrase) = false := by
    decide!
  have hval : ∀ c ∈ segChars powerText, c ∈ allowedChars := by decide
  have hden : Denotes powerPhrase (n ++ (c ++ m)) :=
    ⟨n, c ++ m, rfl, numeral_chars n hn, c, m, hc, rfl, m, [], by simp, numeral_chars m hm,
      rfl⟩
  have hall : allPasses = allPasses.take 34 ++ allPasses.drop 34 := rfl
  have hrun : runPasses allPasses (n ++ (c ++ m)) = n ++ '^' :: m := by
    rw [hall, runPasses_append, runPasses_of_mayMatch powerPhrase _ hden _ h34,
      tail_power n m hn hm c hc]
  have h2 : HeadNot isSpace (n ++ (c ++ m)).reverse := by
    rw [← List.append_assoc]
    exact headNot_space_reverse_numeral m (n ++ c) hm
  exact parse_of_run _ _ powerPhrase powerText hfix (headNot_numeral_space n _ hn) h2 hden
    htests hrun
    ⟨n, '^' :: m, rfl, numeral_chars n hn, m, rfl, m, [], by simp, numeral_chars m hm, rfl⟩
    (by simp) hval

set_option maxRecDepth 100000 in
theorem parse_squared_numeral (n : List Char) (hn : Numeral n) :
    parseVoiceToMath asciiToLowerCase (n ++ " squared".toList) = some (n ++ "^2".toList) := by
  have hfix : ∀ c ∈ segChars squaredPhrase, c.toLower = c := by decide
  have htests : (commandPatterns.any fun r => mayMatch r squaredPhrase) = false := by decide!
  have h34 : ((allPasses.take 34).any fun q => mayMatch q.re squaredPhrase) = false := by
    decide!
  have hval : ∀ c ∈ segChars [Seg.many numeralChars, .lit '^', .lit '2'],
      c ∈ allowedChars := by decide
  have hden : Denotes squaredPhrase (n ++ " squared".toList) :=
    ⟨n, " squared".toList, rfl, numeral_chars n hn, denotes_lits _⟩
  have hall : allPasses = allPasses.take 34 ++ allPasses.drop 34 := rfl
  have hrun : runPasses allPasses (n ++ " squared".toList) = n ++ "^2".toList := by
    rw [hall, runPasses_append, runPasses_of_mayMatch squaredPhrase _ hden _ h34,
      tail_squared n hn]
  exact parse_of_run _ _ squaredPhrase [.many numeralChars, .lit '^', .lit '2'] hfix
    (headNot_numeral_space n _ hn)
    (headNot_space_reverse_append n " squared".toList (by
      intro c r h
      have h' : 'd' :: "erauqs ".toList = c :: r := h
      rw [← (List.cons.inj h').1]
      decide) (by decide))
    hden htests hrun
    ⟨n, "^2".toList, rfl, numeral_chars n hn, ['2'], rfl, [], rfl, rfl⟩ (by simp) hval

theorem headNot_space_word (wd : String × String) (hwd : wd ∈ numberWords)
    (rest : List Char) : HeadNot isSpace (wd.1.toList ++ rest) := by
  obtain ⟨⟨hne, hchars⟩, _, _⟩ := numberWords_facts wd hwd
  cases hw : wd.1.toList with
  | nil => exact absurd hw hne
  | cons a t =>
    exact headNot_space_cons a _ (hchars a (by rw [hw]; exact List.mem_cons_self _ _)).1

set_option maxRecDepth 100000 in
theorem parse_power_word (wd1 wd2 : String × String) (h1 : wd1 ∈ numberWords)
    (h2 : wd2 ∈ numberWords) (c : List Char) (hc : c ∈ powerConnectives) :
    parseVoiceToMath asciiToLowerCase (wd1.1.toList ++ (c ++ wd2.1.toList))
      = some (wd1.2.toList ++ '^' :: wd2.2.toList) := by
  have hn := numeral_of_numberWord wd1 h1
  have hm := numeral_of_numberWord wd2 h2
  obtain ⟨⟨hne2, hchars2⟩, _, _⟩ := numberWords_facts wd2 h2
  have hfix : ∀ c ∈ segChars powerWords, c.toLower = c := by decide
  have htests : (commandPatterns.any fun r => mayMatch r powerWords) = false := by decide!
  have hunit : (unitPasses.any fun q => mayMatch q.re powerWords) = false := by decide!
  have hval : ∀ c ∈ segChars powerText, c ∈ allowedChars := by decide
  have hden : Denotes powerWords (wd1.1.toList ++ (c ++ wd2.1.toList)) :=
    ⟨wd1.1.toList, c ++ wd2.1.toList, List.mem_map.2 ⟨wd1, h1, rfl⟩, rfl,
      c, wd2.1.toList, hc, rfl, wd2.1.toList, [], List.mem_map.2 ⟨wd2, h2, rfl⟩, by simp, rfl⟩
  have hall : allPasses = unitPasses ++ (numberWordPasses ++ allPasses.drop 34) := rfl
  have hrun : runPasses allPasses (wd1.1.toList ++ (c ++ wd2.1.toList))
      = wd1.2.toList ++ '^' :: wd2.2.toList := by
    rw [hall, runPasses_append, runPasses_of_mayMatch powerWords _ hden _ hunit,
      runPasses_append,
      numberStage_connective c hc _ _ _ _ (numberWords_run wd1 h1) (numberWords_run wd2 h2),
      tail_power _ _ hn hm c hc]
  have hrev : HeadNot isSpace (wd1.1.toList ++ (c ++ wd2.1.toList)).reverse := by
    rw [← List.append_assoc]
    exact headNot_space_reverse_word _ _ hne2 (fun c hc => (hchars2 c hc).1)
  exact parse_of_run _ _ powerWords powerText hfix (headNot_space_word wd1 h1 _) hrev hden
    htests hrun
    ⟨wd1.2.toList, '^' :: wd2.2.toList, rfl, numeral_chars _ hn, wd2.2.toList, rfl,
      wd2.2.toList, [], by simp, numeral_chars _ hm, rfl⟩
    (by simp) hval

set_option maxRecDepth 100000 in
theorem parse_squared_word (wd : String × String) (hwd : wd ∈ numberWords) :
    parseVoiceToMath asciiToLowerCase (wd.1.toList ++ " squared".toList)
      = some (wd.2.toList ++ "^2".toList) := by
  have hn := numeral_of_numberWord wd hwd
  have hfix : ∀ c ∈ segChars squaredWord, c.toLower = c := by decide
  have htests : (commandPatterns.any fun r => mayMatch r squaredWord) = false := by decide!
  have hunit : (unitPasses.any fun q => mayMatch q.re squaredWord) = false := by decide!
  have hval : ∀ c ∈ segChars [Seg.many numeralChars, .lit '^', .lit '2'],
      c ∈ allowedChars := by decide
  have ksq : runPasses numberWordPasses "squared".toList = "squared".toList := by decide!
  have hden : Denotes squaredWord (wd.1.toList ++ " squared".toList) :=
    ⟨wd.1.toList, " squared".toList, List.mem_map.2 ⟨wd, hwd, rfl⟩, rfl, denotes_lits _⟩
  have hall : allPasses = unitPasses ++ (numberWordPasses ++ allPasses.drop 34) := rfl
  have hstage : runPasses numberWordPasses (wd.1.toList ++ " squared".toList)
      = wd.2.toList ++ " squared".toList := by
    show runPasses numberWordPasses (wd.1.toList ++ ' ' :: "squared".toList)
      = wd.2.toList ++ ' ' :: "squared".toList
    rw [numberStage_split, numberWords_run wd hwd, ksq]
  have hrun : runPasses allPasses (wd.1.toList ++ " squared".toList)
      = wd.2.toList ++ "^2".toList := by
    rw [hall, runPasses_append, runPasses_of_mayMatch squaredWord _ hden _ hunit,
      runPasses_append, hstage, tail_squared _ hn]
  exact parse_of_run _ _ squaredWord [.many numeralChars, .lit '^', .lit '2'] hfix
    (headNot_space_word wd hwd _)
    (headNot_space_reverse_append _ " squared".toList (by
      intro c r h
      have h' : 'd' :: "erauqs ".toList = c :: r := h
      rw [← (List.cons.inj h').1]
      decide) (by decide))
    hden htests hrun
    ⟨wd.2.toList, "^2".toList, rfl, numeral_chars _ hn, ['2'], rfl, [], rfl, rfl⟩
    (by simp) hval

set_option maxRecDepth 100000 in
/-- C27: for all decimal numerals `n` and `m`, `n squared` gives `n^2` and each of
`n power m`, `n power of m`, `n to the power m` and `n to the power of m` gives `n^m`;
for all number words of the vocabulary with digits `d` and `e` the same phrases give
`d^2` and `d^e`; `two to the power of three` gives `2^3`. -/
theorem squared_and_power_phrases :
    (∀ n : List Char, Numeral n →
      parseVoiceToMath asciiToLowerCase (n ++ " squared".toList) = some (n ++ "^2".toList))
    ∧ (∀ n m : List Char, Numeral n → Numeral m → ∀ c ∈ powerConnectives,
      parseVoiceToMath asciiToLowerCase (n ++ (c ++ m)) = some (n ++ '^' :: m))
    ∧ (∀ wd ∈ numberWords,
      parseVoiceToMath asciiToLowerCase (wd.1.toList ++ " squared".toList)
        = some (wd.2.toList ++ "^2".toList))
    ∧ (∀ wd1 ∈ numberWords, ∀ wd2 ∈ numberWords, ∀ c ∈ powerConnectives,
      parseVoiceToMath asciiToLowerCase (wd1.1.toList ++ (c ++ wd2.1.toList))
        = some (wd1.2.toList ++ '^' :: wd2.2.toList))
    ∧ parseVoice "two to the power of three" = some "2^3" :=
  ⟨parse_squared_numeral,
   fun n m hn hm c hc => parse_power_numeral n m hn hm c hc,
   parse_squared_word,
   fun wd1 h1 wd2 h2 c hc => parse_power_word wd1 wd2 h1 h2 c hc,
   by decide!⟩

set_option maxRecDepth 100000 in
/-- Witness for C27: the numerals `2.5` and `10` with `to the power`. -/
theorem squared_and_power_phrases_witness :
    parseVoiceToMath asciiToLowerCase "2.5 to the power 10".toList
      = some "2.5^10".toList :=
  squared_and_power_phrases.2.1 "2.5".toList "10".toList
    ⟨['2'], ⟨by decide, by decide⟩, Or.inr ⟨['5'], ⟨by decide, by decide⟩, rfl⟩⟩
    ⟨"10".toList, ⟨by decide, by decide⟩, Or.inl rfl⟩ " to the power ".toList (by decide)

/-! ### Idempotence of the word passes -/

theorem wordOK_ne_nil (w : List Char) (h : wordOK w = true) : w ≠ [] := by
  intro e
  subst e
  simp [wordOK, headIsWord] at h

theorem headIsWord_append_of_ne_nil (w r : List Char) (h : w ≠ []) :
    headIsWord (w ++ r) = headIsWord w := by
  cases w with
  | nil => exact absurd rfl h
  | cons c w => rfl

theorem wordHit_iff (w l r : List Char) (hw : wordOK w = true) :
    wordHit w l r = true
      ↔ headIsWord l = false ∧ ∃ r', r = w ++ r' ∧ headIsWord r' = false := by
  have hne := wordOK_ne_nil w hw
  have hrne : w.reverse ≠ [] := by simpa using hne
  simp only [wordOK, Bool.and_eq_true] at hw
  obtain ⟨h1, h2⟩ := hw
  constructor
  · intro h
    unfold wordHit atWordB at h
    simp only [Bool.and_eq_true] at h
    obtain ⟨⟨ha, hp⟩, hb⟩ := h
    have hr := isPrefixOf_eq_append w r hp
    rw [headIsWord_append_of_ne_nil _ _ hrne, h2] at hb
    rw [hr, headIsWord_append_of_ne_nil _ _ hne, h1] at ha
    refine ⟨by simpa using ha, r.drop w.length, hr, by simpa using hb⟩
  · rintro ⟨hl, r', rfl, hr'⟩
    unfold wordHit atWordB
    rw [headIsWord_append_of_ne_nil _ _ hne, headIsWord_append_of_ne_nil _ _ hrne, h1, h2, hl]
    simp [hr']

theorem hitOf_none_iff (ws : List (List Char)) (l r : List Char) :
    hitOf ws l r = none ↔ ∀ w ∈ ws, wordHit w l r = false := by
  unfold hitOf
  rw [List.find?_eq_none]
  constructor
  · intro h w hw
    simpa using h w hw
  · intro h w hw
    simpa using h w hw

theorem hitOf_some (ws : List (List Char)) (l r w : List Char) (h : hitOf ws l r = some w) :
    w ∈ ws ∧ wordHit w l r = true := by
  unfold hitOf at h
  exact ⟨List.mem_of_find?_eq_some h, by simpa using List.find?_some h⟩

theorem hitOf_none_of_headIsWord (ws : List (List Char)) (hws : ∀ w ∈ ws, wordOK w = true)
    (l r : List Char) (h : headIsWord l = true) : hitOf ws l r = none := by
  rw [hitOf_none_iff]
  intro w hw
  cases hh : wordHit w l r with
  | false => rfl
  | true =>
    have := ((wordHit_iff w l r (hws w hw)).1 hh).1
    rw [h] at this
    exact absurd this (by simp)

theorem hitOf_none_of_head (ws : List (List Char)) (hws : ∀ w ∈ ws, wordOK w = true)
    (l r : List Char) (h : headIsWord r = false) : hitOf ws l r = none := by
  rw [hitOf_none_iff]
  intro w hw
  cases hh : wordHit w l r with
  | false => rfl
  | true =>
    obtain ⟨_, r', hr, _⟩ := (wordHit_iff w l r (hws w hw)).1 hh
    have hne := wordOK_ne_nil w (hws w hw)
    have h1 : headIsWord w = true := by
      have := hws w hw
      simp only [wordOK, Bool.and_eq_true] at this
      exact this.1
    rw [hr, headIsWord_append_of_ne_nil _ _ hne, h1] at h
    exact absurd h (by simp)

theorem wscan_miss (ws : List (List Char)) (t : List Char) (n : Nat) (l : List Char)
    (c : Char) (rest : List Char) (h : hitOf ws l (c :: rest) = none) :
    wscan ws t (n + 1) l (c :: rest) = c :: wscan ws t n (c :: l) rest := by
  simp only [wscan, h]

theorem wscan_nil (ws : List (List Char)) (hws : ∀ w ∈ ws, wordOK w = true)
    (t : List Char) (n : Nat) (l : List Char) : wscan ws t n l [] = [] := by
  cases n with
  | zero => rfl
  | succ n =>
    have h : hitOf ws l [] = none := hitOf_none_of_head ws hws l [] rfl
    simp only [wscan, h]

theorem wscan_hit (ws : List (List Char)) (t : List Char) (n : Nat) (l r w : List Char)
    (h : hitOf ws l r = some w) :
    wscan ws t (n + 1) l r = t ++ wscan ws t n (w.reverse ++ l) (r.drop w.length) := by
  simp only [wscan, h]

theorem headIsWord_wscan (ws : List (List Char)) (hws : ∀ w ∈ ws, wordOK w = true)
    (t : List Char) (n : Nat) (l r : List Char) (hn : r.length < n)
    (hl : headIsWord l = true) : headIsWord (wscan ws t n l r) = headIsWord r := by
  cases n with
  | zero => omega
  | succ n =>
    cases r with
    | nil => rw [wscan_nil ws hws]
    | cons c rest =>
      rw [wscan_miss ws t n l c rest (hitOf_none_of_headIsWord ws hws l _ hl)]
      rfl

/-- A word without characters of the replacement text that starts the output of the scan
starts the input, and what follows it starts alike in both. -/
theorem wscan_starts_with (ws : List (List Char)) (hws : ∀ w ∈ ws, wordOK w = true)
    (t : List Char) :
    ∀ (w' : List Char), w' ≠ [] → headIsWord w'.reverse = true →
      (∀ c ∈ w', c ∉ t) → (t ≠ [] ∨ ∀ c ∈ w', isWordChar c = true) →
      ∀ (n : Nat) (l r : List Char), r.length < n → hitOf ws l r = none →
        ∀ out', wscan ws t n l r = w' ++ out' →
          ∃ rest, r = w' ++ rest ∧ headIsWord out' = headIsWord rest := by
  intro w'
  induction w' with
  | nil => intro h; exact absurd rfl h
  | cons c1 w'' ih =>
    intro _ hlast hdisj hvis n l r hn hno out' hout
    cases n with
    | zero => omega
    | succ n =>
      cases r with
      | nil =>
        rw [wscan_nil ws hws] at hout
        simp at hout
      | cons c rest =>
        have hn' : rest.length < n := by simpa using hn
        rw [wscan_miss ws t n l c rest hno] at hout
        simp only [List.cons_append, List.cons.injEq] at hout
        obtain ⟨hc, hout⟩ := hout
        subst hc
        by_cases hw'' : w'' = []
        · subst hw''
          have hcw : isWordChar c = true := by simpa [headIsWord] using hlast
          refine ⟨rest, rfl, ?_⟩
          simp only [List.nil_append] at hout
          rw [← hout]
          exact headIsWord_wscan ws hws t n (c :: l) rest hn' hcw
        · have hno' : hitOf ws (c :: l) rest = none := by
            cases hh : hitOf ws (c :: l) rest with
            | none => rfl
            | some w =>
              exfalso
              rcases hvis with ht | hall
              · cases n with
                | zero => omega
                | succ n =>
                  rw [wscan_hit ws t n _ _ w hh] at hout
                  cases t with
                  | nil => exact ht rfl
                  | cons x t =>
                    cases w'' with
                    | nil => exact hw'' rfl
                    | cons y w'' =>
                      simp only [List.cons_append, List.cons.injEq] at hout
                      exact hdisj y (by simp) (by rw [← hout.1]; simp)
              · have hcw : isWordChar c = true := hall c (by simp)
                have := hitOf_none_of_headIsWord ws hws (c :: l) rest hcw
                rw [this] at hh
                exact Option.noConfusion hh
          have hlast' : headIsWord w''.reverse = true := by
            have hr : w''.reverse ≠ [] := by simpa using hw''
            rw [List.reverse_cons, headIsWord_append_of_ne_nil _ _ hr] at hlast
            exact hlast
          obtain ⟨rest', hr, hh⟩ := ih hw'' hlast' (fun d hd => hdisj d (by simp [hd]))
            (hvis.imp id fun h d hd => h d (by simp [hd])) n (c :: l) rest hn' hno' out' hout
          exact ⟨rest', by rw [hr]; rfl, hh⟩

/-- A word of `ws'` that is delimited at a position of the output of the scan is delimited
at a position of the input where the scan found no word of `ws`. -/
theorem wscan_no_new_hit (ws : List (List Char)) (hws : ∀ w ∈ ws, wordOK w = true)
    (t : List Char) (ws' : List (List Char)) (hws' : ∀ w ∈ ws', wordOK w = true)
    (hdisj : ∀ w ∈ ws', ∀ c ∈ w, c ∉ t)
    (hvis : t ≠ [] ∨ ∀ w ∈ ws', ∀ c ∈ w, isWordChar c = true) :
    ∀ (n : Nat) (r : List Char), r.length < n → ∀ (l l' : List Char),
      (headIsWord l = headIsWord l' ∨ headIsWord r = false) →
      (∀ a b, r = a ++ b → hitOf ws (a.reverse ++ l) b = none →
        hitOf ws' (a.reverse ++ l) b = none) →
      ∀ u v, wscan ws t n l r = u ++ v → hitOf ws' (u.reverse ++ l') v = none := by
  intro n
  induction n with
  | zero => intro r h; omega
  | succ n ih =>
    intro r hn l l' hrel hin u v huv
    cases r with
    | nil =>
      rw [wscan_nil ws hws] at huv
      have hv : v = [] := by
        cases v with
        | nil => rfl
        | cons x v => simp at huv
      rw [hv]
      exact hitOf_none_of_head ws' hws' _ [] rfl
    | cons c rest =>
      have hn' : rest.length < n := by simpa using hn
      cases hh : hitOf ws l (c :: rest) with
      | none =>
        rw [wscan_miss ws t n l c rest hh] at huv
        cases u with
        | nil =>
          simp only [List.nil_append, List.reverse_nil] at huv ⊢
          rw [hitOf_none_iff]
          intro w' hw'
          cases hhit : wordHit w' l' v with
          | false => rfl
          | true =>
            exfalso
            obtain ⟨hl', v', hv, hv'⟩ := (wordHit_iff w' l' v (hws' w' hw')).1 hhit
            have hok := hws' w' hw'
            have hne := wordOK_ne_nil w' hok
            simp only [wordOK, Bool.and_eq_true] at hok
            have hsc : wscan ws t (n + 1) l (c :: rest) = w' ++ v' := by
              rw [wscan_miss ws t n l c rest hh, huv, hv]
            obtain ⟨rest2, hr, hhead⟩ := wscan_starts_with ws hws t w' hne hok.2 (hdisj w' hw')
              (hvis.imp id fun h => h w' hw') (n + 1) l (c :: rest) hn hh v' hsc
            have hl : headIsWord l = false := by
              rcases hrel with h | h
              · rw [h, hl']
              · rw [hr, headIsWord_append_of_ne_nil _ _ hne, hok.1] at h
                exact absurd h (by simp)
            have hin0 := hin [] (c :: rest) rfl hh
            rw [hitOf_none_iff] at hin0
            have hf := hin0 w' hw'
            have ht : wordHit w' l (c :: rest) = true :=
              (wordHit_iff w' l _ (hws' w' hw')).2 ⟨hl, rest2, hr, by rw [← hhead, hv']⟩
            simp only [List.reverse_nil, List.nil_append] at hf
            rw [ht] at hf
            exact Bool.noConfusion hf
        | cons c0 u' =>
          simp only [List.cons_append, List.cons.injEq] at huv
          obtain ⟨hc, huv⟩ := huv
          subst hc
          have := ih rest hn' (c :: l) (c :: l') (Or.inl rfl)
            (fun a b hab hno => by
              have := hin (c :: a) b (by rw [hab]; rfl)
              simp only [List.reverse_cons, List.append_assoc, List.singleton_append] at this
              exact this hno) u' v huv
          simpa only [List.reverse_cons, List.append_assoc, List.singleton_append] using this
      | some w =>
        obtain ⟨hw, hhit⟩ := hitOf_some ws l _ w hh
        obtain ⟨_, r', hr, hr'⟩ := (wordHit_iff w l _ (hws w hw)).1 hhit
        have hne := wordOK_ne_nil w (hws w hw)
        rw [wscan_hit ws t n l _ w hh, hr, List.drop_left] at huv
        have hlen : r'.length < n := by
          have : (c :: rest).length = (w ++ r').length := by rw [hr]
          have hwl : 0 < w.length := List.length_pos.2 hne
          simp only [List.length_cons, List.length_append] at this hn
          omega
        have tail : ∀ a' , wscan ws t n (w.reverse ++ l) r' = a' ++ v →
            hitOf ws' (a'.reverse ++ (t.reverse ++ l')) v = none := fun a' ha' =>
          ih r' hlen (w.reverse ++ l) (t.reverse ++ l') (Or.inr hr')
            (fun a b hab hno => by
              have := hin (w ++ a) b (by rw [hr, hab, List.append_assoc])
              simp only [List.reverse_append, List.append_assoc] at this
              exact this hno) a' v ha'
        rcases List.append_eq_append_iff.1 huv with ⟨a', hu, hout⟩ | ⟨c', ht, hv⟩
        · have := tail a' hout
          rw [hu]
          simpa only [List.reverse_append, List.append_assoc] using this
        · cases c' with
          | nil =>
            simp only [List.append_nil] at ht
            simp only [List.nil_append] at hv
            have := tail [] (by rw [hv]; rfl)
            rw [← ht]
            simpa only [List.reverse_nil, List.nil_append] using this
          | cons x c' =>
            rw [hitOf_none_iff]
            intro w' hw'
            cases hhit' : wordHit w' (u.reverse ++ l') v with
            | false => rfl
            | true =>
              exfalso
              obtain ⟨_, v', hv2, _⟩ := (wordHit_iff w' _ v (hws' w' hw')).1 hhit'
              have hne' := wordOK_ne_nil w' (hws' w' hw')
              cases w' with
              | nil => exact hne' rfl
              | cons y w' =>
                rw [hv] at hv2
                simp only [List.cons_append, List.cons.injEq] at hv2
                exact hdisj _ hw' y (by simp) (by rw [ht, ← hv2.1]; simp)

theorem wscan_id (ws : List (List Char)) (t : List Char) :
    ∀ (n : Nat) (l r : List Char),
      (∀ a b, r = a ++ b → hitOf ws (a.reverse ++ l) b = none) → wscan ws t n l r = r := by
  intro n
  induction n with
  | zero => intro l r _; rfl
  | succ n ih =>
    intro l r h
    have h0 : hitOf ws l r = none := h [] r rfl
    cases r with
    | nil => simp only [wscan, h0]
    | cons c rest =>
      rw [wscan_miss ws t n l c rest h0, ih (c :: l) rest]
      intro a b hab
      have := h (c :: a) b (by rw [hab]; rfl)
      simpa only [List.reverse_cons, List.append_assoc, List.singleton_append] using this

theorem noHit_wscan (ws : List (List Char)) (hws : ∀ w ∈ ws, wordOK w = true)
    (t : List Char) (ws' : List (List Char)) (hws' : ∀ w ∈ ws', wordOK w = true)
    (hdisj : ∀ w ∈ ws', ∀ c ∈ w, c ∉ t)
    (hvis : t ≠ [] ∨ ∀ w ∈ ws', ∀ c ∈ w, isWordChar c = true) (s : List Char)
    (h : ws' = ws ∨ NoHit ws' s) : NoHit ws' (wscan ws t (s.length + 1) [] s) := by
  intro u v huv
  refine wscan_no_new_hit ws hws t ws' hws' hdisj hvis (s.length + 1) s (Nat.lt_succ_self _)
    [] [] (Or.inl rfl) ?_ u v huv
  intro a b hab hno
  rcases h with h | h
  · rw [h]
    exact hno
  · exact h a b hab

theorem stageOK_elim (specs : List (List (List Char) × List Char))
    (h : stageOK specs = true) :
    ∀ e ∈ specs, (∀ w ∈ e.1, wordOK w = true)
      ∧ ∀ e' ∈ specs, (∀ w ∈ e'.1, ∀ c ∈ w, c ∉ e.2)
        ∧ (e.2 ≠ [] ∨ ∀ w ∈ e'.1, ∀ c ∈ w, isWordChar c = true) := by
  intro e he
  simp only [stageOK, List.all_eq_true, Bool.and_eq_true, Bool.or_eq_true,
    Bool.not_eq_true', List.contains_eq_any_beq, List.any_eq_false, beq_iff_eq,
    List.isEmpty_eq_false] at h
  obtain ⟨h1, h2⟩ := h e he
  refine ⟨h1, fun e' he' => ⟨?_, ?_⟩⟩
  · intro w hw c hc hct
    exact (h2 e' he' w hw c hc).1 c hct rfl
  · by_cases ht : e.2 = []
    · refine Or.inr fun w hw c hc => ?_
      rcases (h2 e' he' w hw c hc).2 with h | h
      · exact absurd ht h
      · exact h
    · exact Or.inl ht

theorem wstage_noHit (specs : List (List (List Char) × List Char))
    (hok : stageOK specs = true) :
    ∀ (todo : List (List (List Char) × List Char)) (x : List Char)
      (done : List (List (List Char) × List Char)),
      (∀ e ∈ done, e ∈ specs) → (∀ e ∈ todo, e ∈ specs) → (∀ e ∈ done, NoHit e.1 x) →
      ∀ e, e ∈ done ∨ e ∈ todo → NoHit e.1 (wstage todo x) := by
  have ok := stageOK_elim specs hok
  intro todo
  induction todo with
  | nil =>
    intro x done _ _ hno e he
    rcases he with he | he
    · exact hno e he
    · simp at he
  | cons d todo ih =>
    intro x done hdone htodo hno e he
    have hd : d ∈ specs := htodo d (List.mem_cons_self _ _)
    show NoHit e.1 (wstage todo (wscan d.1 d.2 (x.length + 1) [] x))
    refine ih _ (d :: done) ?_ ?_ ?_ e ?_
    · intro f hf
      rcases List.mem_cons.1 hf with hf | hf
      · rw [hf]; exact hd
      · exact hdone f hf
    · intro f hf
      exact htodo f (List.mem_cons_of_mem _ hf)
    · intro f hf
      have hfs : f ∈ specs := by
        rcases List.mem_cons.1 hf with hf | hf
        · rw [hf]; exact hd
        · exact hdone f hf
      refine noHit_wscan d.1 (ok d hd).1 d.2 f.1 (ok f hfs).1 ((ok d hd).2 f hfs).1
        ((ok d hd).2 f hfs).2 x ?_
      rcases List.mem_cons.1 hf with hf | hf
      · exact Or.inl (by rw [hf])
      · exact Or.inr (hno f hf)
    · rcases he with he | he
      · exact Or.inl (List.mem_cons_of_mem _ he)
      · rcases List.mem_cons.1 he with he | he
        · exact Or.inl (by rw [he]; exact List.mem_cons_self _ _)
        · exact Or.inr he

theorem wstage_id :
    ∀ (todo : List (List (List Char) × List Char)) (y : List Char),
      (∀ e ∈ todo, NoHit e.1 y) → wstage todo y = y := by
  intro todo
  induction todo with
  | nil => intro y _; rfl
  | cons d todo ih =>
    intro y h
    show wstage todo (wscan d.1 d.2 (y.length + 1) [] y) = y
    rw [wscan_id d.1 d.2 _ [] y (h d (List.mem_cons_self _ _))]
    exact ih y fun e he => h e (List.mem_cons_of_mem _ he)

theorem wstage_idempotent (specs : List (List (List Char) × List Char))
    (hok : stageOK specs = true) (s : List Char) :
    wstage specs (wstage specs s) = wstage specs s :=
  wstage_id specs _ fun e he =>
    wstage_noHit specs hok specs s [] (fun _ h => absurd h (List.not_mem_nil _))
      (fun _ h => h) (fun _ h => absurd h (List.not_mem_nil _)) e (Or.inr he)

theorem expandTemplate_plain (g : Nat) (matched : List Char) (caps : List (Nat × List Char)) :
    ∀ (tpl : List Char), '$' ∉ tpl → expandTemplate g matched caps .none tpl = tpl := by
  intro tpl
  induction tpl with
  | nil => intro _; rfl
  | cons c tpl ih =>
    intro h
    have hc : c ≠ '$' := fun e => h (by rw [e]; exact List.mem_cons_self _ _)
    have ht : '$' ∉ tpl := fun e => h (List.mem_cons_of_mem _ e)
    simp only [expandTemplate, hc, if_false, ih ht]

theorem render_scan_words (p : Pass) (ws : List (List Char))
    (hws : ∀ w ∈ ws, wordOK w = true) (hp : IsWordsPass p ws) :
    ∀ (n : Nat) (l r : List Char), r.length < n →
      render (fun matched caps =>
          expandTemplate p.re.groups matched caps .none p.template.toList) (scan p.re n l r)
        = wscan ws p.template.toList n l r := by
  intro n
  induction n with
  | zero => intro l r h; omega
  | succ n ih =>
    intro l r hn
    have hm := hp.2 l r
    cases hh : hitOf ws l r with
    | some w =>
      rw [hh] at hm
      cases hma : matchAt p.re l r with
      | none =>
        rw [hma] at hm
        exact Option.noConfusion hm
      | some st =>
        rw [hma] at hm
        simp only [Option.map_some', Option.some.injEq, Prod.mk.injEq] at hm
        obtain ⟨hw, hhit⟩ := hitOf_some ws l r w hh
        obtain ⟨_, r', hr, _⟩ := (wordHit_iff w l r (hws w hw)).1 hhit
        have hwl : 0 < w.length := List.length_pos.2 (wordOK_ne_nil w (hws w hw))
        have hdrop : r.drop w.length = r' := by rw [hr, List.drop_left]
        have hlt : st.right.length < r.length := by
          rw [hm.2, hdrop, hr, List.length_append]
          omega
        have hn' : r'.length < n := by
          have : r.length = w.length + r'.length := by rw [hr, List.length_append]
          omega
        rw [scan_hit p.re n l r st hma hlt, wscan_hit ws _ n l r w hh]
        simp only [render]
        rw [expandTemplate_plain _ _ _ _ hp.1, hm.1, hm.2, hdrop, ih _ _ hn']
    | none =>
      rw [hh] at hm
      cases hma : matchAt p.re l r with
      | some st =>
        rw [hma] at hm
        exact Option.noConfusion hm
      | none =>
        cases r with
        | nil => simp only [scan, hma, render, wscan, hh]
        | cons c rest =>
          have hn' : rest.length < n := by simpa using hn
          simp only [scan, hma, render, wscan, hh]
          rw [ih _ _ hn']

theorem replaceAll_wscan (p : Pass) (ws : List (List Char))
    (hws : ∀ w ∈ ws, wordOK w = true) (hp : IsWordsPass p ws) (s : List Char) :
    replaceAll p.re p.template s = wscan ws p.template.toList (s.length + 1) [] s :=
  render_scan_words p ws hws hp _ [] s (Nat.lt_succ_self _)

theorem runPasses_wstage :
    ∀ (xs : List (Pass × List (List Char))),
      (∀ x ∈ xs, (∀ w ∈ x.2, wordOK w = true) ∧ IsWordsPass x.1 x.2) → ∀ (s : List Char),
      runPasses (xs.map fun x => x.1) s
        = wstage (xs.map fun x => (x.2, x.1.template.toList)) s := by
  intro xs
  induction xs with
  | nil => intro _ s; rfl
  | cons x xs ih =>
    intro h s
    have hx := h x (List.mem_cons_self _ _)
    show runPasses (xs.map fun x => x.1) (replaceAll x.1.re x.1.template s) = _
    rw [replaceAll_wscan x.1 x.2 hx.1 hx.2 s, ih (fun y hy => h y (List.mem_cons_of_mem _ hy))]
    rfl

theorem word_stage_idempotent (xs : List (Pass × List (List Char)))
    (h : ∀ x ∈ xs, (∀ w ∈ x.2, wordOK w = true) ∧ IsWordsPass x.1 x.2)
    (hok : stageOK (xs.map fun x => (x.2, x.1.template.toList)) = true) (s : List Char) :
    runPasses (xs.map fun x => x.1) (runPasses (xs.map fun x => x.1) s)
      = runPasses (xs.map fun x => x.1) s := by
  rw [runPasses_wstage xs h s, runPasses_wstage xs h]
  exact wstage_idempotent _ hok s

theorem isWordsPass_words (ws : List String) (hne : ws ≠ []) (tpl : String)
    (htpl : '$' ∉ tpl.toList) :
    IsWordsPass ⟨Re.alts (ws.map wordRe), tpl⟩ (ws.map String.toList) := by
  refine ⟨htpl, fun l r => ?_⟩
  show (matchAt (Re.alts (ws.map wordRe)) l r).map _ = _
  rw [matchAt_alts_words l r ws hne]
  unfold hitOf
  rw [List.find?_map, Option.map_map, Option.map_map]
  rfl

theorem alt_str_first (w : List Char) (k : St → Option St) (l r : List Char)
    (caps : List (Nat × List Char)) :
    ((w.isPrefixOf r
        && (k ⟨w.reverse ++ l, r.drop w.length, caps⟩).isSome) = true
      ∧ (Re.str w).m k ⟨l, r, caps⟩ = k ⟨w.reverse ++ l, r.drop w.length, caps⟩
      ∧ ((Re.str w).m k ⟨l, r, caps⟩).isSome = true)
    ∨ ((w.isPrefixOf r
        && (k ⟨w.reverse ++ l, r.drop w.length, caps⟩).isSome) = false
      ∧ (Re.str w).m k ⟨l, r, caps⟩ = none) := by
  rw [m_str]
  rcases Bool.eq_false_or_eq_true (w.isPrefixOf r) with hp | hp
  · rw [hp, if_pos rfl, Bool.true_and]
    cases hk : k ⟨w.reverse ++ l, r.drop w.length, caps⟩ with
    | none => exact Or.inr ⟨rfl, rfl⟩
    | some st => exact Or.inl ⟨rfl, rfl, rfl⟩
  · rw [hp, if_neg Bool.false_ne_true, Bool.false_and]
    exact Or.inr ⟨rfl, rfl⟩

theorem find_chars_pos (f : List Char → Bool) (w : List Char) (ws : List (List Char))
    (h : f w = true) : (w :: ws).find? f = some w :=
  List.find?_cons_of_pos ws h

theorem find_chars_neg (f : List Char → Bool) (w : List Char) (ws : List (List Char))
    (h : f w = false) : (w :: ws).find? f = ws.find? f :=
  List.find?_cons_of_neg ws (by rw [h]; exact Bool.false_ne_true)

theorem alts_strs_find :
    ∀ (ws : List (List Char)), ws ≠ [] →
      ∀ (k : St → Option St) (l r : List Char) (caps : List (Nat × List Char)),
        (Re.alts (ws.map Re.str)).m k ⟨l, r, caps⟩
          = (ws.find? fun w => w.isPrefixOf r
              && (k ⟨w.reverse ++ l, r.drop w.length, caps⟩).isSome).bind
            fun w => k ⟨w.reverse ++ l, r.drop w.length, caps⟩ := by
  intro ws
  induction ws with
  | nil => intro h; exact absurd rfl h
  | cons w ws ih =>
    intro _ k l r caps
    cases ws with
    | nil =>
      show (Re.str w).m k ⟨l, r, caps⟩ = _
      rcases alt_str_first w k l r caps with ⟨h1, h2, _⟩ | ⟨h1, h2⟩
      · rw [find_chars_pos (fun w => w.isPrefixOf r
          && (k ⟨w.reverse ++ l, r.drop w.length, caps⟩).isSome) w [] h1, h2]
        rfl
      · rw [find_chars_neg (fun w => w.isPrefixOf r
          && (k ⟨w.reverse ++ l, r.drop w.length, caps⟩).isSome) w [] h1, h2]
        rfl
    | cons v vs =>
      show (Re.alt (Re.str w) (Re.alts ((v :: vs).map Re.str))).m k ⟨l, r, caps⟩ = _
      rw [m_alt, ih (by simp)]
      rcases alt_str_first w k l r caps with ⟨h1, h2, h3⟩ | ⟨h1, h2⟩
      · rw [find_chars_pos (fun w => w.isPrefixOf r
          && (k ⟨w.reverse ++ l, r.drop w.length, caps⟩).isSome) w (v :: vs) h1,
          orElse_of_isSome _ _ h3, h2]
        rfl
      · rw [find_chars_neg (fun w => w.isPrefixOf r
          && (k ⟨w.reverse ++ l, r.drop w.length, caps⟩).isSome) w (v :: vs) h1, h2,
          orElse_none_left]

theorem matchAt_fillerRe (l r : List Char) :
    (matchAt fillerRe l r).map (fun t => (t.left, t.right))
      = (hitOf (fillerWords.map String.toList) l r).map
          (fun w => (w.reverse ++ l, r.drop w.length)) := by
  have hre : fillerRe = .seq .wordB (.seq (.group 1
      (Re.alts ((fillerWords.map String.toList).map Re.str))) .wordB) := rfl
  have hne : fillerWords.map String.toList ≠ [] := by decide
  unfold matchAt hitOf
  rw [hre, m_seq, m_wordB, m_seq, m_group, alts_strs_find _ hne]
  simp only [m_wordB]
  generalize fillerWords.map String.toList = ws
  rcases Bool.eq_false_or_eq_true (atWordB l r) with hb | hb
  · rw [if_pos hb]
    have hfun : (fun w : List Char => w.isPrefixOf r
          && (if atWordB (w.reverse ++ l) (r.drop w.length) = true then
                some ({ left := w.reverse ++ l, right := r.drop w.length,
                        caps := (1, r.take (r.length - (r.drop w.length).length))
                          :: [] } : St)
              else none).isSome)
        = (fun w => wordHit w l r) := by
      funext w
      unfold wordHit
      rw [hb, Bool.true_and]
      rcases Bool.eq_false_or_eq_true (atWordB (w.reverse ++ l) (r.drop w.length)) with h2 | h2
      · rw [h2, if_pos rfl]
        rfl
      · rw [h2, if_neg Bool.false_ne_true]
        rfl
    rw [hfun]
    cases hf : List.find? (fun w => wordHit w l r) ws with
    | none => rfl
    | some w =>
      have hw : wordHit w l r = true := (hitOf_some ws l r w hf).2
      unfold wordHit at hw
      rw [Bool.and_eq_true] at hw
      show Option.map _ (if atWordB (w.reverse ++ l) (r.drop w.length) = true then _ else none)
        = _
      rw [if_pos hw.2]
      rfl
  · rw [if_neg (by rw [hb]; exact Bool.false_ne_true)]
    have hnone : List.find? (fun w => wordHit w l r) ws = none := by
      rw [List.find?_eq_none]
      intro w _
      unfold wordHit
      rw [hb]
      exact Bool.false_ne_true
    rw [hnone]
    rfl

theorem isWordsPass_filler :
    IsWordsPass ⟨fillerRe, ""⟩ (fillerWords.map String.toList) :=
  ⟨by decide, matchAt_fillerRe⟩

theorem numberWordPasses_idempotent (s : List Char) :
    runPasses numberWordPasses (runPasses numberWordPasses s)
      = runPasses numberWordPasses s := by
  have facts : ∀ wd ∈ numberWords, wordOK wd.1.toList = true ∧ '$' ∉ wd.2.toList := by
    decide
  have h : ∀ x ∈ numberWords.map
        (fun wd => ((⟨wordRe wd.1, wd.2⟩ : Pass), [wd.1.toList])),
      (∀ w ∈ x.2, wordOK w = true) ∧ IsWordsPass x.1 x.2 := by
    intro x hx
    obtain ⟨wd, hwd, rfl⟩ := List.mem_map.1 hx
    refine ⟨?_, isWordsPass_words [wd.1] (List.cons_ne_nil _ _) wd.2 (facts wd hwd).2⟩
    intro w hw
    rw [List.mem_singleton.1 hw]
    exact (facts wd hwd).1
  exact word_stage_idempotent _ h (by decide!) s

theorem operatorWordPasses_idempotent (s : List Char) :
    runPasses (operatorPasses.take 7) (runPasses (operatorPasses.take 7) s)
      = runPasses (operatorPasses.take 7) s := by
  have facts : ∀ e ∈ operatorWordTable,
      e.1 ≠ [] ∧ (∀ w ∈ e.1.map String.toList, wordOK w = true) ∧ '$' ∉ e.2.toList := by
    decide
  have h : ∀ x ∈ operatorWordTable.map
        (fun e => ((⟨Re.alts (e.1.map wordRe), e.2⟩ : Pass), e.1.map String.toList)),
      (∀ w ∈ x.2, wordOK w = true) ∧ IsWordsPass x.1 x.2 := by
    intro x hx
    obtain ⟨e, he, rfl⟩ := List.mem_map.1 hx
    exact ⟨(facts e he).2.1, isWordsPass_words e.1 (facts e he).1 e.2 (facts e he).2.2⟩
  exact word_stage_idempotent _ h (by decide!) s

theorem filler_pass_idempotent (s : List Char) :
    runPasses (cleanupPasses.take 1) (runPasses (cleanupPasses.take 1) s)
      = runPasses (cleanupPasses.take 1) s := by
  have facts : ∀ w ∈ fillerWords.map String.toList, wordOK w = true := by decide
  have h : ∀ x ∈ [((⟨fillerRe, ""⟩ : Pass), fillerWords.map String.toList)],
      (∀ w ∈ x.2, wordOK w = true) ∧ IsWordsPass x.1 x.2 := by
    intro x hx
    rw [List.mem_singleton.1 hx]
    exact ⟨facts, isWordsPass_filler⟩
  exact word_stage_idempotent _ h (by decide!) s

set_option maxRecDepth 100000 in
/-- C25 (amended): four of the six substitution steps are idempotent on every string: the
number words, the operator words (the first seven passes of step 3, without the rule for
`x` between two numbers), the removal of filler words and the removal of white space.
The steps whose patterns take a number as left operand are not idempotent on chained
inputs, where the second application rewrites what the first left behind: the rule for
`x` maps `1 x 2 x 3` to `1*2 x 3` and then to `1*2*3`, and so does step 3 as a whole; the
function step maps `2 power 3 power 4` to `2^3 power 4` and then to `2^3^4` and
`2 squared squared` to `2^2 squared` and then to `2^2^2`; the unit step maps
`5 million million` to `5*1000000 million` and then to `5*1000000*1000000`; a third
application changes nothing. -/
theorem word_passes_idempotent_and_chained_operands (s : List Char) :
    runPasses numberWordPasses (runPasses numberWordPasses s) = runPasses numberWordPasses s
    ∧ runPasses (operatorPasses.take 7) (runPasses (operatorPasses.take 7) s)
      = runPasses (operatorPasses.take 7) s
    ∧ runPasses (cleanupPasses.take 1) (runPasses (cleanupPasses.take 1) s)
      = runPasses (cleanupPasses.take 1) s
    ∧ runPasses (cleanupPasses.drop 1) (runPasses (cleanupPasses.drop 1) s)
      = runPasses (cleanupPasses.drop 1) s
    ∧ runPasses (operatorPasses.drop 7) "1 x 2 x 3".toList = "1*2 x 3".toList
    ∧ runPasses (operatorPasses.drop 7) "1*2 x 3".toList = "1*2*3".toList
    ∧ runPasses operatorPasses "1 x 2 x 3".toList = "1*2 x 3".toList
    ∧ runPasses operatorPasses "1*2 x 3".toList = "1*2*3".toList
    ∧ runPasses operatorPasses "1*2*3".toList = "1*2*3".toList
    ∧ runPasses functionPasses "2 power 3 power 4".toList = "2^3 power 4".toList
    ∧ runPasses functionPasses "2^3 power 4".toList = "2^3^4".toList
    ∧ runPasses functionPasses "2^3^4".toList = "2^3^4".toList
    ∧ runPasses functionPasses "2 squared squared".toList = "2^2 squared".toList
    ∧ runPasses functionPasses "2^2 squared".toList = "2^2^2".toList
    ∧ runPasses functionPasses "2^2^2".toList = "2^2^2".toList
    ∧ runPasses unitPasses "5 million million".toList = "5*1000000 million".toList
    ∧ runPasses unitPasses "5*1000000 million".toList = "5*1000000*1000000".toList
    ∧ runPasses unitPasses "5*1000000*1000000".toList = "5*1000000*1000000".toList := by
  refine ⟨numberWordPasses_idempotent s, operatorWordPasses_idempotent s,
    filler_pass_idempotent s, ?_, by decide!, by decide!, by decide!, by decide!, by decide!,
    by decide!, by decide!, by decide!, by decide!, by decide!, by decide!, by decide!,
    by decide!, by decide!⟩
  show replaceAll (Re.plus .space) "" (replaceAll (Re.plus .space) "" s)
    = replaceAll (Re.plus .space) "" s
  rw [replaceAll_spaces, replaceAll_spaces, List.filter_filter]
  simp

/-! ### `formatResult` -/

set_option maxRecDepth 100000 in
/-- Counterexample for C22: an integer value can be rendered with a decimal point. The
value of `1.5*10^300` is an integer for `Number.isInteger` and `toString` prints it in
exponent form, as `1.5e+300`; `formatResult` returns this text, whatever the number of
decimal places, and `calculate` reports it as the result of `1.5*10^300`. -/
theorem integer_value_is_rendered_with_decimal_point :
    formatResult (printedHost ["1.5e+300"] [] [] [("1.5*10**300", "1.5e+300")])
        ⟨2, .degrees⟩ "1.5e+300" = some "1.5e+300".toList
    ∧ '.' ∈ "1.5e+300".toList
    ∧ delegated (printedHost ["1.5e+300"] [] [] [("1.5*10**300", "1.5e+300")])
        ⟨2, .degrees⟩ "1.5*10^300".toList = "1.5*10**300".toList
    ∧ gateAccepts "1.5*10**300".toList = true
    ∧ calculate (printedHost ["1.5e+300"] [] [] [("1.5*10**300", "1.5e+300")])
        ⟨2, .degrees⟩ [] ⟨"1.5*10^300".toList, ['0'], []⟩
      = (⟨"1.5e+300".toList, "1.5e+300".toList,
          [⟨"1.5e+300".toList, "1.5e+300".toList, []⟩]⟩, .result "1.5e+300".toList) := by
  refine ⟨by decide!, by decide, by decide!, by decide!, by decide!⟩

/-- C22 (amended): `formatResult` composes the host's number printing. For a value that
`Number.isInteger` accepts it returns `toString` of the value, whatever the number of
decimal places, so the result has a decimal point exactly when that text has one. For any
other value it returns `toString` of `parseFloat` of `toFixed(decimalPlaces)` of the
value, and it throws when `toFixed` does. With a host that has `toFixed(2)` of 2.5 equal
to `2.50`, read back by `parseFloat` as the value printed `2.5`, the result is `2.5`;
with `toFixed(2)` of 2.999 equal to `3.00`, read back as the value printed `3`, the
result is `3`. -/
theorem formatResult_composes_number_printing {V : Type} (host : Host V)
    (settings : Settings) (v : V) :
    (host.isInteger v = true →
        formatResult host settings v = some (host.toStr v)
        ∧ (∀ other : Settings, formatResult host other v = formatResult host settings v)
        ∧ (∀ r, formatResult host settings v = some r → ('.' ∈ r ↔ '.' ∈ host.toStr v)))
    ∧ (host.isInteger v = false → ∀ t, host.toFixed v settings.decimalPlaces = some t →
        formatResult host settings v = some (host.toStr (host.parseFloat t)))
    ∧ (host.isInteger v = false → host.toFixed v settings.decimalPlaces = none →
        formatResult host settings v = none)
    ∧ (host.isInteger v = false → settings.decimalPlaces = 2 →
        host.toFixed v 2 = some "2.50".toList →
        host.toStr (host.parseFloat "2.50".toList) = "2.5".toList →
        formatResult host settings v = some "2.5".toList)
    ∧ (host.isInteger v = false → settings.decimalPlaces = 2 →
        host.toFixed v 2 = some "3.00".toList →
        host.toStr (host.parseFloat "3.00".toList) = ['3'] →
        formatResult host settings v = some ['3']) := by
  have hint : host.isInteger v = true → ∀ s : Settings,
      formatResult host s v = some (host.toStr v) := by
    intro h s
    unfold formatResult
    rw [h]
    rfl
  have hfix : host.isInteger v = false → ∀ t, host.toFixed v settings.decimalPlaces = some t →
      formatResult host settings v = some (host.toStr (host.parseFloat t)) := by
    intro h t ht
    unfold formatResult
    rw [h, ht]
    rfl
  refine ⟨?_, hfix, ?_, ?_, ?_⟩
  · intro h
    refine ⟨hint h settings, fun other => by rw [hint h other, hint h settings], ?_⟩
    intro r hr
    rw [hint h settings] at hr
    cases hr
    rfl
  · intro h ht
    unfold formatResult
    rw [h, ht]
    rfl
  · intro h hdp ht hs
    rw [hfix h _ (by rw [hdp]; exact ht), hs]
  · intro h hdp ht hs
    rw [hfix h _ (by rw [hdp]; exact ht), hs]

set_option maxRecDepth 100000 in
/-- Witness for C22: the values printed `2.5` and `2.999` at two decimal places, and the
integer printed `42`. -/
theorem formatResult_composes_number_printing_witness :
    formatResult (printedHost ["3", "42"] [("2.5", 2, "2.50"), ("2.999", 2, "3.00")]
        [("2.50", "2.5"), ("3.00", "3")] []) ⟨2, .degrees⟩ "2.5" = some "2.5".toList
    ∧ formatResult (printedHost ["3", "42"] [("2.5", 2, "2.50"), ("2.999", 2, "3.00")]
        [("2.50", "2.5"), ("3.00", "3")] []) ⟨2, .degrees⟩ "2.999" = some ['3']
    ∧ formatResult (printedHost ["3", "42"] [("2.5", 2, "2.50"), ("2.999", 2, "3.00")]
        [("2.50", "2.5"), ("3.00", "3")] []) ⟨2, .degrees⟩ "42" = some "42".toList :=
  ⟨(formatResult_composes_number_printing (printedHost ["3", "42"]
      [("2.5", 2, "2.50"), ("2.999", 2, "3.00")] [("2.50", "2.5"), ("3.00", "3")] [])
      ⟨2, .degrees⟩ "2.5").2.2.2.1 (by decide) rfl (by decide!) (by decide!),
   (formatResult_composes_number_printing (printedHost ["3", "42"]
      [("2.5", 2, "2.50"), ("2.999", 2, "3.00")] [("2.50", "2.5"), ("3.00", "3")] [])
      ⟨2, .degrees⟩ "2.999").2.2.2.2 (by decide) rfl (by decide!) (by decide!),
   ((formatResult_composes_number_printing (printedHost ["3", "42"]
      [("2.5", 2, "2.50"), ("2.999", 2, "3.00")] [("2.50", "2.5"), ("3.00", "3")] [])
      ⟨2, .degrees⟩ "42").1 (by decide)).1⟩

end VAC
